import Mathlib

/-! link-what-you-include: a shallow embedding and its checked properties

The development follows the layout of the C++ sources:

* `stdlib`       : the parts of the C++ standard library the code relies on
                   (`std::string` order, `std::filesystem::path`, `std::map`, `std::set`);
* `util`         : `src/lib/util/src/utils.cpp`, `include/util/arg_parser.hpp`,
                   `parallel_transformer.hpp` and `parallel_transformer.cpp`;
* `target_model` : `src/lib/target_model/src/target_data.cpp`, `target_model.cpp`;
* `scanner`      : `src/lib/scanner/src/scan_impl.cpp`, `merge_includes.cpp`;
* `lwyi`         : `src/lib/lwyi/src/check_target.cpp`, `strongly_connected_dependencies.cpp`,
                   `dependency_visibility.cpp`, the parser of `parse_arguments.cpp`;
* `tidy`         : `src/lib/tidy/src/cluster_diff.cpp`, `tidy.cpp`.

Unordered containers (`std::unordered_set`) are lists in iteration order; ordered
containers (`std::set`, `std::map`) are lists kept in ascending key order.
All definitions come first, the theorems follow.
-/

/-! ## Definitions -/

namespace stdlib

/-- Lexicographic order on sequences, from a strict order `lt` on the elements. -/
def lex_lt {A : Type} (lt : A → A → Bool) : List A → List A → Bool
  | _, [] => false
  | [], _ :: _ => true
  | a :: as, b :: bs =>
    if lt a b then true
    else if lt b a then false
    else lex_lt lt as bs

/-- The order of characters. -/
def char_lt (a b : Char) : Bool := decide (a < b)

/-- The `operator<` of `std::string`: lexicographic on the characters (byte order of
UTF-8 text coincides with code point order). -/
def string_lt (a b : String) : Bool := lex_lt char_lt a.toList b.toList

/-- Lexicographic order on lists of strings. -/
def ltStrings (a b : List String) : Bool := lex_lt string_lt a b

/-- A comparator that is a strict total order: what `std::map` and `std::set` require. -/
structure StrictOrder {K : Type} (lt : K → K → Bool) : Prop where
  irrefl : ∀ a, lt a a = false
  trans : ∀ a b c, lt a b = true → lt b c = true → lt a c = true
  tri : ∀ a b, lt a b = false → lt b a = false → a = b

/-- A `std::filesystem::path` in the POSIX format, kept as what iterating it yields:
whether there is a root directory, followed by the file name elements (none contains a
separator; the last one is `""` when the path ends with a separator). Equality of paths
is equality of this sequence. -/
structure Path where
  root : Bool
  elems : List String
deriving DecidableEq, Repr

/-- Split a character sequence at every `/`. -/
def splitSlash : List Char → List (List Char)
  | [] => [[]]
  | c :: cs =>
    if c = '/' then [] :: splitSlash cs
    else
      match splitSlash cs with
      | [] => [[c]]
      | x :: xs => (c :: x) :: xs

/-- Construction of a path from its text: `std::filesystem::path{s}`. Repeated
separators collapse, a trailing separator leaves an empty last element. -/
def Path.ofString (s : String) : Path :=
  let parts := (splitSlash s.toList).map String.mk
  let names := parts.filter (fun x => x ≠ "")
  let trailing := !names.isEmpty && parts.getLast? == some ""
  { root := s.toList.head? == some '/'
    elems := if trailing then names ++ [""] else names }

/-- The member `path::string()`: the elements joined by the separator. -/
def Path.string (p : Path) : String :=
  (if p.root then "/" else "") ++ String.intercalate "/" p.elems

/-- The member `path::empty()`. -/
def Path.empty (p : Path) : Bool := !p.root && p.elems.isEmpty

/-- The sequence `begin() .. end()` of a path: the root directory comes first. -/
def Path.iter (p : Path) : List String :=
  if p.root then "/" :: p.elems else p.elems

/-- The path made of one file name element (the empty element is the empty path). -/
def Path.ofElem (e : String) : Path :=
  if e = "" then ⟨false, []⟩ else ⟨false, [e]⟩

/-- A path without empty, dot or dot-dot elements: a lexically normal path that does not
end with a separator. -/
def Path.plain (p : Path) : Prop :=
  ∀ e ∈ p.elems, e ≠ "" ∧ e ≠ "." ∧ e ≠ ".."

instance (p : Path) : Decidable p.plain := by
  unfold Path.plain
  infer_instance

/-- The `operator/` of paths: an absolute right operand replaces the left one, otherwise
the elements of the right operand follow those of the left one (appending the empty path
adds a trailing separator to a path that has a file name). -/
def Path.append (d p : Path) : Path :=
  if p.root then p
  else
    let base := if d.elems.getLast? = some "" then d.elems.dropLast else d.elems
    if p.elems.isEmpty then ⟨d.root, if base.isEmpty then [] else base ++ [""]⟩
    else ⟨d.root, base ++ p.elems⟩

/-- The algorithm `std::mismatch`: drop the longest common front of two sequences. -/
def mismatch : List String → List String → List String × List String
  | a :: as, b :: bs => if a = b then mismatch as bs else (a :: as, b :: bs)
  | as, bs => (as, bs)

/-- The count `n` of `lexically_relative`: elements of the rest of the base that are
neither empty, dot nor dot-dot, minus the number of dot-dot elements. -/
def relativeDepth : List String → Int
  | [] => 0
  | e :: es =>
    if e = ".." then relativeDepth es - 1
    else if e ≠ "" ∧ e ≠ "." then relativeDepth es + 1
    else relativeDepth es

/-- The member `path::lexically_relative(base)` (POSIX: there are no root names). -/
def Path.lexically_relative (p base : Path) : Path :=
  if p.root ≠ base.root then ⟨false, []⟩
  else
    let ab := mismatch p.iter base.iter
    if ab.1.isEmpty ∧ ab.2.isEmpty then ⟨false, ["."]⟩
    else
      let n := relativeDepth ab.2
      if n = 0 ∧ (ab.1.isEmpty ∨ ab.1.head? = some "") then ⟨false, ["."]⟩
      else if 0 ≤ n then
        (List.replicate n.toNat ".." ++ ab.1).foldl
          (fun ret e => ret.append (Path.ofElem e)) ⟨false, []⟩
      else ⟨false, []⟩

/-- The `operator<` of paths: a path without root directory comes before one with a
root directory, then the elements are compared lexicographically. -/
def Path.lt (a b : Path) : Bool :=
  if a.root = b.root then ltStrings a.elems b.elems else (!a.root && b.root)

/-- The operation `m[k] = f(m[k])` on a `std::map` kept as a list in ascending key
order, where a missing key is first bound to the value-initialised `dflt`. -/
def map_update {K V : Type} (lt : K → K → Bool) (dflt : V) (f : V → V) (k : K) :
    List (K × V) → List (K × V)
  | [] => [(k, f dflt)]
  | (k', v) :: rest =>
    if lt k k' then (k, f dflt) :: (k', v) :: rest
    else if lt k' k then (k', v) :: map_update lt dflt f k rest
    else (k', f v) :: rest

/-- The member `std::map::find`: the entry whose key is equivalent to `k`. -/
def map_find {K V : Type} (lt : K → K → Bool) (k : K) : List (K × V) → Option V
  | [] => none
  | (k', v) :: rest =>
    if lt k k' then none
    else if lt k' k then map_find lt k rest
    else some v

/-- The operation `m[k] = v` on a `std::unordered_map` kept as an association list with
pairwise different keys. -/
def umap_set {K V : Type} [DecidableEq K] (k : K) (v : V) : List (K × V) → List (K × V)
  | [] => [(k, v)]
  | (k', v') :: rest => if k' = k then (k, v) :: rest else (k', v') :: umap_set k v rest

/-- The member `std::unordered_map::find`. -/
def umap_find {K V : Type} [DecidableEq K] (k : K) : List (K × V) → Option V
  | [] => none
  | (k', v') :: rest => if k' = k then some v' else umap_find k rest

/-- The member `std::set::insert` (also `emplace`): an element equivalent to one that
is present is not inserted. -/
def set_insert {A : Type} (lt : A → A → Bool) (x : A) : List A → List A
  | [] => [x]
  | y :: ys =>
    if lt x y then x :: y :: ys
    else if lt y x then y :: set_insert lt x ys
    else y :: ys

/-- What `target.merge(source)` leaves in `target`: every element of `source` is
inserted unless an equivalent one is present. -/
def set_merge {A : Type} (lt : A → A → Bool) (target source : List A) : List A :=
  source.foldl (fun t e => set_insert lt e t) target

/-- Ordered insertion, the step of a sort by the strict order `lt`. -/
def sorted_insert {A : Type} (lt : A → A → Bool) (x : A) : List A → List A
  | [] => [x]
  | y :: ys => if lt y x then y :: sorted_insert lt x ys else x :: y :: ys

/-- The algorithm `std::sort` with comparator `lt` (elements the comparator does not
tell apart keep their relative order here; the standard leaves it open). -/
def sort {A : Type} (lt : A → A → Bool) (l : List A) : List A :=
  l.foldr (sorted_insert lt) []

/-- The keys of an ordered container are strictly ascending. -/
def KeysSorted {K V : Type} (lt : K → K → Bool) (l : List (K × V)) : Prop :=
  (l.map Prod.fst).Pairwise fun a b => lt a b = true

/-- The member `std::map::emplace` on a map kept as a list in ascending key order:
nothing is inserted when the key is present. -/
def map_emplace {K V : Type} (lt : K → K → Bool) (k : K) (v : V) :
    List (K × V) → List (K × V)
  | [] => [(k, v)]
  | (k', v') :: rest =>
    if lt k k' then (k, v) :: (k', v') :: rest
    else if lt k' k then (k', v') :: map_emplace lt k v rest
    else (k', v') :: rest

end stdlib

namespace util
open stdlib

/-- The function `util::is_in_directory` of `src/lib/util/src/utils.cpp`. -/
def is_in_directory (dir file : Path) : Bool :=
  let relative_path := file.lexically_relative dir
  !relative_path.empty && relative_path.iter.head? != some ".."

/-- The type of the member a flag is bound to, which selects the branch of
`try_parse_`. -/
inductive Arg_kind where
  | flag
  | string
  | list
  | integer
  | terminal
deriving DecidableEq, Repr

/-- One element of the tuple `pairs_`: a name and what it is bound to; `pmem` numbers
the members of `Toptions` of the type that `kind` requires (a terminal flag is bound to
a list member). -/
structure Arg_pair where
  name : String
  kind : Arg_kind
  pmem : Nat
deriving DecidableEq, Repr

/-- The values of the members of a `Toptions` struct. -/
structure Options where
  flags : Nat → Bool
  strings : Nat → String
  lists : Nat → List String
  integers : Nat → Nat

/-- The options struct whose members are all value-initialised. -/
def Options.initial : Options :=
  { flags := fun _ => false, strings := fun _ => "", lists := fun _ => [],
    integers := fun _ => 0 }

/-- The assignment `options.*value = b` to a `bool` member. -/
def Options.set_flag (o : Options) (pmem : Nat) (b : Bool) : Options :=
  { o with flags := fun k => if k = pmem then b else o.flags k }

/-- The assignment `options.*value = param` to a string member. -/
def Options.set_string (o : Options) (pmem : Nat) (param : String) : Options :=
  { o with strings := fun k => if k = pmem then param else o.strings k }

/-- The effect of pushing `params` at the back of a list member. -/
def Options.push_back (o : Options) (pmem : Nat) (params : List String) : Options :=
  { o with lists := fun k => if k = pmem then o.lists k ++ params else o.lists k }

/-- The assignment of a value to a `uint32_t` member. -/
def Options.set_integer (o : Options) (pmem : Nat) (n : Nat) : Options :=
  { o with integers := fun k => if k = pmem then n else o.integers k }

/-- The value of a run of decimal digits, and what follows it. -/
def read_digits : List Char → Nat → Bool → Nat × Bool
  | c :: cs, acc, seen =>
    if c.isDigit then read_digits cs (acc * 10 + (c.toNat - '0'.toNat)) true
    else (acc, seen)
  | [], acc, seen => (acc, seen)

/-- The classification `std::isspace` of the classic locale, by which the stream skips
leading white space: the space and the characters 9 to 13 (horizontal tab, line feed,
vertical tab, form feed, carriage return). -/
def isspace (c : Char) : Bool :=
  decide (c.toNat = 32) || (decide (9 ≤ c.toNat) && decide (c.toNat ≤ 13))

/-- What `ss >> value` stores in a `uint32_t` for `std::stringstream ss(param)`. Leading
white space is skipped; when nothing is left the sentry of the extraction fails and
nothing is stored (`none`). Otherwise a sign is skipped and the decimal digits that
follow are read: without a digit 0 is stored, a number out of range becomes the largest
`uint32_t`, and a negated number is taken modulo `2 ^ 32`. -/
def extract_uint32 (param : String) : Option Nat :=
  let cs := param.toList.dropWhile isspace
  if cs.isEmpty then none
  else
    let negative := cs.head? = some '-'
    let digits := if cs.head? = some '-' ∨ cs.head? = some '+' then cs.tail else cs
    let r := read_digits digits 0 false
    if !r.2 then some 0
    else if 2 ^ 32 ≤ r.1 then some (2 ^ 32 - 1)
    else if negative then some ((2 ^ 32 - r.1) % 2 ^ 32)
    else some r.1

/-- The statement `ss >> options.*value` for a `uint32_t` member: the member receives
what the extraction stores and keeps its value when the extraction stores nothing. -/
def Options.extract_integer (o : Options) (pmem : Nat) (param : String) : Options :=
  match extract_uint32 param with
  | some n => o.set_integer pmem n
  | none => o

/-- The member `bad()` of a `std::stringstream` after an extraction: the stream reads
from memory, a failed conversion sets `failbit` only. -/
def stream_bad (_param : String) : Bool := false

/-- The condition `param[0] == '-'`. -/
def starts_with_dash (param : String) : Bool := param.toList.head? = some '-'

/-- The local `can_omit_space` of `try_parse_`. -/
def can_omit_space (arg : String) : Bool :=
  match arg.toList with
  | c0 :: c1 :: _ => c0 = '-' && c1 != '-'
  | _ => false

/-- The local `arg_head` of `try_parse_`. -/
def arg_head (name arg : String) : String :=
  if can_omit_space arg then
    String.mk (arg.toList.take (min arg.toList.length name.toList.length))
  else arg

/-- The local `arg_tail` of `try_parse_`. -/
def arg_tail (name arg : String) : String :=
  String.mk (arg.toList.drop (arg_head name arg).toList.length)

/-- What a call of `try_parse_` leaves behind: the options, the returned iterator (as
the arguments from it to `end`) and `error_string`. -/
structure Try_result where
  options : Options
  next : List String
  error_string : String

/-- The loop of `try_parse_` that collects the values of a list member. -/
def collect_values (arg : String) (pmem : Nat) :
    List String → Options → String → Try_result
  | [], options, error_string => ⟨options, [], error_string⟩
  | param :: rest, options, error_string =>
    if starts_with_dash param then
      ⟨options, param :: rest,
        if (options.lists pmem).isEmpty then
          "argument " ++ arg ++ " expects one or more values."
        else error_string⟩
    else collect_values arg pmem rest (options.push_back pmem [param]) error_string

/-- The common start of the branches of `try_parse_` for a member that takes a value:
a flag without attached value moves `begin` to the next argument, which has to exist;
`k` receives the arguments from `begin` and the text `param` of the first value. -/
def with_value (options : Options) (arg tail : String) (rest : List String)
    (k : List String → String → Try_result) : Try_result :=
  if tail.toList.isEmpty && rest.isEmpty then
    ⟨options, [], "argument " ++ arg ++ " expects a value"⟩
  else if tail.toList.isEmpty then k rest (rest.headD "")
  else k (arg :: rest) tail

/-- The member `Arg_parser::try_parse_` for one pair; `begin` lists the arguments from
the iterator `begin` to `end`. -/
def try_parse_ (options : Options) (pair : Arg_pair) (begin : List String)
    (error_string : String) : Try_result :=
  match begin with
  | [] => ⟨options, [], error_string⟩
  | arg :: rest =>
    if arg.toList.isEmpty then ⟨options, arg :: rest, "expect non-empty args"⟩
    else if arg_head pair.name arg = pair.name then
      match pair.kind with
      | .flag =>
        if !(arg_tail pair.name arg).toList.isEmpty then
          ⟨options, arg :: rest, "argument " ++ arg ++ " does not expect a value"⟩
        else ⟨options.set_flag pair.pmem true, rest, error_string⟩
      | .string =>
        with_value options arg (arg_tail pair.name arg) rest fun begin param =>
          if starts_with_dash param then
            ⟨options, begin, "argument " ++ arg ++ " expects a value, got " ++ param ++ "."⟩
          else ⟨options.set_string pair.pmem param, begin.tail, error_string⟩
      | .list =>
        with_value options arg (arg_tail pair.name arg) rest fun begin _ =>
          if !(arg_tail pair.name arg).toList.isEmpty then
            ⟨options, begin,
              "argument " ++ arg ++ " must have a space before the first value."⟩
          else collect_values arg pair.pmem begin options error_string
      | .integer =>
        with_value options arg (arg_tail pair.name arg) rest fun begin param =>
          if starts_with_dash param then
            ⟨options, begin, "argument " ++ arg ++ " expects a value, got " ++ param ++ "."⟩
          else if stream_bad param then
            ⟨options.extract_integer pair.pmem param, begin,
              "argument " ++ arg ++ " expects an integer value, got " ++ param ++ "."⟩
          else ⟨options.extract_integer pair.pmem param, begin.tail, error_string⟩
      | .terminal =>
        with_value options arg (arg_tail pair.name arg) rest fun begin _ =>
          ⟨options.push_back pair.pmem begin, [], error_string⟩
    else ⟨options, arg :: rest, error_string⟩

/-- A result of `try_parse_` seen from an argument list that goes on with `ext`. -/
def Try_result.extend (r : Try_result) (ext : List String) : Try_result :=
  ⟨r.options, r.next ++ ext, r.error_string⟩

/-- The fold expression of `parse_impl_`: the pairs are tried in order until one returns
an iterator other than `begin`; the flag says that none did (`no_progress`). -/
def try_pairs : List Arg_pair → Options → List String → String → Try_result × Bool
  | [], options, begin, error_string => (⟨options, begin, error_string⟩, true)
  | pair :: pairs, options, begin, error_string =>
    let r := try_parse_ options pair begin error_string
    if r.next.length = begin.length then try_pairs pairs r.options begin r.error_string
    else (r, false)

/-- The member `Arg_parser::parse_impl_`: the options and the error string it returns;
`fuel` bounds the number of iterations of its loop. -/
def parse_impl_ (pairs : List Arg_pair) :
    Nat → Options → List String → Option (Options × String)
  | _, options, [] => some (options, "")
  | 0, _, _ :: _ => none
  | fuel + 1, options, arg :: rest =>
    let r := try_pairs pairs options (arg :: rest) ""
    if r.2 then some (r.1.options, "unrecognized option: " ++ arg)
    else if !r.1.error_string.toList.isEmpty then some (r.1.options, r.1.error_string)
    else parse_impl_ pairs fuel r.1.options r.1.next

/-- The member `Arg_parser::parse`, for the default-constructed options `options`: every
iteration of the loop of `parse_impl_` consumes an argument, so the number of arguments
bounds the iterations. -/
def parse (pairs : List Arg_pair) (options : Options) (args : List String) :
    Option (Except String Options) :=
  (parse_impl_ pairs args.length options args).map fun r =>
    if !r.2.toList.isEmpty then .error r.2 else .ok r.1

/-- The parser of the test with a terminal flag: `a`, `b` are `bool` members 0 and 1,
`c` is string member 0 and `d` is list member 0. -/
def terminal_test_pairs : List Arg_pair :=
  [⟨"-a", .flag, 0⟩, ⟨"--aaa", .flag, 0⟩, ⟨"-b", .flag, 1⟩, ⟨"--bbb", .flag, 1⟩,
   ⟨"-c", .string, 0⟩, ⟨"--ccc", .string, 0⟩, ⟨"-d", .terminal, 0⟩]

/-- The parser of `parse_arguments.cpp`. -/
def lwyi_pairs : List Arg_pair :=
  [⟨"-h", .flag, 0⟩, ⟨"--help", .flag, 0⟩, ⟨"-d", .string, 0⟩, ⟨"--binary_dir", .string, 0⟩,
   ⟨"-t", .list, 0⟩, ⟨"--targets", .list, 0⟩, ⟨"-j", .integer, 0⟩,
   ⟨"--parallel", .integer, 0⟩, ⟨"--tool", .terminal, 1⟩]

/-- The value of a list member in the result of `parse`. -/
def parsed_list (r : Option (Except String Options)) (pmem : Nat) :
    Option (Except String (List String)) :=
  r.map fun e => e.map fun o => o.lists pmem

/-- The error message of a flag that is given a token beginning with a dash where its
value should be. -/
def missing_value_message (p : Arg_pair) (next : String) : String :=
  if p.kind = .list then "argument " ++ p.name ++ " expects one or more values."
  else "argument " ++ p.name ++ " expects a value, got " ++ next ++ "."

/-- The test in the words of the specification: the component sequence of `dir` is a
prefix of the component sequence of `file`. -/
def component_prefix_test (dir file : Path) : Bool := dir.iter.isPrefixOf file.iter

/-- The value of an integer member in the result of `parse`. -/
def parsed_integer (r : Option (Except String Options)) (pmem : Nat) :
    Option (Except String Nat) :=
  r.map fun e => e.map fun o => o.integers pmem

/-- What a thread of `threads_` is doing in `thread_fun_`; a work item of `transform` is
identified by the offset `i` of the element it handles. The thread is `waiting` in
`pop_work_`; it has `popped` the work for element `i`; it `ran` the work and has not
incremented `compleated_count_` yet; or it has `exited` its loop because `pop_work_`
returned `nullptr`. -/
inductive Worker where
  | waiting
  | popped (i : Nat)
  | ran (i : Nat)
  | exited
deriving DecidableEq, Repr

/-- Where the thread that called `transform` is: `pushing` in the loop of `transform`
after `k` calls of `push_work_`; `flushing` in `flush_` after `++sync_`, waiting for the
counts to agree; or `returned` with the iterator `d_first + d`. -/
inductive Caller where
  | pushing (k : Nat)
  | flushing (k : Nat)
  | returned (d : Nat)
deriving DecidableEq, Repr

/-- The data members of the class `Parallel_transformer`; the counters are `uint32_t`,
their arithmetic is modulo `4294967296 = 2 ^ 32`. -/
structure Parallel_transformer where
  threads_ : List Worker
  queue_ : List Nat
  compleated_count_ : Nat
  queued_count_ : Nat
  sync_ : Nat
  shutdown_ : Bool
deriving DecidableEq, Repr

/-- A pool between two calls of `transform`: every thread waits in `pop_work_`, the
queue is empty and both counters hold `count` (0 after the constructor). -/
def Parallel_transformer.idle (thread_count count : Nat) : Parallel_transformer :=
  { threads_ := List.replicate thread_count Worker.waiting
    queue_ := []
    compleated_count_ := count
    queued_count_ := count
    sync_ := 0
    shutdown_ := false }

/-- A call of `transform` in progress: the pool, the calling thread and the output
range, `out i` being the value at `d_first + i`. -/
structure Transform_state (β : Type) where
  pool : Parallel_transformer
  caller : Caller
  out : Nat → β

/-- The threads that take part in a call of `transform`. -/
inductive Thread where
  | caller
  | worker (w : Nat)
deriving DecidableEq, Repr

/-- One atomic step of a thread during `transform(first1, last1, d_first, unary_op)`,
where `input` is the range from `first1` to `last1`. A thread whose wait predicate is
false stays where it is. The caller runs `push_work_` for each element, then `flush_`,
the steps of which are `++sync_` and, once the counts agree, `--sync_` (which wraps
around at 0) and the return.
A worker runs the loop of `thread_fun_`: `pop_work_`, the work, the increment of
`compleated_count_`. -/
def Transform_state.step {α β : Type} (input : List α) (unary_op : α → β)
    (s : Transform_state β) : Thread → Transform_state β
  | .caller =>
    match s.caller with
    | .pushing k =>
      if k < input.length then
        if s.pool.sync_ = 0 ∧ s.pool.queue_.length < 2 * s.pool.threads_.length then
          { s with
            pool := { s.pool with
              queue_ := s.pool.queue_ ++ [k]
              queued_count_ := (s.pool.queued_count_ + 1) % 4294967296 }
            caller := .pushing (k + 1) }
        else s
      else
        { s with
          pool := { s.pool with sync_ := (s.pool.sync_ + 1) % 4294967296 }
          caller := .flushing k }
    | .flushing k =>
      if s.pool.compleated_count_ = s.pool.queued_count_ then
        { s with
          pool := { s.pool with
            sync_ := if s.pool.sync_ = 0 then 4294967295 else s.pool.sync_ - 1 }
          caller := .returned k }
      else s
    | .returned _ => s
  | .worker w =>
    match s.pool.threads_[w]? with
    | some .waiting =>
      if s.pool.shutdown_ ∨ !s.pool.queue_.isEmpty then
        if s.pool.shutdown_ ∧ s.pool.queue_.isEmpty then
          { s with pool := { s.pool with threads_ := s.pool.threads_.set w .exited } }
        else
          match s.pool.queue_ with
          | i :: rest =>
            { s with
              pool := { s.pool with
                queue_ := rest
                threads_ := s.pool.threads_.set w (.popped i) } }
          | [] => s
      else s
    | some (.popped i) =>
      match input[i]? with
      | some x =>
        { s with
          pool := { s.pool with threads_ := s.pool.threads_.set w (.ran i) }
          out := Function.update s.out i (unary_op x) }
      | none => s
    | some (.ran _) =>
      { s with
        pool := { s.pool with
          compleated_count_ := (s.pool.compleated_count_ + 1) % 4294967296
          threads_ := s.pool.threads_.set w .waiting } }
    | some .exited => s
    | none => s

/-- The state after the threads have taken their steps in the order of `schedule`. -/
def Transform_state.run {α β : Type} (input : List α) (unary_op : α → β)
    (s : Transform_state β) (schedule : List Thread) : Transform_state β :=
  schedule.foldl (Transform_state.step input unary_op) s

/-- The state in which `transform` is called on a pool that is idle. -/
def Transform_state.start {β : Type} (thread_count count : Nat) (out : Nat → β) :
    Transform_state β :=
  { pool := Parallel_transformer.idle thread_count count, caller := .pushing 0, out := out }

/-- Whether a worker holds a work item. -/
def Worker.busy : Worker → Nat
  | .popped _ => 1
  | .ran _ => 1
  | _ => 0

/-- The number of work items that are queued or held by a worker. -/
def Transform_state.pending {β : Type} (s : Transform_state β) : Nat :=
  s.pool.queue_.length + (s.pool.threads_.map Worker.busy).sum

/-- The number of elements for which `push_work_` has been called. -/
def Caller.pushed : Caller → Nat
  | .pushing k => k
  | .flushing k => k
  | .returned k => k

/-- The invariant of a call of `transform` that started on an idle pool with
`thread_count` threads and counters `count`, for the range `input` and the initial
output range `out`. -/
structure Transform_inv {α β : Type} (thread_count count : Nat) (input : List α)
    (unary_op : α → β) (out : Nat → β) (s : Transform_state β) : Prop where
  threads : s.pool.threads_.length = thread_count
  running : s.pool.shutdown_ = false
  no_exit : Worker.exited ∉ s.pool.threads_
  pushed_le : s.caller.pushed ≤ input.length
  sync : s.pool.sync_ = match s.caller with
    | .flushing _ => 1
    | _ => 0
  flushed : ∀ k, s.caller = .flushing k ∨ s.caller = .returned k → k = input.length
  idle : ∀ k, s.caller = .returned k → s.pending = 0
  queued : s.pool.queued_count_ = (count + s.caller.pushed) % 4294967296
  pending_le : s.pending ≤ s.caller.pushed
  compleated : s.pool.compleated_count_ = (count + s.caller.pushed - s.pending) % 4294967296
  queue_le : s.pool.queue_.length ≤ 2 * thread_count
  queue_range : ∀ i ∈ s.pool.queue_, i < s.caller.pushed
  popped_range : ∀ i, Worker.popped i ∈ s.pool.threads_ → i < s.caller.pushed
  written : ∀ i, i < s.caller.pushed → ∀ x, input[i]? = some x →
    i ∈ s.pool.queue_ ∨ Worker.popped i ∈ s.pool.threads_ ∨ s.out i = unary_op x
  untouched : ∀ i, s.caller.pushed ≤ i → s.out i = out i

/-- Whether the thread can take a step: its wait predicate holds and it has not left its
code. -/
def Transform_state.enabled {α β : Type} (input : List α) (s : Transform_state β) :
    Thread → Bool
  | .caller =>
    match s.caller with
    | .pushing k =>
      if k < input.length then
        decide (s.pool.sync_ = 0 ∧ s.pool.queue_.length < 2 * s.pool.threads_.length)
      else true
    | .flushing _ => decide (s.pool.compleated_count_ = s.pool.queued_count_)
    | .returned _ => false
  | .worker w =>
    match s.pool.threads_[w]? with
    | some .waiting => s.pool.shutdown_ || !s.pool.queue_.isEmpty
    | some (.popped i) => input[i]?.isSome
    | some (.ran _) => true
    | some .exited => false
    | none => false

/-- Every thread of the schedule can take its step when its turn comes. -/
def Transform_state.all_enabled {α β : Type} (input : List α) (unary_op : α → β) :
    Transform_state β → List Thread → Bool
  | _, [] => true
  | s, t :: schedule =>
    s.enabled input t && Transform_state.all_enabled input unary_op
      (s.step input unary_op t) schedule

/-- The steps a worker has left before it waits again. -/
def Worker.steps_left : Worker → Nat
  | .popped _ => 2
  | .ran _ => 1
  | _ => 0

/-- The number of steps that are left until `transform` has returned: four for each
element that is not pushed (push, pop, work, count), three for each queued work item,
those of the workers, and the two steps of `flush_`. -/
def Transform_state.steps_left {α β : Type} (input : List α) (s : Transform_state β) : Nat :=
  (match s.caller with
    | .pushing k => 4 * (input.length - k) + 2
    | .flushing _ => 1
    | .returned _ => 0) +
  3 * s.pool.queue_.length + (s.pool.threads_.map Worker.steps_left).sum

/-- A schedule for two elements and two threads: both elements are pushed, the workers
take turns, then the caller flushes. -/
def sample_schedule : List Thread :=
  [.caller, .caller, .worker 0, .worker 1, .worker 0, .worker 1, .worker 0, .worker 1,
    .caller, .caller]

/-- The function of the test: halving. -/
def halve (x : Nat) : Nat := x / 2

end util

namespace target_model
open stdlib util

/-- The struct `Target` of `target.hpp`: equality and order are those of the name. -/
structure Target where
  name : String
deriving DecidableEq, Repr

/-- The `operator<` of `Target`. -/
def Target.lt (a b : Target) : Bool := string_lt a.name b.name

/-- The struct `Target_data` of `target_data.hpp`. -/
structure Target_data where
  interface_headers : List Path := []
  interface_include_directories : List Path := []
  interface_include_prefixes : List String := []
  interface_dependencies : List Target := []
  dependencies : List Target := []
  sources : List Path := []
  verify_interface_header_sets_sources : List Path := []
deriving DecidableEq, Repr

/-- The function `is_interface_header` of `target_data.cpp`. -/
def is_interface_header (target_data : Target_data) (filename : Path) : Bool :=
  if target_data.interface_headers.contains filename then true
  else
    target_data.interface_include_directories.any fun directory =>
      if target_data.interface_include_prefixes.isEmpty then
        is_in_directory directory filename
      else
        target_data.interface_include_prefixes.any fun pfx =>
          is_in_directory (directory.append (Path.ofString pfx)) filename

/-- The function `is_private_source` of `target_data.cpp`. -/
def is_private_source (target_data : Target_data) (filename : Path) : Bool :=
  target_data.sources.contains filename

/-- An entry of the model. -/
abbrev Element := Target × Target_data

/-- The comparator `Less` on entries. -/
def Less (lhs rhs : Element) : Bool := lhs.1.lt rhs.1

/-- The class `Target_model`: the sorted entries and the two indexes derived from them
(the C++ indexes hold pointers to entries, here they hold the entry). -/
structure Target_model where
  target_to_target_data_ : List Element
  header_to_target_ : List (Path × Element)
  directory_to_target_ : List (Path × Element)

/-- The constructor `Target_model::Target_model`. -/
def Target_model.ctor (target_to_target_data : List Element) : Target_model :=
  let sorted := stdlib.sort Less target_to_target_data
  { target_to_target_data_ := sorted
    header_to_target_ :=
      sorted.foldl
        (fun acc element =>
          element.2.interface_headers.foldl (fun acc header => umap_set header element acc) acc)
        []
    directory_to_target_ :=
      sorted.foldl
        (fun acc element =>
          acc ++ element.2.interface_include_directories.map fun directory =>
            (directory, element))
        [] }

/-- The algorithm `std::lower_bound` on the sorted entries: the entries from the first
one that is not less than `target`. -/
def lower_bound (target : Target) (l : List Element) : List Element :=
  l.dropWhile fun e => e.1.lt target

/-- The member `Target_model::get_target_data`. -/
def Target_model.get_target_data (m : Target_model) (target : Target) : Option Target_data :=
  match lower_bound target m.target_to_target_data_ with
  | it :: _ => if it.1 = target then some it.2 else none
  | [] => none

/-- The algorithm `std::adjacent_find` with the comparator `Comp` (equal targets). -/
def adjacent_find : List Element → Option Element
  | a :: b :: rest => if a.1 = b.1 then some a else adjacent_find (b :: rest)
  | _ => none

/-- The body of the two nested loops of `validate` for one pair of directory entries:
the error text it returns, if any. When the data of a target is not found (the
assertion of the source) the pair is passed over. -/
def validate_pair (m : Target_model) (pair other_pair : Path × Element) : Option String :=
  let directory := pair.1
  let target := pair.2.1
  let other_target := other_pair.2.1
  if target = other_target then none
  else
    let other_directory := other_pair.1
    if is_in_directory directory other_directory then
      match m.get_target_data target, m.get_target_data other_target with
      | some target_data, some other_target_data =>
        if target_data.interface_include_prefixes.isEmpty then
          some (target.name ++ " and " ++ other_target.name ++
            " have a conflicting include directory (" ++ directory.string ++
            ") and " ++ target.name ++ " does not have an include prefix to disambiguate.\n")
        else
          (target_data.interface_include_prefixes.find? fun pfx =>
            other_target_data.interface_include_prefixes.contains pfx).map fun pfx =>
              target.name ++ " and " ++ other_target.name ++
                " have conflicting include directories and share " ++ pfx ++
                " as an include prefix.\n"
      | _, _ => none
    else none

/-- The member `Target_model::validate`: the empty string, or the first error found. -/
def Target_model.validate (m : Target_model) : String :=
  match adjacent_find m.target_to_target_data_ with
  | some it => "Target " ++ it.1.name ++ " is repeated.\n"
  | none =>
    match m.directory_to_target_.findSome? fun pair =>
        m.directory_to_target_.findSome? fun other_pair => validate_pair m pair other_pair with
    | some err => err
    | none => ""

/-- The member `Target_model::map_header_to_target`. -/
def Target_model.map_header_to_target (m : Target_model) (header : Path) : Option Target :=
  match umap_find header m.header_to_target_ with
  | some element => some element.1
  | none =>
    (m.directory_to_target_.find? fun pair =>
      let directory := pair.1
      let target := pair.2.1
      match m.get_target_data target with
      | some target_data =>
        if target_data.interface_include_prefixes.isEmpty then
          is_in_directory directory header
        else
          target_data.interface_include_prefixes.any fun pfx =>
            is_in_directory (directory.append (Path.ofString pfx)) header
      | none => false).map fun pair => pair.2.1

/-- Two targets that both list `/h.hpp` among their interface headers. -/
def shared_header_entries : List Element :=
  [(⟨"a"⟩, { interface_headers := [⟨true, ["h.hpp"]⟩] }),
   (⟨"b"⟩, { interface_headers := [⟨true, ["h.hpp"]⟩] })]

/-- Target `a` owns `/inc` with the include prefix `liba`; target `b` owns the directory
`/inc/liba` without a prefix. -/
def nested_prefix_entries : List Element :=
  [(⟨"a"⟩, { interface_include_directories := [⟨true, ["inc"]⟩]
             interface_include_prefixes := ["liba"] }),
   (⟨"b"⟩, { interface_include_directories := [⟨true, ["inc", "liba"]⟩] })]

/-- Two targets with one include directory each, without include prefixes. -/
def plain_directory_entries : List Element :=
  [(⟨"a"⟩, { interface_include_directories := [⟨true, ["a", "include"]⟩] }),
   (⟨"b"⟩, { interface_include_directories := [⟨true, ["b", "include"]⟩] })]

/-- Two targets that share the include directory `/inc` and tell their headers apart by
the include prefixes `liba` and `libb`. -/
def disjoint_prefix_entries : List Element :=
  [(⟨"a"⟩, { interface_include_directories := [⟨true, ["inc"]⟩]
             interface_include_prefixes := ["liba"] }),
   (⟨"b"⟩, { interface_include_directories := [⟨true, ["inc"]⟩]
             interface_include_prefixes := ["libb"] })]

/-- Entries in which the name `b` occurs twice. -/
def repeated_entries : List Element :=
  [(⟨"b"⟩, {}), (⟨"a"⟩, {}), (⟨"b"⟩, {})]

/-- Entries in which both names `a` and `b` occur twice. -/
def twice_repeated_entries : List Element :=
  [(⟨"b"⟩, {}), (⟨"b"⟩, {}), (⟨"a"⟩, {}), (⟨"a"⟩, {})]

/-- The loop of `create_pruned`: `stack` lists the vector from its back, `pruned` is the
map `pruned_target_to_target_map`; `fuel` bounds the number of iterations. -/
def create_pruned_loop (m : Target_model) :
    Nat → List Target → List (Target × Target_data) → Option (List (Target × Target_data))
  | _, [], pruned => some pruned
  | 0, _ :: _, _ => none
  | fuel + 1, target :: stack, pruned =>
    if (map_find Target.lt target pruned).isSome then create_pruned_loop m fuel stack pruned
    else
      match m.get_target_data target with
      | some target_data =>
        create_pruned_loop m fuel (target_data.dependencies.reverse ++ stack)
          (map_emplace Target.lt target target_data pruned)
      | none => create_pruned_loop m fuel stack pruned

/-- The member `Target_model::create_pruned`. Every iteration of the loop pops one
element, and elements are pushed only when a target enters the map, so the number of
iterations is at most the number of seeds plus the number of `dependencies` edges. -/
def Target_model.create_pruned (m : Target_model) (targets : List Target) :
    Option Target_model :=
  (create_pruned_loop m
    (targets.length + (m.target_to_target_data_.map fun e => e.2.dependencies.length).sum)
    targets.reverse []).map Target_model.ctor

/-- A `dependencies` edge between two targets that have data in the model. -/
def Dependency_edge (m : Target_model) (a b : Target) : Prop :=
  ∃ td, m.get_target_data a = some td ∧ b ∈ td.dependencies ∧
    (m.get_target_data b).isSome = true

/-- The closure of the specification: `t` is a seed with data, or is reachable from one
by a path of `dependencies` edges all of whose vertices have data. -/
def In_closure (m : Target_model) (seeds : List Target) (t : Target) : Prop :=
  ∃ s ∈ seeds, (m.get_target_data s).isSome = true ∧
    Relation.ReflTransGen (Dependency_edge m) s t

/-- The target `a` names `b` among its interface dependencies only and `c` among its
dependencies. -/
def interface_edge_entries : List Element :=
  [(⟨"a"⟩, { interface_dependencies := [⟨"b"⟩], dependencies := [⟨"c"⟩, ⟨"zlib"⟩] }),
   (⟨"b"⟩, {}),
   (⟨"c"⟩, { sources := [⟨true, ["c.cpp"]⟩] }),
   (⟨"d"⟩, { dependencies := [⟨"a"⟩] })]

/-- The invariant of the loop of `create_pruned`. -/
structure Pruned_inv (m : Target_model) (seeds stack : List Target)
    (pruned : List (Target × Target_data)) : Prop where
  sorted : KeysSorted Target.lt pruned
  sound : ∀ t td, map_find Target.lt t pruned = some td →
    m.get_target_data t = some td ∧ In_closure m seeds t
  stack_sound : ∀ t ∈ stack, (m.get_target_data t).isSome = true → In_closure m seeds t
  seeds_kept : ∀ s ∈ seeds, (m.get_target_data s).isSome = true →
    (map_find Target.lt s pruned).isSome = true ∨ s ∈ stack
  deps_kept : ∀ t td, map_find Target.lt t pruned = some td → ∀ d ∈ td.dependencies,
    (m.get_target_data d).isSome = true →
      (map_find Target.lt d pruned).isSome = true ∨ d ∈ stack

/-- The number of `dependencies` edges that leave a target not yet in the map. -/
def pending (m : Target_model) (pruned : List (Target × Target_data)) : Nat :=
  ((m.target_to_target_data_.filter fun e => (map_find Target.lt e.1 pruned).isNone).map
    fun e => e.2.dependencies.length).sum

end target_model

namespace scanner
open stdlib target_model

/-- The struct `Source_line` of `include.hpp`. -/
structure Source_line where
  source : Path
  line : Nat
deriving DecidableEq, Repr

/-- The struct `Include` of `include.hpp`. -/
structure Include where
  path : Path
  include_chain : List Source_line
deriving DecidableEq, Repr

/-- The struct `Intransitive_includes` of `scan.hpp`. -/
structure Intransitive_includes where
  interface_includes : List Include
  includes : List Include
deriving DecidableEq, Repr

/-- The comparator `Include_cmp` of `scan_impl.hpp`: includes are ordered by path. -/
def Include_cmp (lhs rhs : Include) : Bool := lhs.path.lt rhs.path

/-- The type `Include_set = std::set<Include, Include_cmp>`. -/
abbrev Include_set := List Include

/-- The struct `Include_data` of `scan_impl.hpp`. -/
structure Include_data where
  includes : Include_set := []
  interface_header_includes : List (Path × Include_set) := []
deriving DecidableEq, Repr

deriving instance DecidableEq for Except

/-- The function `merge_includes` of `merge_includes.cpp`, as the loop over the per-TU
results with its two accumulators `interface_includes` and `includes`. -/
def merge_loop : List (Except String Include_data) → Include_set → Include_set →
    Except String Intransitive_includes
  | [], interface_includes, includes =>
    .ok { interface_includes := interface_includes, includes := includes }
  | .error e :: _, _, _ => .error e
  | .ok eincdata :: rest, interface_includes, includes =>
    merge_loop rest
      (eincdata.interface_header_includes.foldl
        (fun acc bucket => set_merge Include_cmp acc bucket.2) interface_includes)
      (set_merge Include_cmp includes eincdata.includes)

/-- The function `merge_includes` of `merge_includes.cpp`. -/
def merge_includes (include_data_array : List (Except String Include_data)) :
    Except String Intransitive_includes :=
  merge_loop include_data_array [] []

/-- The enum `PPRecorder::Context`. -/
inductive Context where
  | arbitrary_file
  | source_file
  | interface_header
deriving DecidableEq, Repr

/-- What the pointer `current_include_set_` can point to: the TU-wide `includes`, or
the bucket of an interface header. -/
inductive Include_set_ref where
  | includes
  | bucket (header : Path)
deriving DecidableEq, Repr

/-- The set a pointer designates. -/
def Include_data.read (d : Include_data) : Include_set_ref → Include_set
  | .includes => d.includes
  | .bucket h => (map_find Path.lt h d.interface_header_includes).getD []

/-- Apply `f` to the set a pointer designates. -/
def Include_data.modify (d : Include_data) (f : Include_set → Include_set) :
    Include_set_ref → Include_data
  | .includes => { d with includes := f d.includes }
  | .bucket h =>
    { d with interface_header_includes := map_update Path.lt [] f h d.interface_header_includes }

/-- A `clang::FileID` as the recorder sees it: invalid, the predefines buffer, or a file
with the name `to_normal_path` gives for it. -/
inductive FileID where
  | invalid
  | predefines
  | file (name : Path)
deriving DecidableEq, Repr

/-- The name `to_normal_path` gives for the file of a `clang::FileID`: the predefines
buffer is called `<built-in>`, an invalid id has no file. -/
def FileID.name : FileID → Option Path
  | .invalid => none
  | .predefines => some ⟨false, ["<built-in>"]⟩
  | .file name => some name

/-- The enum `LexedFileChangeReason`. -/
inductive LexedFileChangeReason where
  | EnterFile
  | ExitFile
deriving DecidableEq, Repr

/-- The data members of the class `PPRecorder` that change (`target_data_` is a
parameter of the callbacks below). -/
structure PPRecorder where
  include_data_ : Include_data := {}
  last_include_loc_ : Source_line := ⟨⟨false, []⟩, 0⟩
  include_chain_ : List Source_line := []
  current_source_file_ : Path := ⟨false, []⟩
  current_include_set_ : Option Include_set_ref := none
  context_ : Context := Context.arbitrary_file
deriving DecidableEq, Repr

/-- The callback `PPRecorder::LexedFileChanged`. An invalid `fid` (the assertion of the
source) leaves the recorder as it is; an event for the predefines buffer that does not
return early (an exit to it from a file it includes) takes the buffer's name as the
file name; a null `previous_include_set` propagates nothing. -/
def PPRecorder.LexedFileChanged (target_data_ : Target_data) (r : PPRecorder) (fid : FileID)
    (reason : LexedFileChangeReason) (prev_fid : FileID) : PPRecorder :=
  if (reason = .EnterFile ∧ fid = .predefines) ∨ (reason = .ExitFile ∧ prev_fid = .predefines)
  then { r with context_ := .arbitrary_file }
  else
    match fid.name with
    | none => r
    | some name =>
      let previous_context := r.context_
      let previous_include_set := r.current_include_set_
      let r := { r with current_source_file_ := name }
      let r :=
        if is_interface_header target_data_ name then
          { r with
            context_ := .interface_header
            include_data_ := r.include_data_.modify id (.bucket name)
            current_include_set_ := some (.bucket name) }
        else if is_private_source target_data_ name then
          { r with context_ := .source_file, current_include_set_ := some .includes }
        else
          { r with context_ := .arbitrary_file, current_include_set_ := none }
      match reason with
      | .EnterFile =>
        let r :=
          if !r.last_include_loc_.source.empty then
            { r with include_chain_ := r.include_chain_ ++ [r.last_include_loc_] }
          else r
        match previous_include_set with
        | some previous =>
          if r.context_ = .arbitrary_file then
            let inc : Include := ⟨r.current_source_file_, r.include_chain_⟩
            { r with include_data_ := r.include_data_.modify (set_insert Include_cmp inc) previous }
          else r
        | none => r
      | .ExitFile =>
        let r :=
          if !r.include_chain_.isEmpty then
            { r with include_chain_ := r.include_chain_.dropLast }
          else r
        if previous_context = .interface_header ∧ r.context_ ≠ .arbitrary_file then
          match previous_include_set, r.current_include_set_ with
          | some previous, some current =>
            let previous_set := r.include_data_.read previous
            { r with include_data_ :=
                r.include_data_.modify (fun s => set_merge Include_cmp s previous_set) current }
          | _, _ => r
        else r

/-- The callback `PPRecorder::InclusionDirective`, for a directive at line `line` of the
file being lexed. -/
def PPRecorder.InclusionDirective (r : PPRecorder) (line : Nat) : PPRecorder :=
  { r with last_include_loc_ := ⟨r.current_source_file_, line⟩ }

/-- The callback `PPRecorder::FileSkipped`, for the file whose normal real path is
`filename`. A null `current_include_set_` records nothing. -/
def PPRecorder.FileSkipped (target_data_ : Target_data) (r : PPRecorder) (filename : Path) :
    PPRecorder :=
  if r.context_ = .arbitrary_file then r
  else
    match r.current_include_set_ with
    | none => r
    | some current =>
      if is_interface_header target_data_ filename ∨ is_private_source target_data_ filename then
        match map_find Path.lt filename r.include_data_.interface_header_includes with
        | some bucket =>
          { r with include_data_ :=
              r.include_data_.modify (fun s => set_merge Include_cmp s bucket) current }
        | none => r
      else
        let include_chain :=
          if !r.last_include_loc_.source.empty then r.include_chain_ ++ [r.last_include_loc_]
          else r.include_chain_
        let inc : Include := ⟨filename, include_chain⟩
        { r with include_data_ := r.include_data_.modify (set_insert Include_cmp inc) current }

/-- The events a preprocessor run delivers to the recorder. -/
inductive Event where
  | LexedFileChanged (fid : FileID) (reason : LexedFileChangeReason) (prev_fid : FileID)
  | InclusionDirective (line : Nat)
  | FileSkipped (filename : Path)
deriving DecidableEq, Repr

/-- One event delivered to the recorder. -/
def PPRecorder.step (target_data_ : Target_data) (r : PPRecorder) : Event → PPRecorder
  | .LexedFileChanged fid reason prev_fid => r.LexedFileChanged target_data_ fid reason prev_fid
  | .InclusionDirective line => r.InclusionDirective line
  | .FileSkipped filename => r.FileSkipped target_data_ filename

/-- The `Include_data` a run leaves: the recorder starts from the empty `Include_data`
of `scan_impl` and receives the events in order. -/
def record (target_data_ : Target_data) (events : List Event) : Include_data :=
  (events.foldl (PPRecorder.step target_data_) {}).include_data_

/-- The list `source_paths` of `Scanner::scan`: the translation units that are scanned. -/
def source_paths (target_data : Target_data) : List Path :=
  target_data.sources ++ target_data.verify_interface_header_sets_sources

/-- The trace of the test "scan collects headers included transitively from interface
headers": `/private.cpp` includes `/interface_1.hpp`, which includes `/a.hpp` and
`/interface_2.hpp`, which includes `/b.hpp` and `/interface_3.hpp`, which includes
`/c.hpp`. -/
def chained_target_data : Target_data :=
  { interface_headers :=
      [⟨true, ["interface_1.hpp"]⟩, ⟨true, ["interface_2.hpp"]⟩, ⟨true, ["interface_3.hpp"]⟩]
    sources := [⟨true, ["private.cpp"]⟩] }

/-- The events of the chained trace, in the order the preprocessor delivers them. -/
def chained_trace : List Event :=
  [ .LexedFileChanged (.file ⟨true, ["private.cpp"]⟩) .EnterFile .invalid,
    .LexedFileChanged .predefines .EnterFile (.file ⟨true, ["private.cpp"]⟩),
    .LexedFileChanged (.file ⟨true, ["private.cpp"]⟩) .ExitFile .predefines,
    .InclusionDirective 2,
    .LexedFileChanged (.file ⟨true, ["interface_1.hpp"]⟩) .EnterFile
      (.file ⟨true, ["private.cpp"]⟩),
    .InclusionDirective 2,
    .LexedFileChanged (.file ⟨true, ["a.hpp"]⟩) .EnterFile (.file ⟨true, ["interface_1.hpp"]⟩),
    .LexedFileChanged (.file ⟨true, ["interface_1.hpp"]⟩) .ExitFile (.file ⟨true, ["a.hpp"]⟩),
    .InclusionDirective 3,
    .LexedFileChanged (.file ⟨true, ["interface_2.hpp"]⟩) .EnterFile
      (.file ⟨true, ["interface_1.hpp"]⟩),
    .InclusionDirective 2,
    .LexedFileChanged (.file ⟨true, ["b.hpp"]⟩) .EnterFile (.file ⟨true, ["interface_2.hpp"]⟩),
    .LexedFileChanged (.file ⟨true, ["interface_2.hpp"]⟩) .ExitFile (.file ⟨true, ["b.hpp"]⟩),
    .InclusionDirective 3,
    .LexedFileChanged (.file ⟨true, ["interface_3.hpp"]⟩) .EnterFile
      (.file ⟨true, ["interface_2.hpp"]⟩),
    .InclusionDirective 2,
    .LexedFileChanged (.file ⟨true, ["c.hpp"]⟩) .EnterFile (.file ⟨true, ["interface_3.hpp"]⟩),
    .LexedFileChanged (.file ⟨true, ["interface_3.hpp"]⟩) .ExitFile (.file ⟨true, ["c.hpp"]⟩),
    .LexedFileChanged (.file ⟨true, ["interface_2.hpp"]⟩) .ExitFile
      (.file ⟨true, ["interface_3.hpp"]⟩),
    .LexedFileChanged (.file ⟨true, ["interface_1.hpp"]⟩) .ExitFile
      (.file ⟨true, ["interface_2.hpp"]⟩),
    .LexedFileChanged (.file ⟨true, ["private.cpp"]⟩) .ExitFile
      (.file ⟨true, ["interface_1.hpp"]⟩) ]

/-- The paths of the two merged sets, interface includes first. -/
def merged_paths (out : Except String Intransitive_includes) :
    Except String (List Path × List Path) :=
  out.map fun o => (o.interface_includes.map (·.path), o.includes.map (·.path))

/-- A translation unit `/v.cpp` that includes `/interface.hpp`, which includes the
foreign `/a.hpp`. -/
def verify_trace : List Event :=
  [ .LexedFileChanged (.file ⟨true, ["v.cpp"]⟩) .EnterFile .invalid,
    .LexedFileChanged .predefines .EnterFile (.file ⟨true, ["v.cpp"]⟩),
    .LexedFileChanged (.file ⟨true, ["v.cpp"]⟩) .ExitFile .predefines,
    .InclusionDirective 1,
    .LexedFileChanged (.file ⟨true, ["interface.hpp"]⟩) .EnterFile (.file ⟨true, ["v.cpp"]⟩),
    .InclusionDirective 1,
    .LexedFileChanged (.file ⟨true, ["a.hpp"]⟩) .EnterFile (.file ⟨true, ["interface.hpp"]⟩),
    .LexedFileChanged (.file ⟨true, ["interface.hpp"]⟩) .ExitFile (.file ⟨true, ["a.hpp"]⟩),
    .LexedFileChanged (.file ⟨true, ["v.cpp"]⟩) .ExitFile (.file ⟨true, ["interface.hpp"]⟩) ]

/-- A translation unit `/v.cpp` that includes the foreign `/a.hpp` directly. -/
def direct_trace : List Event :=
  [ .LexedFileChanged (.file ⟨true, ["v.cpp"]⟩) .EnterFile .invalid,
    .LexedFileChanged .predefines .EnterFile (.file ⟨true, ["v.cpp"]⟩),
    .LexedFileChanged (.file ⟨true, ["v.cpp"]⟩) .ExitFile .predefines,
    .InclusionDirective 1,
    .LexedFileChanged (.file ⟨true, ["a.hpp"]⟩) .EnterFile (.file ⟨true, ["v.cpp"]⟩),
    .LexedFileChanged (.file ⟨true, ["v.cpp"]⟩) .ExitFile (.file ⟨true, ["a.hpp"]⟩) ]

/-- A target with one interface header and one private source. -/
def basic_target_data : Target_data :=
  { interface_headers := [⟨true, ["interface.hpp"]⟩], sources := [⟨true, ["private.cpp"]⟩] }

/-- A recorder inside `/interface.hpp`, whose bucket holds `/a.hpp`. -/
def recorder_in_interface_header : PPRecorder :=
  { include_data_ :=
      { includes := []
        interface_header_includes :=
          [(⟨true, ["interface.hpp"]⟩, [⟨⟨true, ["a.hpp"]⟩, []⟩])] }
    current_source_file_ := ⟨true, ["interface.hpp"]⟩
    current_include_set_ := some (.bucket ⟨true, ["interface.hpp"]⟩)
    context_ := .interface_header }

/-- A recorder inside the foreign file `/a.hpp`: no include set is bound. -/
def recorder_in_foreign_file : PPRecorder :=
  { include_data_ :=
      { includes := [⟨⟨true, ["a.hpp"]⟩, []⟩]
        interface_header_includes := [] }
    current_source_file_ := ⟨true, ["a.hpp"]⟩
    current_include_set_ := none
    context_ := .arbitrary_file }

/-- The entries of all buckets of all translation units in the order in which
`merge_includes` visits them: units in list order, buckets in map order, entries in set
order. -/
def all_bucket_includes (ds : List Include_data) : List Include :=
  ds.flatMap fun d => d.interface_header_includes.flatMap fun bucket => bucket.2

/-- The recorder that has entered the source `/private.cpp` and has not seen an
inclusion directive yet. -/
def recorder_at_first_line : PPRecorder :=
  PPRecorder.step basic_target_data {}
    (.LexedFileChanged (.file ⟨true, ["private.cpp"]⟩) .EnterFile .invalid)

/-- No include of the set is a file of the target itself. -/
def Foreign (td : Target_data) (s : Include_set) : Prop :=
  ∀ i ∈ s, is_interface_header td i.path = false ∧ is_private_source td i.path = false

/-- Neither `includes` nor a bucket of `interface_header_includes` holds a file of the
target itself. -/
def Include_data.foreign (td : Target_data) (d : Include_data) : Prop :=
  Foreign td d.includes ∧ ∀ b ∈ d.interface_header_includes, Foreign td b.2

/-- The pointer `current_include_set_` is bound as the context requires, and a bound
pointer to a bucket designates an element of `interface_header_includes`. -/
structure Bound (r : PPRecorder) : Prop where
  source : r.context_ = .source_file → r.current_include_set_ = some .includes
  header : r.context_ = .interface_header →
    r.current_include_set_ = some (.bucket r.current_source_file_)
  valid : ∀ h, r.current_include_set_ = some (.bucket h) →
    h ∈ r.include_data_.interface_header_includes.map Prod.fst

/-- The class invariants of the containers of an `Include_data`: the keys of the
`std::map` `interface_header_includes` and the paths of every `std::set` of includes are
strictly ascending. -/
def Include_data.sorted (d : Include_data) : Prop :=
  KeysSorted Path.lt d.interface_header_includes ∧
  (d.includes.map (·.path)).Pairwise (fun a b => Path.lt a b = true) ∧
  ∀ b ∈ d.interface_header_includes,
    (b.2.map (·.path)).Pairwise (fun a b => Path.lt a b = true)

/-- The file of a `LexedFileChanged` event has a name that is not the empty path. -/
def Event.named : Event → Bool
  | .LexedFileChanged (.file name) _ _ => !name.empty
  | _ => true

/-- A translation unit `/private.cpp` that includes the foreign `/a.hpp`, which
includes the foreign `/b.hpp`; the events up to the return to `/private.cpp`. -/
def nested_foreign_trace : List Event :=
  [ .LexedFileChanged (.file ⟨true, ["private.cpp"]⟩) .EnterFile .invalid,
    .LexedFileChanged .predefines .EnterFile (.file ⟨true, ["private.cpp"]⟩),
    .LexedFileChanged (.file ⟨true, ["private.cpp"]⟩) .ExitFile .predefines,
    .InclusionDirective 1,
    .LexedFileChanged (.file ⟨true, ["a.hpp"]⟩) .EnterFile (.file ⟨true, ["private.cpp"]⟩),
    .InclusionDirective 1,
    .LexedFileChanged (.file ⟨true, ["b.hpp"]⟩) .EnterFile (.file ⟨true, ["a.hpp"]⟩),
    .LexedFileChanged (.file ⟨true, ["a.hpp"]⟩) .ExitFile (.file ⟨true, ["b.hpp"]⟩),
    .LexedFileChanged (.file ⟨true, ["private.cpp"]⟩) .ExitFile (.file ⟨true, ["a.hpp"]⟩) ]

end scanner

namespace lwyi
open stdlib target_model scanner

/-- The enum `Dependency_visibility` of `dependency_visibility.hpp`, kept as its
underlying `uint8_t` value. -/
structure Dependency_visibility where
  bits : Nat
deriving DecidableEq, Repr

/-- The enumerator `none = 0x00`. -/
def Dependency_visibility.none : Dependency_visibility := ⟨0x00⟩
/-- The enumerator `private_scope = 0x01`. -/
def Dependency_visibility.private_scope : Dependency_visibility := ⟨0x01⟩
/-- The enumerator `interface_scope = 0x10`. -/
def Dependency_visibility.interface_scope : Dependency_visibility := ⟨0x10⟩
/-- The enumerator `public_scope = 0x11`. -/
def Dependency_visibility.public_scope : Dependency_visibility := ⟨0x11⟩

/-- The `operator!` of `Dependency_visibility`. -/
def Dependency_visibility.not (v : Dependency_visibility) : Bool :=
  v = Dependency_visibility.none

/-- The value `lhs |= rhs` leaves in `lhs`. -/
def Dependency_visibility.or (lhs rhs : Dependency_visibility) : Dependency_visibility :=
  ⟨lhs.bits ||| rhs.bits⟩

/-- The `operator&` of `Dependency_visibility`. -/
def Dependency_visibility.and (lhs rhs : Dependency_visibility) : Dependency_visibility :=
  ⟨lhs.bits &&& rhs.bits⟩

/-- The struct `LWYI_error` of `check_target.hpp`. -/
structure LWYI_error where
  target : Target
  linked_visibility : Dependency_visibility
  included_visibility : Dependency_visibility
  sample_includes : List Include
deriving DecidableEq, Repr

/-- The function `collect_include_deps` of `check_target.cpp`. -/
def collect_include_deps (target_model : Target_model) (includes : List Include) :
    List (Target × List Include) :=
  includes.foldl
    (fun deps inc =>
      match target_model.map_header_to_target inc.path with
      | some dep => map_update Target.lt [] (fun l => l ++ [inc]) dep deps
      | none => deps)
    []

/-- The struct `Visibility` of `check_target.cpp`. -/
structure Visibility where
  linked_visibility : Dependency_visibility := Dependency_visibility.none
  included_visibility : Dependency_visibility := Dependency_visibility.none
deriving DecidableEq, Repr

/-- The map `visibility_map` of `check_target` once its four loops have run. -/
def visibility_map (target_model : Target_model) (target_data : Target_data)
    (included_interface_deps_map included_deps_map : List (Target × List Include)) :
    List (Target × Visibility) :=
  let vm : List (Target × Visibility) := []
  let vm := target_data.interface_dependencies.foldl
    (fun vm dep =>
      if (target_model.get_target_data dep).isSome then
        map_update Target.lt {}
          (fun v => { v with linked_visibility :=
            v.linked_visibility.or Dependency_visibility.interface_scope }) dep vm
      else vm) vm
  let vm := target_data.dependencies.foldl
    (fun vm dep =>
      if (target_model.get_target_data dep).isSome then
        map_update Target.lt {}
          (fun v => { v with linked_visibility :=
            v.linked_visibility.or Dependency_visibility.private_scope }) dep vm
      else vm) vm
  let vm := included_interface_deps_map.foldl
    (fun vm pair =>
      map_update Target.lt {}
        (fun v => { v with included_visibility :=
          v.included_visibility.or Dependency_visibility.interface_scope }) pair.1 vm) vm
  included_deps_map.foldl
    (fun vm pair =>
      map_update Target.lt {}
        (fun v => { v with included_visibility :=
          v.included_visibility.or Dependency_visibility.private_scope }) pair.1 vm) vm

/-- The function `check_target` of `check_target.cpp`. A lookup that the source asserts
to succeed contributes no sample when it fails. -/
def check_target (target_model : Target_model) (_target : Target) (target_data : Target_data)
    (target_includes : Intransitive_includes) : List LWYI_error :=
  let included_interface_deps_map :=
    collect_include_deps target_model target_includes.interface_includes
  let included_deps_map := collect_include_deps target_model target_includes.includes
  (visibility_map target_model target_data included_interface_deps_map included_deps_map).filterMap
    fun entry =>
      let dep := entry.1
      let visibility := entry.2
      if visibility.linked_visibility = visibility.included_visibility then Option.none
      else
        let sample_includes : List Include :=
          if !(visibility.included_visibility.and Dependency_visibility.interface_scope).not then
            (map_find Target.lt dep included_interface_deps_map).getD []
          else []
        let sample_includes :=
          if !(visibility.included_visibility.and Dependency_visibility.private_scope).not then
            sample_includes ++ (map_find Target.lt dep included_deps_map).getD []
          else sample_includes
        some { target := dep
               linked_visibility := visibility.linked_visibility
               included_visibility := visibility.included_visibility
               sample_includes := sample_includes }

/-- The linked visibility of `d` in the words of the specification: the join of
interface (`d` is an interface dependency with data in the model) and private (`d` is a
dependency with data in the model). -/
def linked (target_model : Target_model) (target_data : Target_data) (d : Target) :
    Dependency_visibility :=
  (if d ∈ target_data.interface_dependencies ∧ (target_model.get_target_data d).isSome
    then Dependency_visibility.interface_scope else Dependency_visibility.none).or
  (if d ∈ target_data.dependencies ∧ (target_model.get_target_data d).isSome
    then Dependency_visibility.private_scope else Dependency_visibility.none)

/-- The included visibility of `d` in the words of the specification: the join of
interface (an interface include resolves to `d`) and private (an include resolves to
`d`). -/
def included (target_model : Target_model) (target_includes : Intransitive_includes)
    (d : Target) : Dependency_visibility :=
  (if ∃ i ∈ target_includes.interface_includes,
      target_model.map_header_to_target i.path = some d
    then Dependency_visibility.interface_scope else Dependency_visibility.none).or
  (if ∃ i ∈ target_includes.includes, target_model.map_header_to_target i.path = some d
    then Dependency_visibility.private_scope else Dependency_visibility.none)

/-- The struct `Vertex_data` of `strongly_connected_dependencies.cpp`. -/
structure Vertex_data where
  index : Int := -1
  lowlink : Int := -1
  on_stack : Bool := false
deriving DecidableEq, Repr

/-- A component, `std::set<target_model::Target>`: targets in ascending order. -/
abbrev Component := List Target

/-- The variables `strong_connect` captures by reference. The map `data` is only read
and written through `data[x]`, which binds a missing key to a value-initialised
`Vertex_data`: it is kept as the function from keys to the bound values. The back of
the vector `stack` is the head of the list. -/
structure Scc_state where
  index : Int := 0
  stack : List Target := []
  strongly_connected : List Component := []
  data : Target → Vertex_data := fun _ => {}

/-- The assignment `wdata.on_stack = false`, where `wdata` is `data[w]`. -/
def clear_on_stack (data : Target → Vertex_data) (w : Target) : Target → Vertex_data :=
  let wdata : Vertex_data := { data w with on_stack := false }
  Function.update data w wdata

/-- The loop `for (;;)` of `strong_connect` that pops the stack into the component `c`
until `v` has been popped. Popping an empty stack has no result. -/
def pop_component (v : Target) :
    List Target → (Target → Vertex_data) → Component →
      Option (List Target × (Target → Vertex_data) × Component)
  | [], _, _ => none
  | w :: stack, data, c =>
    if w = v then some (stack, clear_on_stack data w, set_insert Target.lt w c)
    else pop_component v stack (clear_on_stack data w) (set_insert Target.lt w c)

/-- The assignment `vdata.lowlink = std::min(vdata.lowlink, k)`, where `vdata` is
`data[v]`. -/
def Scc_state.lower (s : Scc_state) (v : Target) (k : Int) : Scc_state :=
  let vdata : Vertex_data := { s.data v with lowlink := min (s.data v).lowlink k }
  { s with data := Function.update s.data v vdata }

/-- The first statements of `strong_connect(v)`: `v` gets the next index, is pushed on
the stack, and the index counter is incremented. -/
def Scc_state.enter (s : Scc_state) (v : Target) : Scc_state :=
  let vdata : Vertex_data := { index := s.index, lowlink := s.index, on_stack := true }
  { s with
    data := Function.update s.data v vdata
    stack := v :: s.stack
    index := s.index + 1 }

/-- The body of the loop over the dependencies of `v`, for the dependency `w`; `call` is
the recursive call `strong_connect(w)`. -/
def visit_dependency (call : Target → Scc_state → Option Scc_state) (v : Target)
    (s : Scc_state) (w : Target) : Option Scc_state :=
  if (s.data w).index = -1 then
    (call w s).map fun s => s.lower v (s.data w).lowlink
  else if (s.data w).on_stack then
    some (s.lower v (s.data w).index)
  else some s

/-- The end of `strong_connect(v)`: when `lowlink == index` the component of `v` is
popped, and kept when it has more than one member. -/
def finish_vertex (v : Target) (s : Scc_state) : Option Scc_state :=
  if (s.data v).lowlink = (s.data v).index then
    match pop_component v s.stack s.data [] with
    | some (stack, data, c) =>
      some { s with
        stack := stack
        data := data
        strongly_connected :=
          if 1 < c.length then s.strongly_connected ++ [c] else s.strongly_connected }
    | none => none
  else some s

/-- The dependencies the loop of `strong_connect(v)` runs over: none when `v` has no
data in the model. -/
def dependencies_of (target_model : Target_model) (v : Target) : List Target :=
  match target_model.get_target_data v with
  | some target_data => target_data.dependencies
  | none => []

/-- The closure `strong_connect` of `compute_strongly_connected_dependencies`; `fuel`
bounds the depth of the recursion, and there is no result when it runs out. -/
def strong_connect (target_model : Target_model) :
    Nat → Target → Scc_state → Option Scc_state
  | 0, _, _ => none
  | fuel + 1, v, s =>
    ((dependencies_of target_model v).foldlM
      (visit_dependency (fun w s => strong_connect target_model fuel w s) v) (s.enter v)).bind
      (finish_vertex v)

/-- The visitor `for_each_target` runs on every entry of the model. -/
def visit_target (target_model : Target_model) (fuel : Nat) (s : Scc_state) (e : Element) :
    Option Scc_state :=
  if (s.data e.1).index = -1 then strong_connect target_model fuel e.1 s else some s

/-- The vertices of the dependency graph: the targets of the model and their
dependencies. -/
def vertices (target_model : Target_model) : List Target :=
  target_model.target_to_target_data_.map (·.1) ++
    target_model.target_to_target_data_.flatMap (·.2.dependencies)

/-- The function `compute_strongly_connected_dependencies` run with recursion depth at
most `fuel`. -/
def compute_with_fuel (target_model : Target_model) (fuel : Nat) : Option (List Component) :=
  (target_model.target_to_target_data_.foldlM (visit_target target_model fuel) {}).map
    (·.strongly_connected)

/-- The function `compute_strongly_connected_dependencies`: the recursion is never
deeper than the number of vertices. -/
def compute_strongly_connected_dependencies (target_model : Target_model) :
    Option (List Component) :=
  compute_with_fuel target_model ((vertices target_model).length + 1)

/-- An edge of the dependency graph: `w` is among the `dependencies` of the data of
`u`. -/
def Edge (target_model : Target_model) (u w : Target) : Prop :=
  w ∈ dependencies_of target_model u

/-- The vertex `w` is reachable from `u` along `dependencies` edges. -/
def Reachable (target_model : Target_model) (u w : Target) : Prop :=
  Relation.ReflTransGen (Edge target_model) u w

/-- The invariant of the state of `compute_strongly_connected_dependencies` between two
steps of the algorithm; `g` lists the vertices whose call of `strong_connect` is in
progress. A vertex is visited when its index is not `-1`. -/
structure Scc_inv (m : Target_model) (s : Scc_state) (g : List Target) : Prop where
  stack_nodup : s.stack.Nodup
  mem_stack : ∀ x, x ∈ s.stack ↔ (s.data x).on_stack = true
  stack_visited : ∀ x ∈ s.stack, (s.data x).index ≠ -1
  index_nonneg : 0 ≤ s.index
  index_bound : ∀ x, (s.data x).index ≠ -1 → 0 ≤ (s.data x).index ∧ (s.data x).index < s.index
  stack_sorted : s.stack.Pairwise fun a b => (s.data b).index < (s.data a).index
  gray_on_stack : ∀ x ∈ g, x ∈ s.stack
  stack_reach : ∀ x ∈ s.stack, ∀ y ∈ s.stack, (s.data x).index ≤ (s.data y).index →
    Reachable m x y
  reach_gray : ∀ y ∈ s.stack, ∃ x ∈ g, (s.data x).index ≤ (s.data y).index ∧ Reachable m y x
  finished_edges : ∀ a, (s.data a).index ≠ -1 → a ∉ g → ∀ b, Edge m a b →
    (s.data b).index ≠ -1
  done_closed : ∀ a, (s.data a).index ≠ -1 → a ∉ s.stack → ∀ b, Edge m a b →
    (s.data b).index ≠ -1 ∧ b ∉ s.stack
  comp_done : ∀ c ∈ s.strongly_connected, ∀ x ∈ c, (s.data x).index ≠ -1 ∧ x ∉ s.stack
  comp_sound : ∀ c ∈ s.strongly_connected, ∀ x ∈ c, ∀ y ∈ c, Reachable m x y
  comp_complete : ∀ x y, (s.data x).index ≠ -1 → x ∉ s.stack → x ≠ y → Reachable m x y →
    Reachable m y x → ∃ c ∈ s.strongly_connected, x ∈ c ∧ y ∈ c
  comp_disjoint : s.strongly_connected.Pairwise fun c d => ∀ x ∈ c, x ∉ d
  comp_size : ∀ c ∈ s.strongly_connected, 2 ≤ c.length
  comp_sorted : ∀ c ∈ s.strongly_connected, c.Pairwise fun a b => Target.lt a b = true
  in_universe : ∀ x, (s.data x).index ≠ -1 → x ∈ vertices m

/-- The state `t` of the loop of `strong_connect(v)` over the dependencies, entered from
the state `s`, once the dependencies `ws` have been handled. -/
structure Scc_loop (m : Target_model) (s t : Scc_state) (g : List Target) (v : Target)
    (ws : List Target) : Prop where
  inv : Scc_inv m t (v :: g)
  frame : ∀ x, (s.data x).index ≠ -1 → t.data x = s.data x
  stack_eq : ∃ new, t.stack = new ++ v :: s.stack ∧ (∀ a ∈ new, (s.data a).index = -1) ∧
    ∀ a ∈ new, ∀ b ∈ s.stack, Edge m a b → (t.data v).lowlink ≤ (t.data b).index
  v_index : (t.data v).index = s.index
  low_le : (t.data v).lowlink ≤ (t.data v).index
  low_witness : ∃ y ∈ t.stack, (t.data y).index = (t.data v).lowlink ∧ Reachable m v y
  deps_visited : ∀ w ∈ ws, (t.data w).index ≠ -1
  deps_low : ∀ w ∈ ws, w ∈ s.stack → (t.data v).lowlink ≤ (t.data w).index

/-- What `strong_connect(v)` guarantees for the state `s'` it leaves when called in the
state `s`. -/
structure Scc_post (m : Target_model) (s s' : Scc_state) (g : List Target) (v : Target) :
    Prop where
  inv : Scc_inv m s' g
  frame : ∀ x, (s.data x).index ≠ -1 → s'.data x = s.data x
  stack_eq : ∃ new, s'.stack = new ++ s.stack ∧ (∀ a ∈ new, (s.data a).index = -1) ∧
    ∀ a ∈ new, ∀ b ∈ s.stack, Edge m a b → (s'.data v).lowlink ≤ (s'.data b).index
  v_index : (s'.data v).index = s.index
  low_le : (s'.data v).lowlink ≤ (s'.data v).index
  low_cases : (v ∉ s'.stack ∧ (s'.data v).lowlink = (s'.data v).index) ∨
    (v ∈ s'.stack ∧ ∃ y ∈ s.stack, (s'.data y).index = (s'.data v).lowlink ∧ Reachable m v y)

/-- The number of vertices that are not visited yet. -/
def unvisited (m : Target_model) (s : Scc_state) : Nat :=
  ((vertices m).toFinset.filter fun x => (s.data x).index = -1).card

/-- The graph of the test: a → b, b → c, b → d, c → a. -/
def cycle_entries : List Element :=
  [(⟨"a"⟩, { dependencies := [⟨"b"⟩] }),
   (⟨"b"⟩, { dependencies := [⟨"c"⟩, ⟨"d"⟩] }),
   (⟨"c"⟩, { dependencies := [⟨"a"⟩] }),
   (⟨"d"⟩, { dependencies := [] })]

/-- Target data that links `b` privately. -/
def links_b : Target_data := { dependencies := [⟨"b"⟩] }

/-- Includes of a target whose sources include the header `/a/include/x.h`. -/
def includes_a : Intransitive_includes :=
  { interface_includes := []
    includes := [{ path := ⟨true, ["a", "include", "x.h"]⟩, include_chain := [] }] }

/-- The four enumerators of `Dependency_visibility`. -/
def Dependency_visibility.values : List Dependency_visibility :=
  [Dependency_visibility.none, Dependency_visibility.private_scope,
   Dependency_visibility.interface_scope, Dependency_visibility.public_scope]

end lwyi

namespace tidy
open stdlib target_model

/-- A cluster, `std::set<target_model::Target>`: targets in ascending order. -/
abbrev Cluster := List Target

/-- The counting loop of `intersection_size` on two ranges; `fuel` bounds the number of
iterations (each one advances an iterator). -/
def intersection_loop : Nat → List Target → List Target → Nat → Nat
  | 0, _, _, count => count
  | fuel + 1, first1 :: rest1, first2 :: rest2, count =>
    if first1.lt first2 then intersection_loop fuel rest1 (first2 :: rest2) count
    else if !first2.lt first1 then intersection_loop fuel rest1 rest2 (count + 1)
    else intersection_loop fuel (first1 :: rest1) rest2 count
  | _ + 1, _, _, count => count

/-- The function `intersection_size` of `cluster_diff.cpp`; a null pointer is `none`. -/
def intersection_size (lhs rhs : Option Cluster) : Nat :=
  match lhs, rhs with
  | some l, none => l.length
  | none, some r => r.length
  | none, none => 0
  | some l, some r => intersection_loop (l.length + r.length) l r 0

/-- The algorithm `std::set_difference` on two ascending ranges; `fuel` bounds the
number of iterations. -/
def set_difference : Nat → List Target → List Target → List Target
  | 0, _, _ => []
  | _ + 1, [], _ => []
  | _ + 1, first1 :: rest1, [] => first1 :: rest1
  | fuel + 1, first1 :: rest1, first2 :: rest2 =>
    if first1.lt first2 then first1 :: set_difference fuel rest1 (first2 :: rest2)
    else if !first2.lt first1 then set_difference fuel rest1 rest2
    else set_difference fuel (first1 :: rest1) rest2

/-- The struct `Cluster_diff` of `cluster_diff.hpp`. -/
structure Cluster_diff where
  left_only : List Target := []
  right_only : List Target := []
deriving DecidableEq, Repr

/-- The function `single_diff` of `cluster_diff.cpp`. -/
def single_diff (lhs rhs : Option Cluster) : Cluster_diff :=
  match lhs, rhs with
  | some l, none => { left_only := l }
  | none, some r => { right_only := r }
  | some l, some r =>
    { left_only := set_difference (l.length + r.length) l r
      right_only := set_difference (l.length + r.length) r l }
  | none, none => {}

/-- The entry `intersection_matrix[i * result_size + j]`: the intersection size of slot
`i` of `lhs` and slot `j` of `rhs`, clamped to the largest `int16_t`. -/
def intersection_matrix (lhs rhs : List Cluster) (i j : Nat) : Int :=
  ((min (intersection_size lhs[i]? rhs[j]?) 32767 : Nat) : Int)

/-- The arrangements the loop `do ... while (std::next_permutation(...))` visits when it
starts from an ascending range `l` of `n` different values: all of them, in
lexicographic order. -/
def lex_permutations : Nat → List Nat → List (List Nat)
  | 0, _ => [[]]
  | n + 1, l => l.flatMap fun x => (lex_permutations n (l.erase x)).map fun rest => x :: rest

/-- The `score` of one arrangement: the sum of `intersection_matrix[i][permutation[i]]`
(an `int32_t`; the sum is exact while `result_size * 32767 < 2 ^ 31`). -/
def score (lhs rhs : List Cluster) (permutation : List Nat) : Int :=
  (List.range permutation.length).foldl
    (fun score i => score + intersection_matrix lhs rhs i (permutation.getD i 0)) 0

/-- The search loop of `cluster_diff`: the pair `(max_score, max_permutation)` after the
arrangements `perms` have been visited. -/
def max_search (lhs rhs : List Cluster) (perms : List (List Nat)) : Int × List Nat :=
  perms.foldl
    (fun best permutation =>
      if best.1 < score lhs rhs permutation then (score lhs rhs permutation, permutation)
      else best)
    (-1, [])

/-- The vector `max_permutation` of `cluster_diff` when the search loop ends. -/
def max_permutation (lhs rhs : List Cluster) : List Nat :=
  let result_size := max lhs.length rhs.length
  (max_search lhs rhs (lex_permutations result_size (List.range result_size))).2

/-- The function `cluster_diff` of `cluster_diff.cpp`. -/
def cluster_diff (lhs rhs : List Cluster) : List Cluster_diff :=
  let result_size := max lhs.length rhs.length
  (List.range result_size).map fun i =>
    single_diff lhs[i]? rhs[(max_permutation lhs rhs).getD i 0]?

/-- The objective in the words of the specification: the number of common members of
two slots, zero when a slot is missing on either side. -/
def spec_intersection (lhs rhs : Option Cluster) : Nat :=
  match lhs, rhs with
  | some l, some r => (l.filter fun t => r.contains t).length
  | _, _ => 0

/-- The sum the specification maximises, for the slot arrangement `permutation`. -/
def spec_score (lhs rhs : List Cluster) (permutation : List Nat) : Nat :=
  ((List.range permutation.length).map fun i =>
    spec_intersection lhs[i]? rhs[permutation.getD i 0]?).sum

/-- Two disjoint clusters on the left, one cluster on the right that meets both. -/
def uneven_lhs : List Cluster :=
  [[⟨"a"⟩, ⟨"b"⟩, ⟨"c"⟩, ⟨"d"⟩, ⟨"e"⟩], [⟨"f"⟩]]

/-- The right side of the uneven example. -/
def uneven_rhs : List Cluster := [[⟨"a"⟩, ⟨"b"⟩, ⟨"f"⟩]]

/-- The slot-by-slot difference in the words of the specification: the members of one
slot that are not in the other, where a missing slot reads as the empty set. -/
def spec_diff (lhs rhs : Option Cluster) : Cluster_diff :=
  { left_only := (lhs.getD []).filter fun t => !(rhs.getD []).contains t
    right_only := (rhs.getD []).filter fun t => !(lhs.getD []).contains t }

/-- The clusters of the test of `cluster_diff`. -/
def matching_clusters : List Cluster :=
  [[⟨"a"⟩, ⟨"b"⟩, ⟨"c"⟩], [⟨"d"⟩, ⟨"e"⟩], [⟨"f"⟩, ⟨"g"⟩]]

/-- The values `view(0)`, ..., `view(n - 1)` of one of the two views of `cluster_diff`. -/
def slots (l : List Cluster) (n : Nat) : List (Option Cluster) :=
  (List.range n).map fun i => l[i]?

/-- The pairs of slots that the arrangement `permutation` puts side by side. -/
def slot_pairs (lhs rhs : List Cluster) (permutation : List Nat) :
    List (Option Cluster × Option Cluster) :=
  (List.range (max lhs.length rhs.length)).map fun i =>
    (lhs[i]?, rhs[permutation.getD i 0]?)

/-- The entry of `intersection_matrix` for a pair of slots. -/
def pair_weight (p : Option Cluster × Option Cluster) : Int :=
  ((min (intersection_size p.1 p.2) 32767 : Nat) : Int)

/-- The clusters of the test with the first two exchanged. -/
def swapped_clusters : List Cluster :=
  [[⟨"d"⟩, ⟨"e"⟩], [⟨"a"⟩, ⟨"b"⟩, ⟨"c"⟩], [⟨"f"⟩, ⟨"g"⟩]]

/-- Two singleton clusters that both meet the first cluster of `tied_rhs`. -/
def tied_lhs : List Cluster := [[⟨"a"⟩], [⟨"b"⟩]]

/-- The clusters of `tied_lhs` in the other order. -/
def tied_lhs_swapped : List Cluster := [[⟨"b"⟩], [⟨"a"⟩]]

/-- The right side of the tied example. -/
def tied_rhs : List Cluster := [[⟨"a"⟩, ⟨"b"⟩], [⟨"c"⟩]]

/-- The enum `Dag_diagnostic_type` of `tidy.hpp`. -/
inductive Dag_diagnostic_type where
  | added_to_cluster
  | removed_from_cluster
  | new_cluster
  | forbidden_dependency
deriving DecidableEq, Repr

/-- The struct `Dag_diagnostic` of `tidy.hpp`. -/
structure Dag_diagnostic where
  type : Dag_diagnostic_type
  targets : List Target
deriving DecidableEq, Repr

/-- The struct `Config` of `config.hpp`: the map `forbidden_dependencies` is a list in
ascending key order whose values are ascending lists. -/
structure Config where
  forbidden_dependencies : List (Target × List Target) := []
  allowed_clusters : List Cluster := []
deriving DecidableEq, Repr

/-- The two loops of `tidy` over `result`: the declared slots `i < allowed_size`, then
the extra slots. -/
def cluster_diagnostics (allowed_size : Nat) (result : List Cluster_diff) :
    List Dag_diagnostic :=
  ((List.range allowed_size).flatMap fun i =>
    let diff := result.getD i {}
    (if !diff.left_only.isEmpty then
      [{ type := .removed_from_cluster, targets := diff.left_only }] else []) ++
    (if !diff.right_only.isEmpty then
      [{ type := .added_to_cluster, targets := diff.right_only }] else [])) ++
  ((List.range (result.length - allowed_size)).map fun j =>
    { type := .new_cluster, targets := (result.getD (allowed_size + j) {}).right_only })

/-- The loop of `tidy` over `config.forbidden_dependencies`. -/
def forbidden_diagnostics (config : Config) (target_model : Target_model) :
    List Dag_diagnostic :=
  config.forbidden_dependencies.flatMap fun entry =>
    match target_model.get_target_data entry.1 with
    | none => []
    | some target_data =>
      (entry.2.filter fun forbidden_dependency =>
        target_data.dependencies.contains forbidden_dependency).map fun forbidden_dependency =>
          { type := .forbidden_dependency, targets := [entry.1, forbidden_dependency] }

/-- The function `tidy` of `tidy.cpp`; there is a result whenever
`compute_strongly_connected_dependencies` returns. -/
def tidy (config : Config) (target_model : Target_model) : Option (List Dag_diagnostic) :=
  (lwyi.compute_strongly_connected_dependencies target_model).map fun components =>
    cluster_diagnostics config.allowed_clusters.length
        (cluster_diff config.allowed_clusters components) ++
      forbidden_diagnostics config target_model

/-- The configuration of the test of `tidy`. -/
def test_config : Config :=
  { forbidden_dependencies := [(⟨"libd"⟩, [⟨"libc"⟩])]
    allowed_clusters := [[⟨"liba"⟩, ⟨"libb"⟩], [⟨"libc"⟩, ⟨"libd"⟩, ⟨"libe"⟩]] }

/-- The targets of the test of `tidy`, with the dependencies of `libd` and `libg` left
open. -/
def test_entries (libd_dependencies libg_dependencies : List Target) : List Element :=
  [(⟨"liba"⟩, { dependencies := [⟨"libb"⟩] }),
   (⟨"libb"⟩, { dependencies := [⟨"liba"⟩, ⟨"libf"⟩] }),
   (⟨"libc"⟩, { dependencies := [⟨"libd"⟩] }),
   (⟨"libd"⟩, { dependencies := libd_dependencies }),
   (⟨"libe"⟩, { dependencies := [⟨"libc"⟩, ⟨"libf"⟩] }),
   (⟨"libf"⟩, { dependencies := [⟨"libg"⟩] }),
   (⟨"libg"⟩, { dependencies := libg_dependencies })]

end tidy

/-! ## Theorems -/

namespace stdlib

theorem lt_of_ne_of_not_lt {K : Type} {lt : K → K → Bool} (h : StrictOrder lt) {a b : K}
    (hne : a ≠ b) (hab : lt a b = false) : lt b a = true := by
  cases hba : lt b a with
  | true => rfl
  | false => exact absurd (h.tri a b hab hba) hne

theorem not_lt_of_lt {K : Type} {lt : K → K → Bool} (h : StrictOrder lt) {a b : K}
    (hab : lt a b = true) : lt b a = false := by
  cases hba : lt b a with
  | false => rfl
  | true =>
    have := h.trans _ _ _ hab hba
    simp [h.irrefl] at this

theorem lex_lt_irrefl {A : Type} {lt : A → A → Bool} (h : StrictOrder lt) :
    ∀ (a : List A), lex_lt lt a a = false
  | [] => rfl
  | a :: as => by simp [lex_lt, h.irrefl, lex_lt_irrefl h as]

theorem lex_lt_tri {A : Type} {lt : A → A → Bool} (h : StrictOrder lt) :
    ∀ (a b : List A), lex_lt lt a b = false → lex_lt lt b a = false → a = b
  | [], [] => fun _ _ => rfl
  | [], _ :: _ => fun h1 _ => by simp [lex_lt] at h1
  | _ :: _, [] => fun _ h2 => by simp [lex_lt] at h2
  | a :: as, b :: bs => fun h1 h2 => by
    cases hab : lt a b with
    | true => simp [lex_lt, hab] at h1
    | false =>
      cases hba : lt b a with
      | true => simp [lex_lt, hba] at h2
      | false =>
        have := h.tri a b hab hba
        subst this
        simp only [lex_lt, hab, Bool.false_eq_true, if_false] at h1 h2
        rw [lex_lt_tri h as bs h1 h2]

theorem lex_lt_trans {A : Type} {lt : A → A → Bool} (h : StrictOrder lt) :
    ∀ (a b c : List A), lex_lt lt a b = true → lex_lt lt b c = true → lex_lt lt a c = true
  | _, [], _ => fun h1 _ => by cases ‹List A› <;> simp [lex_lt] at h1
  | _, _ :: _, [] => fun _ h2 => by simp [lex_lt] at h2
  | [], _ :: _, _ :: _ => fun _ _ => by simp [lex_lt]
  | a :: as, b :: bs, c :: cs => fun h1 h2 => by
    simp only [lex_lt] at h1 h2 ⊢
    cases hab : lt a b with
    | true =>
      cases hbc : lt b c with
      | true => simp [h.trans _ _ _ hab hbc]
      | false =>
        cases hcb : lt c b with
        | true => simp [hbc, hcb] at h2
        | false =>
          have := h.tri b c hbc hcb
          subst this
          simp [hab]
    | false =>
      cases hba : lt b a with
      | true => simp [hab, hba] at h1
      | false =>
        have := h.tri a b hab hba
        subst this
        simp only [hab, Bool.false_eq_true, if_false] at h1
        cases hac : lt a c with
        | true => simp
        | false =>
          cases hca : lt c a with
          | true => simp [hac, hca] at h2
          | false =>
            simp only [hac, hca, Bool.false_eq_true, if_false] at h2 ⊢
            exact lex_lt_trans h as bs cs h1 h2

theorem lex_lt_strict {A : Type} {lt : A → A → Bool} (h : StrictOrder lt) :
    StrictOrder (lex_lt lt) :=
  ⟨lex_lt_irrefl h, lex_lt_trans h, lex_lt_tri h⟩

theorem char_lt_strict : StrictOrder char_lt where
  irrefl a := by simp [char_lt]
  trans a b c h1 h2 := by
    simp only [char_lt, decide_eq_true_eq] at h1 h2 ⊢
    exact lt_trans h1 h2
  tri a b h1 h2 := by
    simp only [char_lt, decide_eq_false_iff_not, not_lt] at h1 h2
    exact le_antisymm h2 h1

theorem string_lt_strict : StrictOrder string_lt where
  irrefl a := (lex_lt_strict char_lt_strict).irrefl a.toList
  trans a b c := (lex_lt_strict char_lt_strict).trans a.toList b.toList c.toList
  tri a b h1 h2 := by
    have h := (lex_lt_strict char_lt_strict).tri a.toList b.toList h1 h2
    cases a; cases b; simp_all [String.toList]

theorem ltStrings_strict : StrictOrder ltStrings := lex_lt_strict string_lt_strict

theorem path_lt_strict : StrictOrder Path.lt where
  irrefl a := by simp [Path.lt, ltStrings_strict.irrefl]
  trans a b c h1 h2 := by
    obtain ⟨ar, ae⟩ := a
    obtain ⟨br, be⟩ := b
    obtain ⟨cr, ce⟩ := c
    simp only [Path.lt] at h1 h2 ⊢
    cases ar <;> cases br <;> cases cr <;> simp_all
    all_goals exact ltStrings_strict.trans _ _ _ h1 h2
  tri a b h1 h2 := by
    obtain ⟨ar, ae⟩ := a
    obtain ⟨br, be⟩ := b
    simp only [Path.lt] at h1 h2
    cases ar <;> cases br <;> simp_all
    all_goals exact ltStrings_strict.tri _ _ h1 h2

variable {K V : Type} {lt : K → K → Bool}

theorem map_update_keys (h : StrictOrder lt) (dflt : V) (f : V → V) (k : K) :
    ∀ (l : List (K × V)) (x : K), x ∈ (map_update lt dflt f k l).map Prod.fst ↔
      x = k ∨ x ∈ l.map Prod.fst
  | [], x => by simp [map_update]
  | (k', v) :: rest, x => by
    cases h1 : lt k k' with
    | true => simp [map_update, h1]
    | false =>
      cases h2 : lt k' k with
      | true =>
        simp only [map_update, h1, h2, if_true, Bool.false_eq_true, if_false, List.map_cons,
          List.mem_cons, map_update_keys h dflt f k rest x]
        tauto
      | false =>
        have hk : k = k' := h.tri k k' h1 h2
        subst hk
        simp [map_update, h1]

theorem map_update_sorted (h : StrictOrder lt) (dflt : V) (f : V → V) (k : K) :
    ∀ (l : List (K × V)), KeysSorted lt l → KeysSorted lt (map_update lt dflt f k l)
  | [], _ => by simp [map_update, KeysSorted]
  | (k', v) :: rest, hs => by
    unfold KeysSorted at hs ⊢
    simp only [List.map_cons, List.pairwise_cons] at hs
    cases h1 : lt k k' with
    | true =>
      simp only [map_update, h1, if_true, List.map_cons, List.pairwise_cons, List.mem_cons]
      refine ⟨?_, hs⟩
      rintro a (rfl | ha)
      · exact h1
      · exact h.trans _ _ _ h1 (hs.1 a ha)
    | false =>
      cases h2 : lt k' k with
      | true =>
        simp only [map_update, h1, h2, if_true, Bool.false_eq_true, if_false, List.map_cons,
          List.pairwise_cons]
        refine ⟨?_, map_update_sorted h dflt f k rest hs.2⟩
        intro a ha
        rcases (map_update_keys h dflt f k rest a).1 ha with rfl | ha
        · exact h2
        · exact hs.1 a ha
      | false =>
        simp only [map_update, h1, h2, Bool.false_eq_true, if_false, List.map_cons,
          List.pairwise_cons]
        exact hs

theorem map_find_none_of_lt (d : K) :
    ∀ (l : List (K × V)), (∀ a ∈ l.map Prod.fst, lt d a = true) → map_find lt d l = none
  | [], _ => rfl
  | (k', v) :: rest, hall => by
    simp [map_find, hall k' (by simp)]

theorem map_find_update (h : StrictOrder lt) (dflt : V) (f : V → V) (k d : K) [DecidableEq K] :
    ∀ (l : List (K × V)), KeysSorted lt l →
      map_find lt d (map_update lt dflt f k l) =
        if d = k then some (f ((map_find lt k l).getD dflt)) else map_find lt d l
  | [], _ => by
    by_cases hd : d = k
    · subst hd; simp [map_update, map_find, h.irrefl]
    · cases h1 : lt d k with
      | true => simp [map_update, map_find, hd, h1]
      | false => simp [map_update, map_find, hd, h1, lt_of_ne_of_not_lt h hd h1]
  | (k', v) :: rest, hs => by
    unfold KeysSorted at hs
    simp only [List.map_cons, List.pairwise_cons] at hs
    cases h1 : lt k k' with
    | true =>
      have hk'k : lt k' k = false := not_lt_of_lt h h1
      by_cases hd : d = k
      · subst hd
        simp [map_update, map_find, h.irrefl, h1]
      · cases h3 : lt d k with
        | true =>
          have : lt d k' = true := h.trans _ _ _ h3 h1
          simp [map_update, map_find, h3, this, h1, hd]
        | false =>
          simp [map_update, map_find, h3, h1, hd, lt_of_ne_of_not_lt h hd h3]
    | false =>
      cases h2 : lt k' k with
      | true =>
        have ih := map_find_update h dflt f k d rest hs.2
        by_cases hd : d = k
        · subst hd
          simp [map_update, map_find, h1, h2, ih]
        · simp [map_update, map_find, h1, h2, ih, hd]
      | false =>
        have hk : k = k' := h.tri k k' h1 h2
        subst hk
        by_cases hd : d = k
        · subst hd
          simp [map_update, map_find, h.irrefl]
        · cases h3 : lt d k with
          | true => simp [map_update, map_find, hd, h.irrefl, h3]
          | false =>
            simp [map_update, map_find, hd, h.irrefl, h3, lt_of_ne_of_not_lt h hd h3]

theorem filter_key_eq_map_find (h : StrictOrder lt) [DecidableEq K] (d : K) :
    ∀ (l : List (K × V)), KeysSorted lt l →
      l.filter (fun e => e.1 = d) =
        match map_find lt d l with
        | some v => [(d, v)]
        | none => []
  | [], _ => by simp [map_find]
  | (k', v) :: rest, hs => by
    unfold KeysSorted at hs
    simp only [List.map_cons, List.pairwise_cons] at hs
    have ih := filter_key_eq_map_find h d rest hs.2
    by_cases hd : k' = d
    · subst hd
      have hnone : map_find lt k' rest = none := map_find_none_of_lt k' rest hs.1
      rw [hnone] at ih
      simp [List.filter_cons, map_find, h.irrefl, ih]
    · cases h1 : lt d k' with
      | true =>
        have hrest : map_find lt d rest = none :=
          map_find_none_of_lt d rest (fun a ha => h.trans _ _ _ h1 (hs.1 a ha))
        rw [hrest] at ih
        simp [List.filter_cons, hd, map_find, h1, ih]
      | false =>
        have h2 : lt k' d = true := lt_of_ne_of_not_lt h (Ne.symm hd) h1
        simp only [List.filter_cons, hd, decide_False, map_find, h1, h2, if_true,
          Bool.false_eq_true, if_false]
        exact ih


theorem foldl_map_update {A : Type} (h : StrictOrder lt) [DecidableEq K] (dflt : V) (f : V → V)
    (hf : ∀ v, f (f v) = f v) (key : A → K) (c : A → Bool)
    (step : List (K × V) → A → List (K × V))
    (hstep : ∀ vm a, step vm a = if c a = true then map_update lt dflt f (key a) vm else vm) :
    ∀ (as : List A) (vm : List (K × V)), KeysSorted lt vm →
      KeysSorted lt (as.foldl step vm) ∧
      ∀ d, (map_find lt d (as.foldl step vm)).getD dflt =
        if (∃ a ∈ as, c a = true ∧ key a = d) then f ((map_find lt d vm).getD dflt)
        else (map_find lt d vm).getD dflt
  | [], vm, hs => by simp [hs]
  | a :: as, vm, hs => by
    have hs' : KeysSorted lt (step vm a) := by
      rw [hstep]; split
      · exact map_update_sorted h dflt f (key a) vm hs
      · exact hs
    obtain ⟨ih1, ih2⟩ := foldl_map_update h dflt f hf key c step hstep as (step vm a) hs'
    refine ⟨by simpa using ih1, ?_⟩
    intro d
    simp only [List.foldl_cons, ih2 d]
    have hget : (map_find lt d (step vm a)).getD dflt =
        if c a = true ∧ key a = d then f ((map_find lt d vm).getD dflt)
        else (map_find lt d vm).getD dflt := by
      rw [hstep]
      by_cases hc : c a = true
      · simp only [hc, if_true, true_and]
        rw [map_find_update h dflt f (key a) d vm hs]
        by_cases hd : d = key a
        · subst hd; simp
        · simp [hd, Ne.symm hd]
      · simp [hc]
    rw [hget]
    by_cases hex : ∃ a ∈ as, c a = true ∧ key a = d
    · by_cases hc : c a = true ∧ key a = d
      · have : ∃ a' ∈ a :: as, c a' = true ∧ key a' = d := ⟨a, by simp, hc⟩
        simp [hex, hc, this, hf]
      · have : ∃ a' ∈ a :: as, c a' = true ∧ key a' = d := by
          obtain ⟨a', ha', hca'⟩ := hex
          exact ⟨a', by simp [ha'], hca'⟩
        simp [hex, hc, this]
    · by_cases hc : c a = true ∧ key a = d
      · have : ∃ a' ∈ a :: as, c a' = true ∧ key a' = d := ⟨a, by simp, hc⟩
        simp [hex, hc, this]
      · have : ¬ ∃ a' ∈ a :: as, c a' = true ∧ key a' = d := by
          rintro ⟨a', ha', hca'⟩
          rcases List.mem_cons.1 ha' with rfl | ha'
          · exact hc hca'
          · exact hex ⟨a', ha', hca'⟩
        simp [hex, hc, this]

theorem foldl_map_update_cond (h : StrictOrder lt) [DecidableEq K] (dflt : V) (f : V → V)
    (hf : ∀ v, f (f v) = f v) (c : K → Bool) (ks : List K) (vm : List (K × V))
    (hs : KeysSorted lt vm) :
    KeysSorted lt
      (ks.foldl (fun vm k => if c k = true then map_update lt dflt f k vm else vm) vm) ∧
    ∀ d, (map_find lt d
        (ks.foldl (fun vm k => if c k = true then map_update lt dflt f k vm else vm) vm)).getD
          dflt =
      if d ∈ ks ∧ c d = true then f ((map_find lt d vm).getD dflt)
      else (map_find lt d vm).getD dflt := by
  obtain ⟨h1, h2⟩ := foldl_map_update h dflt f hf id c
    (fun vm k => if c k = true then map_update lt dflt f k vm else vm) (fun _ _ => rfl) ks vm hs
  refine ⟨h1, fun d => (h2 d).trans (if_congr ?_ rfl rfl)⟩
  constructor
  · rintro ⟨a, ha, hc, rfl⟩; exact ⟨ha, hc⟩
  · rintro ⟨ha, hc⟩; exact ⟨d, ha, hc, rfl⟩

theorem foldl_map_update_all {A : Type} (h : StrictOrder lt) [DecidableEq K] (dflt : V)
    (f : V → V) (hf : ∀ v, f (f v) = f v) (key : A → K) (as : List A) (vm : List (K × V))
    (hs : KeysSorted lt vm) :
    KeysSorted lt (as.foldl (fun vm a => map_update lt dflt f (key a) vm) vm) ∧
    ∀ d, (map_find lt d (as.foldl (fun vm a => map_update lt dflt f (key a) vm) vm)).getD
          dflt =
      if d ∈ as.map key then f ((map_find lt d vm).getD dflt)
      else (map_find lt d vm).getD dflt := by
  obtain ⟨h1, h2⟩ := foldl_map_update h dflt f hf key (fun _ => true)
    (fun vm a => map_update lt dflt f (key a) vm) (fun _ _ => by simp) as vm hs
  refine ⟨h1, fun d => (h2 d).trans (if_congr ?_ rfl rfl)⟩
  constructor
  · rintro ⟨a, ha, -, rfl⟩; exact List.mem_map.2 ⟨a, ha, rfl⟩
  · intro hd
    obtain ⟨a, ha, rfl⟩ := List.mem_map.1 hd
    exact ⟨a, ha, rfl, rfl⟩

theorem map_find_isSome_iff_mem (h : StrictOrder lt) [DecidableEq K] (d : K)
    (l : List (K × V)) (hs : KeysSorted lt l) :
    (map_find lt d l).isSome = true ↔ d ∈ l.map Prod.fst := by
  have hf := filter_key_eq_map_find h d l hs
  constructor
  · intro hsome
    obtain ⟨v, hv⟩ := Option.isSome_iff_exists.1 hsome
    rw [hv] at hf
    have : (d, v) ∈ l.filter (fun e => e.1 = d) := by rw [hf]; simp
    exact List.mem_map.2 ⟨(d, v), (List.mem_filter.1 this).1, rfl⟩
  · intro hmem
    obtain ⟨e, he, hed⟩ := List.mem_map.1 hmem
    have : e ∈ l.filter (fun e => e.1 = d) := List.mem_filter.2 ⟨he, by simpa using hed⟩
    rw [hf] at this
    cases hfd : map_find lt d l with
    | some v => rfl
    | none => rw [hfd] at this; simp at this

end stdlib

namespace target_model
open stdlib util

theorem target_lt_strict : StrictOrder Target.lt where
  irrefl a := string_lt_strict.irrefl a.name
  trans a b c := string_lt_strict.trans a.name b.name c.name
  tri a b h1 h2 := by
    cases a; cases b
    simp only [Target.lt] at h1 h2
    simp [string_lt_strict.tri _ _ h1 h2]

end target_model

namespace lwyi
open stdlib target_model scanner

theorem collect_include_deps_spec (m : Target_model) (includes : List Include) :
    KeysSorted Target.lt (collect_include_deps m includes) ∧
    ∀ d, d ∈ (collect_include_deps m includes).map Prod.fst ↔
      ∃ i ∈ includes, m.map_header_to_target i.path = some d := by
  unfold collect_include_deps
  suffices hgen : ∀ (l : List Include) (deps : List (Target × List Include)),
      KeysSorted Target.lt deps →
      KeysSorted Target.lt (l.foldl (fun deps inc =>
        match m.map_header_to_target inc.path with
        | some dep => map_update Target.lt [] (fun l => l ++ [inc]) dep deps
        | none => deps) deps) ∧
      ∀ d, d ∈ (l.foldl (fun deps inc =>
        match m.map_header_to_target inc.path with
        | some dep => map_update Target.lt [] (fun l => l ++ [inc]) dep deps
        | none => deps) deps).map Prod.fst ↔
        (d ∈ deps.map Prod.fst ∨ ∃ i ∈ l, m.map_header_to_target i.path = some d) by
    have := hgen includes [] (by simp [KeysSorted])
    simpa using this
  intro l
  induction l with
  | nil => intro deps hs; simp [hs]
  | cons inc l ih =>
    intro deps hs
    simp only [List.foldl_cons]
    cases hm : m.map_header_to_target inc.path with
    | none =>
      obtain ⟨ih1, ih2⟩ := ih deps hs
      refine ⟨ih1, fun d => ?_⟩
      rw [ih2 d]
      simp [hm]
    | some dep =>
      obtain ⟨ih1, ih2⟩ := ih _ (map_update_sorted target_lt_strict []
        (fun l => l ++ [inc]) dep deps hs)
      refine ⟨ih1, fun d => ?_⟩
      rw [ih2 d, map_update_keys target_lt_strict]
      simp only [List.mem_cons, exists_eq_or_imp, hm, Option.some.injEq]
      constructor
      · rintro ((rfl | h) | h)
        · exact Or.inr (Or.inl rfl)
        · exact Or.inl h
        · exact Or.inr (Or.inr h)
      · rintro (h | rfl | h)
        · exact Or.inl (Or.inr h)
        · exact Or.inl (Or.inl rfl)
        · exact Or.inr h


theorem visibility_map_spec (m : Target_model) (td : Target_data)
    (imap pmap : List (Target × List Include)) :
    KeysSorted Target.lt (visibility_map m td imap pmap) ∧
    ∀ d, (map_find Target.lt d (visibility_map m td imap pmap)).getD {} =
      { linked_visibility :=
          ((if d ∈ td.interface_dependencies ∧ (m.get_target_data d).isSome
            then Dependency_visibility.none.or Dependency_visibility.interface_scope
            else Dependency_visibility.none).or
          (if d ∈ td.dependencies ∧ (m.get_target_data d).isSome
            then Dependency_visibility.private_scope else Dependency_visibility.none))
        included_visibility :=
          ((if d ∈ imap.map Prod.fst
            then Dependency_visibility.none.or Dependency_visibility.interface_scope
            else Dependency_visibility.none).or
          (if d ∈ pmap.map Prod.fst
            then Dependency_visibility.private_scope else Dependency_visibility.none)) } := by
  have hor : ∀ (a b : Dependency_visibility), (a.or b).or b = a.or b := by
    intro a b
    simp [Dependency_visibility.or, Nat.lor_assoc]
  unfold visibility_map
  obtain ⟨s1, g1⟩ := foldl_map_update_cond target_lt_strict ({} : Visibility)
    (fun v => { v with linked_visibility :=
      v.linked_visibility.or Dependency_visibility.interface_scope })
    (fun v => by simp [hor]) (fun dep => (m.get_target_data dep).isSome)
    td.interface_dependencies [] (by simp [KeysSorted])
  obtain ⟨s2, g2⟩ := foldl_map_update_cond target_lt_strict ({} : Visibility)
    (fun v => { v with linked_visibility :=
      v.linked_visibility.or Dependency_visibility.private_scope })
    (fun v => by simp [hor]) (fun dep => (m.get_target_data dep).isSome)
    td.dependencies _ s1
  obtain ⟨s3, g3⟩ := foldl_map_update_all target_lt_strict ({} : Visibility)
    (fun v => { v with included_visibility :=
      v.included_visibility.or Dependency_visibility.interface_scope })
    (fun v => by simp [hor]) Prod.fst imap _ s2
  obtain ⟨s4, g4⟩ := foldl_map_update_all target_lt_strict ({} : Visibility)
    (fun v => { v with included_visibility :=
      v.included_visibility.or Dependency_visibility.private_scope })
    (fun v => by simp [hor]) Prod.fst pmap _ s3
  refine ⟨s4, fun d => ?_⟩
  rw [g4 d, g3 d, g2 d, g1 d]
  by_cases c0 : (m.get_target_data d).isSome = true <;>
  by_cases c1 : d ∈ td.interface_dependencies <;>
  by_cases c2 : d ∈ td.dependencies <;>
  by_cases c3 : d ∈ imap.map Prod.fst <;>
  by_cases c4 : d ∈ pmap.map Prod.fst <;>
  simp only [c0, c1, c2, c3, c4, and_self, and_true, true_and, and_false, false_and,
    if_true, if_false] <;>
  simp [map_find, Dependency_visibility.or, Dependency_visibility.none,
    Dependency_visibility.interface_scope, Dependency_visibility.private_scope]


theorem filter_filterMap_target (g : Target × Visibility → Option LWYI_error)
    (hg : ∀ e r, g e = some r → r.target = e.1) (d : Target) :
    ∀ (l : List (Target × Visibility)),
      (l.filterMap g).filter (fun r => r.target = d) =
        (l.filter (fun e => e.1 = d)).filterMap g
  | [] => rfl
  | e :: l => by
    have ih := filter_filterMap_target g hg d l
    cases hge : g e with
    | none =>
      by_cases hd : e.1 = d
      · simp [List.filterMap_cons, List.filter_cons, hge, hd, ih]
      · simp [List.filterMap_cons, List.filter_cons, hge, hd, ih]
    | some r =>
      have hr := hg e r hge
      by_cases hd : e.1 = d
      · simp [List.filterMap_cons, List.filter_cons, hge, hd, ih, hr]
      · simp [List.filterMap_cons, List.filter_cons, hge, hd, ih, hr]

/-- C1. `check_target` reports exactly the mismatches: for every target `d` the errors
of the returned list that name `d` are the single error `(d, linked d, included d)` when
`linked d ≠ included d`, and there is none when `linked d = included d`. -/
theorem check_target_reports_exactly_the_mismatches (m : Target_model) (target : Target)
    (td : Target_data) (ti : Intransitive_includes) (d : Target) :
    ((check_target m target td ti).filter (fun e => e.target = d)).map
        (fun e => (e.target, e.linked_visibility, e.included_visibility)) =
      if linked m td d = included m ti d then []
      else [(d, linked m td d, included m ti d)] := by
  obtain ⟨-, hik⟩ := collect_include_deps_spec m ti.interface_includes
  obtain ⟨-, hpk⟩ := collect_include_deps_spec m ti.includes
  obtain ⟨hs, hget⟩ := visibility_map_spec m td
    (collect_include_deps m ti.interface_includes) (collect_include_deps m ti.includes)
  have hL : ∀ (b : Dependency_visibility),
      Dependency_visibility.none.or b = b := by
    intro b; simp [Dependency_visibility.or, Dependency_visibility.none]
  have hv := hget d
  simp only [hL] at hv
  have hlinked : linked m td d = ((map_find Target.lt d (visibility_map m td
      (collect_include_deps m ti.interface_includes)
      (collect_include_deps m ti.includes))).getD {}).linked_visibility := by
    rw [hv]; rfl
  have hincluded : included m ti d = ((map_find Target.lt d (visibility_map m td
      (collect_include_deps m ti.interface_includes)
      (collect_include_deps m ti.includes))).getD {}).included_visibility := by
    rw [hv]
    unfold included
    simp only [hik d, hpk d]
  unfold check_target
  simp only []
  rw [filter_filterMap_target _ _ d, filter_key_eq_map_find target_lt_strict d _ hs]
  · rw [hlinked, hincluded]
    cases hfd : map_find Target.lt d (visibility_map m td
      (collect_include_deps m ti.interface_includes)
      (collect_include_deps m ti.includes)) with
    | none => simp
    | some v =>
      by_cases hv : v.linked_visibility = v.included_visibility
      · simp [hv]
      · simp [hv]
  · intro e r hr
    by_cases hv : e.2.linked_visibility = e.2.included_visibility
    · simp [hv] at hr
    · simp only [hv, if_false, Option.some.injEq] at hr
      rw [← hr]

end lwyi
namespace stdlib

theorem mismatch_spec : ∀ (a b : List String),
    ∃ c, a = c ++ (mismatch a b).1 ∧ b = c ++ (mismatch a b).2 ∧
      ((mismatch a b).1 = [] ∨ (mismatch a b).2 = [] ∨
        (mismatch a b).1.head? ≠ (mismatch a b).2.head?)
  | [], b => ⟨[], by simp [mismatch]⟩
  | _ :: _, [] => ⟨[], by simp [mismatch]⟩
  | x :: a, y :: b => by
    by_cases hxy : x = y
    · subst hxy
      obtain ⟨c, h1, h2, h3⟩ := mismatch_spec a b
      refine ⟨x :: c, ?_, ?_, ?_⟩
      · simp only [mismatch, if_true, List.cons_append]; rw [← h1]
      · simp only [mismatch, if_true, List.cons_append]; rw [← h2]
      · simpa [mismatch] using h3
    · exact ⟨[], by simp [mismatch, hxy]⟩

theorem relativeDepth_plain : ∀ (b : List String),
    (∀ e ∈ b, e ≠ "" ∧ e ≠ "." ∧ e ≠ "..") → relativeDepth b = (b.length : Int)
  | [], _ => rfl
  | e :: es, h => by
    have he := h e (by simp)
    have ih := relativeDepth_plain es (fun x hx => h x (by simp [hx]))
    simp [relativeDepth, he.1, he.2.1, he.2.2, ih]

theorem foldl_append_head (x : String) (hx : x ≠ "") : ∀ (l : List String) (t : List String),
    ∃ t', l.foldl (fun ret e => ret.append (Path.ofElem e)) (⟨false, x :: t⟩ : Path) =
      ⟨false, x :: t'⟩
  | [], t => ⟨t, rfl⟩
  | e :: l, t => by
    have hstep : ∃ t1, (⟨false, x :: t⟩ : Path).append (Path.ofElem e) = ⟨false, x :: t1⟩ := by
      have hbase : ∃ t0, (if (x :: t).getLast? = some "" then (x :: t).dropLast else x :: t)
          = x :: t0 := by
        by_cases hl : (x :: t).getLast? = some ""
        · cases t with
          | nil => simp at hl; exact absurd hl hx
          | cons y t => exact ⟨(y :: t).dropLast, by simp [hl]⟩
        · exact ⟨t, by simp [hl]⟩
      obtain ⟨t0, ht0⟩ := hbase
      by_cases he : e = ""
      · refine ⟨t0 ++ [""], ?_⟩
        simp only [Path.append, Path.ofElem, he, if_true, ht0]
        simp
      · refine ⟨t0 ++ [e], ?_⟩
        simp only [Path.append, Path.ofElem, he, if_false, ht0]
        simp
    obtain ⟨t1, ht1⟩ := hstep
    obtain ⟨t', ht'⟩ := foldl_append_head x hx l t1
    exact ⟨t', by simp only [List.foldl_cons, ht1, ht']⟩

end stdlib

namespace util
open stdlib

theorem is_in_directory_plain (D p : Path) (hD : D.plain) :
    is_in_directory D p = true ↔
      (p.root = D.root ∧ ∃ rest, p.elems = D.elems ++ rest ∧ rest.head? ≠ some "..") := by
  obtain ⟨pr, pe⟩ := p
  obtain ⟨dr, de⟩ := D
  simp only [Path.plain] at hD
  by_cases hr : pr = dr
  swap
  · simp [is_in_directory, Path.lexically_relative, hr, Path.empty]
  subst hr
  have hm : mismatch (Path.iter ⟨pr, pe⟩) (Path.iter ⟨pr, de⟩) = mismatch pe de := by
    cases pr <;> simp [Path.iter, mismatch]
  obtain ⟨c, h1, h2, h3⟩ := mismatch_spec pe de
  generalize hab : mismatch pe de = ab at h1 h2 h3
  obtain ⟨a, b⟩ := ab
  simp only at h1 h2 h3
  have hb : ∀ e ∈ b, e ≠ "" ∧ e ≠ "." ∧ e ≠ ".." := by
    intro e he; apply hD; rw [h2]; simp [he]
  have hn := relativeDepth_plain b hb
  simp only [is_in_directory, Path.lexically_relative, hm, hab, ne_eq, not_true, if_false, hn,
    true_and]
  cases b with
  | nil =>
    simp only [List.append_nil] at h2
    subst h2
    cases a with
    | nil =>
      simp only [List.append_nil] at h1
      subst h1
      simp [Path.empty, Path.iter]
    | cons x a' =>
      have hrest : ∀ rest, pe = de ++ rest ↔ rest = x :: a' := by
        intro rest; rw [h1]; simp; exact eq_comm
      by_cases hx : x = ""
      · subst hx
        simp [Path.empty, Path.iter]
        exact ⟨"" :: a', by simp [h1]⟩
      · have hfirst : (⟨false, []⟩ : Path).append (Path.ofElem x) = ⟨false, [x]⟩ := by
          simp [Path.append, Path.ofElem, hx]
        obtain ⟨t', ht'⟩ := foldl_append_head x hx a' []
        simp only [List.isEmpty_cons, List.isEmpty_nil, Bool.false_eq_true, false_and,
          List.length_nil, Nat.cast_zero, List.head?_cons, Option.some.injEq, hx, or_self,
          and_false, if_false, le_refl, if_true, Int.toNat_zero, List.replicate_zero,
          List.nil_append, List.foldl_cons, hfirst, ht', Path.empty, Path.iter]
        constructor
        · intro h
          refine ⟨x :: a', h1, ?_⟩
          simpa using h
        · rintro ⟨rest, hr1, hr2⟩
          rw [(hrest rest).1 hr1] at hr2
          simpa using hr2
  | cons y b' =>
    have hfirst : (⟨false, []⟩ : Path).append (Path.ofElem "..") = ⟨false, [".."]⟩ := by
      simp [Path.append, Path.ofElem]
    obtain ⟨t', ht'⟩ := foldl_append_head ".." (by decide)
      (List.replicate b'.length ".." ++ a) []
    have hpos : ¬ (((y :: b').length : Int) = 0) := by
      simp only [List.length_cons]; omega
    have hnn : (0 : Int) ≤ ((y :: b').length : Int) := by omega
    have hrep : List.replicate ((y :: b').length : Int).toNat ".." =
        ".." :: List.replicate b'.length ".." := by
      simp [List.replicate_succ]
    simp only [hpos, false_and, if_false, hnn, if_true, hrep, List.cons_append, List.foldl_cons,
      hfirst, ht', List.isEmpty_cons, Bool.false_eq_true, and_false, Path.empty, Path.iter]
    simp only [List.head?_cons, bne_self_eq_false, Bool.and_false, Bool.false_eq_true, false_iff]
    rintro ⟨rest, hr1, -⟩
    rw [h1, h2, List.append_assoc, List.append_cancel_left_eq] at hr1
    subst hr1
    simp at h3

end util
namespace stdlib

theorem sorted_insert_perm {A : Type} (lt : A → A → Bool) (x : A) :
    ∀ (l : List A), (sorted_insert lt x l).Perm (x :: l)
  | [] => List.Perm.refl _
  | y :: ys => by
    unfold sorted_insert
    split
    · exact ((sorted_insert_perm lt x ys).cons y).trans (List.Perm.swap x y ys)
    · exact List.Perm.refl _

theorem sort_perm {A : Type} (lt : A → A → Bool) : ∀ (l : List A), (sort lt l).Perm l
  | [] => List.Perm.refl _
  | x :: l => by
    have ih := sort_perm lt l
    unfold sort at ih ⊢
    simp only [List.foldr_cons]
    exact (sorted_insert_perm lt x _).trans (ih.cons x)

theorem mem_sort {A : Type} (lt : A → A → Bool) (l : List A) (x : A) :
    x ∈ sort lt l ↔ x ∈ l := (sort_perm lt l).mem_iff

theorem sorted_insert_sorted {A K : Type} {ltK : K → K → Bool} (h : StrictOrder ltK)
    (key : A → K) (lt : A → A → Bool) (hlt : ∀ a b, lt a b = ltK (key a) (key b)) (x : A) :
    ∀ (l : List A), l.Pairwise (fun a b => ltK (key b) (key a) = false) →
      (sorted_insert lt x l).Pairwise (fun a b => ltK (key b) (key a) = false)
  | [], _ => by simp [sorted_insert]
  | y :: ys, hs => by
    have hs' := List.pairwise_cons.1 hs
    unfold sorted_insert
    cases hyx : lt y x with
    | true =>
      simp only [if_true]
      refine List.pairwise_cons.2 ⟨?_, sorted_insert_sorted h key lt hlt x ys hs'.2⟩
      intro z hz
      rcases List.mem_cons.1 ((sorted_insert_perm lt x ys).mem_iff.1 hz) with rfl | hz
      · rw [hlt] at hyx
        exact not_lt_of_lt h hyx
      · exact hs'.1 z hz
    | false =>
      simp only [Bool.false_eq_true, if_false]
      refine List.pairwise_cons.2 ⟨?_, hs⟩
      rw [hlt] at hyx
      intro z hz
      rcases List.mem_cons.1 hz with rfl | hz
      · exact hyx
      · -- ¬ y < x and ¬ z < y give ¬ z < x
        have hzy := hs'.1 z hz
        cases hzx : ltK (key z) (key x) with
        | false => rfl
        | true =>
          exfalso
          by_cases hyz : key y = key z
          · rw [hyz, hzx] at hyx; exact Bool.noConfusion hyx
          · have := lt_of_ne_of_not_lt h (Ne.symm hyz) hzy
            have := h.trans _ _ _ this hzx
            rw [this] at hyx; exact Bool.noConfusion hyx

theorem sort_sorted {A K : Type} {ltK : K → K → Bool} (h : StrictOrder ltK)
    (key : A → K) (lt : A → A → Bool) (hlt : ∀ a b, lt a b = ltK (key a) (key b)) :
    ∀ (l : List A), (sort lt l).Pairwise (fun a b => ltK (key b) (key a) = false)
  | [] => by simp [sort]
  | x :: l => by
    have ih := sort_sorted h key lt hlt l
    unfold sort at ih ⊢
    simp only [List.foldr_cons]
    exact sorted_insert_sorted h key lt hlt x _ ih

end stdlib

namespace target_model
open stdlib util

theorem strictly_sorted_of_adjacent_find : ∀ (l : List Element),
    l.Pairwise (fun a b => Target.lt b.1 a.1 = false) → adjacent_find l = none →
      l.Pairwise (fun a b => Target.lt a.1 b.1 = true)
  | [], _, _ => List.Pairwise.nil
  | [_], _, _ => by simp
  | a :: b :: rest, hs, hadj => by
    have hs' := List.pairwise_cons.1 hs
    have hab : a.1 ≠ b.1 := by
      intro hab; simp [adjacent_find, hab] at hadj
    have hadj' : adjacent_find (b :: rest) = none := by
      simpa [adjacent_find, hab] using hadj
    have ih := strictly_sorted_of_adjacent_find (b :: rest) hs'.2 hadj'
    refine List.pairwise_cons.2 ⟨?_, ih⟩
    have hlt : Target.lt a.1 b.1 = true :=
      lt_of_ne_of_not_lt target_lt_strict (Ne.symm hab) (hs'.1 b (by simp))
    intro z hz
    rcases List.mem_cons.1 hz with rfl | hz
    · exact hlt
    · exact target_lt_strict.trans _ _ _ hlt ((List.pairwise_cons.1 ih).1 z hz)

theorem lower_bound_of_mem : ∀ (l : List Element),
    l.Pairwise (fun a b => Target.lt a.1 b.1 = true) → ∀ e ∈ l,
      ∃ rest, lower_bound e.1 l = e :: rest
  | [], _, e, he => by simp at he
  | x :: l, hs, e, he => by
    have hs' := List.pairwise_cons.1 hs
    rcases List.mem_cons.1 he with rfl | he
    · exact ⟨l, by simp [lower_bound, List.dropWhile_cons, target_lt_strict.irrefl]⟩
    · have hxe : Target.lt x.1 e.1 = true := hs'.1 e he
      obtain ⟨rest, hrest⟩ := lower_bound_of_mem l hs'.2 e he
      refine ⟨rest, ?_⟩
      unfold lower_bound at hrest ⊢
      simp [List.dropWhile_cons, hxe, hrest]

theorem get_target_data_of_mem (m : Target_model)
    (hs : m.target_to_target_data_.Pairwise (fun a b => Target.lt a.1 b.1 = true))
    (e : Element) (he : e ∈ m.target_to_target_data_) :
    m.get_target_data e.1 = some e.2 := by
  obtain ⟨rest, hrest⟩ := lower_bound_of_mem _ hs e he
  simp [Target_model.get_target_data, hrest]

theorem ctor_entries (l : List Element) :
    (Target_model.ctor l).target_to_target_data_ = stdlib.sort Less l := rfl

theorem ctor_sorted (l : List Element) :
    (Target_model.ctor l).target_to_target_data_.Pairwise
      (fun a b => Target.lt b.1 a.1 = false) :=
  sort_sorted target_lt_strict Prod.fst Less (fun _ _ => rfl) l

theorem mem_directories_foldl (es : List Element) : ∀ (acc : List (Path × Element))
    (x : Path × Element),
    x ∈ es.foldl (fun acc element =>
        acc ++ element.2.interface_include_directories.map fun directory =>
          (directory, element)) acc ↔
      x ∈ acc ∨ (x.2 ∈ es ∧ x.1 ∈ x.2.2.interface_include_directories) := by
  induction es with
  | nil => intro acc x; simp
  | cons e es ih =>
    intro acc x
    simp only [List.foldl_cons, ih, List.mem_append, List.mem_map, List.mem_cons]
    constructor
    · rintro ((h | ⟨d, hd, rfl⟩) | h)
      · exact Or.inl h
      · exact Or.inr ⟨Or.inl rfl, hd⟩
      · exact Or.inr ⟨Or.inr h.1, h.2⟩
    · rintro (h | ⟨rfl | h, hd⟩)
      · exact Or.inl (Or.inl h)
      · exact Or.inl (Or.inr ⟨x.1, hd, rfl⟩)
      · exact Or.inr ⟨h, hd⟩

theorem mem_directory_to_target (l : List Element) (x : Path × Element) :
    x ∈ (Target_model.ctor l).directory_to_target_ ↔
      (x.2 ∈ l ∧ x.1 ∈ x.2.2.interface_include_directories) := by
  unfold Target_model.ctor
  simp only [mem_directories_foldl, List.not_mem_nil, false_or, mem_sort]

end target_model
namespace stdlib

theorem umap_find_set {K V : Type} [DecidableEq K] (k p : K) (v : V) :
    ∀ (l : List (K × V)), umap_find p (umap_set k v l) =
      if k = p then some v else umap_find p l
  | [] => by simp [umap_set, umap_find]
  | (k', v') :: rest => by
    by_cases hk : k' = k
    · subst hk
      by_cases hp : k' = p <;> simp [umap_set, umap_find, hp]
    · by_cases hp : k' = p
      · subst hp
        simp [umap_set, umap_find, hk, Ne.symm hk]
      · simp [umap_set, umap_find, hk, hp, umap_find_set k p v rest]

end stdlib

namespace target_model
open stdlib util

theorem umap_find_headers_inner (element : Element) (p : Path) (e : Element) :
    ∀ (hs : List Path) (acc : List (Path × Element)),
      umap_find p (hs.foldl (fun acc header => umap_set header element acc) acc) = some e →
        umap_find p acc = some e ∨ (p ∈ hs ∧ e = element)
  | [], acc, h => Or.inl h
  | x :: hs, acc, h => by
    rcases umap_find_headers_inner element p e hs _ h with h1 | h1
    · rw [umap_find_set] at h1
      by_cases hx : x = p
      · simp only [hx, if_true, Option.some.injEq] at h1
        exact Or.inr ⟨by simp [hx], h1.symm⟩
      · simp only [hx, if_false] at h1
        exact Or.inl h1
    · exact Or.inr ⟨by simp [h1.1], h1.2⟩

theorem umap_find_headers (p : Path) (e : Element) :
    ∀ (es : List Element) (acc : List (Path × Element)),
      umap_find p (es.foldl (fun acc element =>
        element.2.interface_headers.foldl (fun acc header => umap_set header element acc) acc)
        acc) = some e →
        umap_find p acc = some e ∨ (e ∈ es ∧ p ∈ e.2.interface_headers)
  | [], acc, h => Or.inl h
  | x :: es, acc, h => by
    rcases umap_find_headers p e es _ h with h1 | h1
    · rcases umap_find_headers_inner x p e _ _ h1 with h2 | h2
      · exact Or.inl h2
      · exact Or.inr ⟨by simp [h2.2], by rw [h2.2]; exact h2.1⟩
    · exact Or.inr ⟨by simp [h1.1], h1.2⟩

theorem header_to_target_sound (l : List Element) (p : Path) (e : Element)
    (h : umap_find p (Target_model.ctor l).header_to_target_ = some e) :
    e ∈ l ∧ p ∈ e.2.interface_headers := by
  unfold Target_model.ctor at h
  rcases umap_find_headers p e _ _ h with h1 | h1
  · simp [umap_find] at h1
  · exact ⟨(mem_sort _ _ _).1 h1.1, h1.2⟩

theorem validate_pair_ne_empty (m : Target_model) (pair other_pair : Path × Element)
    (err : String) (h : validate_pair m pair other_pair = some err) : err ≠ "" := by
  intro he
  subst he
  unfold validate_pair at h
  simp only at h
  split at h
  · exact Option.noConfusion h
  · split at h
    · split at h
      · split at h
        · have := congrArg String.length (Option.some.inj h)
          simp only [String.length_append] at this
          have h5 : " and ".length = 5 := by decide
          have h0 : "".length = 0 := by decide
          omega
        · obtain ⟨pfx, -, hp⟩ := Option.map_eq_some'.1 h
          have := congrArg String.length hp
          simp only [String.length_append] at this
          have h5 : " and ".length = 5 := by decide
          have h0 : "".length = 0 := by decide
          omega
      · exact Option.noConfusion h
    · exact Option.noConfusion h

theorem validate_eq_empty (m : Target_model) (h : m.validate = "") :
    adjacent_find m.target_to_target_data_ = none ∧
    ∀ pair ∈ m.directory_to_target_, ∀ other_pair ∈ m.directory_to_target_,
      validate_pair m pair other_pair = none := by
  unfold Target_model.validate at h
  cases hadj : adjacent_find m.target_to_target_data_ with
  | some it =>
    rw [hadj] at h
    have := congrArg String.length h
    simp only [String.length_append] at this
    have h7 : "Target ".length = 7 := by decide
    have h0 : "".length = 0 := by decide
    omega
  | none =>
    refine ⟨rfl, ?_⟩
    rw [hadj] at h
    simp only at h
    intro pair hp other hop
    cases hfs : m.directory_to_target_.findSome? (fun pair =>
        m.directory_to_target_.findSome? fun other_pair => validate_pair m pair other_pair) with
    | none =>
      have h1 := List.findSome?_eq_none_iff.1 hfs pair hp
      exact List.findSome?_eq_none_iff.1 h1 other hop
    | some err =>
      rw [hfs] at h
      simp only at h
      subst h
      obtain ⟨x, -, hx⟩ := List.exists_of_findSome?_eq_some hfs
      obtain ⟨y, -, hy⟩ := List.exists_of_findSome?_eq_some hx
      exact absurd rfl (validate_pair_ne_empty m x y "" hy)


theorem is_interface_header_by_directory (td : Target_data) (p : Path)
    (hh : p ∉ td.interface_headers) (hp : td.interface_include_prefixes = []) :
    is_interface_header td p = true ↔
      ∃ D ∈ td.interface_include_directories, is_in_directory D p = true := by
  simp [is_interface_header, hh, hp]

theorem is_in_directory_of_common (D1 D2 p : Path) (h1 : D1.plain) (h2 : D2.plain)
    (c1 : is_in_directory D1 p = true) (c2 : is_in_directory D2 p = true) :
    is_in_directory D1 D2 = true ∨ is_in_directory D2 D1 = true := by
  obtain ⟨r1, rest1, e1, -⟩ := (is_in_directory_plain D1 p h1).1 c1
  obtain ⟨r2, rest2, e2, -⟩ := (is_in_directory_plain D2 p h2).1 c2
  have hpre : ∀ (A B : Path), B.plain → A.root = B.root → A.elems <+: B.elems →
      A.plain → is_in_directory A B = true := by
    intro A B hB hr hpre hA
    obtain ⟨rest, hrest⟩ := hpre
    refine (is_in_directory_plain A B hA).2 ⟨hr.symm, rest, hrest.symm, ?_⟩
    cases rest with
    | nil => simp
    | cons x t =>
      have := hB x (by rw [← hrest]; simp)
      simpa using this.2.2
  have hp1 : D1.elems <+: p.elems := ⟨rest1, e1.symm⟩
  have hp2 : D2.elems <+: p.elems := ⟨rest2, e2.symm⟩
  rcases List.prefix_or_prefix_of_prefix hp1 hp2 with h | h
  · exact Or.inl (hpre D1 D2 h2 (r1.symm.trans r2) h h1)
  · exact Or.inr (hpre D2 D1 h1 (r2.symm.trans r1) h h2)

/-- C2 (amended). In a validated model in which no target declares include prefixes and
every interface include directory is a plain path, a path `p` that no target lists among
its interface headers is claimed by at most one target, and `map_header_to_target p`
returns that claimant. -/
theorem validated_directory_claims_are_unique (l : List Element)
    (hv : (Target_model.ctor l).validate = "")
    (hpfx : ∀ e ∈ l, e.2.interface_include_prefixes = [])
    (hplain : ∀ e ∈ l, ∀ D ∈ e.2.interface_include_directories, D.plain)
    (p : Path) (hnh : ∀ e ∈ l, p ∉ e.2.interface_headers)
    (e1 : Element) (he1 : e1 ∈ l) (hc1 : is_interface_header e1.2 p = true) :
    (∀ e2 ∈ l, is_interface_header e2.2 p = true → e2 = e1) ∧
    (Target_model.ctor l).map_header_to_target p = some e1.1 := by
  obtain ⟨hadj, hpairs⟩ := validate_eq_empty _ hv
  have hss := strictly_sorted_of_adjacent_find _ (ctor_sorted l) hadj
  have hget : ∀ e ∈ l, (Target_model.ctor l).get_target_data e.1 = some e.2 := fun e he =>
    get_target_data_of_mem _ hss e ((mem_sort _ _ _).2 he)
  -- two directory claims on `p` come from the same entry
  have huniq : ∀ ea ∈ l, ∀ eb ∈ l, ∀ Da ∈ ea.2.interface_include_directories,
      ∀ Db ∈ eb.2.interface_include_directories,
      is_in_directory Da Db = true → ea.1 = eb.1 := by
    intro ea hea eb heb Da hDa Db hDb hin
    by_contra hne
    have hp := hpairs (Da, ea) ((mem_directory_to_target l _).2 ⟨hea, hDa⟩)
      (Db, eb) ((mem_directory_to_target l _).2 ⟨heb, hDb⟩)
    simp [validate_pair, hne, hin, hget ea hea, hget eb heb, hpfx ea hea] at hp
  have hsame : ∀ ea ∈ l, ∀ eb ∈ l, ea.1 = eb.1 → ea = eb := by
    intro ea hea eb heb hn
    have h1 := hget ea hea
    have h2 := hget eb heb
    rw [hn, h2] at h1
    exact Prod.ext hn (Option.some.inj h1).symm
  have hclaim : ∀ e2 ∈ l, is_interface_header e2.2 p = true → e2 = e1 := by
    intro e2 he2 hc2
    obtain ⟨D1, hD1, c1⟩ :=
      (is_interface_header_by_directory e1.2 p (hnh e1 he1) (hpfx e1 he1)).1 hc1
    obtain ⟨D2, hD2, c2⟩ :=
      (is_interface_header_by_directory e2.2 p (hnh e2 he2) (hpfx e2 he2)).1 hc2
    rcases is_in_directory_of_common D1 D2 p (hplain e1 he1 D1 hD1) (hplain e2 he2 D2 hD2)
      c1 c2 with h | h
    · exact (hsame e1 he1 e2 he2 (huniq e1 he1 e2 he2 D1 hD1 D2 hD2 h)).symm
    · exact hsame e2 he2 e1 he1 (huniq e2 he2 e1 he1 D2 hD2 D1 hD1 h)
  refine ⟨hclaim, ?_⟩
  have hnone : umap_find p (Target_model.ctor l).header_to_target_ = none := by
    cases hf : umap_find p (Target_model.ctor l).header_to_target_ with
    | none => rfl
    | some e =>
      obtain ⟨hel, hph⟩ := header_to_target_sound l p e hf
      exact absurd hph (hnh e hel)
  obtain ⟨D1, hD1, c1⟩ :=
    (is_interface_header_by_directory e1.2 p (hnh e1 he1) (hpfx e1 he1)).1 hc1
  unfold Target_model.map_header_to_target
  rw [hnone]
  simp only
  cases hfind : (Target_model.ctor l).directory_to_target_.find? (fun pair =>
      match (Target_model.ctor l).get_target_data pair.2.1 with
      | some target_data =>
        if target_data.interface_include_prefixes.isEmpty then
          is_in_directory pair.1 p
        else
          target_data.interface_include_prefixes.any fun pfx =>
            is_in_directory (pair.1.append (Path.ofString pfx)) p
      | none => false) with
  | none =>
    have := List.find?_eq_none.1 hfind (D1, e1) ((mem_directory_to_target l _).2 ⟨he1, hD1⟩)
    simp [hget e1 he1, hpfx e1 he1, c1] at this
  | some x =>
    have hx := List.find?_some hfind
    have hxm := (mem_directory_to_target l _).1 (List.mem_of_find?_eq_some hfind)
    simp only [hget x.2 hxm.1, hpfx x.2 hxm.1, List.isEmpty_nil, if_true] at hx
    have hcx : is_interface_header x.2.2 p = true :=
      (is_interface_header_by_directory x.2.2 p (hnh x.2 hxm.1) (hpfx x.2 hxm.1)).2
        ⟨x.1, hxm.2, hx⟩
    simp [hclaim x.2 hxm.1 hcx]

/-- C2 (counterexample). The model of two targets `a` and `b` that both list `/h.hpp`
passes `validate`, yet both targets claim `/h.hpp`; `map_header_to_target` answers `b`. -/
theorem validate_accepts_shared_header :
    (Target_model.ctor shared_header_entries).validate = "" ∧
    (∃ e1 ∈ shared_header_entries, ∃ e2 ∈ shared_header_entries,
      is_interface_header e1.2 ⟨true, ["h.hpp"]⟩ = true ∧
      is_interface_header e2.2 ⟨true, ["h.hpp"]⟩ = true ∧ e1.1 ≠ e2.1) ∧
    (Target_model.ctor shared_header_entries).map_header_to_target ⟨true, ["h.hpp"]⟩ =
      some ⟨"b"⟩ := by
  refine ⟨by decide, by decide, by decide⟩

/-- The same model that passes `validate` may be ambiguous through an include prefix: the
directory `/inc/liba` of `b` lies under the prefixed directory `/inc/liba` of `a`, and
both targets claim `/inc/liba/x.h`. -/
theorem validate_accepts_nested_prefix_directory :
    (Target_model.ctor nested_prefix_entries).validate = "" ∧
    (∀ e ∈ nested_prefix_entries,
      is_interface_header e.2 ⟨true, ["inc", "liba", "x.h"]⟩ = true) ∧
    (Target_model.ctor nested_prefix_entries).map_header_to_target
      ⟨true, ["inc", "liba", "x.h"]⟩ = some ⟨"a"⟩ := by
  refine ⟨by decide, by decide, by decide⟩

/-- C2 (witness). Two targets with the plain directories `/a/include` and `/b/include`:
`/a/include/x.h` is claimed by `a` alone and resolves to `a`. -/
theorem validated_directory_claims_are_unique_witness :
    (∀ e2 ∈ plain_directory_entries,
      is_interface_header e2.2 ⟨true, ["a", "include", "x.h"]⟩ = true →
        e2 = (⟨"a"⟩, { interface_include_directories := [⟨true, ["a", "include"]⟩] })) ∧
    (Target_model.ctor plain_directory_entries).map_header_to_target
      ⟨true, ["a", "include", "x.h"]⟩ = some ⟨"a"⟩ :=
  validated_directory_claims_are_unique plain_directory_entries (by decide) (by decide)
    (by decide) ⟨true, ["a", "include", "x.h"]⟩ (by decide)
    (⟨"a"⟩, { interface_include_directories := [⟨true, ["a", "include"]⟩] })
    (by decide) (by decide)

end target_model
namespace scanner
open stdlib util target_model

theorem set_insert_paths (x : Include) (p : Path) : ∀ (s : Include_set),
    p ∈ (set_insert Include_cmp x s).map (·.path) ↔ p = x.path ∨ p ∈ s.map (·.path)
  | [] => by simp [set_insert]
  | y :: ys => by
    cases h1 : Include_cmp x y with
    | true => simp [set_insert, h1]
    | false =>
      cases h2 : Include_cmp y x with
      | true =>
        simp only [set_insert, h1, h2, if_true, Bool.false_eq_true, if_false, List.map_cons,
          List.mem_cons, set_insert_paths x p ys]
        tauto
      | false =>
        have hxy : x.path = y.path := path_lt_strict.tri _ _ h1 h2
        simp only [set_insert, h1, h2, Bool.false_eq_true, if_false, List.map_cons,
          List.mem_cons, hxy]
        tauto

theorem set_merge_paths (p : Path) : ∀ (src t : Include_set),
    p ∈ (set_merge Include_cmp t src).map (·.path) ↔
      p ∈ t.map (·.path) ∨ p ∈ src.map (·.path)
  | [], t => by simp [set_merge]
  | x :: src, t => by
    have ih := set_merge_paths p src (set_insert Include_cmp x t)
    unfold set_merge at ih ⊢
    simp only [List.foldl_cons, ih, set_insert_paths, List.map_cons, List.mem_cons]
    tauto

theorem bucket_merge_paths (p : Path) : ∀ (buckets : List (Path × Include_set))
    (acc : Include_set),
    p ∈ (buckets.foldl (fun acc bucket => set_merge Include_cmp acc bucket.2) acc).map
        (·.path) ↔
      p ∈ acc.map (·.path) ∨ ∃ b ∈ buckets, p ∈ b.2.map (·.path)
  | [], acc => by simp
  | b :: buckets, acc => by
    simp only [List.foldl_cons, bucket_merge_paths p buckets, set_merge_paths,
      List.mem_cons, exists_eq_or_imp]
    tauto

theorem merge_loop_ok (ds : List Include_data) : ∀ (ii inc : Include_set),
    ∃ out, merge_loop (ds.map Except.ok) ii inc = .ok out ∧
      (∀ p, p ∈ out.includes.map (·.path) ↔
        p ∈ inc.map (·.path) ∨ ∃ d ∈ ds, p ∈ d.includes.map (·.path)) ∧
      (∀ p, p ∈ out.interface_includes.map (·.path) ↔
        p ∈ ii.map (·.path) ∨
          ∃ d ∈ ds, ∃ b ∈ d.interface_header_includes, p ∈ b.2.map (·.path)) := by
  induction ds with
  | nil => intro ii inc; exact ⟨_, rfl, by simp, by simp⟩
  | cons d ds ih =>
    intro ii inc
    obtain ⟨out, h1, h2, h3⟩ := ih
      (d.interface_header_includes.foldl
        (fun acc bucket => set_merge Include_cmp acc bucket.2) ii)
      (set_merge Include_cmp inc d.includes)
    refine ⟨out, by simpa [merge_loop] using h1, ?_, ?_⟩
    · intro p
      rw [h2 p, set_merge_paths]
      simp only [List.mem_cons, exists_eq_or_imp]
      rw [or_assoc]
    · intro p
      rw [h3 p, bucket_merge_paths]
      simp only [List.mem_cons, exists_eq_or_imp]
      rw [or_assoc]

/-- C7 (amended). For every list of successful per-TU results `merge_includes` succeeds;
the paths of the returned `includes` are exactly the paths of the per-TU `includes`, and
the paths of the returned `interface_includes` are exactly the paths of the per-TU
interface header buckets. -/
theorem merge_includes_unions_by_kind (ds : List Include_data) :
    ∃ out, merge_includes (ds.map Except.ok) = .ok out ∧
      (∀ p, p ∈ out.includes.map (·.path) ↔ ∃ d ∈ ds, p ∈ d.includes.map (·.path)) ∧
      (∀ p, p ∈ out.interface_includes.map (·.path) ↔
        ∃ d ∈ ds, ∃ b ∈ d.interface_header_includes, p ∈ b.2.map (·.path)) := by
  obtain ⟨out, h1, h2, h3⟩ := merge_loop_ok ds [] []
  exact ⟨out, h1, by simpa using h2, by simpa using h3⟩

/-- C7 (counterexample). The translation unit `/v.cpp`, listed only in
`verify_interface_header_sets_sources`, includes the interface header `/interface.hpp`,
which includes `/a.hpp`: the recorder leaves `/a.hpp` in the bucket of the header and
nothing in `includes`, and the merged `includes` is empty although `/a.hpp` is in a
bucket. -/
theorem merge_includes_leaves_bucket_out_of_includes :
    record { interface_headers := [⟨true, ["interface.hpp"]⟩]
             verify_interface_header_sets_sources := [⟨true, ["v.cpp"]⟩] } verify_trace =
      { includes := []
        interface_header_includes :=
          [(⟨true, ["interface.hpp"]⟩,
            [⟨⟨true, ["a.hpp"]⟩,
              [⟨⟨true, ["v.cpp"]⟩, 1⟩, ⟨⟨true, ["interface.hpp"]⟩, 1⟩]⟩])] } ∧
    merged_paths (merge_includes
      [.ok (record { interface_headers := [⟨true, ["interface.hpp"]⟩]
                     verify_interface_header_sets_sources := [⟨true, ["v.cpp"]⟩] }
              verify_trace)]) =
      .ok ([⟨true, ["a.hpp"]⟩], []) := by
  constructor <;> decide


theorem read_modify_same (d : Include_data) (g : Include_set → Include_set)
    (hs : KeysSorted Path.lt d.interface_header_includes) (ref : Include_set_ref) :
    (d.modify g ref).read ref = g (d.read ref) := by
  cases ref with
  | includes => rfl
  | bucket h =>
    simp [Include_data.modify, Include_data.read, map_find_update path_lt_strict _ _ _ _ _ hs]

theorem read_touch (d : Include_data) (hs : KeysSorted Path.lt d.interface_header_includes)
    (f h : Path) : (d.modify id (.bucket f)).read (.bucket h) = d.read (.bucket h) := by
  simp only [Include_data.modify, Include_data.read,
    map_find_update path_lt_strict _ _ _ _ _ hs]
  by_cases hf : h = f
  · subst hf; simp
  · simp [hf]

theorem modify_sorted (d : Include_data) (g : Include_set → Include_set)
    (hs : KeysSorted Path.lt d.interface_header_includes) (ref : Include_set_ref) :
    KeysSorted Path.lt (d.modify g ref).interface_header_includes := by
  cases ref with
  | includes => exact hs
  | bucket h => exact map_update_sorted path_lt_strict _ _ _ _ hs

/-- C8. When the recorder is in an interface header (its include set is the bucket of
`h`) and the file exited to, `f`, is an interface header or a private source of the
target, then after the event the include set bound is the one of `f` (its own bucket for
an interface header, the TU-wide `includes` for a source) and it holds the path of every
include of the bucket of `h`. On the chained trace both merged sets are `a, b, c`. -/
theorem exit_propagates_interface_header_bucket (td : Target_data) (r : PPRecorder)
    (h f : Path) (prev_fid : FileID)
    (hsorted : KeysSorted Path.lt r.include_data_.interface_header_includes)
    (hctx : r.context_ = .interface_header)
    (hset : r.current_include_set_ = some (.bucket h))
    (hprev : prev_fid ≠ .predefines)
    (hf : is_interface_header td f = true ∨ is_private_source td f = true) :
    ((r.LexedFileChanged td (.file f) .ExitFile prev_fid).current_include_set_ =
        some (if is_interface_header td f = true then .bucket f else .includes) ∧
      ∀ i ∈ r.include_data_.read (.bucket h),
        i.path ∈ ((r.LexedFileChanged td (.file f) .ExitFile prev_fid).include_data_.read
          (if is_interface_header td f = true then .bucket f else .includes)).map (·.path)) ∧
    merged_paths (merge_includes [.ok (record chained_target_data chained_trace)]) =
      .ok ([⟨true, ["a.hpp"]⟩, ⟨true, ["b.hpp"]⟩, ⟨true, ["c.hpp"]⟩],
           [⟨true, ["a.hpp"]⟩, ⟨true, ["b.hpp"]⟩, ⟨true, ["c.hpp"]⟩]) := by
  refine ⟨?_, by decide⟩
  by_cases hi : is_interface_header td f = true
  · have hs' := modify_sorted r.include_data_ id hsorted (.bucket f)
    have key : (r.LexedFileChanged td (.file f) .ExitFile prev_fid).current_include_set_ =
          some (.bucket f) ∧
        (r.LexedFileChanged td (.file f) .ExitFile prev_fid).include_data_ =
          (r.include_data_.modify id (.bucket f)).modify
            (fun s => set_merge Include_cmp s
              ((r.include_data_.modify id (.bucket f)).read (.bucket h))) (.bucket f) := by
      cases hc : r.include_chain_.isEmpty <;>
      simp [PPRecorder.LexedFileChanged, FileID.name, hprev, hi, hctx, hset, hc]
    rw [key.1, key.2]
    simp only [hi, if_true, true_and]
    intro i hi'
    simp only [read_modify_same _ _ hs', read_touch _ hsorted, set_merge_paths]
    exact Or.inr (List.mem_map.2 ⟨i, hi', rfl⟩)
  · have hp : is_private_source td f = true := hf.resolve_left hi
    have key : (r.LexedFileChanged td (.file f) .ExitFile prev_fid).current_include_set_ =
          some .includes ∧
        (r.LexedFileChanged td (.file f) .ExitFile prev_fid).include_data_ =
          r.include_data_.modify
            (fun s => set_merge Include_cmp s (r.include_data_.read (.bucket h))) .includes := by
      cases hc : r.include_chain_.isEmpty <;>
      simp [PPRecorder.LexedFileChanged, FileID.name, hprev, hi, hp, hctx, hset, hc]
    rw [key.1, key.2]
    simp only [hi, Bool.false_eq_true, if_false, true_and]
    intro i hi'
    simp only [Include_data.modify, Include_data.read, set_merge_paths]
    exact Or.inr (List.mem_map.2 ⟨i, hi', rfl⟩)


/-- C8 (witness). Leaving `/interface.hpp`, whose bucket holds `/a.hpp`, for the source
`/private.cpp`. -/
theorem exit_propagates_interface_header_bucket_witness :
    ((recorder_in_interface_header.LexedFileChanged basic_target_data
          (.file ⟨true, ["private.cpp"]⟩) .ExitFile
          (.file ⟨true, ["interface.hpp"]⟩)).current_include_set_ =
        some (if is_interface_header basic_target_data ⟨true, ["private.cpp"]⟩ = true
          then .bucket ⟨true, ["private.cpp"]⟩ else .includes) ∧
      ∀ i ∈ recorder_in_interface_header.include_data_.read
          (.bucket ⟨true, ["interface.hpp"]⟩),
        i.path ∈ ((recorder_in_interface_header.LexedFileChanged basic_target_data
          (.file ⟨true, ["private.cpp"]⟩) .ExitFile
          (.file ⟨true, ["interface.hpp"]⟩)).include_data_.read
          (if is_interface_header basic_target_data ⟨true, ["private.cpp"]⟩ = true
            then .bucket ⟨true, ["private.cpp"]⟩ else .includes)).map (·.path)) ∧
    merged_paths (merge_includes [.ok (record chained_target_data chained_trace)]) =
      .ok ([⟨true, ["a.hpp"]⟩, ⟨true, ["b.hpp"]⟩, ⟨true, ["c.hpp"]⟩],
           [⟨true, ["a.hpp"]⟩, ⟨true, ["b.hpp"]⟩, ⟨true, ["c.hpp"]⟩]) :=
  exit_propagates_interface_header_bucket basic_target_data recorder_in_interface_header
    ⟨true, ["interface.hpp"]⟩ ⟨true, ["private.cpp"]⟩ (.file ⟨true, ["interface.hpp"]⟩)
    (by unfold KeysSorted; decide) (by decide) (by decide) (by decide) (by decide)

theorem enter_without_set_keeps_data (td : Target_data) (r : PPRecorder)
    (hset : r.current_include_set_ = none) (g : Path) (prev_fid : FileID)
    (hi : is_interface_header td g = false) (hp : is_private_source td g = false) :
    (r.LexedFileChanged td (.file g) .EnterFile prev_fid).include_data_ = r.include_data_ := by
  cases hc : r.last_include_loc_.source.empty <;>
  simp [PPRecorder.LexedFileChanged, FileID.name, hi, hp, hset, hc]

/-- C9. In a recorder state where the file being lexed was entered as an arbitrary file
(no include set is bound), entering the predefines buffer or a file that is itself
arbitrary, and skipping any file, leave `includes` and every bucket of
`interface_header_includes` as they are. -/
theorem foreign_file_events_record_nothing (td : Target_data) (r : PPRecorder)
    (hctx : r.context_ = .arbitrary_file) (hset : r.current_include_set_ = none) :
    (∀ (prev_fid : FileID),
      (r.LexedFileChanged td .predefines .EnterFile prev_fid).include_data_ =
        r.include_data_) ∧
    (∀ (g : Path) (prev_fid : FileID), is_interface_header td g = false →
      is_private_source td g = false →
      (r.LexedFileChanged td (.file g) .EnterFile prev_fid).include_data_ =
        r.include_data_) ∧
    (∀ (g : Path), (r.FileSkipped td g).include_data_ = r.include_data_) := by
  refine ⟨fun prev_fid => ?_, fun g prev_fid hi hp => ?_, fun g => ?_⟩
  · simp [PPRecorder.LexedFileChanged]
  · exact enter_without_set_keeps_data td r hset g prev_fid hi hp
  · simp [PPRecorder.FileSkipped, hctx]

/-- C9 (witness). A recorder inside the foreign file `/a.hpp`. -/
theorem foreign_file_events_record_nothing_witness :
    (∀ (prev_fid : FileID),
      (recorder_in_foreign_file.LexedFileChanged basic_target_data .predefines .EnterFile
        prev_fid).include_data_ = recorder_in_foreign_file.include_data_) ∧
    (∀ (g : Path) (prev_fid : FileID), is_interface_header basic_target_data g = false →
      is_private_source basic_target_data g = false →
      (recorder_in_foreign_file.LexedFileChanged basic_target_data (.file g) .EnterFile
        prev_fid).include_data_ = recorder_in_foreign_file.include_data_) ∧
    (∀ (g : Path), (recorder_in_foreign_file.FileSkipped basic_target_data g).include_data_ =
      recorder_in_foreign_file.include_data_) :=
  foreign_file_events_record_nothing basic_target_data recorder_in_foreign_file
    (by decide) (by decide)

theorem step_ignores_verify_sources (td : Target_data) (vs : List Path) (r : PPRecorder)
    (e : Event) :
    r.step { td with verify_interface_header_sets_sources := vs } e = r.step td e := by
  cases e <;> rfl

/-- C10 (amended). The files of `verify_interface_header_sets_sources` are scanned as
translation units like those of `sources`, and no recorder event depends on that list:
a path `p` listed there that is neither an interface header nor in `sources` is entered
with the arbitrary file context and no include set bound, so a foreign file `g` entered
directly from it is not recorded. -/
theorem verify_sources_are_scanned_but_not_private (td : Target_data) (p : Path)
    (hv : p ∈ td.verify_interface_header_sets_sources)
    (hi : is_interface_header td p = false) (hs : p ∉ td.sources) :
    p ∈ source_paths td ∧
    (∀ (vs : List Path) (r : PPRecorder) (e : Event),
      r.step { td with verify_interface_header_sets_sources := vs } e = r.step td e) ∧
    (∀ (r : PPRecorder) (prev_fid : FileID),
      (r.LexedFileChanged td (.file p) .EnterFile prev_fid).context_ = .arbitrary_file ∧
      (r.LexedFileChanged td (.file p) .EnterFile prev_fid).current_include_set_ = none ∧
      ∀ (g : Path) (prev_fid' : FileID), is_interface_header td g = false →
        is_private_source td g = false →
        ((r.LexedFileChanged td (.file p) .EnterFile prev_fid).LexedFileChanged td (.file g)
          .EnterFile prev_fid').include_data_ =
        (r.LexedFileChanged td (.file p) .EnterFile prev_fid).include_data_) := by
  have hp : is_private_source td p = false := by
    simpa [is_private_source] using hs
  refine ⟨by simp [source_paths, hv], fun vs r e => step_ignores_verify_sources td vs r e,
    fun r prev_fid => ?_⟩
  have hctx : (r.LexedFileChanged td (.file p) .EnterFile prev_fid).context_ =
      .arbitrary_file := by
    cases hc : r.last_include_loc_.source.empty <;> cases hset : r.current_include_set_ <;>
    simp [PPRecorder.LexedFileChanged, FileID.name, hi, hp, hc, hset]
  have hset : (r.LexedFileChanged td (.file p) .EnterFile prev_fid).current_include_set_ =
      none := by
    cases hc : r.last_include_loc_.source.empty <;> cases hset : r.current_include_set_ <;>
    simp [PPRecorder.LexedFileChanged, FileID.name, hi, hp, hc, hset]
  exact ⟨hctx, hset, fun g prev_fid' hgi hgp =>
    enter_without_set_keeps_data td _ hset g prev_fid' hgi hgp⟩

/-- C10 (witness). The target whose only file is `/v.cpp`, listed in
`verify_interface_header_sets_sources`. -/
theorem verify_sources_are_scanned_but_not_private_witness :
    (⟨true, ["v.cpp"]⟩ : Path) ∈
      source_paths { verify_interface_header_sets_sources := [⟨true, ["v.cpp"]⟩] } ∧
    (∀ (vs : List Path) (r : PPRecorder) (e : Event),
      r.step { ({ verify_interface_header_sets_sources := [⟨true, ["v.cpp"]⟩] } : Target_data)
        with verify_interface_header_sets_sources := vs } e =
      r.step { verify_interface_header_sets_sources := [⟨true, ["v.cpp"]⟩] } e) ∧
    (∀ (r : PPRecorder) (prev_fid : FileID),
      (r.LexedFileChanged { verify_interface_header_sets_sources := [⟨true, ["v.cpp"]⟩] }
        (.file ⟨true, ["v.cpp"]⟩) .EnterFile prev_fid).context_ = .arbitrary_file ∧
      (r.LexedFileChanged { verify_interface_header_sets_sources := [⟨true, ["v.cpp"]⟩] }
        (.file ⟨true, ["v.cpp"]⟩) .EnterFile prev_fid).current_include_set_ = none ∧
      ∀ (g : Path) (prev_fid' : FileID),
        is_interface_header { verify_interface_header_sets_sources := [⟨true, ["v.cpp"]⟩] } g
          = false →
        is_private_source { verify_interface_header_sets_sources := [⟨true, ["v.cpp"]⟩] } g
          = false →
        ((r.LexedFileChanged { verify_interface_header_sets_sources := [⟨true, ["v.cpp"]⟩] }
          (.file ⟨true, ["v.cpp"]⟩) .EnterFile prev_fid).LexedFileChanged
            { verify_interface_header_sets_sources := [⟨true, ["v.cpp"]⟩] } (.file g)
          .EnterFile prev_fid').include_data_ =
        (r.LexedFileChanged { verify_interface_header_sets_sources := [⟨true, ["v.cpp"]⟩] }
          (.file ⟨true, ["v.cpp"]⟩) .EnterFile prev_fid).include_data_) :=
  verify_sources_are_scanned_but_not_private
    { verify_interface_header_sets_sources := [⟨true, ["v.cpp"]⟩] } ⟨true, ["v.cpp"]⟩
    (by decide) (by decide) (by decide)

/-- C10 (counterexample). The file `/v.cpp` includes the foreign `/a.hpp` directly.
Listed in `sources` it is entered as a source file bound to `includes`, and `/a.hpp` is
recorded there; listed in `verify_interface_header_sets_sources` it is entered as an
arbitrary file with no include set, and nothing is recorded. -/
theorem verify_sources_are_not_treated_like_sources :
    (({} : PPRecorder).LexedFileChanged { sources := [⟨true, ["v.cpp"]⟩] }
      (.file ⟨true, ["v.cpp"]⟩) .EnterFile .invalid).context_ = .source_file ∧
    (({} : PPRecorder).LexedFileChanged { sources := [⟨true, ["v.cpp"]⟩] }
      (.file ⟨true, ["v.cpp"]⟩) .EnterFile .invalid).current_include_set_ = some .includes ∧
    (({} : PPRecorder).LexedFileChanged
      { verify_interface_header_sets_sources := [⟨true, ["v.cpp"]⟩] }
      (.file ⟨true, ["v.cpp"]⟩) .EnterFile .invalid).context_ = .arbitrary_file ∧
    (({} : PPRecorder).LexedFileChanged
      { verify_interface_header_sets_sources := [⟨true, ["v.cpp"]⟩] }
      (.file ⟨true, ["v.cpp"]⟩) .EnterFile .invalid).current_include_set_ = none ∧
    (record { sources := [⟨true, ["v.cpp"]⟩] } direct_trace).includes.map (·.path) =
      [⟨true, ["a.hpp"]⟩] ∧
    (record { verify_interface_header_sets_sources := [⟨true, ["v.cpp"]⟩] }
      direct_trace).includes = [] := by
  decide

end scanner
namespace tidy
open stdlib target_model

theorem mem_lex_permutations : ∀ (n : Nat) (l : List Nat), l.length = n →
    ∀ (π : List Nat), π ∈ lex_permutations n l ↔ π.Perm l
  | 0, l, hl, π => by
    have : l = [] := List.length_eq_zero.1 hl
    subst this
    simp [lex_permutations]
  | n + 1, l, hl, π => by
    simp only [lex_permutations, List.mem_flatMap, List.mem_map]
    constructor
    · rintro ⟨x, hx, rest, hrest, rfl⟩
      have hlen : (l.erase x).length = n := by
        rw [List.length_erase_of_mem hx, hl]; rfl
      have := (mem_lex_permutations n (l.erase x) hlen rest).1 hrest
      exact (this.cons x).trans (List.perm_cons_erase hx).symm
    · intro hperm
      cases π with
      | nil =>
        have := hperm.length_eq
        simp [hl] at this
      | cons x rest =>
        have hx : x ∈ l := hperm.subset (by simp)
        have hlen : (l.erase x).length = n := by
          rw [List.length_erase_of_mem hx, hl]; rfl
        refine ⟨x, hx, rest, ?_, rfl⟩
        exact (mem_lex_permutations n (l.erase x) hlen rest).2
          (List.cons_perm_iff_perm_erase.1 hperm).2

theorem score_fold_nonneg (lhs rhs : List Cluster) (π : List Nat) :
    ∀ (is : List Nat) (s : Int), 0 ≤ s →
      0 ≤ is.foldl (fun score i => score + intersection_matrix lhs rhs i (π.getD i 0)) s
  | [], s, hs => hs
  | i :: is, s, hs => by
    simp only [List.foldl_cons]
    apply score_fold_nonneg lhs rhs π is
    have : 0 ≤ intersection_matrix lhs rhs i (π.getD i 0) := by
      unfold intersection_matrix
      exact Int.ofNat_nonneg _
    omega

theorem score_nonneg (lhs rhs : List Cluster) (π : List Nat) : 0 ≤ score lhs rhs π :=
  score_fold_nonneg lhs rhs π _ 0 (le_refl 0)

theorem max_search_fold (lhs rhs : List Cluster) : ∀ (perms : List (List Nat))
    (best : Int × List Nat),
    let result := perms.foldl
      (fun best permutation =>
        if best.1 < score lhs rhs permutation then (score lhs rhs permutation, permutation)
        else best) best
    best.1 ≤ result.1 ∧ (∀ π ∈ perms, score lhs rhs π ≤ result.1) ∧
      (result = best ∨ (result.2 ∈ perms ∧ result.1 = score lhs rhs result.2))
  | [], best => by simp
  | p :: perms, best => by
    intro result
    have ih := max_search_fold lhs rhs perms
      (if best.1 < score lhs rhs p then (score lhs rhs p, p) else best)
    simp only at ih
    obtain ⟨h1, h2, h3⟩ := ih
    have hres : result = perms.foldl
      (fun best permutation =>
        if best.1 < score lhs rhs permutation then (score lhs rhs permutation, permutation)
        else best) (if best.1 < score lhs rhs p then (score lhs rhs p, p) else best) := rfl
    rw [hres]
    by_cases hlt : best.1 < score lhs rhs p
    · simp only [hlt, if_true] at h1 h2 h3 ⊢
      refine ⟨by omega, ?_, ?_⟩
      · intro π hπ
        rcases List.mem_cons.1 hπ with rfl | hπ
        · exact h1
        · exact h2 π hπ
      · rcases h3 with h3 | h3
        · right
          rw [h3]
          exact ⟨by simp, rfl⟩
        · right
          exact ⟨by simp [h3.1], h3.2⟩
    · simp only [hlt, if_false] at h1 h2 h3 ⊢
      refine ⟨h1, ?_, ?_⟩
      · intro π hπ
        rcases List.mem_cons.1 hπ with rfl | hπ
        · omega
        · exact h2 π hπ
      · rcases h3 with h3 | h3
        · exact Or.inl h3
        · exact Or.inr ⟨by simp [h3.1], h3.2⟩

/-- C6 (amended). The slot permutation from which `cluster_diff` builds its result is a
permutation of the `max(|lhs|, |rhs|)` slots and maximises the sum of the entries
`intersection_matrix[i][π(i)]` over all permutations of the slots, where an entry is the
intersection size clamped to 32767 and a slot missing on one side counts the size of the
cluster on the other side (zero when both are missing). -/
theorem cluster_diff_matching_is_optimal (lhs rhs : List Cluster)
    (_hsize : max lhs.length rhs.length * 32767 < 2 ^ 31) :
    (max_permutation lhs rhs).Perm (List.range (max lhs.length rhs.length)) ∧
    ∀ (π : List Nat), π.Perm (List.range (max lhs.length rhs.length)) →
      score lhs rhs π ≤ score lhs rhs (max_permutation lhs rhs) := by
  have hmem := mem_lex_permutations (max lhs.length rhs.length)
    (List.range (max lhs.length rhs.length)) (List.length_range _)
  obtain ⟨-, h2, h3⟩ := max_search_fold lhs rhs
    (lex_permutations (max lhs.length rhs.length) (List.range (max lhs.length rhs.length)))
    (-1, [])
  have hid := h2 _ ((hmem _).2 (List.Perm.refl _))
  have hpos := score_nonneg lhs rhs (List.range (max lhs.length rhs.length))
  rcases h3 with h3 | h3
  · rw [h3] at hid
    simp only at hid
    omega
  · refine ⟨(hmem _).1 h3.1, fun π hπ => ?_⟩
    have := h2 π ((hmem π).2 hπ)
    unfold max_permutation max_search
    simp only
    rw [← h3.2]
    exact this

/-- C6 (witness). Two clusters on the left, one on the right. -/
theorem cluster_diff_matching_is_optimal_witness :
    (max_permutation uneven_lhs uneven_rhs).Perm
      (List.range (max uneven_lhs.length uneven_rhs.length)) ∧
    ∀ (π : List Nat), π.Perm (List.range (max uneven_lhs.length uneven_rhs.length)) →
      score uneven_lhs uneven_rhs π ≤
        score uneven_lhs uneven_rhs (max_permutation uneven_lhs uneven_rhs) :=
  cluster_diff_matching_is_optimal uneven_lhs uneven_rhs (by decide)

/-- C6 (counterexample). For the clusters `a b c d e` and `f` on the left and the
cluster `a b f` on the right, `cluster_diff` pairs `f` with `a b f` and leaves
`a b c d e` unmatched (permutation `1, 0`), although the identity permutation has the
larger sum of intersection sizes when a missing slot counts zero. -/
theorem cluster_diff_matching_not_optimal_for_zero_padding :
    max_permutation uneven_lhs uneven_rhs = [1, 0] ∧
    [0, 1].Perm (List.range (max uneven_lhs.length uneven_rhs.length)) ∧
    spec_score uneven_lhs uneven_rhs (max_permutation uneven_lhs uneven_rhs) <
      spec_score uneven_lhs uneven_rhs [0, 1] := by
  refine ⟨by decide, by decide, by decide⟩

end tidy

namespace stdlib

theorem mem_set_insert {A : Type} {lt : A → A → Bool} (h : StrictOrder lt) (w x : A) :
    ∀ (c : List A), x ∈ set_insert lt w c ↔ x = w ∨ x ∈ c
  | [] => by simp [set_insert]
  | y :: ys => by
    cases h1 : lt w y with
    | true => simp [set_insert, h1]
    | false =>
      cases h2 : lt y w with
      | true =>
        simp only [set_insert, h1, h2, if_true, Bool.false_eq_true, if_false, List.mem_cons,
          mem_set_insert h w x ys]
        tauto
      | false =>
        have hwy : w = y := h.tri _ _ h1 h2
        subst hwy
        simp [set_insert, h1]

theorem set_insert_sorted {A : Type} {lt : A → A → Bool} (h : StrictOrder lt) (w : A) :
    ∀ (c : List A), c.Pairwise (fun a b => lt a b = true) →
      (set_insert lt w c).Pairwise (fun a b => lt a b = true)
  | [], _ => by simp [set_insert]
  | y :: ys, hs => by
    have hs' := List.pairwise_cons.1 hs
    cases h1 : lt w y with
    | true =>
      simp only [set_insert, h1, if_true]
      refine List.pairwise_cons.2 ⟨?_, hs⟩
      intro a ha
      rcases List.mem_cons.1 ha with rfl | ha
      · exact h1
      · exact h.trans _ _ _ h1 (hs'.1 a ha)
    | false =>
      cases h2 : lt y w with
      | true =>
        simp only [set_insert, h1, h2, if_true, Bool.false_eq_true, if_false]
        refine List.pairwise_cons.2 ⟨?_, set_insert_sorted h w ys hs'.2⟩
        intro a ha
        rcases (mem_set_insert h w a ys).1 ha with rfl | ha
        · exact h2
        · exact hs'.1 a ha
      | false =>
        simp only [set_insert, h1, h2, Bool.false_eq_true, if_false]
        exact hs

end stdlib

namespace target_model
open stdlib

theorem get_target_data_some (m : Target_model) (v : Target) (td : Target_data)
    (h : m.get_target_data v = some td) : (v, td) ∈ m.target_to_target_data_ := by
  unfold Target_model.get_target_data at h
  cases hlb : lower_bound v m.target_to_target_data_ with
  | nil => rw [hlb] at h; exact Option.noConfusion h
  | cons it rest =>
    rw [hlb] at h
    simp only at h
    have hmem : it ∈ m.target_to_target_data_ := by
      have : it ∈ lower_bound v m.target_to_target_data_ := by rw [hlb]; simp
      unfold lower_bound at this
      exact (List.dropWhile_sublist _).subset this
    by_cases hit : it.1 = v
    · simp only [hit, if_true, Option.some.injEq] at h
      rw [← hit, ← h]
      exact hmem
    · simp [hit] at h

end target_model

namespace lwyi
open stdlib target_model

theorem scc_inv_init (m : Target_model) : Scc_inv m {} [] where
  stack_nodup := List.nodup_nil
  mem_stack := by intro x; simp
  stack_visited := by intro x hx; simp at hx
  index_nonneg := le_refl _
  index_bound := by intro x hx; simp at hx
  stack_sorted := List.Pairwise.nil
  gray_on_stack := by intro x hx; simp at hx
  stack_reach := by intro x hx; simp at hx
  reach_gray := by intro x hx; simp at hx
  finished_edges := by intro a ha; simp at ha
  done_closed := by intro a ha; simp at ha
  comp_done := by intro c hc; simp at hc
  comp_sound := by intro c hc; simp at hc
  comp_complete := by intro x y hx; simp at hx
  comp_disjoint := List.Pairwise.nil
  comp_size := by intro c hc; simp at hc
  comp_sorted := by intro c hc; simp at hc
  in_universe := by intro x hx; simp at hx

/-- The invariant does not depend on the `lowlink` fields. -/
theorem scc_inv_congr (m : Target_model) (s s' : Scc_state) (g : List Target)
    (h : Scc_inv m s g) (hi : s'.index = s.index) (hst : s'.stack = s.stack)
    (hc : s'.strongly_connected = s.strongly_connected)
    (hidx : ∀ x, (s'.data x).index = (s.data x).index)
    (hon : ∀ x, (s'.data x).on_stack = (s.data x).on_stack) : Scc_inv m s' g := by
  obtain ⟨s'i, s'st, s'c, s'd⟩ := s'
  simp only at hi hst hc hidx hon
  subst hi hst hc
  exact
    { stack_nodup := h.stack_nodup
      mem_stack := by simpa only [hon] using h.mem_stack
      stack_visited := by simpa only [hidx] using h.stack_visited
      index_nonneg := h.index_nonneg
      index_bound := by simpa only [hidx] using h.index_bound
      stack_sorted := by simpa only [hidx] using h.stack_sorted
      gray_on_stack := h.gray_on_stack
      stack_reach := by simpa only [hidx] using h.stack_reach
      reach_gray := by simpa only [hidx] using h.reach_gray
      finished_edges := by simpa only [hidx] using h.finished_edges
      done_closed := by simpa only [hidx] using h.done_closed
      comp_done := by simpa only [hidx] using h.comp_done
      comp_sound := h.comp_sound
      comp_complete := by simpa only [hidx] using h.comp_complete
      comp_disjoint := h.comp_disjoint
      comp_size := h.comp_size
      comp_sorted := h.comp_sorted
      in_universe := by simpa only [hidx] using h.in_universe }

theorem reachable_of_edge (m : Target_model) {u w : Target} (h : Edge m u w) :
    Reachable m u w := Relation.ReflTransGen.single h

theorem reachable_trans (m : Target_model) {a b c : Target} (h1 : Reachable m a b)
    (h2 : Reachable m b c) : Reachable m a c := Relation.ReflTransGen.trans h1 h2

/-- The state of `strong_connect(v)` when its loop starts. -/
theorem scc_loop_enter (m : Target_model) (s : Scc_state) (g : List Target) (v : Target)
    (h : Scc_inv m s g) (hv : (s.data v).index = -1) (hU : v ∈ vertices m)
    (hg : ∀ x ∈ g, Reachable m x v) :
    Scc_loop m s (s.enter v) g v [] := by
  unfold Scc_state.enter
  have hvs : v ∉ s.stack := fun hmem => h.stack_visited v hmem hv
  have hne : ∀ x, (s.data x).index ≠ -1 → x ≠ v := by
    intro x hx hxv; subst hxv; exact hx hv
  have hin := h.index_nonneg
  have hsi : s.index ≠ -1 := by omega
  refine
    { inv :=
        { stack_nodup := List.nodup_cons.2 ⟨hvs, h.stack_nodup⟩
          mem_stack := ?_
          stack_visited := ?_
          index_nonneg := by simp only; omega
          index_bound := ?_
          stack_sorted := ?_
          gray_on_stack := ?_
          stack_reach := ?_
          reach_gray := ?_
          finished_edges := ?_
          done_closed := ?_
          comp_done := ?_
          comp_sound := h.comp_sound
          comp_complete := ?_
          comp_disjoint := h.comp_disjoint
          comp_size := h.comp_size
          comp_sorted := h.comp_sorted
          in_universe := ?_ }
      frame := ?_
      stack_eq := ⟨[], rfl, by simp, by simp⟩
      v_index := by simp
      low_le := by simp
      low_witness := ⟨v, by simp, by simp, Relation.ReflTransGen.refl⟩
      deps_visited := by simp
      deps_low := by simp }
  · -- mem_stack
    intro x
    by_cases hx : x = v
    · subst hx; simp
    · simp [hx, Function.update_noteq hx, h.mem_stack x]
  · -- stack_visited
    intro x hx
    by_cases hxv : x = v
    · subst hxv; simpa using hsi
    · simp only [Function.update_noteq hxv]
      exact h.stack_visited x (by simpa [hxv] using hx)
  · -- index_bound
    intro x hx
    by_cases hxv : x = v
    · subst hxv; simp; omega
    · simp only [Function.update_noteq hxv] at hx ⊢
      have := h.index_bound x hx
      omega
  · -- stack_sorted
    refine List.pairwise_cons.2 ⟨?_, ?_⟩
    · intro b hb
      have hbv : b ≠ v := fun e => hvs (e ▸ hb)
      simp only [Function.update_noteq hbv, Function.update_same]
      exact (h.index_bound b (h.stack_visited b hb)).2
    · refine h.stack_sorted.imp_of_mem ?_
      intro a b ha hb hab
      have hav : a ≠ v := fun e => hvs (e ▸ ha)
      have hbv : b ≠ v := fun e => hvs (e ▸ hb)
      simpa only [Function.update_noteq hav, Function.update_noteq hbv] using hab
  · -- gray_on_stack
    intro x hx
    rcases List.mem_cons.1 hx with rfl | hx
    · simp
    · exact List.mem_cons_of_mem _ (h.gray_on_stack x hx)
  · -- stack_reach
    intro x hx y hy hxy
    have hx' : x = v ∨ x ∈ s.stack := List.mem_cons.1 hx
    have hy' : y = v ∨ y ∈ s.stack := List.mem_cons.1 hy
    rcases hx' with hxv | hxs
    · rcases hy' with hyv | hys
      · rw [hxv, hyv]; exact Relation.ReflTransGen.refl
      · have hyv : y ≠ v := fun e => hvs (e ▸ hys)
        subst hxv
        simp only [Function.update_noteq hyv, Function.update_same] at hxy
        have := (h.index_bound y (h.stack_visited y hys)).2
        omega
    · rcases hy' with hyv | hys
      · obtain ⟨z, hz, -, hxz⟩ := h.reach_gray x hxs
        rw [hyv]
        exact reachable_trans m hxz (hg z hz)
      · have hxv : x ≠ v := fun e => hvs (e ▸ hxs)
        have hyv : y ≠ v := fun e => hvs (e ▸ hys)
        simp only [Function.update_noteq hxv, Function.update_noteq hyv] at hxy
        exact h.stack_reach x hxs y hys hxy
  · -- reach_gray
    intro y hy
    have hy' : y = v ∨ y ∈ s.stack := List.mem_cons.1 hy
    rcases hy' with hyv | hys
    · exact ⟨y, by simp [hyv], le_refl _, Relation.ReflTransGen.refl⟩
    · obtain ⟨z, hz, hzy, hyz⟩ := h.reach_gray y hys
      have hyv : y ≠ v := fun e => hvs (e ▸ hys)
      have hzv : z ≠ v := fun e => hvs (e ▸ h.gray_on_stack z hz)
      exact ⟨z, List.mem_cons_of_mem _ hz,
        by simpa only [Function.update_noteq hyv, Function.update_noteq hzv] using hzy, hyz⟩
  · -- finished_edges
    intro a ha hag b hab
    have hav : a ≠ v := fun e => hag (by simp [e])
    simp only [Function.update_noteq hav] at ha
    have hb := h.finished_edges a ha (fun hmem => hag (List.mem_cons_of_mem _ hmem)) b hab
    simpa only [Function.update_noteq (hne b hb)] using hb
  · -- done_closed
    intro a ha has b hab
    have hav : a ≠ v := fun e => has (by simp [e])
    simp only [Function.update_noteq hav] at ha
    have hb := h.done_closed a ha (fun hmem => has (List.mem_cons_of_mem _ hmem)) b hab
    have hbv := hne b hb.1
    refine ⟨by simpa only [Function.update_noteq hbv] using hb.1, ?_⟩
    intro hmem
    rcases List.mem_cons.1 hmem with e | hmem
    · exact hbv e
    · exact hb.2 hmem
  · -- comp_done
    intro c hc x hx
    have hd := h.comp_done c hc x hx
    have hxv := hne x hd.1
    refine ⟨by simpa only [Function.update_noteq hxv] using hd.1, ?_⟩
    intro hmem
    rcases List.mem_cons.1 hmem with e | hmem
    · exact hxv e
    · exact hd.2 hmem
  · -- comp_complete
    intro x y hx hxs hxy h1 h2
    have hxv : x ≠ v := fun e => hxs (by simp [e])
    simp only [Function.update_noteq hxv] at hx
    exact h.comp_complete x y hx (fun hmem => hxs (List.mem_cons_of_mem _ hmem)) hxy h1 h2
  · -- in_universe
    intro x hx
    by_cases hxv : x = v
    · subst hxv; exact hU
    · simp only [Function.update_noteq hxv] at hx
      exact h.in_universe x hx
  · -- frame
    intro x hx
    simp only [Function.update_noteq (hne x hx)]

theorem unvisited_mono (m : Target_model) (s s' : Scc_state)
    (h : ∀ x, (s.data x).index ≠ -1 → (s'.data x).index ≠ -1) :
    unvisited m s' ≤ unvisited m s := by
  unfold unvisited
  apply Finset.card_le_card
  intro x hx
  simp only [Finset.mem_filter] at hx ⊢
  refine ⟨hx.1, ?_⟩
  by_contra hc
  exact h x hc hx.2

theorem unvisited_lt (m : Target_model) (s s' : Scc_state) (v : Target)
    (h : ∀ x, (s.data x).index ≠ -1 → (s'.data x).index ≠ -1)
    (hU : v ∈ vertices m) (hv : (s.data v).index = -1) (hv' : (s'.data v).index ≠ -1) :
    unvisited m s' < unvisited m s := by
  unfold unvisited
  apply Finset.card_lt_card
  refine Finset.ssubset_iff_of_subset ?_ |>.2 ⟨v, ?_, ?_⟩
  · intro x hx
    simp only [Finset.mem_filter] at hx ⊢
    refine ⟨hx.1, ?_⟩
    by_contra hc
    exact h x hc hx.2
  · simp [hU, hv]
  · simp [hv']

theorem unvisited_le_length (m : Target_model) (s : Scc_state) :
    unvisited m s ≤ (vertices m).length := by
  unfold unvisited
  exact (Finset.card_filter_le _ _).trans (List.toFinset_card_le _)

theorem scc_loop_add_dep (m : Target_model) (s t : Scc_state) (g : List Target)
    (v : Target) (ws : List Target) (w : Target) (hl : Scc_loop m s t g v ws)
    (hw : (t.data w).index ≠ -1)
    (hlow : w ∈ s.stack → (t.data v).lowlink ≤ (t.data w).index) :
    Scc_loop m s t g v (ws ++ [w]) :=
  { hl with
    deps_visited := by
      intro x hx
      rcases List.mem_append.1 hx with hx | hx
      · exact hl.deps_visited x hx
      · simp only [List.mem_singleton] at hx; subst hx; exact hw
    deps_low := by
      intro x hx hxs
      rcases List.mem_append.1 hx with hx | hx
      · exact hl.deps_low x hx hxs
      · simp only [List.mem_singleton] at hx; subst hx; exact hlow hxs }

theorem lower_index (s : Scc_state) (v : Target) (k : Int) (x : Target) :
    ((s.lower v k).data x).index = (s.data x).index := by
  unfold Scc_state.lower
  by_cases hx : x = v
  · subst hx; simp
  · simp [Function.update_noteq hx]

theorem lower_on_stack (s : Scc_state) (v : Target) (k : Int) (x : Target) :
    ((s.lower v k).data x).on_stack = (s.data x).on_stack := by
  unfold Scc_state.lower
  by_cases hx : x = v
  · subst hx; simp
  · simp [Function.update_noteq hx]

theorem lower_lowlink (s : Scc_state) (v : Target) (k : Int) :
    ((s.lower v k).data v).lowlink = min (s.data v).lowlink k := by
  simp [Scc_state.lower]

theorem lower_data_ne (s : Scc_state) (v : Target) (k : Int) (x : Target) (hx : x ≠ v) :
    (s.lower v k).data x = s.data x := by
  simp [Scc_state.lower, Function.update_noteq hx]

theorem lower_stack (s : Scc_state) (v : Target) (k : Int) :
    (s.lower v k).stack = s.stack := rfl

theorem scc_inv_lower (m : Target_model) (s : Scc_state) (g : List Target) (v : Target)
    (k : Int) (h : Scc_inv m s g) : Scc_inv m (s.lower v k) g :=
  scc_inv_congr m s _ g h rfl rfl rfl (lower_index s v k) (lower_on_stack s v k)

theorem scc_loop_lower (m : Target_model) (s t : Scc_state) (g : List Target)
    (v : Target) (ws : List Target) (k : Int) (hl : Scc_loop m s t g v ws)
    (hsv : (s.data v).index = -1)
    (hk : (t.data v).lowlink ≤ k ∨
      ∃ y ∈ t.stack, (t.data y).index = k ∧ Reachable m v y) :
    Scc_loop m s (t.lower v k) g v ws := by
  obtain ⟨new, hst, hnew, hx⟩ := hl.stack_eq
  refine
    { inv := scc_inv_lower m t (v :: g) v k hl.inv
      frame := ?_
      stack_eq := ⟨new, hst, hnew, ?_⟩
      v_index := by rw [lower_index]; exact hl.v_index
      low_le := by rw [lower_index, lower_lowlink]; exact (min_le_left _ _).trans hl.low_le
      low_witness := ?_
      deps_visited := by intro w hw; rw [lower_index]; exact hl.deps_visited w hw
      deps_low := by
        intro w hw hws
        rw [lower_index, lower_lowlink]
        exact (min_le_left _ _).trans (hl.deps_low w hw hws) }
  · intro x hx'
    have hxv : x ≠ v := by intro e; subst e; exact hx' hsv
    rw [lower_data_ne _ _ _ _ hxv]
    exact hl.frame x hx'
  · intro a ha b hb hab
    rw [lower_index, lower_lowlink]
    exact (min_le_left _ _).trans (hx a ha b hb hab)
  · simp only [lower_index, lower_lowlink, lower_stack]
    by_cases hle : (t.data v).lowlink ≤ k
    · rw [min_eq_left hle]
      exact hl.low_witness
    · rcases hk with hk | hk
      · exact absurd hk hle
      · rw [min_eq_right (le_of_not_le hle)]
        exact hk

/-- The loop invariant after the recursive call `strong_connect(w)` and the update of
the lowlink of `v`. -/
theorem scc_loop_call (m : Target_model) (s t t1 : Scc_state) (g : List Target)
    (v : Target) (ws : List Target) (w : Target) (hl : Scc_loop m s t g v ws)
    (hsv : (s.data v).index = -1) (hw : (t.data w).index = -1) (hvw : Edge m v w)
    (hsi : ∀ x ∈ s.stack, (s.data x).index ≠ -1)
    (hp : Scc_post m t t1 (v :: g) w) :
    Scc_loop m s (t1.lower v (t1.data w).lowlink) g v (ws ++ [w]) := by
  obtain ⟨new, hst, hnew, hx⟩ := hl.stack_eq
  obtain ⟨new1, hst1, hnew1, hx1⟩ := hp.stack_eq
  have hvmem : v ∈ t.stack := by rw [hst]; simp
  have hvt : (t.data v).index ≠ -1 := hl.inv.stack_visited v hvmem
  have h1v : t1.data v = t.data v := hp.frame v hvt
  have hst_vis : ∀ x, (s.data x).index ≠ -1 → (t.data x).index ≠ -1 := by
    intro x hx'; rw [hl.frame x hx']; exact hx'
  have hframe : ∀ x, (s.data x).index ≠ -1 → t1.data x = s.data x := by
    intro x hx'
    rw [hp.frame x (hst_vis x hx'), hl.frame x hx']
  have hsub : ∀ x ∈ s.stack, x ∈ t.stack := by
    intro x hx'; rw [hst]; simp [hx']
  have hwi : (t1.data w).index = t.index := hp.v_index
  have hw1 : (t1.data w).index ≠ -1 := by
    rw [hwi]; have := hl.inv.index_nonneg; omega
  have hws : w ∉ s.stack := by
    intro hmem
    exact hst_vis w (hsi w hmem) hw
  refine
    { inv := scc_inv_lower m t1 (v :: g) v _ hp.inv
      frame := ?_
      stack_eq := ⟨new1 ++ new, by rw [lower_stack, hst1, hst, List.append_assoc], ?_, ?_⟩
      v_index := by rw [lower_index, h1v]; exact hl.v_index
      low_le := by
        rw [lower_index, lower_lowlink, h1v]
        exact (min_le_left _ _).trans hl.low_le
      low_witness := ?_
      deps_visited := ?_
      deps_low := ?_ }
  · intro x hx'
    have hxv : x ≠ v := by intro e; subst e; exact hx' hsv
    rw [lower_data_ne _ _ _ _ hxv]
    exact hframe x hx'
  · intro a ha
    rcases List.mem_append.1 ha with ha | ha
    · by_contra hc
      exact hst_vis a hc (hnew1 a ha)
    · exact hnew a ha
  · intro a ha b hb hab
    rw [lower_index, lower_lowlink, h1v, hp.frame b (hst_vis b (hsi b hb))]
    rcases List.mem_append.1 ha with ha | ha
    · have := hx1 a ha b (hsub b hb) hab
      rw [hp.frame b (hst_vis b (hsi b hb))] at this
      exact (min_le_right _ _).trans this
    · exact (min_le_left _ _).trans (hx a ha b hb hab)
  · simp only [lower_index, lower_lowlink, lower_stack, h1v]
    by_cases hle : (t.data v).lowlink ≤ (t1.data w).lowlink
    · rw [min_eq_left hle]
      obtain ⟨y, hy, hyi, hvy⟩ := hl.low_witness
      refine ⟨y, by rw [hst1]; simp [hy], ?_, hvy⟩
      rw [hp.frame y (hl.inv.stack_visited y hy)]
      exact hyi
    · rw [min_eq_right (le_of_not_le hle)]
      rcases hp.low_cases with ⟨-, hlow⟩ | ⟨-, y, hy, hyi, hwy⟩
      · exfalso
        have h1 := (hl.inv.index_bound v hvt).2
        have h2 := hl.low_le
        omega
      · exact ⟨y, by rw [hst1]; simp [hy], hyi, reachable_trans m (reachable_of_edge m hvw) hwy⟩
  · intro x hx'
    rw [lower_index]
    rcases List.mem_append.1 hx' with hx' | hx'
    · have := hl.deps_visited x hx'
      rw [hp.frame x this]; exact this
    · simp only [List.mem_singleton] at hx'; subst hx'; exact hw1
  · intro x hx' hxs
    rcases List.mem_append.1 hx' with hx' | hx'
    · rw [lower_index, lower_lowlink, h1v, hp.frame x (hst_vis x (hsi x hxs))]
      exact (min_le_left _ _).trans (hl.deps_low x hx' hxs)
    · simp only [List.mem_singleton] at hx'; subst hx'; exact absurd hxs hws


theorem deps_in_vertices (m : Target_model) (v w : Target) (h : Edge m v w) :
    w ∈ vertices m := by
  unfold Edge dependencies_of at h
  cases hd : m.get_target_data v with
  | none => rw [hd] at h; simp at h
  | some td =>
    rw [hd] at h
    simp only at h
    have hmem := get_target_data_some m v td hd
    unfold vertices
    refine List.mem_append_right _ (List.mem_flatMap.2 ⟨(v, td), hmem, h⟩)

/-- One iteration of the loop of `strong_connect(v)` keeps the loop invariant. -/
theorem scc_loop_step (m : Target_model) (call : Target → Scc_state → Option Scc_state)
    (fuel : Nat)
    (hcall : ∀ s g v, Scc_inv m s g → (s.data v).index = -1 → v ∈ vertices m →
      (∀ x ∈ g, Reachable m x v) → unvisited m s < fuel →
      ∃ s', call v s = some s' ∧ Scc_post m s s' g v ∧ unvisited m s' < unvisited m s)
    (s t : Scc_state) (g : List Target) (v : Target) (ws : List Target) (w : Target)
    (hl : Scc_loop m s t g v ws) (hsv : (s.data v).index = -1)
    (hsi : ∀ x ∈ s.stack, (s.data x).index ≠ -1) (hg : ∀ x ∈ g, Reachable m x v)
    (hvw : Edge m v w) (hfuel : unvisited m t < fuel) :
    ∃ t', visit_dependency call v t w = some t' ∧ Scc_loop m s t' g v (ws ++ [w]) ∧
      unvisited m t' ≤ unvisited m t := by
  unfold visit_dependency
  by_cases hw : (t.data w).index = -1
  · have hgw : ∀ x ∈ v :: g, Reachable m x w := by
      intro x hx
      rcases List.mem_cons.1 hx with rfl | hx
      · exact reachable_of_edge m hvw
      · exact reachable_trans m (hg x hx) (reachable_of_edge m hvw)
    obtain ⟨t1, hc, hp, hlt⟩ := hcall t (v :: g) w hl.inv hw (deps_in_vertices m v w hvw) hgw hfuel
    refine ⟨t1.lower v (t1.data w).lowlink, by simp [hw, hc],
      scc_loop_call m s t t1 g v ws w hl hsv hw hvw hsi hp, ?_⟩
    have : unvisited m (t1.lower v (t1.data w).lowlink) ≤ unvisited m t1 :=
      unvisited_mono m _ _ (fun x hx => by rw [lower_index]; exact hx)
    omega
  · by_cases hon : (t.data w).on_stack = true
    · refine ⟨t.lower v (t.data w).index, by simp [hw, hon], ?_, ?_⟩
      · have hwt : w ∈ t.stack := (hl.inv.mem_stack w).2 hon
        have h1 := scc_loop_lower m s t g v ws (t.data w).index hl hsv
          (Or.inr ⟨w, hwt, rfl, reachable_of_edge m hvw⟩)
        refine scc_loop_add_dep m s _ g v ws w h1 (by rw [lower_index]; exact hw) ?_
        intro _
        rw [lower_index, lower_lowlink]
        exact min_le_right _ _
      · exact unvisited_mono m _ _ (fun x hx => by rw [lower_index]; exact hx)
    · refine ⟨t, by simp [hw, hon], ?_, le_refl _⟩
      refine scc_loop_add_dep m s t g v ws w hl hw ?_
      intro hws
      exfalso
      obtain ⟨new, hst, -, -⟩ := hl.stack_eq
      have : w ∈ t.stack := by rw [hst]; simp [hws]
      exact hon ((hl.inv.mem_stack w).1 this)

/-- The loop of `strong_connect(v)` over the remaining dependencies `rest`. -/
theorem scc_loop_all (m : Target_model) (call : Target → Scc_state → Option Scc_state)
    (fuel : Nat)
    (hcall : ∀ s g v, Scc_inv m s g → (s.data v).index = -1 → v ∈ vertices m →
      (∀ x ∈ g, Reachable m x v) → unvisited m s < fuel →
      ∃ s', call v s = some s' ∧ Scc_post m s s' g v ∧ unvisited m s' < unvisited m s)
    (s : Scc_state) (g : List Target) (v : Target) (hsv : (s.data v).index = -1)
    (hsi : ∀ x ∈ s.stack, (s.data x).index ≠ -1) (hg : ∀ x ∈ g, Reachable m x v) :
    ∀ (rest ws : List Target) (t : Scc_state), (∀ w ∈ rest, Edge m v w) →
      Scc_loop m s t g v ws → unvisited m t < fuel →
      ∃ t', rest.foldlM (visit_dependency call v) t = some t' ∧
        Scc_loop m s t' g v (ws ++ rest) ∧ unvisited m t' ≤ unvisited m t
  | [], ws, t, _, hl, _ => ⟨t, by simp, by simpa using hl, le_refl _⟩
  | w :: rest, ws, t, hrest, hl, hfuel => by
    obtain ⟨t1, h1, hl1, hle1⟩ := scc_loop_step m call fuel hcall s t g v ws w hl hsv hsi hg
      (hrest w (by simp)) hfuel
    obtain ⟨t2, h2, hl2, hle2⟩ := scc_loop_all m call fuel hcall s g v hsv hsi hg rest
      (ws ++ [w]) t1 (fun x hx => hrest x (by simp [hx])) hl1 (by omega)
    refine ⟨t2, by simp [List.foldlM_cons, h1, h2], by simpa using hl2, by omega⟩


theorem clear_on_stack_index (data : Target → Vertex_data) (w x : Target) :
    (clear_on_stack data w x).index = (data x).index := by
  unfold clear_on_stack
  by_cases hx : x = w
  · subst hx; simp
  · simp [Function.update_noteq hx]

theorem clear_on_stack_lowlink (data : Target → Vertex_data) (w x : Target) :
    (clear_on_stack data w x).lowlink = (data x).lowlink := by
  unfold clear_on_stack
  by_cases hx : x = w
  · subst hx; simp
  · simp [Function.update_noteq hx]

theorem clear_on_stack_self (data : Target → Vertex_data) (w : Target) :
    (clear_on_stack data w w).on_stack = false := by
  simp [clear_on_stack]

theorem clear_on_stack_ne (data : Target → Vertex_data) (w x : Target) (hx : x ≠ w) :
    clear_on_stack data w x = data x := by
  simp [clear_on_stack, Function.update_noteq hx]

theorem pop_component_spec (v : Target) (rest : List Target) :
    ∀ (new : List Target) (data : Target → Vertex_data) (c : Component), v ∉ new →
      c.Pairwise (fun a b => Target.lt a b = true) →
      ∃ data' c', pop_component v (new ++ v :: rest) data c = some (rest, data', c') ∧
        (∀ x, (data' x).index = (data x).index) ∧
        (∀ x, (data' x).lowlink = (data x).lowlink) ∧
        (∀ x, x ∈ new ∨ x = v → (data' x).on_stack = false) ∧
        (∀ x, x ∉ new → x ≠ v → data' x = data x) ∧
        (∀ x, x ∈ c' ↔ x ∈ c ∨ x ∈ new ∨ x = v) ∧
        c'.Pairwise (fun a b => Target.lt a b = true)
  | [], data, c, _, hc => by
    refine ⟨clear_on_stack data v, set_insert Target.lt v c, by simp [pop_component],
      clear_on_stack_index data v, clear_on_stack_lowlink data v, ?_, ?_, ?_,
      set_insert_sorted target_lt_strict v c hc⟩
    · intro x hx
      rcases hx with hx | hx
      · simp at hx
      · subst hx; exact clear_on_stack_self data x
    · intro x _ hx
      exact clear_on_stack_ne data v x hx
    · intro x
      rw [mem_set_insert target_lt_strict]
      simp only [List.not_mem_nil, false_or]
      tauto
  | a :: new, data, c, hv, hc => by
    have hav : a ≠ v := fun e => hv (by simp [e])
    have hv' : v ∉ new := fun hmem => hv (List.mem_cons_of_mem _ hmem)
    obtain ⟨data', c', h1, h2, h3, h4, h5, h6, h7⟩ := pop_component_spec v rest new
      (clear_on_stack data a) (set_insert Target.lt a c) hv'
      (set_insert_sorted target_lt_strict a c hc)
    refine ⟨data', c', by simpa [pop_component, hav] using h1, ?_, ?_, ?_, ?_, ?_, h7⟩
    · intro x
      rw [h2 x, clear_on_stack_index]
    · intro x
      rw [h3 x, clear_on_stack_lowlink]
    · intro x hx
      by_cases hxn : x ∈ new ∨ x = v
      · exact h4 x hxn
      · have hxa : x = a := by
          rcases hx with hx | hx
          · rcases List.mem_cons.1 hx with e | hx
            · exact e
            · exact absurd (Or.inl hx) hxn
          · exact absurd (Or.inr hx) hxn
        have := h5 x (fun hmem => hxn (Or.inl hmem)) (fun e => hxn (Or.inr e))
        rw [this, hxa]
        exact clear_on_stack_self data a
    · intro x hxn hxv
      have hxa : x ≠ a := fun e => hxn (by simp [e])
      rw [h5 x (fun hmem => hxn (List.mem_cons_of_mem _ hmem)) hxv]
      exact clear_on_stack_ne data a x hxa
    · intro x
      rw [h6 x, mem_set_insert target_lt_strict]
      simp only [List.mem_cons]
      tauto

theorem two_le_length_of_mem_ne {A : Type} (c : List A) (x y : A) (hx : x ∈ c) (hy : y ∈ c)
    (hxy : x ≠ y) : 2 ≤ c.length := by
  match c, hx, hy with
  | [], hx, _ => simp at hx
  | [a], hx, hy =>
    simp only [List.mem_singleton] at hx hy
    exact absurd (hx.trans hy.symm) hxy
  | _ :: _ :: _, _, _ => simp

theorem reach_closed (m : Target_model) (P : Target → Prop)
    (hP : ∀ a, P a → ∀ b, Edge m a b → P b) (a b : Target) (h : Reachable m a b)
    (ha : P a) : P b := by
  induction h with
  | refl => exact ha
  | tail _ hbc ih => exact hP _ ih _ hbc

/-- The end of `strong_connect(v)` when the component of `v` is not complete yet. -/
theorem scc_finish_keep (m : Target_model) (s t : Scc_state) (g : List Target) (v : Target)
    (hsv : (s.data v).index = -1)
    (hl : Scc_loop m s t g v (dependencies_of m v))
    (hlow : (t.data v).lowlink ≠ (t.data v).index) : Scc_post m s t g v := by
  obtain ⟨new, hst, hnew, hx⟩ := hl.stack_eq
  have hI := hl.inv
  have hsorted : (new ++ v :: s.stack).Pairwise
      (fun a b => (t.data b).index < (t.data a).index) := hst ▸ hI.stack_sorted
  have hidx_new : ∀ a ∈ new, (t.data v).index < (t.data a).index := by
    intro a ha
    exact (List.pairwise_append.1 hsorted).2.2 a ha v (by simp)
  have hvt : v ∈ t.stack := by rw [hst]; simp
  have hlt : (t.data v).lowlink < (t.data v).index := lt_of_le_of_ne hl.low_le hlow
  obtain ⟨y0, hy0, hy0i, hvy0⟩ := hl.low_witness
  obtain ⟨x0, hx0, hx0i, hy0x0⟩ := hI.reach_gray y0 hy0
  have hx0g : x0 ∈ g := by
    rcases List.mem_cons.1 hx0 with e | h
    · subst e; omega
    · exact h
  refine
    { inv :=
        { hI with
          gray_on_stack := fun x hx' => hI.gray_on_stack x (List.mem_cons_of_mem _ hx')
          reach_gray := ?_
          finished_edges := ?_ }
      frame := hl.frame
      stack_eq := ⟨new ++ [v], by rw [hst]; simp, ?_, ?_⟩
      v_index := hl.v_index
      low_le := hl.low_le
      low_cases := Or.inr ⟨hvt, y0, ?_, hy0i, hvy0⟩ }
  · intro y hy
    obtain ⟨x, hxm, hxy, hyx⟩ := hI.reach_gray y hy
    rcases List.mem_cons.1 hxm with e | h
    · subst e
      exact ⟨x0, hx0g, by omega, reachable_trans m hyx (reachable_trans m hvy0 hy0x0)⟩
    · exact ⟨x, h, hxy, hyx⟩
  · intro a ha hag b hab
    by_cases hav : a = v
    · subst hav
      exact hl.deps_visited b hab
    · refine hI.finished_edges a ha ?_ b hab
      intro hmem
      rcases List.mem_cons.1 hmem with e | h
      · exact hav e
      · exact hag h
  · intro a ha
    rcases List.mem_append.1 ha with ha | ha
    · exact hnew a ha
    · simp only [List.mem_singleton] at ha; subst ha; exact hsv
  · intro a ha b hb hab
    rcases List.mem_append.1 ha with ha | ha
    · exact hx a ha b hb hab
    · simp only [List.mem_singleton] at ha; subst ha
      exact hl.deps_low b hab hb
  · rw [hst] at hy0
    rcases List.mem_append.1 hy0 with h | h
    · have := hidx_new y0 h; omega
    · rcases List.mem_cons.1 h with e | h
      · subst e; omega
      · exact h

/-- The end of `strong_connect(v)` when `lowlink == index`: the vertices popped are the
strongly connected component of `v`. -/
theorem scc_finish_pop (m : Target_model) (s t : Scc_state) (g : List Target) (v : Target)
    (hs : Scc_inv m s g) (hsv : (s.data v).index = -1)
    (hl : Scc_loop m s t g v (dependencies_of m v))
    (hlow : (t.data v).lowlink = (t.data v).index) :
    ∃ s', finish_vertex v t = some s' ∧ Scc_post m s s' g v := by
  obtain ⟨new, hst, hnew, hx⟩ := hl.stack_eq
  have hI := hl.inv
  have hnd : (new ++ v :: s.stack).Nodup := hst ▸ hI.stack_nodup
  have hsorted : (new ++ v :: s.stack).Pairwise
      (fun a b => (t.data b).index < (t.data a).index) := hst ▸ hI.stack_sorted
  have hvnew : v ∉ new := fun hmem =>
    (List.nodup_append.1 hnd).2.2 hmem (List.mem_cons_self _ _)
  have hnews : ∀ a ∈ new, a ∉ s.stack := fun a ha hmem =>
    (List.nodup_append.1 hnd).2.2 ha (List.mem_cons_of_mem _ hmem)
  have hvs : v ∉ s.stack := (List.nodup_cons.1 (List.nodup_append.1 hnd).2.1).1
  have hidx_new : ∀ a ∈ new, (t.data v).index < (t.data a).index := fun a ha =>
    (List.pairwise_append.1 hsorted).2.2 a ha v (by simp)
  have hidx_old : ∀ b ∈ s.stack, (t.data b).index < (t.data v).index := fun b hb =>
    (List.pairwise_cons.1 (List.pairwise_append.1 hsorted).2.1).1 b hb
  have hmem_t : ∀ x, x ∈ t.stack ↔ x ∈ new ∨ x = v ∨ x ∈ s.stack := by
    intro x; rw [hst]; simp
  have hgs := hs.gray_on_stack
  obtain ⟨data', c, hpop, hpi, hpl, hpon, hpne, hpc, hpsorted⟩ :=
    pop_component_spec v s.stack new t.data [] hvnew List.Pairwise.nil
  have hmemc : ∀ x, x ∈ c ↔ x ∈ new ∨ x = v := by
    intro x; rw [hpc x]; simp
  -- vertices that are visited and not on the remaining stack are closed under edges
  have hclosed : ∀ a, (t.data a).index ≠ -1 → a ∉ s.stack → ∀ b, Edge m a b →
      (t.data b).index ≠ -1 ∧ b ∉ s.stack := by
    intro a ha has b hab
    by_cases hat : a ∈ t.stack
    · have hbv : (t.data b).index ≠ -1 := by
        rcases (hmem_t a).1 hat with h | h | h
        · refine hI.finished_edges a ha ?_ b hab
          intro hmem
          rcases List.mem_cons.1 hmem with e | hg
          · exact hvnew (e ▸ h)
          · exact hnews a h (hgs a hg)
        · subst h; exact hl.deps_visited b hab
        · exact absurd h has
      refine ⟨hbv, fun hbs => ?_⟩
      have h1 := hidx_old b hbs
      rcases (hmem_t a).1 hat with h | h | h
      · have := hx a h b hbs hab; omega
      · subst h
        have := hl.deps_low b hab hbs; omega
      · exact has h
    · have := hI.done_closed a ha hat b hab
      exact ⟨this.1, fun hbs => this.2 ((hmem_t b).2 (Or.inr (Or.inr hbs)))⟩
  have hreach : ∀ a b, Reachable m a b → ((t.data a).index ≠ -1 ∧ a ∉ s.stack) →
      ((t.data b).index ≠ -1 ∧ b ∉ s.stack) := fun a b hab ha =>
    reach_closed m (fun z => (t.data z).index ≠ -1 ∧ z ∉ s.stack)
      (fun a ha b hab => hclosed a ha.1 ha.2 b hab) a b hab ha
  have hreach_t : ∀ a b, Reachable m a b → ((t.data a).index ≠ -1 ∧ a ∉ t.stack) →
      ((t.data b).index ≠ -1 ∧ b ∉ t.stack) := fun a b hab ha =>
    reach_closed m (fun z => (t.data z).index ≠ -1 ∧ z ∉ t.stack)
      (fun a ha b hab => hI.done_closed a ha.1 ha.2 b hab) a b hab ha
  have hpopped : ∀ x, x ∈ new ∨ x = v → (t.data x).index ≠ -1 ∧ x ∉ s.stack := by
    intro x hx'
    rcases hx' with h | h
    · exact ⟨hI.stack_visited x ((hmem_t x).2 (Or.inl h)), hnews x h⟩
    · subst h; exact ⟨hI.stack_visited x ((hmem_t x).2 (Or.inr (Or.inl rfl))), hvs⟩
  have hsound : ∀ x, x ∈ new ∨ x = v → ∀ y, y ∈ new ∨ y = v → Reachable m x y := by
    intro x hx' y hy'
    have hxt : x ∈ t.stack := (hmem_t x).2 (by tauto)
    have hyt : y ∈ t.stack := (hmem_t y).2 (by tauto)
    have hvt : v ∈ t.stack := (hmem_t v).2 (Or.inr (Or.inl rfl))
    have hvy : Reachable m v y := by
      refine hI.stack_reach v hvt y hyt ?_
      rcases hy' with h | h
      · exact le_of_lt (hidx_new y h)
      · subst h; exact le_refl _
    have hxv : Reachable m x v := by
      obtain ⟨z, hz, -, hxz⟩ := hI.reach_gray x hxt
      rcases List.mem_cons.1 hz with e | hg
      · subst e; exact hxz
      · exact absurd (hgs z hg) (hreach x z hxz (hpopped x hx')).2
    exact reachable_trans m hxv hvy
  refine ⟨{ t with
      stack := s.stack
      data := data'
      strongly_connected :=
        if 1 < c.length then t.strongly_connected ++ [c] else t.strongly_connected }, ?_, ?_⟩
  · unfold finish_vertex
    simp only [hlow, if_true, hst, hpop]
  have hsc : ∀ c0, c0 ∈ (if 1 < c.length then t.strongly_connected ++ [c]
      else t.strongly_connected) → c0 ∈ t.strongly_connected ∨ (c0 = c ∧ 2 ≤ c.length) := by
    intro c0 hc0
    by_cases hlen : 1 < c.length
    · simp only [hlen, if_true, List.mem_append, List.mem_singleton] at hc0
      rcases hc0 with h | h
      · exact Or.inl h
      · exact Or.inr ⟨h, hlen⟩
    · simp only [hlen, if_false] at hc0
      exact Or.inl hc0
  have hsc_old : ∀ c0, c0 ∈ t.strongly_connected → c0 ∈ (if 1 < c.length then
      t.strongly_connected ++ [c] else t.strongly_connected) := by
    intro c0 hc0
    by_cases hlen : 1 < c.length
    · simp [hlen, hc0]
    · simp [hlen, hc0]
  refine
    { inv :=
        { stack_nodup := hs.stack_nodup
          mem_stack := ?_
          stack_visited := ?_
          index_nonneg := hI.index_nonneg
          index_bound := ?_
          stack_sorted := ?_
          gray_on_stack := hgs
          stack_reach := ?_
          reach_gray := ?_
          finished_edges := ?_
          done_closed := ?_
          comp_done := ?_
          comp_sound := ?_
          comp_complete := ?_
          comp_disjoint := ?_
          comp_size := ?_
          comp_sorted := ?_
          in_universe := ?_ }
      frame := ?_
      stack_eq := ⟨[], rfl, by simp, by simp⟩
      v_index := by simp only [hpi]; exact hl.v_index
      low_le := by simp only [hpi, hpl]; exact hl.low_le
      low_cases := Or.inl ⟨hvs, by simp only [hpi, hpl]; exact hlow⟩ }
  · -- mem_stack
    intro x
    constructor
    · intro hxs
      have h1 : x ∉ new := fun h => hnews x h hxs
      have h2 : x ≠ v := fun e => hvs (e ▸ hxs)
      simp only [hpne x h1 h2]
      exact (hI.mem_stack x).1 ((hmem_t x).2 (Or.inr (Or.inr hxs)))
    · intro hon
      simp only at hon
      by_cases hx' : x ∈ new ∨ x = v
      · rw [hpon x hx'] at hon; exact Bool.noConfusion hon
      · rw [hpne x (fun h => hx' (Or.inl h)) (fun e => hx' (Or.inr e))] at hon
        rcases (hmem_t x).1 ((hI.mem_stack x).2 hon) with h | h | h
        · exact absurd (Or.inl h) hx'
        · exact absurd (Or.inr h) hx'
        · exact h
  · -- stack_visited
    intro x hxs
    simp only [hpi]
    exact hI.stack_visited x ((hmem_t x).2 (Or.inr (Or.inr hxs)))
  · -- index_bound
    intro x hx'
    simp only [hpi] at hx' ⊢
    exact hI.index_bound x hx'
  · -- stack_sorted
    simp only [hpi]
    exact (List.pairwise_cons.1 (List.pairwise_append.1 hsorted).2.1).2
  · -- stack_reach
    intro x hxs y hys hxy
    simp only [hpi] at hxy
    exact hI.stack_reach x ((hmem_t x).2 (Or.inr (Or.inr hxs))) y
      ((hmem_t y).2 (Or.inr (Or.inr hys))) hxy
  · -- reach_gray
    intro y hys
    obtain ⟨z, hz, hzy, hyz⟩ := hI.reach_gray y ((hmem_t y).2 (Or.inr (Or.inr hys)))
    rcases List.mem_cons.1 hz with e | hg
    · subst e
      have := hidx_old y hys
      omega
    · exact ⟨z, hg, by simpa only [hpi] using hzy, hyz⟩
  · -- finished_edges
    intro a ha hag b hab
    simp only [hpi] at ha ⊢
    by_cases hav : a = v
    · subst hav; exact hl.deps_visited b hab
    · refine hI.finished_edges a ha ?_ b hab
      intro hmem
      rcases List.mem_cons.1 hmem with e | h
      · exact hav e
      · exact hag h
  · -- done_closed
    intro a ha has b hab
    simp only [hpi] at ha ⊢
    exact hclosed a ha has b hab
  · -- comp_done
    intro c0 hc0 x hxc
    simp only [hpi]
    rcases hsc c0 hc0 with h | ⟨h, -⟩
    · have := hI.comp_done c0 h x hxc
      exact ⟨this.1, fun hxs => this.2 ((hmem_t x).2 (Or.inr (Or.inr hxs)))⟩
    · subst h
      exact hpopped x ((hmemc x).1 hxc)
  · -- comp_sound
    intro c0 hc0 x hxc y hyc
    rcases hsc c0 hc0 with h | ⟨h, -⟩
    · exact hI.comp_sound c0 h x hxc y hyc
    · subst h
      exact hsound x ((hmemc x).1 hxc) y ((hmemc y).1 hyc)
  · -- comp_complete
    intro x y hxv hxs hxy hrxy hryx
    simp only [hpi] at hxv
    by_cases hxt : x ∈ t.stack
    · have hx2 : x ∈ new ∨ x = v := by
        rcases (hmem_t x).1 hxt with h | h | h
        · exact Or.inl h
        · exact Or.inr h
        · exact absurd h hxs
      have hy1 := hreach x y hrxy ⟨hxv, hxs⟩
      have hyt : y ∈ t.stack := by
        by_contra hyt
        exact (hreach_t y x hryx ⟨hy1.1, hyt⟩).2 hxt
      have hy2 : y ∈ new ∨ y = v := by
        rcases (hmem_t y).1 hyt with h | h | h
        · exact Or.inl h
        · exact Or.inr h
        · exact absurd h hy1.2
      have hlen : 1 < c.length :=
        two_le_length_of_mem_ne c x y ((hmemc x).2 hx2) ((hmemc y).2 hy2) hxy
      exact ⟨c, by simp [hlen], (hmemc x).2 hx2, (hmemc y).2 hy2⟩
    · obtain ⟨c0, hc0, h1, h2⟩ := hI.comp_complete x y hxv hxt hxy hrxy hryx
      exact ⟨c0, hsc_old c0 hc0, h1, h2⟩
  · -- comp_disjoint
    by_cases hlen : 1 < c.length
    · simp only [hlen, if_true]
      refine List.pairwise_append.2 ⟨hI.comp_disjoint, List.pairwise_singleton _ _, ?_⟩
      intro d hd c' hc' x hxd hxc
      simp only [List.mem_singleton] at hc'
      subst hc'
      have h1 := (hI.comp_done d hd x hxd).2
      have h2 := (hmemc x).1 hxc
      exact h1 ((hmem_t x).2 (by tauto))
    · simp only [hlen, if_false]
      exact hI.comp_disjoint
  · -- comp_size
    intro c0 hc0
    rcases hsc c0 hc0 with h | ⟨h, hlen⟩
    · exact hI.comp_size c0 h
    · subst h; exact hlen
  · -- comp_sorted
    intro c0 hc0
    rcases hsc c0 hc0 with h | ⟨h, -⟩
    · exact hI.comp_sorted c0 h
    · subst h; exact hpsorted
  · -- in_universe
    intro x hx'
    simp only [hpi] at hx'
    exact hI.in_universe x hx'
  · -- frame
    intro x hx'
    have h1 : x ∉ new := fun h => hx' (hnew x h)
    have h2 : x ≠ v := fun e => hx' (e ▸ hsv)
    simp only [hpne x h1 h2]
    exact hl.frame x hx'

theorem scc_post_unvisited_lt (m : Target_model) (s s' : Scc_state) (g : List Target)
    (v : Target) (hs : Scc_inv m s g) (hsv : (s.data v).index = -1) (hU : v ∈ vertices m)
    (hp : Scc_post m s s' g v) : unvisited m s' < unvisited m s := by
  refine unvisited_lt m s s' v ?_ hU hsv ?_
  · intro x hx; rw [hp.frame x hx]; exact hx
  · rw [hp.v_index]; have := hs.index_nonneg; omega

/-- With enough fuel `strong_connect(v)` returns, and its result satisfies the
postcondition. -/
theorem strong_connect_spec (m : Target_model) : ∀ (fuel : Nat) (s : Scc_state)
    (g : List Target) (v : Target), Scc_inv m s g → (s.data v).index = -1 →
    v ∈ vertices m → (∀ x ∈ g, Reachable m x v) → unvisited m s < fuel →
    ∃ s', strong_connect m fuel v s = some s' ∧ Scc_post m s s' g v ∧
      unvisited m s' < unvisited m s
  | 0, _, _, _, _, _, _, _, hfuel => absurd hfuel (Nat.not_lt_zero _)
  | fuel + 1, s, g, v, hs, hsv, hU, hg, hfuel => by
    have hl0 := scc_loop_enter m s g v hs hsv hU hg
    have hlt0 : unvisited m (s.enter v) < unvisited m s := by
      refine unvisited_lt m s _ v ?_ hU hsv ?_
      · intro x hx; rw [hl0.frame x hx]; exact hx
      · rw [hl0.v_index]; have := hs.index_nonneg; omega
    obtain ⟨t, hfold, hl, -⟩ := scc_loop_all m (fun w s => strong_connect m fuel w s) fuel
      (fun s g v h1 h2 h3 h4 h5 => strong_connect_spec m fuel s g v h1 h2 h3 h4 h5)
      s g v hsv hs.stack_visited hg (dependencies_of m v) [] (s.enter v) (fun w hw => hw)
      hl0 (by omega)
    simp only [List.nil_append] at hl
    by_cases hlow : (t.data v).lowlink = (t.data v).index
    · obtain ⟨s', hfin, hp⟩ := scc_finish_pop m s t g v hs hsv hl hlow
      exact ⟨s', by simp [strong_connect, hfold, hfin], hp,
        scc_post_unvisited_lt m s s' g v hs hsv hU hp⟩
    · have hp := scc_finish_keep m s t g v hsv hl hlow
      exact ⟨t, by simp [strong_connect, hfold, finish_vertex, hlow], hp,
        scc_post_unvisited_lt m s t g v hs hsv hU hp⟩

theorem for_each_target_spec (m : Target_model) (fuel : Nat)
    (hfuel : (vertices m).length < fuel) :
    ∀ (entries : List Element) (s : Scc_state), (∀ e ∈ entries, e.1 ∈ vertices m) →
      Scc_inv m s [] →
      ∃ s', entries.foldlM (visit_target m fuel) s = some s' ∧ Scc_inv m s' [] ∧
        (∀ x, (s.data x).index ≠ -1 → (s'.data x).index ≠ -1) ∧
        ∀ e ∈ entries, (s'.data e.1).index ≠ -1
  | [], s, _, hs => ⟨s, by simp, hs, fun _ h => h, by simp⟩
  | e :: entries, s, hU, hs => by
    have hstep : ∃ s1, visit_target m fuel s e = some s1 ∧ Scc_inv m s1 [] ∧
        (∀ x, (s.data x).index ≠ -1 → (s1.data x).index ≠ -1) ∧
        (s1.data e.1).index ≠ -1 := by
      unfold visit_target
      by_cases he : (s.data e.1).index = -1
      · obtain ⟨s1, h1, hp, -⟩ := strong_connect_spec m fuel s [] e.1 hs he (hU e (by simp))
          (by simp) (lt_of_le_of_lt (unvisited_le_length m s) hfuel)
        refine ⟨s1, by simp [he, h1], hp.inv, ?_, ?_⟩
        · intro x hx; rw [hp.frame x hx]; exact hx
        · rw [hp.v_index]; have := hs.index_nonneg; omega
      · exact ⟨s, by simp [he], hs, fun _ h => h, he⟩
    obtain ⟨s1, h1, hs1, hmono1, he1⟩ := hstep
    obtain ⟨s2, h2, hs2, hmono2, hall⟩ := for_each_target_spec m fuel hfuel entries s1
      (fun x hx => hU x (by simp [hx])) hs1
    refine ⟨s2, by simp [List.foldlM_cons, h1, h2], hs2, fun x hx => hmono2 x (hmono1 x hx), ?_⟩
    intro x hx
    rcases List.mem_cons.1 hx with rfl | hx
    · exact hmono2 _ he1
    · exact hall x hx

/-- The function `compute_strongly_connected_dependencies` returns, and the state it
ends in satisfies the invariant with an empty stack and every target of the model
visited. -/
theorem compute_spec (m : Target_model) :
    ∃ s, compute_strongly_connected_dependencies m = some s.strongly_connected ∧
      Scc_inv m s [] ∧ s.stack = [] ∧
      ∀ e ∈ m.target_to_target_data_, (s.data e.1).index ≠ -1 := by
  obtain ⟨s, h1, hs, -, hall⟩ := for_each_target_spec m ((vertices m).length + 1)
    (Nat.lt_succ_self _) m.target_to_target_data_ {}
    (fun e he => List.mem_append_left _ (List.mem_map.2 ⟨e, he, rfl⟩)) (scc_inv_init m)
  refine ⟨s, by simp [compute_strongly_connected_dependencies, compute_with_fuel, h1], hs,
    ?_, hall⟩
  cases hst : s.stack with
  | nil => rfl
  | cons y ys =>
    obtain ⟨x, hx, -, -⟩ := hs.reach_gray y (by rw [hst]; simp)
    simp at hx

theorem visited_of_edge (m : Target_model) (s : Scc_state)
    (hall : ∀ e ∈ m.target_to_target_data_, (s.data e.1).index ≠ -1) (u w : Target)
    (h : Edge m u w) : (s.data u).index ≠ -1 := by
  unfold Edge dependencies_of at h
  cases hd : m.get_target_data u with
  | none => rw [hd] at h; simp at h
  | some td => exact hall (u, td) (get_target_data_some m u td hd)

theorem sorted_nodup (c : List Target) (h : c.Pairwise fun a b => Target.lt a b = true) :
    c.Nodup := by
  refine h.imp ?_
  intro a b hab e
  subst e
  rw [target_lt_strict.irrefl] at hab
  exact Bool.noConfusion hab

theorem exists_other_member (c : List Target) (t : Target) (hn : c.Nodup)
    (hlen : 2 ≤ c.length) : ∃ u ∈ c, u ≠ t := by
  match c, hn, hlen with
  | a :: b :: _, hn, _ =>
    have hab : a ≠ b := fun e => (List.nodup_cons.1 hn).1 (by simp [e])
    by_cases hat : a = t
    · exact ⟨b, by simp, fun e => hab (hat.trans e.symm)⟩
    · exact ⟨a, by simp, hat⟩

/-- C3. Every component returned by `compute_strongly_connected_dependencies` is
strongly connected: the function returns for every model, and any two targets of one
returned component are reachable from each other along `dependencies` edges. -/
theorem returned_components_are_strongly_connected (m : Target_model) :
    ∃ components, compute_strongly_connected_dependencies m = some components ∧
      ∀ c ∈ components, ∀ u ∈ c, ∀ v ∈ c, Reachable m u v ∧ Reachable m v u := by
  obtain ⟨s, h1, hs, -, -⟩ := compute_spec m
  exact ⟨s.strongly_connected, h1, fun c hc u hu v hv =>
    ⟨hs.comp_sound c hc u hu v hv, hs.comp_sound c hc v hv u hu⟩⟩

/-- C4. `compute_strongly_connected_dependencies` misses no cycle: two distinct targets
that are reachable from each other are in one returned component, and a returned
component holds every target that is mutually reachable with one of its members; on the
graph a → b, b → c, b → d, c → a the result is exactly the component `a, b, c`. -/
theorem no_cycle_is_missed (m : Target_model) :
    (∃ components, compute_strongly_connected_dependencies m = some components ∧
      (∀ u v, u ≠ v → Reachable m u v → Reachable m v u →
        ∃ c ∈ components, u ∈ c ∧ v ∈ c) ∧
      (∀ c ∈ components, ∀ u ∈ c, ∀ v, Reachable m u v → Reachable m v u → v ∈ c)) ∧
    compute_strongly_connected_dependencies (Target_model.ctor cycle_entries) =
      some [[⟨"a"⟩, ⟨"b"⟩, ⟨"c"⟩]] := by
  refine ⟨?_, by decide⟩
  obtain ⟨s, h1, hs, hst, hall⟩ := compute_spec m
  have hcomplete : ∀ u v, u ≠ v → Reachable m u v → Reachable m v u →
      ∃ c ∈ s.strongly_connected, u ∈ c ∧ v ∈ c := by
    intro u v huv huv' hvu
    have hu : (s.data u).index ≠ -1 := by
      rcases Relation.ReflTransGen.cases_head huv' with e | ⟨b, hub, -⟩
      · exact absurd e huv
      · exact visited_of_edge m s hall u b hub
    exact hs.comp_complete u v hu (by rw [hst]; simp) huv huv' hvu
  refine ⟨s.strongly_connected, h1, hcomplete, ?_⟩
  intro c hc u hu v huv hvu
  by_cases huv' : u = v
  · subst huv'; exact hu
  · obtain ⟨c', hc', hu', hv'⟩ := hcomplete u v huv' huv hvu
    by_cases hcc : c = c'
    · subst hcc; exact hv'
    · have hsym : Symmetric fun (c d : Component) => ∀ x ∈ c, x ∉ d :=
        fun c d h x hxd hxc => h x hxc hxd
      exact absurd hu' (hs.comp_disjoint.forall hsym hc hc' hcc u hu)

/-- C5. For every model the function returns; every returned component has at least two
members (it is a set, without repetition), no target is in two returned components, and
a target that is mutually reachable with no other target is in none. -/
theorem components_are_non_trivial_and_disjoint (m : Target_model) :
    ∃ components, compute_strongly_connected_dependencies m = some components ∧
      (∀ c ∈ components, c.Nodup ∧ 2 ≤ c.length) ∧
      components.Pairwise (fun c d => ∀ x ∈ c, x ∉ d) ∧
      ∀ t, (∀ u, Reachable m t u → Reachable m u t → u = t) → ∀ c ∈ components, t ∉ c := by
  obtain ⟨s, h1, hs, -, -⟩ := compute_spec m
  refine ⟨s.strongly_connected, h1,
    fun c hc => ⟨sorted_nodup c (hs.comp_sorted c hc), hs.comp_size c hc⟩,
    hs.comp_disjoint, ?_⟩
  intro t ht c hc htc
  obtain ⟨u, huc, hut⟩ := exists_other_member c t (sorted_nodup c (hs.comp_sorted c hc))
    (hs.comp_size c hc)
  exact hut (ht u (hs.comp_sound c hc t htc u huc) (hs.comp_sound c hc u huc t htc))

end lwyi

namespace target_model
open stdlib util

theorem ctor_strictly_sorted (l : List Element) (hnames : (l.map Prod.fst).Nodup) :
    (Target_model.ctor l).target_to_target_data_.Pairwise
      (fun a b => Target.lt a.1 b.1 = true) := by
  have hs := ctor_sorted l
  have hnd : ((Target_model.ctor l).target_to_target_data_.map Prod.fst).Nodup := by
    rw [ctor_entries]
    exact ((sort_perm Less l).map Prod.fst).nodup_iff.2 hnames
  have hne : (Target_model.ctor l).target_to_target_data_.Pairwise
      (fun a b => a.1 ≠ b.1) := by
    rw [List.Nodup, List.pairwise_map] at hnd
    exact hnd
  exact (hs.and hne).imp fun h => lt_of_ne_of_not_lt target_lt_strict (Ne.symm h.2) h.1

theorem get_target_data_ctor_of_mem (l : List Element) (hnames : (l.map Prod.fst).Nodup)
    (e : Element) (he : e ∈ l) : (Target_model.ctor l).get_target_data e.1 = some e.2 :=
  get_target_data_of_mem _ (ctor_strictly_sorted l hnames) e
    (by rw [ctor_entries]; exact (mem_sort Less l e).2 he)

theorem get_target_data_ctor_some (l : List Element) (t : Target) (td : Target_data)
    (h : (Target_model.ctor l).get_target_data t = some td) : (t, td) ∈ l := by
  have := get_target_data_some _ t td h
  rw [ctor_entries] at this
  exact (mem_sort Less l _).1 this

/-- After a successful `validate` every entry is found under its name. -/
theorem get_target_data_of_validate (l : List Element)
    (hv : (Target_model.ctor l).validate = "") (e : Element) (he : e ∈ l) :
    (Target_model.ctor l).get_target_data e.1 = some e.2 := by
  obtain ⟨hadj, -⟩ := validate_eq_empty _ hv
  exact get_target_data_of_mem _
    (strictly_sorted_of_adjacent_find _ (ctor_sorted l) hadj) e
    (by rw [ctor_entries]; exact (mem_sort Less l e).2 he)

/-- C11 (amended). `validate` enforces the directory-containment rule: when `validate`
returns the empty string and `is_in_directory A B` holds for an interface include
directory `A` of `T1` and an interface include directory `B` of a different target `T2`,
then `T1` declares at least one include prefix and no include prefix of `T1` is one of
`T2`; `T2` has to declare an include prefix only when `A` also lies in `B`. -/
theorem validate_enforces_directory_containment (l : List Element)
    (hv : (Target_model.ctor l).validate = "")
    (e1 e2 : Element) (he1 : e1 ∈ l) (he2 : e2 ∈ l) (hne : e1.1 ≠ e2.1)
    (A B : Path) (hA : A ∈ e1.2.interface_include_directories)
    (hB : B ∈ e2.2.interface_include_directories)
    (hAB : is_in_directory A B = true) :
    e1.2.interface_include_prefixes ≠ [] ∧
    (∀ pfx ∈ e1.2.interface_include_prefixes, pfx ∉ e2.2.interface_include_prefixes) ∧
    (is_in_directory B A = true → e2.2.interface_include_prefixes ≠ []) := by
  obtain ⟨-, hpairs⟩ := validate_eq_empty _ hv
  have key : ∀ (e1 e2 : Element), e1 ∈ l → e2 ∈ l → e1.1 ≠ e2.1 → ∀ (A B : Path),
      A ∈ e1.2.interface_include_directories → B ∈ e2.2.interface_include_directories →
      is_in_directory A B = true →
      e1.2.interface_include_prefixes ≠ [] ∧
      (∀ pfx ∈ e1.2.interface_include_prefixes, pfx ∉ e2.2.interface_include_prefixes) := by
    intro e1 e2 he1 he2 hne A B hA hB hAB
    have hp := hpairs (A, e1) ((mem_directory_to_target l _).2 ⟨he1, hA⟩)
      (B, e2) ((mem_directory_to_target l _).2 ⟨he2, hB⟩)
    unfold validate_pair at hp
    simp only [hne, if_false, hAB, if_true, get_target_data_of_validate l hv e1 he1,
      get_target_data_of_validate l hv e2 he2] at hp
    by_cases hemp : e1.2.interface_include_prefixes.isEmpty = true
    · simp [hemp] at hp
    · simp only [hemp, Bool.false_eq_true, if_false, Option.map_eq_none',
        List.find?_eq_none] at hp
      refine ⟨fun h => hemp (by simp [h]), fun pfx hpfx hin => ?_⟩
      have := hp pfx hpfx
      simp [hin] at this
  exact ⟨(key e1 e2 he1 he2 hne A B hA hB hAB).1, (key e1 e2 he1 he2 hne A B hA hB hAB).2,
    fun hBA => (key e2 e1 he2 he1 (Ne.symm hne) B A hB hA hBA).1⟩

/-- C11 (witness). The targets `a` and `b` share `/inc` with the prefixes `liba` and
`libb`. -/
theorem validate_enforces_directory_containment_witness :
    (["liba"] : List String) ≠ [] ∧
    (∀ pfx ∈ ["liba"], pfx ∉ ["libb"]) ∧
    (is_in_directory ⟨true, ["inc"]⟩ ⟨true, ["inc"]⟩ = true →
      (["libb"] : List String) ≠ []) :=
  validate_enforces_directory_containment disjoint_prefix_entries (by decide)
    (⟨"a"⟩, { interface_include_directories := [⟨true, ["inc"]⟩]
              interface_include_prefixes := ["liba"] })
    (⟨"b"⟩, { interface_include_directories := [⟨true, ["inc"]⟩]
              interface_include_prefixes := ["libb"] })
    (by decide) (by decide) (by decide) ⟨true, ["inc"]⟩ ⟨true, ["inc"]⟩
    (by decide) (by decide) (by decide)

/-- C11 (counterexample). The model in which `a` owns `/inc` with the prefix `liba` and
`b` owns `/inc/liba` passes `validate` although `b` declares no include prefix. -/
theorem validate_accepts_directory_below_prefixed_directory :
    (Target_model.ctor nested_prefix_entries).validate = "" ∧
    ∃ e1 ∈ nested_prefix_entries, ∃ e2 ∈ nested_prefix_entries, e1.1 ≠ e2.1 ∧
      ∃ A ∈ e1.2.interface_include_directories, ∃ B ∈ e2.2.interface_include_directories,
        is_in_directory A B = true ∧ e1.2.interface_include_prefixes ≠ [] ∧
        e2.2.interface_include_prefixes = [] := by
  refine ⟨by decide, by decide⟩

theorem count_name_pos_not_lt (a : Element) (l : List Element)
    (hs : ∀ x ∈ l, Target.lt x.1 a.1 = false) (n : Target)
    (hn : 0 < ((a :: l).map Prod.fst).count n) : Target.lt n a.1 = false := by
  have hmem : n ∈ (a :: l).map Prod.fst := List.count_pos_iff.1 hn
  simp only [List.map_cons, List.mem_cons, List.mem_map] at hmem
  rcases hmem with rfl | ⟨x, hx, rfl⟩
  · exact target_lt_strict.irrefl _
  · exact hs x hx

theorem adjacent_find_of_duplicate : ∀ (l : List Element),
    l.Pairwise (fun a b => Target.lt b.1 a.1 = false) → ∀ n,
    2 ≤ (l.map Prod.fst).count n →
    ∃ it, adjacent_find l = some it ∧ 2 ≤ (l.map Prod.fst).count it.1 ∧
      ∀ n', 2 ≤ (l.map Prod.fst).count n' → Target.lt n' it.1 = false
  | [], _, n, hn => by simp at hn
  | [a], _, n, hn => by
    simp only [List.map_cons, List.map_nil] at hn
    have := List.count_le_length n [a.1]
    simp at this
    omega
  | a :: b :: rest, hs, n, hn => by
    have hs' := List.pairwise_cons.1 hs
    by_cases hab : a.1 = b.1
    · refine ⟨a, by simp [adjacent_find, hab], ?_, ?_⟩
      · simp [List.count_cons, hab]
      · intro n' hn'
        exact count_name_pos_not_lt a (b :: rest) hs'.1 n' (by omega)
    · have hlt : Target.lt a.1 b.1 = true :=
        lt_of_ne_of_not_lt target_lt_strict (Ne.symm hab) (hs'.1 b (by simp))
      have hnot : a.1 ∉ (b :: rest).map Prod.fst := by
        intro hmem
        simp only [List.map_cons, List.mem_cons, List.mem_map] at hmem
        rcases hmem with h | ⟨x, hx, h⟩
        · exact hab h
        · have h1 := (List.pairwise_cons.1 hs'.2).1 x hx
          rw [h] at h1
          rw [h1] at hlt
          exact Bool.false_ne_true hlt
      have hcount : ∀ n', 2 ≤ ((a :: b :: rest).map Prod.fst).count n' →
          2 ≤ ((b :: rest).map Prod.fst).count n' := by
        intro n' hn'
        by_cases hna : a.1 = n'
        · subst hna
          have := List.count_eq_zero_of_not_mem hnot
          rw [List.map_cons, List.count_cons_self] at hn'
          omega
        · rw [List.map_cons, List.count_cons] at hn'
          simp only [beq_iff_eq, hna, if_false] at hn'
          exact hn'
      obtain ⟨it, h1, h2, h3⟩ := adjacent_find_of_duplicate (b :: rest) hs'.2 n (hcount n hn)
      refine ⟨it, by simp [adjacent_find, hab, h1], ?_, fun n' hn' => h3 n' (hcount n' hn')⟩
      rw [List.map_cons, List.count_cons]
      omega

theorem validate_of_duplicate (l : List Element) (n : Target)
    (hn : 2 ≤ (l.map Prod.fst).count n) :
    ∃ n0, 2 ≤ (l.map Prod.fst).count n0 ∧
      (∀ n', 2 ≤ (l.map Prod.fst).count n' → Target.lt n' n0 = false) ∧
      (Target_model.ctor l).validate = "Target " ++ n0.name ++ " is repeated.\n" := by
  have hcount : ∀ n', ((stdlib.sort Less l).map Prod.fst).count n' =
      (l.map Prod.fst).count n' := fun n' => ((sort_perm Less l).map Prod.fst).count_eq n'
  obtain ⟨it, h1, h2, h3⟩ := adjacent_find_of_duplicate (stdlib.sort Less l)
    (ctor_sorted l) n (by rw [hcount]; exact hn)
  refine ⟨it.1, by rw [← hcount]; exact h2, fun n' hn' => h3 n' (by rw [hcount]; exact hn'), ?_⟩
  unfold Target_model.validate
  rw [ctor_entries, h1]

/-- C12 (amended). `validate` rejects duplicate target names: when some name occurs
twice among the entries, given in any order, `validate` returns a non-empty error, namely
`Target n0 is repeated.` followed by a newline for the least name `n0` that occurs twice;
it names `n` when `n` is the only repeated name, and the text does not depend on the
order of the entries. -/
theorem validate_rejects_duplicate_names (l : List Element) (n : Target)
    (hn : 2 ≤ (l.map Prod.fst).count n) :
    (Target_model.ctor l).validate ≠ "" ∧
    (∃ n0, 2 ≤ (l.map Prod.fst).count n0 ∧
      (∀ n', 2 ≤ (l.map Prod.fst).count n' → Target.lt n' n0 = false) ∧
      (Target_model.ctor l).validate = "Target " ++ n0.name ++ " is repeated.\n") ∧
    ((∀ n', 2 ≤ (l.map Prod.fst).count n' → n' = n) →
      (Target_model.ctor l).validate = "Target " ++ n.name ++ " is repeated.\n") ∧
    (∀ l', l'.Perm l → (Target_model.ctor l').validate = (Target_model.ctor l).validate) := by
  obtain ⟨n0, h1, h2, h3⟩ := validate_of_duplicate l n hn
  refine ⟨?_, ⟨n0, h1, h2, h3⟩, ?_, ?_⟩
  · rw [h3]
    intro he
    have := congrArg String.length he
    simp only [String.length_append] at this
    have h7 : "Target ".length = 7 := by decide
    have h0 : "".length = 0 := by decide
    omega
  · intro honly
    rw [h3, honly n0 h1]
  · intro l' hperm
    have hc : ∀ n', (l'.map Prod.fst).count n' = (l.map Prod.fst).count n' :=
      fun n' => (hperm.map Prod.fst).count_eq n'
    obtain ⟨n1, g1, g2, g3⟩ := validate_of_duplicate l' n (by rw [hc]; exact hn)
    have : n1 = n0 := target_lt_strict.tri n1 n0
      (h2 n1 (by rw [← hc]; exact g1)) (g2 n0 (by rw [hc]; exact h1))
    rw [g3, h3, this]

/-- C12 (witness). The entries `b`, `a`, `b`. -/
theorem validate_rejects_duplicate_names_witness :
    (Target_model.ctor repeated_entries).validate ≠ "" ∧
    (∃ n0, 2 ≤ (repeated_entries.map Prod.fst).count n0 ∧
      (∀ n', 2 ≤ (repeated_entries.map Prod.fst).count n' → Target.lt n' n0 = false) ∧
      (Target_model.ctor repeated_entries).validate =
        "Target " ++ n0.name ++ " is repeated.\n") ∧
    ((∀ n', 2 ≤ (repeated_entries.map Prod.fst).count n' → n' = ⟨"b"⟩) →
      (Target_model.ctor repeated_entries).validate =
        "Target " ++ (⟨"b"⟩ : Target).name ++ " is repeated.\n") ∧
    (∀ l', l'.Perm repeated_entries →
      (Target_model.ctor l').validate = (Target_model.ctor repeated_entries).validate) :=
  validate_rejects_duplicate_names repeated_entries ⟨"b"⟩ (by decide)

/-- C12 (counterexample). In the entries `b`, `b`, `a`, `a` the name `b` occurs twice,
yet the error names `a`, the first repeated name of the sorted entries. -/
theorem validate_names_the_least_repeated_target :
    2 ≤ (twice_repeated_entries.map Prod.fst).count ⟨"b"⟩ ∧
    (Target_model.ctor twice_repeated_entries).validate = "Target a is repeated.\n" ∧
    (Target_model.ctor twice_repeated_entries).validate ≠ "Target b is repeated.\n" := by
  refine ⟨by decide, by decide, by decide⟩

theorem umap_find_isSome_headers_inner (element : Element) (p : Path) :
    ∀ (hs : List Path) (acc : List (Path × Element)),
      (umap_find p acc).isSome = true ∨ p ∈ hs →
      (umap_find p (hs.foldl (fun acc header => umap_set header element acc) acc)).isSome
        = true
  | [], acc, h => by
    rcases h with h | h
    · exact h
    · simp at h
  | hd :: hs, acc, h => by
    simp only [List.foldl_cons]
    apply umap_find_isSome_headers_inner element p hs
    rw [umap_find_set]
    by_cases hp : hd = p
    · simp [hp]
    · simp only [hp, if_false]
      rcases h with h | h
      · exact Or.inl h
      · rcases List.mem_cons.1 h with h | h
        · exact absurd h.symm hp
        · exact Or.inr h

theorem umap_find_isSome_headers (p : Path) :
    ∀ (es : List Element) (acc : List (Path × Element)),
      ((umap_find p acc).isSome = true ∨ ∃ e ∈ es, p ∈ e.2.interface_headers) →
      (umap_find p (es.foldl (fun acc element =>
        element.2.interface_headers.foldl (fun acc header => umap_set header element acc) acc)
        acc)).isSome = true
  | [], acc, h => by
    rcases h with h | ⟨e, he, -⟩
    · exact h
    · simp at he
  | e0 :: es, acc, h => by
    simp only [List.foldl_cons]
    apply umap_find_isSome_headers p es
    rcases h with h | ⟨e, he, hp⟩
    · exact Or.inl (umap_find_isSome_headers_inner e0 p _ acc (Or.inl h))
    · rcases List.mem_cons.1 he with rfl | he
      · exact Or.inl (umap_find_isSome_headers_inner e p _ acc (Or.inr hp))
      · exact Or.inr ⟨e, he, hp⟩

theorem header_to_target_complete (l : List Element) (p : Path) (e : Element) (he : e ∈ l)
    (hp : p ∈ e.2.interface_headers) :
    (umap_find p (Target_model.ctor l).header_to_target_).isSome = true := by
  unfold Target_model.ctor
  simp only
  exact umap_find_isSome_headers p _ [] (Or.inr ⟨e, (mem_sort Less l e).2 he, hp⟩)

/-- C13. `map_header_to_target` and `is_interface_header` use the same ownership rule:
in a model with distinct target names, a target returned by `map_header_to_target p` has
data for which `is_interface_header` holds of `p`, and when `is_interface_header` holds
of `p` for the data of some target of the model, `map_header_to_target p` returns a
target. -/
theorem map_header_to_target_agrees_with_is_interface_header (l : List Element)
    (hnames : (l.map Prod.fst).Nodup) (p : Path) :
    (∀ T, (Target_model.ctor l).map_header_to_target p = some T →
      ∃ td, (Target_model.ctor l).get_target_data T = some td ∧
        is_interface_header td p = true) ∧
    (∀ T td, (Target_model.ctor l).get_target_data T = some td →
      is_interface_header td p = true →
      ((Target_model.ctor l).map_header_to_target p).isSome = true) := by
  constructor
  · intro T hT
    unfold Target_model.map_header_to_target at hT
    cases hf : umap_find p (Target_model.ctor l).header_to_target_ with
    | some element =>
      rw [hf] at hT
      simp only [Option.some.injEq] at hT
      obtain ⟨hel, hph⟩ := header_to_target_sound l p element hf
      refine ⟨element.2, ?_, ?_⟩
      · rw [← hT]; exact get_target_data_ctor_of_mem l hnames element hel
      · unfold is_interface_header
        rw [if_pos (by simpa using hph)]
    | none =>
      rw [hf] at hT
      simp only at hT
      obtain ⟨pair, hfind, rfl⟩ := Option.map_eq_some'.1 hT
      have hmem := List.mem_of_find?_eq_some hfind
      have hpred := List.find?_some hfind
      obtain ⟨hel, hdir⟩ := (mem_directory_to_target l pair).1 hmem
      have hg := get_target_data_ctor_of_mem l hnames pair.2 hel
      refine ⟨pair.2.2, hg, ?_⟩
      simp only [hg] at hpred
      unfold is_interface_header
      by_cases hc : pair.2.2.interface_headers.contains p = true
      · rw [if_pos hc]
      · simp only [hc, Bool.false_eq_true, if_false, List.any_eq_true]
        exact ⟨pair.1, hdir, hpred⟩
  · intro T td hT hi
    have hel : (T, td) ∈ l := by
      have := get_target_data_some _ T td hT
      rw [ctor_entries] at this
      exact (mem_sort Less l _).1 this
    unfold Target_model.map_header_to_target
    cases hf : umap_find p (Target_model.ctor l).header_to_target_ with
    | some element => rfl
    | none =>
      simp only
      unfold is_interface_header at hi
      by_cases hc : td.interface_headers.contains p = true
      · have := header_to_target_complete l p (T, td) hel (by simpa using hc)
        rw [hf] at this
        exact absurd this (by simp)
      · simp only [hc, Bool.false_eq_true, if_false, List.any_eq_true] at hi
        obtain ⟨D, hD, hcond⟩ := hi
        rw [Option.isSome_map']
        rw [List.find?_isSome]
        refine ⟨(D, (T, td)), (mem_directory_to_target l _).2 ⟨hel, hD⟩, ?_⟩
        simp only [hT]
        exact hcond

/-- C13 (witness). The header `/inc/liba/x.h` in the nested prefix example. -/
theorem map_header_to_target_agrees_with_is_interface_header_witness :
    (∀ T, (Target_model.ctor nested_prefix_entries).map_header_to_target
        ⟨true, ["inc", "liba", "x.h"]⟩ = some T →
      ∃ td, (Target_model.ctor nested_prefix_entries).get_target_data T = some td ∧
        is_interface_header td ⟨true, ["inc", "liba", "x.h"]⟩ = true) ∧
    (∀ T td, (Target_model.ctor nested_prefix_entries).get_target_data T = some td →
      is_interface_header td ⟨true, ["inc", "liba", "x.h"]⟩ = true →
      ((Target_model.ctor nested_prefix_entries).map_header_to_target
        ⟨true, ["inc", "liba", "x.h"]⟩).isSome = true) :=
  map_header_to_target_agrees_with_is_interface_header nested_prefix_entries (by decide) _

/-- C14. `get_target_data` is a correct lookup whatever the construction order: for
entries with pairwise distinct names, given to the constructor in any order, the lookup
of a name returns the `Target_data` paired with it, the lookup of any other target
returns nothing, and reordering the entries changes no lookup. -/
theorem get_target_data_is_a_correct_lookup (l : List Element)
    (hnames : (l.map Prod.fst).Nodup) :
    (∀ e ∈ l, (Target_model.ctor l).get_target_data e.1 = some e.2) ∧
    (∀ t, t ∉ l.map Prod.fst → (Target_model.ctor l).get_target_data t = none) ∧
    (∀ l', l'.Perm l → ∀ t,
      (Target_model.ctor l').get_target_data t = (Target_model.ctor l).get_target_data t) := by
  have hnone : ∀ (l : List Element) (t : Target), t ∉ l.map Prod.fst →
      (Target_model.ctor l).get_target_data t = none := by
    intro l t ht
    cases h : (Target_model.ctor l).get_target_data t with
    | none => rfl
    | some td =>
      exact absurd (List.mem_map_of_mem Prod.fst (get_target_data_ctor_some l t td h)) ht
  refine ⟨fun e he => get_target_data_ctor_of_mem l hnames e he, hnone l, ?_⟩
  intro l' hperm t
  have hnames' : (l'.map Prod.fst).Nodup := (hperm.map Prod.fst).nodup_iff.2 hnames
  by_cases ht : t ∈ l.map Prod.fst
  · obtain ⟨e, he, rfl⟩ := List.mem_map.1 ht
    rw [get_target_data_ctor_of_mem l hnames e he,
      get_target_data_ctor_of_mem l' hnames' e (hperm.mem_iff.2 he)]
  · rw [hnone l t ht, hnone l' t (fun h => ht ((hperm.map Prod.fst).mem_iff.1 h))]

/-- C14 (witness). The two entries `a` and `b` of the plain directory example. -/
theorem get_target_data_is_a_correct_lookup_witness :
    (∀ e ∈ plain_directory_entries,
      (Target_model.ctor plain_directory_entries).get_target_data e.1 = some e.2) ∧
    (∀ t, t ∉ plain_directory_entries.map Prod.fst →
      (Target_model.ctor plain_directory_entries).get_target_data t = none) ∧
    (∀ l', l'.Perm plain_directory_entries → ∀ t,
      (Target_model.ctor l').get_target_data t =
        (Target_model.ctor plain_directory_entries).get_target_data t) :=
  get_target_data_is_a_correct_lookup plain_directory_entries (by decide)

end target_model

namespace stdlib
variable {K V : Type} {lt : K → K → Bool}

theorem map_find_head (h : StrictOrder lt) (k : K) (v : V) (rest : List (K × V)) :
    map_find lt k ((k, v) :: rest) = some v := by
  simp [map_find, h.irrefl]

theorem map_find_tail (h : StrictOrder lt) (k d : K) (v : V) (rest : List (K × V))
    (hs : KeysSorted lt ((k, v) :: rest)) (hd : d ≠ k) :
    map_find lt d ((k, v) :: rest) = map_find lt d rest := by
  have hall : ∀ a ∈ rest.map Prod.fst, lt k a = true := by
    have := List.pairwise_cons.1 hs
    exact this.1
  cases h1 : lt d k with
  | true =>
    simp only [map_find, h1, if_true]
    symm
    apply map_find_none_of_lt
    intro a ha
    exact h.trans d k a h1 (hall a ha)
  | false =>
    have h2 : lt k d = true := lt_of_ne_of_not_lt h hd h1
    simp [map_find, h1, h2]

/-- Two ordered maps with the same lookups are the same map. -/
theorem map_ext (h : StrictOrder lt) : ∀ (l1 l2 : List (K × V)),
    KeysSorted lt l1 → KeysSorted lt l2 →
    (∀ d, map_find lt d l1 = map_find lt d l2) → l1 = l2
  | [], [], _, _, _ => rfl
  | [], (k2, v2) :: r2, _, _, hf => by
    have := hf k2
    rw [map_find_head h] at this
    simp [map_find] at this
  | (k1, v1) :: r1, [], _, _, hf => by
    have := hf k1
    rw [map_find_head h] at this
    simp [map_find] at this
  | (k1, v1) :: r1, (k2, v2) :: r2, hs1, hs2, hf => by
    have e1 := hf k1
    have e2 := hf k2
    rw [map_find_head h] at e1 e2
    have hk : k1 = k2 := by
      apply h.tri
      · cases h1 : lt k1 k2 with
        | false => rfl
        | true => simp [map_find, h1] at e1
      · cases h1 : lt k2 k1 with
        | false => rfl
        | true => simp [map_find, h1] at e2
    subst hk
    rw [map_find_head h] at e1
    have hv : v1 = v2 := Option.some.inj e1
    subst hv
    have hrest : r1 = r2 := by
      apply map_ext h r1 r2 (List.pairwise_cons.1 hs1).2 (List.pairwise_cons.1 hs2).2
      intro d
      by_cases hd : d = k1
      · subst hd
        rw [map_find_none_of_lt d r1 (List.pairwise_cons.1 hs1).1,
          map_find_none_of_lt d r2 (List.pairwise_cons.1 hs2).1]
      · rw [← map_find_tail h k1 d v1 r1 hs1 hd, ← map_find_tail h k1 d v1 r2 hs2 hd]
        exact hf d
    rw [hrest]

/-- Two ordered maps with the same keys and the same values are the same map. -/
theorem map_eq_of_keys_getD (h : StrictOrder lt) [DecidableEq K] (dflt : V)
    (l1 l2 : List (K × V)) (hs1 : KeysSorted lt l1) (hs2 : KeysSorted lt l2)
    (hk : ∀ d, d ∈ l1.map Prod.fst ↔ d ∈ l2.map Prod.fst)
    (hv : ∀ d, (map_find lt d l1).getD dflt = (map_find lt d l2).getD dflt) : l1 = l2 := by
  apply map_ext h l1 l2 hs1 hs2
  intro d
  have h1 := map_find_isSome_iff_mem h d l1 hs1
  have h2 := map_find_isSome_iff_mem h d l2 hs2
  have hvd := hv d
  cases f1 : map_find lt d l1 with
  | none =>
    cases f2 : map_find lt d l2 with
    | none => rfl
    | some v2 =>
      rw [f1] at h1; rw [f2] at h2
      have := (hk d).2 (h2.1 rfl)
      exact absurd (h1.2 this) (by simp)
  | some v1 =>
    cases f2 : map_find lt d l2 with
    | none =>
      rw [f1] at h1; rw [f2] at h2
      have := (hk d).1 (h1.1 rfl)
      exact absurd (h2.2 this) (by simp)
    | some v2 =>
      rw [f1, f2] at hvd
      simpa using hvd

/-- The keys of a map after a loop of conditional updates. -/
theorem foldl_map_update_keys {A : Type} (h : StrictOrder lt) (dflt : V) (f : V → V)
    (key : A → K) (c : A → Bool) (step : List (K × V) → A → List (K × V))
    (hstep : ∀ vm a, step vm a = if c a = true then map_update lt dflt f (key a) vm else vm) :
    ∀ (as : List A) (vm : List (K × V)) (x : K),
      x ∈ (as.foldl step vm).map Prod.fst ↔
        x ∈ vm.map Prod.fst ∨ ∃ a ∈ as, c a = true ∧ key a = x
  | [], vm, x => by simp
  | a :: as, vm, x => by
    simp only [List.foldl_cons]
    rw [foldl_map_update_keys h dflt f key c step hstep as (step vm a) x, hstep]
    by_cases hc : c a = true
    · simp only [hc, if_true, map_update_keys h, List.mem_cons, exists_eq_or_imp, true_and]
      constructor
      · rintro ((rfl | h1) | h1)
        · exact Or.inr (Or.inl rfl)
        · exact Or.inl h1
        · exact Or.inr (Or.inr h1)
      · rintro (h1 | h1 | h1)
        · exact Or.inl (Or.inr h1)
        · exact Or.inl (Or.inl h1.symm)
        · exact Or.inr h1
    · simp [hc]

theorem foldl_map_update_cond_keys (h : StrictOrder lt) (dflt : V) (f : V → V)
    (c : K → Bool) (ks : List K) (vm : List (K × V)) (x : K) :
    x ∈ (ks.foldl (fun vm k => if c k = true then map_update lt dflt f k vm else vm)
        vm).map Prod.fst ↔
      x ∈ vm.map Prod.fst ∨ (x ∈ ks ∧ c x = true) := by
  rw [foldl_map_update_keys h dflt f id c
    (fun vm k => if c k = true then map_update lt dflt f k vm else vm) (fun _ _ => rfl)]
  apply or_congr Iff.rfl
  constructor
  · rintro ⟨a, ha, hc, rfl⟩; exact ⟨ha, hc⟩
  · rintro ⟨ha, hc⟩; exact ⟨x, ha, hc, rfl⟩

theorem foldl_map_update_all_keys {A : Type} (h : StrictOrder lt) (dflt : V) (f : V → V)
    (key : A → K) (as : List A) (vm : List (K × V)) (x : K) :
    x ∈ (as.foldl (fun vm a => map_update lt dflt f (key a) vm) vm).map Prod.fst ↔
      x ∈ vm.map Prod.fst ∨ x ∈ as.map key := by
  rw [foldl_map_update_keys h dflt f key (fun _ => true)
    (fun vm a => map_update lt dflt f (key a) vm) (fun _ _ => by simp)]
  apply or_congr Iff.rfl
  constructor
  · rintro ⟨a, ha, -, rfl⟩; exact List.mem_map.2 ⟨a, ha, rfl⟩
  · intro hd
    obtain ⟨a, ha, rfl⟩ := List.mem_map.1 hd
    exact ⟨a, ha, rfl, rfl⟩

end stdlib

namespace target_model
open stdlib util

theorem lower_bound_of_mem_name : ∀ (l : List Element),
    l.Pairwise (fun a b => Target.lt b.1 a.1 = false) → ∀ e ∈ l,
      ∃ it rest, lower_bound e.1 l = it :: rest ∧ it.1 = e.1
  | [], _, e, he => by simp at he
  | a :: l, hs, e, he => by
    have hs' := List.pairwise_cons.1 hs
    unfold lower_bound
    cases hlt : Target.lt a.1 e.1 with
    | true =>
      have hne : e ≠ a := by
        rintro rfl
        rw [target_lt_strict.irrefl] at hlt
        exact Bool.false_ne_true hlt
      have he' : e ∈ l := by
        rcases List.mem_cons.1 he with h | h
        · exact absurd h hne
        · exact h
      obtain ⟨it, rest, h1, h2⟩ := lower_bound_of_mem_name l hs'.2 e he'
      refine ⟨it, rest, ?_, h2⟩
      rw [List.dropWhile_cons]
      simp only [hlt, if_true]
      exact h1
    | false =>
      refine ⟨a, l, ?_, ?_⟩
      · rw [List.dropWhile_cons]
        simp [hlt]
      · rcases List.mem_cons.1 he with h | h
        · rw [h]
        · exact target_lt_strict.tri _ _ hlt (hs'.1 e h)

/-- The name of every entry given to the constructor has data in the model. -/
theorem get_target_data_isSome_of_mem (l : List Element) (e : Element) (he : e ∈ l) :
    ((Target_model.ctor l).get_target_data e.1).isSome = true := by
  obtain ⟨it, rest, h1, h2⟩ := lower_bound_of_mem_name _ (ctor_sorted l) e
    (by rw [ctor_entries]; exact (mem_sort Less l e).2 he)
  unfold Target_model.get_target_data
  rw [h1]
  simp [h2]

/-- A target returned by `map_header_to_target` has data in the model. -/
theorem map_header_to_target_has_data (l : List Element) (p : Path) (T : Target)
    (hT : (Target_model.ctor l).map_header_to_target p = some T) :
    ((Target_model.ctor l).get_target_data T).isSome = true := by
  unfold Target_model.map_header_to_target at hT
  cases hf : umap_find p (Target_model.ctor l).header_to_target_ with
  | some element =>
    rw [hf] at hT
    simp only [Option.some.injEq] at hT
    rw [← hT]
    exact get_target_data_isSome_of_mem l element (header_to_target_sound l p element hf).1
  | none =>
    rw [hf] at hT
    simp only at hT
    obtain ⟨pair, hfind, rfl⟩ := Option.map_eq_some'.1 hT
    have hpred := List.find?_some hfind
    cases hg : (Target_model.ctor l).get_target_data pair.2.1 with
    | some td => rfl
    | none => simp [hg] at hpred

end target_model

namespace lwyi
open stdlib target_model scanner

theorem visibility_map_keys (m : Target_model) (td : Target_data)
    (imap pmap : List (Target × List Include)) (d : Target) :
    d ∈ (visibility_map m td imap pmap).map Prod.fst ↔
      ((d ∈ td.interface_dependencies ∨ d ∈ td.dependencies) ∧
        (m.get_target_data d).isSome = true) ∨
      d ∈ imap.map Prod.fst ∨ d ∈ pmap.map Prod.fst := by
  unfold visibility_map
  simp only
  rw [foldl_map_update_all_keys target_lt_strict, foldl_map_update_all_keys target_lt_strict,
    foldl_map_update_cond_keys target_lt_strict _ _
      (fun dep => (m.get_target_data dep).isSome),
    foldl_map_update_cond_keys target_lt_strict _ _
      (fun dep => (m.get_target_data dep).isSome)]
  simp only [List.map_nil, List.not_mem_nil, false_or]
  tauto

/-- The visibility map depends on the link edges to targets with data only. -/
theorem visibility_map_congr (m : Target_model) (td td' : Target_data)
    (imap pmap : List (Target × List Include))
    (hi : ∀ d, (m.get_target_data d).isSome = true →
      (d ∈ td'.interface_dependencies ↔ d ∈ td.interface_dependencies))
    (hp : ∀ d, (m.get_target_data d).isSome = true →
      (d ∈ td'.dependencies ↔ d ∈ td.dependencies)) :
    visibility_map m td' imap pmap = visibility_map m td imap pmap := by
  obtain ⟨s, g⟩ := visibility_map_spec m td imap pmap
  obtain ⟨s', g'⟩ := visibility_map_spec m td' imap pmap
  apply map_eq_of_keys_getD target_lt_strict ({} : Visibility) _ _ s' s
  · intro d
    rw [visibility_map_keys, visibility_map_keys]
    by_cases hc : (m.get_target_data d).isSome = true
    · rw [hi d hc, hp d hc]
    · simp [hc]
  · intro d
    rw [g d, g' d]
    by_cases hc : (m.get_target_data d).isSome = true
    · simp only [hi d hc, hp d hc]
    · simp [hc]

theorem check_target_congr (m : Target_model) (target : Target) (td td' : Target_data)
    (ti : Intransitive_includes)
    (hi : ∀ d, (m.get_target_data d).isSome = true →
      (d ∈ td'.interface_dependencies ↔ d ∈ td.interface_dependencies))
    (hp : ∀ d, (m.get_target_data d).isSome = true →
      (d ∈ td'.dependencies ↔ d ∈ td.dependencies)) :
    check_target m target td' ti = check_target m target td ti := by
  unfold check_target
  simp only
  rw [visibility_map_congr m td td' _ _ hi hp]

theorem check_target_names_known_targets (l : List Element) (target : Target)
    (td : Target_data) (ti : Intransitive_includes) (err : LWYI_error)
    (herr : err ∈ check_target (Target_model.ctor l) target td ti) :
    ((Target_model.ctor l).get_target_data err.target).isSome = true := by
  unfold check_target at herr
  simp only [List.mem_filterMap] at herr
  obtain ⟨entry, hentry, hsome⟩ := herr
  have hkey : entry.1 ∈ (visibility_map (Target_model.ctor l) td
      (collect_include_deps (Target_model.ctor l) ti.interface_includes)
      (collect_include_deps (Target_model.ctor l) ti.includes)).map Prod.fst :=
    List.mem_map_of_mem Prod.fst hentry
  have htarget : err.target = entry.1 := by
    by_cases hv : entry.2.linked_visibility = entry.2.included_visibility
    · simp [hv] at hsome
    · simp only [hv, if_false, Option.some.injEq] at hsome
      rw [← hsome]
  rw [htarget]
  rw [visibility_map_keys] at hkey
  rcases hkey with ⟨-, hc⟩ | hk | hk
  · exact hc
  · obtain ⟨i, -, hi⟩ := ((collect_include_deps_spec _ _).2 _).1 hk
    exact map_header_to_target_has_data l _ _ hi
  · obtain ⟨i, -, hi⟩ := ((collect_include_deps_spec _ _).2 _).1 hk
    exact map_header_to_target_has_data l _ _ hi

end lwyi

namespace lwyi
open stdlib target_model scanner

/-- C16. `check_target` ignores link edges to targets unknown to the model: every
returned error names a target that has data in the model, and for a name `u` without
data, adding `u` to or removing it from `interface_dependencies` or `dependencies` (in
whatever iteration order the changed set has) leaves the returned list unchanged. -/
theorem check_target_ignores_unknown_link_edges (l : List Element) (target : Target)
    (td : Target_data) (ti : Intransitive_includes) (u : Target)
    (hu : (Target_model.ctor l).get_target_data u = none) :
    (∀ err ∈ check_target (Target_model.ctor l) target td ti,
      ((Target_model.ctor l).get_target_data err.target).isSome = true) ∧
    (∀ deps', (∀ d, d ∈ deps' ↔ d = u ∨ d ∈ td.interface_dependencies) →
      check_target (Target_model.ctor l) target { td with interface_dependencies := deps' } ti
        = check_target (Target_model.ctor l) target td ti) ∧
    (∀ deps', (∀ d, d ∈ deps' ↔ d ≠ u ∧ d ∈ td.interface_dependencies) →
      check_target (Target_model.ctor l) target { td with interface_dependencies := deps' } ti
        = check_target (Target_model.ctor l) target td ti) ∧
    (∀ deps', (∀ d, d ∈ deps' ↔ d = u ∨ d ∈ td.dependencies) →
      check_target (Target_model.ctor l) target { td with dependencies := deps' } ti
        = check_target (Target_model.ctor l) target td ti) ∧
    (∀ deps', (∀ d, d ∈ deps' ↔ d ≠ u ∧ d ∈ td.dependencies) →
      check_target (Target_model.ctor l) target { td with dependencies := deps' } ti
        = check_target (Target_model.ctor l) target td ti) := by
  have hne : ∀ d, ((Target_model.ctor l).get_target_data d).isSome = true → d ≠ u := by
    rintro d hd rfl
    rw [hu] at hd
    exact Bool.false_ne_true hd
  refine ⟨fun err herr => check_target_names_known_targets l target td ti err herr,
    fun deps' h => ?_, fun deps' h => ?_, fun deps' h => ?_, fun deps' h => ?_⟩
  · apply check_target_congr
    · intro d hd
      simp only [h d, hne d hd, false_or]
    · intro d _
      exact Iff.rfl
  · apply check_target_congr
    · intro d hd
      simp only [h d, hne d hd, ne_eq, not_false_eq_true, true_and]
    · intro d _
      exact Iff.rfl
  · apply check_target_congr
    · intro d _
      exact Iff.rfl
    · intro d hd
      simp only [h d, hne d hd, false_or]
  · apply check_target_congr
    · intro d _
      exact Iff.rfl
    · intro d hd
      simp only [h d, hne d hd, ne_eq, not_false_eq_true, true_and]

/-- C16 (witness). A target that links `b`, includes a header of `a`, and the unknown
name `zlib`. -/
theorem check_target_ignores_unknown_link_edges_witness :
    (∀ err ∈ check_target (Target_model.ctor plain_directory_entries) ⟨"t"⟩ links_b includes_a,
      ((Target_model.ctor plain_directory_entries).get_target_data err.target).isSome = true) ∧
    (∀ deps', (∀ d, d ∈ deps' ↔ d = ⟨"zlib"⟩ ∨ d ∈ links_b.interface_dependencies) →
      check_target (Target_model.ctor plain_directory_entries) ⟨"t"⟩
        { links_b with interface_dependencies := deps' } includes_a
        = check_target (Target_model.ctor plain_directory_entries) ⟨"t"⟩ links_b includes_a) ∧
    (∀ deps', (∀ d, d ∈ deps' ↔ d ≠ ⟨"zlib"⟩ ∧ d ∈ links_b.interface_dependencies) →
      check_target (Target_model.ctor plain_directory_entries) ⟨"t"⟩
        { links_b with interface_dependencies := deps' } includes_a
        = check_target (Target_model.ctor plain_directory_entries) ⟨"t"⟩ links_b includes_a) ∧
    (∀ deps', (∀ d, d ∈ deps' ↔ d = ⟨"zlib"⟩ ∨ d ∈ links_b.dependencies) →
      check_target (Target_model.ctor plain_directory_entries) ⟨"t"⟩
        { links_b with dependencies := deps' } includes_a
        = check_target (Target_model.ctor plain_directory_entries) ⟨"t"⟩ links_b includes_a) ∧
    (∀ deps', (∀ d, d ∈ deps' ↔ d ≠ ⟨"zlib"⟩ ∧ d ∈ links_b.dependencies) →
      check_target (Target_model.ctor plain_directory_entries) ⟨"t"⟩
        { links_b with dependencies := deps' } includes_a
        = check_target (Target_model.ctor plain_directory_entries) ⟨"t"⟩ links_b includes_a) :=
  check_target_ignores_unknown_link_edges plain_directory_entries ⟨"t"⟩ links_b includes_a
    ⟨"zlib"⟩ (by decide)

end lwyi

namespace stdlib
variable {K V : Type} {lt : K → K → Bool}

theorem map_emplace_eq_update (k : K) (v : V) : ∀ (l : List (K × V)),
    map_emplace lt k v l = map_update lt v id k l
  | [] => rfl
  | (k', v') :: rest => by
    simp only [map_emplace, map_update, map_emplace_eq_update k v rest, id]

theorem map_emplace_sorted (h : StrictOrder lt) (k : K) (v : V) (l : List (K × V))
    (hs : KeysSorted lt l) : KeysSorted lt (map_emplace lt k v l) := by
  rw [map_emplace_eq_update]
  exact map_update_sorted h v id k l hs

theorem map_find_emplace (h : StrictOrder lt) [DecidableEq K] (k d : K) (v : V)
    (l : List (K × V)) (hs : KeysSorted lt l) (hk : map_find lt k l = none) :
    map_find lt d (map_emplace lt k v l) = if d = k then some v else map_find lt d l := by
  rw [map_emplace_eq_update, map_find_update h v id k d l hs, hk]
  rfl

theorem map_find_eq_some_iff_mem (h : StrictOrder lt) [DecidableEq K] (d : K) (v : V)
    (l : List (K × V)) (hs : KeysSorted lt l) :
    map_find lt d l = some v ↔ (d, v) ∈ l := by
  have hf := filter_key_eq_map_find h d l hs
  constructor
  · intro hv
    rw [hv] at hf
    have : (d, v) ∈ l.filter (fun e => e.1 = d) := by rw [hf]; simp
    exact (List.mem_filter.1 this).1
  · intro hmem
    have : (d, v) ∈ l.filter (fun e => e.1 = d) := List.mem_filter.2 ⟨hmem, by simp⟩
    rw [hf] at this
    cases hfd : map_find lt d l with
    | some w =>
      rw [hfd] at this
      simp only [List.mem_singleton, Prod.mk.injEq, true_and] at this
      rw [this]
    | none => rw [hfd] at this; simp at this

/-- Removing an element from a filtered sum lowers the sum by at least its weight. -/
theorem sum_filter_add_le {A : Type} (f : A → Nat) (P Q : A → Bool)
    (hQP : ∀ x, Q x = true → P x = true) (e : A) (hP : P e = true) (hQ : Q e = false) :
    ∀ (l : List A), e ∈ l →
      ((l.filter Q).map f).sum + f e ≤ ((l.filter P).map f).sum
  | [], he => by simp at he
  | a :: l, he => by
    have hmono : ∀ (l : List A), ((l.filter Q).map f).sum ≤ ((l.filter P).map f).sum := by
      intro l
      induction l with
      | nil => simp
      | cons b l ih =>
        cases hq : Q b with
        | true => simp only [List.filter_cons, hq, hQP b hq, if_true, List.map_cons,
            List.sum_cons]; omega
        | false =>
          cases hp : P b with
          | true => simp only [List.filter_cons, hq, hp, if_true, Bool.false_eq_true,
              if_false, List.map_cons, List.sum_cons]; omega
          | false => simp only [List.filter_cons, hq, hp, Bool.false_eq_true, if_false]
                     exact ih
    by_cases hae : a = e
    · subst hae
      simp only [List.filter_cons, hQ, hP, if_true, Bool.false_eq_true, if_false,
        List.map_cons, List.sum_cons]
      have := hmono l
      omega
    · have he' : e ∈ l := by
        rcases List.mem_cons.1 he with h1 | h1
        · exact absurd h1.symm hae
        · exact h1
      have ih := sum_filter_add_le f P Q hQP e hP hQ l he'
      cases hq : Q a with
      | true => simp only [List.filter_cons, hq, hQP a hq, if_true, List.map_cons,
          List.sum_cons]; omega
      | false =>
        cases hp : P a with
        | true => simp only [List.filter_cons, hq, hp, if_true, Bool.false_eq_true,
            if_false, List.map_cons, List.sum_cons]; omega
        | false => simp only [List.filter_cons, hq, hp, Bool.false_eq_true, if_false]
                   exact ih

end stdlib

namespace target_model
open stdlib util

theorem pending_le (m : Target_model) (pruned : List (Target × Target_data)) :
    pending m pruned ≤ (m.target_to_target_data_.map fun e => e.2.dependencies.length).sum := by
  unfold pending
  generalize m.target_to_target_data_ = l
  induction l with
  | nil => simp
  | cons a l ih =>
    by_cases h : (map_find Target.lt a.1 pruned).isNone = true
    · simp only [List.filter_cons, h, if_true, List.map_cons, List.sum_cons]; omega
    · simp only [List.filter_cons, h, Bool.false_eq_true, if_false, List.map_cons,
        List.sum_cons]; omega

theorem pending_emplace (m : Target_model) (pruned : List (Target × Target_data))
    (hs : KeysSorted Target.lt pruned) (target : Target) (td : Target_data)
    (hnew : map_find Target.lt target pruned = none)
    (hdata : m.get_target_data target = some td) :
    pending m (map_emplace Target.lt target td pruned) + td.dependencies.length ≤
      pending m pruned := by
  unfold pending
  have hmem := get_target_data_some m target td hdata
  have := sum_filter_add_le (fun e : Element => e.2.dependencies.length)
    (fun e => (map_find Target.lt e.1 pruned).isNone)
    (fun e => (map_find Target.lt e.1 (map_emplace Target.lt target td pruned)).isNone)
    (by
      intro x hx
      simp only at hx ⊢
      rw [map_find_emplace target_lt_strict target x.1 td pruned hs hnew] at hx
      by_cases hxt : x.1 = target
      · simp [hxt] at hx
      · simpa [hxt] using hx)
    (target, td) (by simp [hnew])
    (by
      simp only
      rw [map_find_emplace target_lt_strict target target td pruned hs hnew]
      simp)
    m.target_to_target_data_ hmem
  exact this

theorem pruned_inv_init (m : Target_model) (seeds : List Target) :
    Pruned_inv m seeds seeds.reverse [] where
  sorted := by simp [KeysSorted]
  sound := by intro t td h; simp [map_find] at h
  stack_sound := by
    intro t ht hd
    exact ⟨t, List.mem_reverse.1 ht, hd, Relation.ReflTransGen.refl⟩
  seeds_kept := by
    intro s hs _
    exact Or.inr (List.mem_reverse.2 hs)
  deps_kept := by intro t td h; simp [map_find] at h

theorem pruned_inv_skip (m : Target_model) (seeds stack : List Target) (target : Target)
    (pruned : List (Target × Target_data))
    (h : Pruned_inv m seeds (target :: stack) pruned)
    (hskip : (map_find Target.lt target pruned).isSome = true ∨
      m.get_target_data target = none) :
    Pruned_inv m seeds stack pruned where
  sorted := h.sorted
  sound := h.sound
  stack_sound := fun t ht => h.stack_sound t (List.mem_cons_of_mem _ ht)
  seeds_kept := by
    intro s hs hd
    rcases h.seeds_kept s hs hd with h1 | h1
    · exact Or.inl h1
    · rcases List.mem_cons.1 h1 with rfl | h2
      · rcases hskip with h3 | h3
        · exact Or.inl h3
        · rw [h3] at hd; exact absurd hd (by simp)
      · exact Or.inr h2
  deps_kept := by
    intro t td ht d hd hdata
    rcases h.deps_kept t td ht d hd hdata with h1 | h1
    · exact Or.inl h1
    · rcases List.mem_cons.1 h1 with rfl | h2
      · rcases hskip with h3 | h3
        · exact Or.inl h3
        · rw [h3] at hdata; exact absurd hdata (by simp)
      · exact Or.inr h2

theorem pruned_inv_push (m : Target_model) (seeds stack : List Target) (target : Target)
    (pruned : List (Target × Target_data)) (td : Target_data)
    (h : Pruned_inv m seeds (target :: stack) pruned)
    (hnew : map_find Target.lt target pruned = none)
    (hdata : m.get_target_data target = some td) :
    Pruned_inv m seeds (td.dependencies.reverse ++ stack)
      (map_emplace Target.lt target td pruned) := by
  have hfind := fun d => map_find_emplace target_lt_strict target d td pruned h.sorted hnew
  have hclos : In_closure m seeds target :=
    h.stack_sound target (by simp) (by simp [hdata])
  have hmono : ∀ d, (map_find Target.lt d pruned).isSome = true →
      (map_find Target.lt d (map_emplace Target.lt target td pruned)).isSome = true := by
    intro d hd
    rw [hfind d]
    by_cases hdt : d = target
    · simp [hdt]
    · simpa [hdt] using hd
  have hself : (map_find Target.lt target
      (map_emplace Target.lt target td pruned)).isSome = true := by
    rw [hfind target]; simp
  refine ⟨map_emplace_sorted target_lt_strict target td pruned h.sorted, ?_, ?_, ?_, ?_⟩
  · intro t td' ht
    rw [hfind t] at ht
    by_cases htt : t = target
    · subst htt
      simp only [if_true, Option.some.injEq] at ht
      subst ht
      exact ⟨hdata, hclos⟩
    · simp only [htt, if_false] at ht
      exact h.sound t td' ht
  · intro t ht htd
    rcases List.mem_append.1 ht with h1 | h1
    · obtain ⟨s, hs, hsd, hreach⟩ := hclos
      exact ⟨s, hs, hsd, hreach.tail ⟨td, hdata, List.mem_reverse.1 h1, htd⟩⟩
    · exact h.stack_sound t (List.mem_cons_of_mem _ h1) htd
  · intro s hs hd
    rcases h.seeds_kept s hs hd with h1 | h1
    · exact Or.inl (hmono s h1)
    · rcases List.mem_cons.1 h1 with rfl | h2
      · exact Or.inl hself
      · exact Or.inr (List.mem_append_right _ h2)
  · intro t td' ht d hd hdd
    rw [hfind t] at ht
    by_cases htt : t = target
    · subst htt
      simp only [if_true, Option.some.injEq] at ht
      subst ht
      exact Or.inr (List.mem_append_left _ (List.mem_reverse.2 hd))
    · simp only [htt, if_false] at ht
      rcases h.deps_kept t td' ht d hd hdd with h1 | h1
      · exact Or.inl (hmono d h1)
      · rcases List.mem_cons.1 h1 with rfl | h2
        · exact Or.inl hself
        · exact Or.inr (List.mem_append_right _ h2)

/-- The loop of `create_pruned` ends within its fuel and keeps the invariant. -/
theorem create_pruned_loop_spec (m : Target_model) (seeds : List Target) :
    ∀ (fuel : Nat) (stack : List Target) (pruned : List (Target × Target_data)),
      Pruned_inv m seeds stack pruned → stack.length + pending m pruned ≤ fuel →
      ∃ out, create_pruned_loop m fuel stack pruned = some out ∧ Pruned_inv m seeds [] out
  | fuel, [], pruned, h, _ => ⟨pruned, by cases fuel <;> rfl, h⟩
  | 0, target :: stack, pruned, _, hf => by simp at hf
  | fuel + 1, target :: stack, pruned, h, hf => by
    simp only [List.length_cons] at hf
    unfold create_pruned_loop
    by_cases hin : (map_find Target.lt target pruned).isSome = true
    · simp only [hin, if_true]
      exact create_pruned_loop_spec m seeds fuel stack pruned
        (pruned_inv_skip m seeds stack target pruned h (Or.inl hin)) (by omega)
    · simp only [hin, Bool.false_eq_true, if_false]
      have hnew : map_find Target.lt target pruned = none := by
        cases hx : map_find Target.lt target pruned with
        | none => rfl
        | some v => rw [hx] at hin; simp at hin
      cases hdata : m.get_target_data target with
      | none =>
        simp only
        exact create_pruned_loop_spec m seeds fuel stack pruned
          (pruned_inv_skip m seeds stack target pruned h (Or.inr hdata)) (by omega)
      | some td =>
        simp only
        apply create_pruned_loop_spec m seeds fuel _ _
          (pruned_inv_push m seeds stack target pruned td h hnew hdata)
        have := pending_emplace m pruned h.sorted target td hnew hdata
        simp only [List.length_append, List.length_reverse]
        omega

theorem closure_kept (m : Target_model) (seeds : List Target)
    (out : List (Target × Target_data)) (h : Pruned_inv m seeds [] out) (t : Target)
    (ht : In_closure m seeds t) : (map_find Target.lt t out).isSome = true := by
  obtain ⟨s, hs, hsd, hreach⟩ := ht
  induction hreach with
  | refl =>
    rcases h.seeds_kept s hs hsd with h1 | h1
    · exact h1
    · simp at h1
  | tail _ hedge ih =>
    obtain ⟨td, hd, hmem, hdata⟩ := hedge
    obtain ⟨td', htd'⟩ := Option.isSome_iff_exists.1 ih
    have := (h.sound _ td' htd').1
    rw [hd] at this
    have heq : td = td' := Option.some.inj this
    subst heq
    rcases h.deps_kept _ td htd' _ hmem hdata with h1 | h1
    · exact h1
    · simp at h1

theorem get_target_data_ctor_map (out : List (Target × Target_data))
    (hs : KeysSorted Target.lt out) (t : Target) :
    (Target_model.ctor out).get_target_data t = map_find Target.lt t out := by
  have hnd : (out.map Prod.fst).Nodup := by
    unfold KeysSorted at hs
    exact hs.imp fun hab heq => by
      rw [heq, target_lt_strict.irrefl] at hab
      exact Bool.false_ne_true hab
  cases hf : map_find Target.lt t out with
  | some td =>
    have := (map_find_eq_some_iff_mem target_lt_strict t td out hs).1 hf
    exact get_target_data_ctor_of_mem out hnd (t, td) this
  | none =>
    cases hg : (Target_model.ctor out).get_target_data t with
    | none => rfl
    | some td =>
      have := get_target_data_ctor_some out t td hg
      rw [(map_find_eq_some_iff_mem target_lt_strict t td out hs).2 this] at hf
      exact Option.noConfusion hf

/-- C15. `create_pruned` computes the closure over `dependencies` only: the call returns
a model, and this model has data `td` for a target `t` exactly when the original model
has the data `td` for `t` and `t` is a seed or is reachable from a seed with data by a
path of `dependencies` edges all of whose vertices have data in the original model. In
the example, `a` names `b` as interface dependency only: pruning from the unknown seed
`boost` and `a` keeps `a` and its dependency `c` with their data, not `b`. -/
theorem create_pruned_is_the_closure_over_dependencies (m : Target_model)
    (seeds : List Target) :
    (∃ pruned, m.create_pruned seeds = some pruned ∧
      ∀ t td, pruned.get_target_data t = some td ↔
        (m.get_target_data t = some td ∧ In_closure m seeds t)) ∧
    ((Target_model.ctor interface_edge_entries).create_pruned
        [⟨"boost"⟩, ⟨"a"⟩]).map (fun m => m.target_to_target_data_) =
      some [(⟨"a"⟩, { interface_dependencies := [⟨"b"⟩], dependencies := [⟨"c"⟩, ⟨"zlib"⟩] }),
            (⟨"c"⟩, { sources := [⟨true, ["c.cpp"]⟩] })] := by
  refine ⟨?_, by decide⟩
  obtain ⟨out, hout, hinv⟩ := create_pruned_loop_spec m seeds
    (seeds.length + (m.target_to_target_data_.map fun e => e.2.dependencies.length).sum)
    seeds.reverse [] (pruned_inv_init m seeds)
    (by
      have := pending_le m []
      simp only [List.length_reverse]
      omega)
  refine ⟨Target_model.ctor out, by simp [Target_model.create_pruned, hout], ?_⟩
  intro t td
  rw [get_target_data_ctor_map out hinv.sorted t]
  constructor
  · intro h
    exact hinv.sound t td h
  · rintro ⟨hd, hc⟩
    obtain ⟨td', htd'⟩ := Option.isSome_iff_exists.1 (closure_kept m seeds out hinv t hc)
    have := (hinv.sound t td' htd').1
    rw [hd] at this
    rw [htd', this]

end target_model

namespace tidy
open stdlib target_model

theorem intersection_loop_le : ∀ (fuel : Nat) (l r : List Target) (count : Nat),
    intersection_loop fuel l r count ≤ count + l.length
  | 0, _, _, count => by simp [intersection_loop]
  | fuel + 1, [], _, count => by simp [intersection_loop]
  | fuel + 1, _ :: _, [], count => by simp [intersection_loop]
  | fuel + 1, a :: l, b :: r, count => by
    unfold intersection_loop
    split
    · have := intersection_loop_le fuel l (b :: r) count
      simp only [List.length_cons]; omega
    · split
      · have := intersection_loop_le fuel l r (count + 1)
        simp only [List.length_cons]; omega
      · have := intersection_loop_le fuel (a :: l) r count
        exact this

theorem intersection_loop_self : ∀ (fuel : Nat) (l : List Target) (count : Nat),
    l.length ≤ fuel → intersection_loop fuel l l count = count + l.length
  | 0, [], count, _ => by simp [intersection_loop]
  | 0, _ :: _, count, h => by simp at h
  | fuel + 1, [], count, _ => by simp [intersection_loop]
  | fuel + 1, a :: l, count, h => by
    unfold intersection_loop
    simp only [target_lt_strict.irrefl, Bool.false_eq_true, if_false, Bool.not_false, if_true]
    rw [intersection_loop_self fuel l (count + 1) (by simpa using h)]
    simp only [List.length_cons]; omega

theorem intersection_size_le_left (l : Cluster) (r : Option Cluster) :
    intersection_size (some l) r ≤ l.length := by
  cases r with
  | none => simp [intersection_size]
  | some r =>
    have := intersection_loop_le (l.length + r.length) l r 0
    simpa [intersection_size] using this

theorem intersection_size_self (l : Cluster) :
    intersection_size (some l) (some l) = l.length := by
  simp [intersection_size, intersection_loop_self (l.length + l.length) l 0 (by omega)]

theorem set_difference_self : ∀ (fuel : Nat) (l : List Target), set_difference fuel l l = []
  | 0, _ => rfl
  | _ + 1, [] => rfl
  | fuel + 1, a :: l => by
    unfold set_difference
    simp only [target_lt_strict.irrefl, Bool.false_eq_true, if_false, Bool.not_false, if_true]
    exact set_difference_self fuel l

theorem lex_permutations_head : ∀ (n : Nat) (l : List Nat), l.length = n →
    ∃ rest, lex_permutations n l = l :: rest
  | 0, l, hl => by
    have : l = [] := List.length_eq_zero.1 hl
    subst this
    exact ⟨[], rfl⟩
  | n + 1, [], hl => by simp at hl
  | n + 1, x :: xs, hl => by
    obtain ⟨rest, hrest⟩ := lex_permutations_head n xs (by simpa using hl)
    refine ⟨(rest.map fun r => x :: r) ++
      xs.flatMap (fun y => (lex_permutations n ((x :: xs).erase y)).map fun r => y :: r), ?_⟩
    simp only [lex_permutations, List.flatMap_cons, List.erase_cons_head, hrest, List.map_cons,
      List.cons_append]

theorem max_search_keep (lhs rhs : List Cluster) : ∀ (perms : List (List Nat))
    (best : Int × List Nat), (∀ π ∈ perms, score lhs rhs π ≤ best.1) →
    perms.foldl
      (fun best permutation =>
        if best.1 < score lhs rhs permutation then (score lhs rhs permutation, permutation)
        else best) best = best
  | [], _, _ => rfl
  | p :: perms, best, h => by
    have hp := h p (by simp)
    simp only [List.foldl_cons, not_lt.2 hp, if_false]
    exact max_search_keep lhs rhs perms best fun π hπ => h π (by simp [hπ])

/-- The search keeps the first arrangement when no other one has a larger score. -/
theorem max_permutation_eq_range (lhs rhs : List Cluster)
    (h : ∀ π, π.Perm (List.range (max lhs.length rhs.length)) →
      score lhs rhs π ≤ score lhs rhs (List.range (max lhs.length rhs.length))) :
    max_permutation lhs rhs = List.range (max lhs.length rhs.length) := by
  obtain ⟨rest, hrest⟩ := lex_permutations_head (max lhs.length rhs.length)
    (List.range (max lhs.length rhs.length)) (List.length_range _)
  have hmem := mem_lex_permutations (max lhs.length rhs.length)
    (List.range (max lhs.length rhs.length)) (List.length_range _)
  unfold max_permutation max_search
  simp only [hrest, List.foldl_cons]
  have hpos := score_nonneg lhs rhs (List.range (max lhs.length rhs.length))
  rw [if_pos (by omega)]
  rw [max_search_keep lhs rhs rest]
  intro π hπ
  apply h
  apply (hmem π).1
  rw [hrest]
  exact List.mem_cons_of_mem _ hπ

theorem score_fold_le (lhs rhs lhs' rhs' : List Cluster) (π π' : List Nat) :
    ∀ (is : List Nat) (s s' : Int), s ≤ s' →
      (∀ i ∈ is, intersection_matrix lhs rhs i (π.getD i 0) ≤
        intersection_matrix lhs' rhs' i (π'.getD i 0)) →
      is.foldl (fun score i => score + intersection_matrix lhs rhs i (π.getD i 0)) s ≤
        is.foldl (fun score i => score + intersection_matrix lhs' rhs' i (π'.getD i 0)) s'
  | [], s, s', hs, _ => hs
  | i :: is, s, s', hs, h => by
    simp only [List.foldl_cons]
    apply score_fold_le lhs rhs lhs' rhs' π π' is
    · have := h i (by simp)
      omega
    · intro j hj
      exact h j (by simp [hj])

theorem getD_range (n i : Nat) (h : i < n) : (List.range n).getD i 0 = i := by
  simp [List.getD_eq_getElem?_getD, List.getElem?_range h]

theorem cluster_diff_of_identity (lhs rhs : List Cluster)
    (h : max_permutation lhs rhs = List.range (max lhs.length rhs.length)) :
    cluster_diff lhs rhs =
      (List.range (max lhs.length rhs.length)).map fun i => single_diff lhs[i]? rhs[i]? := by
  unfold cluster_diff
  simp only [h]
  apply List.map_congr_left
  intro i hi
  rw [getD_range _ _ (List.mem_range.1 hi)]

theorem intersection_matrix_le_left (lhs rhs : List Cluster) (i j : Nat) (a : Cluster)
    (ha : lhs[i]? = some a) :
    intersection_matrix lhs rhs i j ≤ ((min a.length 32767 : Nat) : Int) := by
  unfold intersection_matrix
  rw [ha]
  have := intersection_size_le_left a rhs[j]?
  omega

/-- The identity arrangement is chosen when every diagonal entry of the matrix is the
clamped size of the cluster on the left. -/
theorem max_permutation_of_diagonal (lhs rhs : List Cluster)
    (hlen : rhs.length = lhs.length)
    (hdiag : ∀ i a, lhs[i]? = some a →
      intersection_matrix lhs rhs i i = ((min a.length 32767 : Nat) : Int)) :
    max_permutation lhs rhs = List.range (max lhs.length rhs.length) := by
  apply max_permutation_eq_range
  intro π hπ
  have hl : π.length = max lhs.length rhs.length := by
    rw [hπ.length_eq, List.length_range]
  unfold score
  rw [hl, List.length_range]
  apply score_fold_le lhs rhs lhs rhs _ _ _ 0 0 (le_refl 0)
  intro i hi
  have hi' : i < max lhs.length rhs.length := List.mem_range.1 hi
  rw [getD_range _ _ hi']
  have hil : i < lhs.length := by
    rw [hlen, max_self] at hi'
    exact hi'
  have ha : lhs[i]? = some lhs[i] := List.getElem?_eq_getElem hil
  rw [hdiag i _ ha]
  exact intersection_matrix_le_left lhs rhs i _ _ ha

/-- C17. Diffing a cluster list against itself finds nothing: `cluster_diff A A` has
as many entries as `A` has clusters and every entry has an empty `left_only` and an
empty `right_only`. -/
theorem cluster_diff_of_a_list_with_itself_is_empty (A : List Cluster)
    (_hsize : A.length * 32767 < 2 ^ 31) :
    (cluster_diff A A).length = A.length ∧
    ∀ d ∈ cluster_diff A A, d.left_only = [] ∧ d.right_only = [] := by
  have hmax := max_permutation_of_diagonal A A rfl (by
    intro i a ha
    unfold intersection_matrix
    rw [ha, intersection_size_self])
  rw [cluster_diff_of_identity A A hmax, max_self]
  refine ⟨by simp, ?_⟩
  intro d hd
  obtain ⟨i, hi, rfl⟩ := List.mem_map.1 hd
  rw [List.getElem?_eq_getElem (List.mem_range.1 hi)]
  simp [single_diff, set_difference_self]

/-- C17 (witness). The three clusters of the test. -/
theorem cluster_diff_of_a_list_with_itself_is_empty_witness :
    (cluster_diff matching_clusters matching_clusters).length = matching_clusters.length ∧
    ∀ d ∈ cluster_diff matching_clusters matching_clusters,
      d.left_only = [] ∧ d.right_only = [] :=
  cluster_diff_of_a_list_with_itself_is_empty matching_clusters (by decide)

theorem filter_not_contains_cons_of_not_mem (l r : List Target) (b : Target)
    (hb : b ∉ l) :
    l.filter (fun t => !(b :: r).contains t) = l.filter (fun t => !r.contains t) := by
  apply List.filter_congr
  intro t ht
  have : t ≠ b := fun h => hb (h ▸ ht)
  simp [this]

/-- On two ascending ranges `std::set_difference` keeps the elements of the first range
that are not in the second. -/
theorem set_difference_eq_filter : ∀ (fuel : Nat) (l r : List Target),
    l.Pairwise (fun a b => Target.lt a b = true) →
    r.Pairwise (fun a b => Target.lt a b = true) → l.length + r.length ≤ fuel →
    set_difference fuel l r = l.filter fun t => !r.contains t
  | 0, l, r, _, _, h => by
    have : l = [] := List.length_eq_zero.1 (by omega)
    subst this
    rfl
  | fuel + 1, [], r, _, _, _ => rfl
  | fuel + 1, a :: l, [], _, _, _ => by simp [set_difference]
  | fuel + 1, a :: l, b :: r, hl, hr, h => by
    have hl' := List.pairwise_cons.1 hl
    have hr' := List.pairwise_cons.1 hr
    simp only [List.length_cons] at h
    unfold set_difference
    cases hab : Target.lt a b with
    | true =>
      simp only [if_true]
      have hnot : a ∉ b :: r := by
        intro hmem
        rcases List.mem_cons.1 hmem with h1 | h1
        · rw [h1, target_lt_strict.irrefl] at hab
          exact Bool.false_ne_true hab
        · have h2 := hr'.1 a h1
          rw [not_lt_of_lt target_lt_strict hab] at h2
          exact Bool.false_ne_true h2
      rw [set_difference_eq_filter fuel l (b :: r) hl'.2 hr
        (by simp only [List.length_cons]; omega)]
      rw [List.filter_cons]
      simp [hnot]
    | false =>
      simp only [Bool.false_eq_true, if_false]
      cases hba : Target.lt b a with
      | false =>
        have heq : a = b := target_lt_strict.tri a b hab hba
        subst heq
        simp only [Bool.not_false, if_true]
        rw [set_difference_eq_filter fuel l r hl'.2 hr'.2 (by omega)]
        have hnot : a ∉ l := by
          intro hmem
          have := hl'.1 a hmem
          rw [target_lt_strict.irrefl] at this
          exact Bool.false_ne_true this
        rw [List.filter_cons]
        simp only [List.contains_cons, beq_self_eq_true, Bool.true_or, Bool.not_true,
          Bool.false_eq_true, if_false]
        exact (filter_not_contains_cons_of_not_mem l r a hnot).symm
      | true =>
        simp only [Bool.not_true, Bool.false_eq_true, if_false]
        rw [set_difference_eq_filter fuel (a :: l) r hl hr'.2
          (by simp only [List.length_cons]; omega)]
        have hnot : b ∉ a :: l := by
          intro hmem
          rcases List.mem_cons.1 hmem with h1 | h1
          · rw [h1, target_lt_strict.irrefl] at hba
            exact Bool.false_ne_true hba
          · have h2 := hl'.1 b h1
            rw [not_lt_of_lt target_lt_strict hba] at h2
            exact Bool.false_ne_true h2
        exact (filter_not_contains_cons_of_not_mem (a :: l) r b hnot).symm

theorem intersection_loop_insert (x : Target) : ∀ (fuel : Nat) (a : List Target)
    (count : Nat), a.Pairwise (fun a b => Target.lt a b = true) → x ∉ a →
    a.length + 1 ≤ fuel →
    intersection_loop fuel a (set_insert Target.lt x a) count = count + a.length
  | 0, _, _, _, _, h => by omega
  | fuel + 1, [], count, _, _, _ => by simp [intersection_loop]
  | fuel + 1, y :: ys, count, hs, hx, h => by
    have hs' := List.pairwise_cons.1 hs
    simp only [List.length_cons] at h
    have hxy : x ≠ y := fun e => hx (by simp [e])
    have hxys : x ∉ ys := fun e => hx (by simp [e])
    unfold set_insert
    cases h1 : Target.lt x y with
    | true =>
      simp only [if_true]
      unfold intersection_loop
      simp only [not_lt_of_lt target_lt_strict h1, h1, Bool.false_eq_true, if_false,
        Bool.not_true]
      rw [intersection_loop_self fuel (y :: ys) count (by simp only [List.length_cons]; omega)]
    | false =>
      have h2 : Target.lt y x = true := lt_of_ne_of_not_lt target_lt_strict hxy h1
      simp only [Bool.false_eq_true, if_false, h2, if_true]
      unfold intersection_loop
      simp only [target_lt_strict.irrefl, Bool.false_eq_true, if_false, Bool.not_false,
        if_true]
      rw [intersection_loop_insert x fuel ys (count + 1) hs'.2 hxys (by omega)]
      simp only [List.length_cons]; omega

theorem filter_insert_not_contains (x : Target) : ∀ (a : List Target), x ∉ a →
    (set_insert Target.lt x a).filter (fun t => !a.contains t) = [x]
  | [], _ => by simp [set_insert]
  | y :: ys, hx => by
    have hxy : x ≠ y := fun e => hx (by simp [e])
    have hxys : x ∉ ys := fun e => hx (by simp [e])
    have hself : (y :: ys).filter (fun t => !(y :: ys).contains t) = [] := by
      rw [List.filter_eq_nil_iff]
      intro t ht
      have : (y :: ys).contains t = true := List.elem_iff.2 ht
      rw [this]
      decide
    unfold set_insert
    cases h1 : Target.lt x y with
    | true =>
      simp only [if_true]
      rw [List.filter_cons, hself]
      simp [hx]
    | false =>
      have h2 : Target.lt y x = true := lt_of_ne_of_not_lt target_lt_strict hxy h1
      simp only [Bool.false_eq_true, if_false, h2, if_true]
      rw [List.filter_cons]
      simp only [List.contains_cons, beq_self_eq_true, Bool.true_or, Bool.not_true,
        Bool.false_eq_true, if_false]
      rw [← filter_insert_not_contains x ys hxys]
      apply List.filter_congr
      intro t ht
      rcases (mem_set_insert target_lt_strict x t ys).1 ht with h3 | h3
      · subst h3
        simp [hxy, hxys]
      · simp [h3]

theorem single_diff_insert (c : Cluster) (x : Target)
    (hs : c.Pairwise (fun a b => Target.lt a b = true)) (hx : x ∉ c) :
    single_diff (some c) (some (set_insert Target.lt x c)) =
      { left_only := [], right_only := [x] } := by
  have hs' := set_insert_sorted target_lt_strict x c hs
  unfold single_diff
  simp only
  rw [set_difference_eq_filter _ c _ hs hs' (le_refl _),
    set_difference_eq_filter _ _ c hs' hs (by omega), filter_insert_not_contains x c hx]
  congr 1
  rw [List.filter_eq_nil_iff]
  intro t ht
  have := (mem_set_insert target_lt_strict x t c).2 (Or.inr ht)
  simpa using this


/-- The search loop ends with an arrangement of the slots that has the largest score. -/
theorem max_permutation_spec (lhs rhs : List Cluster) :
    (max_permutation lhs rhs).Perm (List.range (max lhs.length rhs.length)) ∧
    ∀ (π : List Nat), π.Perm (List.range (max lhs.length rhs.length)) →
      score lhs rhs π ≤ score lhs rhs (max_permutation lhs rhs) := by
  have hmem := mem_lex_permutations (max lhs.length rhs.length)
    (List.range (max lhs.length rhs.length)) (List.length_range _)
  obtain ⟨-, h2, h3⟩ := max_search_fold lhs rhs
    (lex_permutations (max lhs.length rhs.length) (List.range (max lhs.length rhs.length)))
    (-1, [])
  have hid := h2 _ ((hmem _).2 (List.Perm.refl _))
  have hpos := score_nonneg lhs rhs (List.range (max lhs.length rhs.length))
  rcases h3 with h3 | h3
  · rw [h3] at hid
    simp only at hid
    omega
  · refine ⟨(hmem _).1 h3.1, fun π hπ => ?_⟩
    have := h2 π ((hmem π).2 hπ)
    unfold max_permutation max_search
    simp only
    rw [← h3.2]
    exact this

/-- C19. A single added member shows up as a single difference: when `c` is the cluster
`k` of `A`, `x` is not a member of `c`, and `B` is `A` with `x` inserted into cluster
`k`, then entry `k` of `cluster_diff A B` has an empty `left_only` and `right_only = x`,
and every other entry is empty on both sides. -/
theorem single_added_member_is_a_single_difference (A : List Cluster) (k : Nat)
    (c : Cluster) (x : Target) (hc : A[k]? = some c)
    (hsorted : c.Pairwise (fun a b => Target.lt a b = true)) (hx : x ∉ c)
    (_hsize : A.length * 32767 < 2 ^ 31) :
    cluster_diff A (A.set k (set_insert Target.lt x c)) =
      (List.range A.length).map fun i =>
        if i = k then { left_only := [], right_only := [x] }
        else { left_only := [], right_only := [] } := by
  have hlen : (A.set k (set_insert Target.lt x c)).length = A.length := List.length_set ..
  have hk : k < A.length := by
    rcases Nat.lt_or_ge k A.length with h | h
    · exact h
    · rw [List.getElem?_eq_none h] at hc
      exact Option.noConfusion hc
  have hget : ∀ i, (A.set k (set_insert Target.lt x c))[i]? =
      if i = k then some (set_insert Target.lt x c) else A[i]? := by
    intro i
    rw [List.getElem?_set]
    by_cases hik : k = i
    · subst hik
      simp [hk]
    · simp [hik, Ne.symm hik]
  have hmax := max_permutation_of_diagonal A _ hlen (by
    intro i a ha
    unfold intersection_matrix
    rw [ha, hget i]
    by_cases hik : i = k
    · subst hik
      rw [hc] at ha
      have hac : c = a := Option.some.inj ha
      subst hac
      simp only [if_true, intersection_size]
      have hpos : 0 < (set_insert Target.lt x c).length :=
        List.length_pos_of_mem ((mem_set_insert target_lt_strict x x c).2 (Or.inl rfl))
      rw [intersection_loop_insert x _ c 0 hsorted hx (by omega)]
      simp
    · simp only [hik, if_false]
      rw [ha, intersection_size_self])
  rw [cluster_diff_of_identity A _ hmax, hlen, max_self]
  apply List.map_congr_left
  intro i hi
  rw [hget i]
  by_cases hik : i = k
  · subst hik
    simp only [if_true, hc]
    exact single_diff_insert c x hsorted hx
  · simp only [hik, if_false]
    rw [List.getElem?_eq_getElem (List.mem_range.1 hi)]
    simp [single_diff, set_difference_self]

/-- C19 (witness). The target `x` added to the first cluster of the test. -/
theorem single_added_member_is_a_single_difference_witness :
    cluster_diff matching_clusters
        (matching_clusters.set 0 (set_insert Target.lt ⟨"x"⟩ [⟨"a"⟩, ⟨"b"⟩, ⟨"c"⟩])) =
      (List.range matching_clusters.length).map fun i =>
        if i = 0 then { left_only := [], right_only := [⟨"x"⟩] }
        else { left_only := [], right_only := [] } :=
  single_added_member_is_a_single_difference matching_clusters 0 [⟨"a"⟩, ⟨"b"⟩, ⟨"c"⟩] ⟨"x"⟩
    rfl (by decide) (by decide) (by decide)

theorem single_diff_eq_spec_diff (lhs rhs : Option Cluster)
    (hl : ∀ c, lhs = some c → c.Pairwise (fun a b => Target.lt a b = true))
    (hr : ∀ c, rhs = some c → c.Pairwise (fun a b => Target.lt a b = true)) :
    single_diff lhs rhs = spec_diff lhs rhs := by
  cases lhs with
  | none =>
    cases rhs with
    | none => rfl
    | some r => simp [single_diff, spec_diff]
  | some l =>
    cases rhs with
    | none => simp [single_diff, spec_diff]
    | some r =>
      unfold single_diff spec_diff
      simp only [Option.getD_some]
      rw [set_difference_eq_filter _ l r (hl l rfl) (hr r rfl) (le_refl _),
        set_difference_eq_filter _ r l (hr r rfl) (hl l rfl) (by omega)]

theorem spec_diff_sorted (lhs rhs : Option Cluster)
    (hl : ∀ c, lhs = some c → c.Pairwise (fun a b => Target.lt a b = true))
    (hr : ∀ c, rhs = some c → c.Pairwise (fun a b => Target.lt a b = true)) :
    (spec_diff lhs rhs).left_only.Pairwise (fun a b => Target.lt a b = true) ∧
    (spec_diff lhs rhs).right_only.Pairwise (fun a b => Target.lt a b = true) := by
  have h1 : (lhs.getD []).Pairwise (fun a b => Target.lt a b = true) := by
    cases lhs with
    | none => exact List.Pairwise.nil
    | some l => exact hl l rfl
  have h2 : (rhs.getD []).Pairwise (fun a b => Target.lt a b = true) := by
    cases rhs with
    | none => exact List.Pairwise.nil
    | some r => exact hr r rfl
  exact ⟨h1.filter _, h2.filter _⟩

theorem perm_range_index (π : List Nat) (n : Nat) (hπ : π.Perm (List.range n)) (j : Nat)
    (hj : j < n) : ∃ i, (i < n ∧ π.getD i 0 = j) ∧ ∀ i', i' < n ∧ π.getD i' 0 = j → i' = i := by
  have hlen : π.length = n := by rw [hπ.length_eq, List.length_range]
  have hnd : π.Nodup := hπ.nodup_iff.2 (List.nodup_range n)
  have hmem : j ∈ π := hπ.mem_iff.2 (List.mem_range.2 hj)
  obtain ⟨i, hi, hij⟩ := List.getElem_of_mem hmem
  refine ⟨i, ⟨by omega, ?_⟩, ?_⟩
  · rw [List.getD_eq_getElem _ _ hi, hij]
  · rintro i' ⟨hi', hij'⟩
    have hi'' : i' < π.length := by omega
    rw [List.getD_eq_getElem _ _ hi''] at hij'
    exact (List.Nodup.getElem_inj_iff hnd).1 (hij'.trans hij.symm)

/-- C20. The result of `cluster_diff` is a slot-by-slot set difference under a
bijection: it has `max(|lhs|, |rhs|)` entries and there is a permutation `π` of the slots
such that entry `i` holds the members of `lhs[i]` not in `rhs[π(i)]` and the members of
`rhs[π(i)]` not in `lhs[i]` (a missing slot reads as the empty set), each in ascending
order; every cluster of `rhs` is matched to exactly one entry. -/
theorem cluster_diff_is_a_slotwise_set_difference (lhs rhs : List Cluster)
    (hl : ∀ c ∈ lhs, c.Pairwise (fun a b => Target.lt a b = true))
    (hr : ∀ c ∈ rhs, c.Pairwise (fun a b => Target.lt a b = true))
    (_hsize : max lhs.length rhs.length * 32767 < 2 ^ 31) :
    (cluster_diff lhs rhs).length = max lhs.length rhs.length ∧
    ∃ π : List Nat, π.Perm (List.range (max lhs.length rhs.length)) ∧
      (cluster_diff lhs rhs =
        (List.range (max lhs.length rhs.length)).map fun i =>
          spec_diff lhs[i]? rhs[π.getD i 0]?) ∧
      (∀ d ∈ cluster_diff lhs rhs,
        d.left_only.Pairwise (fun a b => Target.lt a b = true) ∧
        d.right_only.Pairwise (fun a b => Target.lt a b = true)) ∧
      (∀ j, j < rhs.length → ∃ i, (i < max lhs.length rhs.length ∧ π.getD i 0 = j) ∧
        ∀ i', i' < max lhs.length rhs.length ∧ π.getD i' 0 = j → i' = i) := by
  have hl' : ∀ (i : Nat) (c : Cluster), lhs[i]? = some c → c.Pairwise (fun a b => Target.lt a b = true) :=
    fun _ c h => hl c (List.getElem?_mem h)
  have hr' : ∀ (i : Nat) (c : Cluster), rhs[i]? = some c → c.Pairwise (fun a b => Target.lt a b = true) :=
    fun _ c h => hr c (List.getElem?_mem h)
  have heq : cluster_diff lhs rhs =
      (List.range (max lhs.length rhs.length)).map fun i =>
        spec_diff lhs[i]? rhs[(max_permutation lhs rhs).getD i 0]? := by
    unfold cluster_diff
    apply List.map_congr_left
    intro i _
    exact single_diff_eq_spec_diff _ _ (hl' i) (hr' _)
  refine ⟨by simp [cluster_diff], max_permutation lhs rhs, (max_permutation_spec lhs rhs).1,
    heq, ?_, ?_⟩
  · intro d hd
    rw [heq] at hd
    obtain ⟨i, -, rfl⟩ := List.mem_map.1 hd
    exact spec_diff_sorted _ _ (hl' i) (hr' _)
  · intro j hj
    exact perm_range_index _ _ (max_permutation_spec lhs rhs).1 j
      (lt_of_lt_of_le hj (le_max_right _ _))

/-- C20 (witness). Two clusters on the left, one on the right. -/
theorem cluster_diff_is_a_slotwise_set_difference_witness :
    (cluster_diff uneven_lhs uneven_rhs).length = max uneven_lhs.length uneven_rhs.length ∧
    ∃ π : List Nat, π.Perm (List.range (max uneven_lhs.length uneven_rhs.length)) ∧
      (cluster_diff uneven_lhs uneven_rhs =
        (List.range (max uneven_lhs.length uneven_rhs.length)).map fun i =>
          spec_diff uneven_lhs[i]? uneven_rhs[π.getD i 0]?) ∧
      (∀ d ∈ cluster_diff uneven_lhs uneven_rhs,
        d.left_only.Pairwise (fun a b => Target.lt a b = true) ∧
        d.right_only.Pairwise (fun a b => Target.lt a b = true)) ∧
      (∀ j, j < uneven_rhs.length →
        ∃ i, (i < max uneven_lhs.length uneven_rhs.length ∧ π.getD i 0 = j) ∧
        ∀ i', i' < max uneven_lhs.length uneven_rhs.length ∧ π.getD i' 0 = j → i' = i) :=
  cluster_diff_is_a_slotwise_set_difference uneven_lhs uneven_rhs (by decide) (by decide)
    (by decide)

theorem map_getD_range {α : Type} (d : α) : ∀ (l : List α),
    (List.range l.length).map (fun i => l.getD i d) = l
  | [] => rfl
  | a :: l => by
    rw [List.length_cons, List.range_succ_eq_map, List.map_cons, List.map_map]
    simp only [List.getD_cons_zero]
    congr 1
    refine Eq.trans ?_ (map_getD_range d l)
    apply List.map_congr_left
    intro i _
    simp [Function.comp]

theorem getD_map_of_lt {α β : Type} (f : α → β) (d : α) (e : β) (l : List α) (i : Nat)
    (h : i < l.length) : (l.map f).getD i e = f (l.getD i d) := by
  rw [List.getD_eq_getElem _ _ (by simpa using h), List.getD_eq_getElem _ _ h,
    List.getElem_map]

/-- A rearrangement of a list reads it through a rearrangement of its indices. -/
theorem perm_index {α : Type} (d : α) {X R : List α} (h : X.Perm R) :
    ∃ π : List Nat, π.Perm (List.range R.length) ∧ X = π.map fun i => R.getD i d := by
  induction h with
  | nil => exact ⟨[], by simp, rfl⟩
  | @cons x l1 l2 _ ih =>
    obtain ⟨π, hπ, hX⟩ := ih
    refine ⟨0 :: π.map Nat.succ, ?_, ?_⟩
    · rw [List.length_cons, List.range_succ_eq_map]
      exact (hπ.map Nat.succ).cons 0
    · rw [List.map_cons, List.map_map, hX]
      simp only [List.getD_cons_zero]
      congr 1
  | swap x y l =>
    refine ⟨1 :: 0 :: (List.range l.length).map (fun i => i + 2), ?_, ?_⟩
    · have : List.range (x :: y :: l).length =
          0 :: 1 :: (List.range l.length).map (fun i => i + 2) := by
        rw [List.length_cons, List.length_cons, List.range_succ_eq_map,
          List.range_succ_eq_map]
        simp [List.map_map, Function.comp_def]
      rw [this]
      exact List.Perm.swap 0 1 _
    · simp only [List.map_cons, List.map_map]
      have : (List.range l.length).map
          ((fun i => (x :: y :: l).getD i d) ∘ fun i => i + 2) = l := by
        refine Eq.trans ?_ (map_getD_range d l)
        apply List.map_congr_left
        intro i _
        simp [Function.comp]
      rw [this]
      simp
  | @trans l1 l2 l3 _ _ ih1 ih2 =>
    obtain ⟨π1, hπ1, hX⟩ := ih1
    obtain ⟨π2, hπ2, hY⟩ := ih2
    have hlen2 : π2.length = l2.length := by
      rw [hY, List.length_map]
    refine ⟨π1.map (fun i => π2.getD i 0), ?_, ?_⟩
    · have := hπ1.map (fun i => π2.getD i 0)
      rw [← hlen2, map_getD_range 0 π2] at this
      exact this.trans hπ2
    · rw [hX, List.map_map]
      apply List.map_congr_left
      intro i hi
      have hi' : i < π2.length := by
        rw [hlen2]
        exact List.mem_range.1 (hπ1.mem_iff.1 hi)
      simp only [Function.comp]
      conv_lhs => rw [hY]
      exact getD_map_of_lt _ 0 d π2 i hi'

/-- A list of pairs can be rearranged so that its first components come in a given
order. -/
theorem perm_lift {α β : Type} (d : α × β) (ps : List (α × β)) (L : List α)
    (h : (ps.map Prod.fst).Perm L) :
    ∃ ps2 : List (α × β), ps2.Perm ps ∧ ps2.map Prod.fst = L := by
  obtain ⟨π, hπ, hL⟩ := perm_index d.1 h.symm
  rw [List.length_map] at hπ
  refine ⟨π.map (fun i => ps.getD i d), ?_, ?_⟩
  · have := hπ.map (fun i => ps.getD i d)
    rw [map_getD_range d ps] at this
    exact this
  · rw [hL, List.map_map]
    apply List.map_congr_left
    intro i hi
    have hi' : i < ps.length := List.mem_range.1 (hπ.mem_iff.1 hi)
    simp only [Function.comp]
    rw [getD_map_of_lt Prod.fst d d.1 ps i hi']

theorem slots_eq : ∀ (l : List Cluster) (n : Nat), l.length ≤ n →
    slots l n = l.map some ++ List.replicate (n - l.length) none
  | [], n, _ => by
    simp only [slots, List.getElem?_nil, List.map_nil, List.nil_append, List.length_nil,
      Nat.sub_zero]
    rw [List.map_const', List.length_range]
  | a :: l, 0, h => by simp at h
  | a :: l, n + 1, h => by
    have ih := slots_eq l n (by simpa using h)
    unfold slots at ih ⊢
    rw [List.range_succ_eq_map, List.map_cons, List.map_map]
    simp only [List.getElem?_cons_zero, List.map_cons, List.cons_append, List.length_cons,
      Nat.add_sub_add_right]
    congr 1
    rw [← ih]
    apply List.map_congr_left
    intro i _
    simp [Function.comp]

theorem slots_perm (l l' : List Cluster) (n : Nat) (h : l'.Perm l) (hn : l.length ≤ n) :
    (slots l' n).Perm (slots l n) := by
  rw [slots_eq l n hn, slots_eq l' n (by rw [h.length_eq]; exact hn), h.length_eq]
  exact (h.map some).append_right _

theorem slots_getD (l : List Cluster) (n : Nat) (hn : l.length ≤ n) (i : Nat) :
    (slots l n).getD i none = l[i]? := by
  rcases Nat.lt_or_ge i n with h | h
  · unfold slots
    rw [getD_map_of_lt _ 0 none _ i (by simpa using h), getD_range n i h]
  · rw [List.getD_eq_default _ _ (by simpa [slots] using h)]
    exact (List.getElem?_eq_none (by omega)).symm

theorem map_getD_of_length (π : List Nat) (n : Nat) (h : π.length = n) {β : Type}
    (g : Nat → β) : (List.range n).map (fun i => g (π.getD i 0)) = π.map g := by
  have := map_getD_range 0 π
  rw [h] at this
  conv_rhs => rw [← this]
  rw [List.map_map]
  rfl

theorem slot_pairs_fst (lhs rhs : List Cluster) (π : List Nat) :
    (slot_pairs lhs rhs π).map Prod.fst = slots lhs (max lhs.length rhs.length) := by
  simp [slot_pairs, slots, List.map_map, Function.comp_def]

theorem slot_pairs_snd (lhs rhs : List Cluster) (π : List Nat)
    (h : π.length = max lhs.length rhs.length) :
    (slot_pairs lhs rhs π).map Prod.snd = π.map fun j => rhs[j]? := by
  rw [← map_getD_of_length π _ h]
  simp [slot_pairs, List.map_map, Function.comp_def]

theorem slot_pairs_eq_zip (lhs rhs : List Cluster) (π : List Nat)
    (h : π.length = max lhs.length rhs.length) :
    slot_pairs lhs rhs π =
      List.zip (slots lhs (max lhs.length rhs.length)) (π.map fun j => rhs[j]?) := by
  rw [← map_getD_of_length π _ h]
  unfold slot_pairs slots
  rw [List.zip_map']

/-- Whatever an arrangement pairs up after the clusters have been reordered, some
arrangement pairs up before. -/
theorem slot_pairs_transport (lhs rhs lhs' rhs' : List Cluster) (hl : lhs'.Perm lhs)
    (hr : rhs'.Perm rhs) (π' : List Nat)
    (hπ' : π'.Perm (List.range (max lhs'.length rhs'.length))) :
    ∃ π : List Nat, π.Perm (List.range (max lhs.length rhs.length)) ∧
      (slot_pairs lhs rhs π).Perm (slot_pairs lhs' rhs' π') := by
  have hn : max lhs'.length rhs'.length = max lhs.length rhs.length := by
    rw [hl.length_eq, hr.length_eq]
  have hlen' : π'.length = max lhs'.length rhs'.length := by
    rw [hπ'.length_eq, List.length_range]
  have hfst : ((slot_pairs lhs' rhs' π').map Prod.fst).Perm
      (slots lhs (max lhs.length rhs.length)) := by
    rw [slot_pairs_fst, hn]
    exact slots_perm lhs lhs' _ hl (le_max_left _ _)
  obtain ⟨ps2, hps2, hps2fst⟩ := perm_lift (none, none) _ _ hfst
  have hsnd : (ps2.map Prod.snd).Perm (slots rhs (max lhs.length rhs.length)) := by
    refine (hps2.map Prod.snd).trans ?_
    rw [slot_pairs_snd lhs' rhs' π' hlen']
    refine (hπ'.map _).trans ?_
    rw [hn]
    exact slots_perm rhs rhs' _ hr (le_max_right _ _)
  obtain ⟨π, hπ, hπeq⟩ := perm_index none hsnd
  have hslen : (slots rhs (max lhs.length rhs.length)).length = max lhs.length rhs.length := by
    simp [slots]
  rw [hslen] at hπ
  refine ⟨π, hπ, ?_⟩
  have hlen : π.length = max lhs.length rhs.length := by
    rw [hπ.length_eq, List.length_range]
  rw [slot_pairs_eq_zip lhs rhs π hlen]
  have : (π.map fun j => rhs[j]?) = ps2.map Prod.snd := by
    rw [hπeq]
    apply List.map_congr_left
    intro i _
    exact (slots_getD rhs _ (le_max_right _ _) i).symm
  rw [this, ← hps2fst, List.zip_map']
  simp only [Prod.mk.eta, List.map_id']
  exact hps2

theorem foldl_add_eq_sum (f : Nat → Int) : ∀ (l : List Nat) (a : Int),
    l.foldl (fun s i => s + f i) a = a + (l.map f).sum
  | [], a => by simp
  | i :: l, a => by
    simp only [List.foldl_cons, List.map_cons, List.sum_cons]
    rw [foldl_add_eq_sum f l (a + f i)]
    omega

theorem score_eq_sum (lhs rhs : List Cluster) (π : List Nat)
    (h : π.length = max lhs.length rhs.length) :
    score lhs rhs π = ((slot_pairs lhs rhs π).map pair_weight).sum := by
  unfold score
  rw [foldl_add_eq_sum (fun i => intersection_matrix lhs rhs i (π.getD i 0)), h, zero_add]
  simp only [slot_pairs, List.map_map]
  rfl

theorem diffs_eq_pairs (lhs rhs : List Cluster) (π : List Nat) :
    ((List.range (max lhs.length rhs.length)).map fun i =>
      single_diff lhs[i]? rhs[π.getD i 0]?) =
    (slot_pairs lhs rhs π).map fun p => single_diff p.1 p.2 := by
  simp only [slot_pairs, List.map_map]
  rfl

theorem score_transport (lhs rhs lhs' rhs' : List Cluster) (π π' : List Nat)
    (hπ : π.Perm (List.range (max lhs.length rhs.length)))
    (hπ' : π'.Perm (List.range (max lhs'.length rhs'.length)))
    (h : (slot_pairs lhs rhs π).Perm (slot_pairs lhs' rhs' π')) :
    score lhs rhs π = score lhs' rhs' π' := by
  rw [score_eq_sum lhs rhs π (by rw [hπ.length_eq, List.length_range]),
    score_eq_sum lhs' rhs' π' (by rw [hπ'.length_eq, List.length_range])]
  exact (h.map pair_weight).sum_eq

/-- C18 (amended). Reordering the clusters on either side does not change the score of
the matching that `cluster_diff` chooses, and it does not change the multiset of
`(left_only, right_only)` pairs provided every slot arrangement of `lhs`, `rhs` that
reaches this score yields that multiset (in particular when only one arrangement
reaches it). Among tied arrangements the first one in lexicographic order is chosen. -/
theorem cluster_diff_of_reordered_clusters (lhs rhs lhs' rhs' : List Cluster)
    (hl : lhs'.Perm lhs) (hr : rhs'.Perm rhs)
    (_hsize : max lhs.length rhs.length * 32767 < 2 ^ 31) :
    score lhs' rhs' (max_permutation lhs' rhs') = score lhs rhs (max_permutation lhs rhs) ∧
    ((∀ π : List Nat, π.Perm (List.range (max lhs.length rhs.length)) →
        score lhs rhs π = score lhs rhs (max_permutation lhs rhs) →
        ((List.range (max lhs.length rhs.length)).map fun i =>
          single_diff lhs[i]? rhs[π.getD i 0]?).Perm (cluster_diff lhs rhs)) →
      (cluster_diff lhs' rhs').Perm (cluster_diff lhs rhs)) := by
  obtain ⟨hP, hPmax⟩ := max_permutation_spec lhs rhs
  obtain ⟨hP', hPmax'⟩ := max_permutation_spec lhs' rhs'
  obtain ⟨π, hπ, hpairs⟩ := slot_pairs_transport lhs rhs lhs' rhs' hl hr _ hP'
  obtain ⟨ρ, hρ, hpairsρ⟩ := slot_pairs_transport lhs' rhs' lhs rhs hl.symm hr.symm _ hP
  have e1 := score_transport lhs rhs lhs' rhs' π _ hπ hP' hpairs
  have e2 := score_transport lhs' rhs' lhs rhs ρ _ hρ hP hpairsρ
  have h1 := hPmax π hπ
  have h2 := hPmax' ρ hρ
  have heq : score lhs rhs π = score lhs rhs (max_permutation lhs rhs) := by omega
  refine ⟨by omega, fun htie => ?_⟩
  have h3 := htie π hπ heq
  rw [diffs_eq_pairs] at h3
  refine List.Perm.trans ?_ h3
  have : cluster_diff lhs' rhs' =
      (slot_pairs lhs' rhs' (max_permutation lhs' rhs')).map fun p => single_diff p.1 p.2 := by
    rw [← diffs_eq_pairs]
    rfl
  rw [this]
  exact (hpairs.map _).symm

/-- The arrangements of the test clusters against themselves that reach the largest score
all yield the empty differences. -/
theorem matching_clusters_ties : ∀ π ∈ lex_permutations 3 (List.range 3),
    score matching_clusters matching_clusters π =
      score matching_clusters matching_clusters
        (max_permutation matching_clusters matching_clusters) →
    ((List.range 3).map fun i =>
      single_diff matching_clusters[i]? matching_clusters[π.getD i 0]?).Perm
      (cluster_diff matching_clusters matching_clusters) := by
  decide

/-- C18 (witness). The test clusters against themselves and against the list with the
first two clusters exchanged. -/
theorem cluster_diff_of_reordered_clusters_witness :
    score matching_clusters swapped_clusters
        (max_permutation matching_clusters swapped_clusters) =
      score matching_clusters matching_clusters
        (max_permutation matching_clusters matching_clusters) ∧
    (cluster_diff matching_clusters swapped_clusters).Perm
      (cluster_diff matching_clusters matching_clusters) :=
  ⟨(cluster_diff_of_reordered_clusters matching_clusters matching_clusters matching_clusters
      swapped_clusters (List.Perm.refl _) (by decide) (by decide)).1,
    (cluster_diff_of_reordered_clusters matching_clusters matching_clusters matching_clusters
      swapped_clusters (List.Perm.refl _) (by decide) (by decide)).2
      (fun π hπ => matching_clusters_ties π ((mem_lex_permutations 3 (List.range 3) (by decide) π).2 hπ))⟩

/-- C18 (counterexample). For the clusters `a` and `b` on the left and `a b` and `c` on
the right both arrangements have the score 1; exchanging the two clusters on the left
changes which of them is paired with `a b`, and with it the multiset of differences. -/
theorem cluster_diff_depends_on_the_order_of_tied_clusters :
    tied_lhs_swapped.Perm tied_lhs ∧
    cluster_diff tied_lhs tied_rhs =
      [{ left_only := [], right_only := [⟨"b"⟩] },
       { left_only := [⟨"b"⟩], right_only := [⟨"c"⟩] }] ∧
    cluster_diff tied_lhs_swapped tied_rhs =
      [{ left_only := [], right_only := [⟨"a"⟩] },
       { left_only := [⟨"a"⟩], right_only := [⟨"c"⟩] }] ∧
    ¬ (cluster_diff tied_lhs_swapped tied_rhs).Perm (cluster_diff tied_lhs tied_rhs) := by
  refine ⟨by decide, by decide, by decide, by decide⟩

end tidy

namespace util
open stdlib

/-- C27. `is_in_directory` never relates an absolute path with a relative one: when
exactly one of `dir` and `file` has a root directory the result is false. -/
theorem is_in_directory_never_mixes_absolute_and_relative (dir file : Path)
    (h : dir.root ≠ file.root) : is_in_directory dir file = false := by
  unfold is_in_directory Path.lexically_relative
  have h' : file.root ≠ dir.root := Ne.symm h
  simp [h', Path.empty]

/-- C27 (witness). The absolute directory `/a/b/c` and the relative file
`a/b/c/file.h` of the test. -/
theorem is_in_directory_never_mixes_absolute_and_relative_witness :
    is_in_directory ⟨true, ["a", "b", "c"]⟩ ⟨false, ["a", "b", "c", "file.h"]⟩ = false :=
  is_in_directory_never_mixes_absolute_and_relative _ _ (by decide)

theorem mismatch_append_left : ∀ (c a b : List String),
    mismatch (c ++ a) (c ++ b) = mismatch a b
  | [], a, b => rfl
  | x :: c, a, b => by
    simp only [List.cons_append, mismatch, if_true]
    exact mismatch_append_left c a b

theorem mismatch_nil_right (a : List String) : mismatch a [] = (a, []) := by
  cases a <;> rfl

theorem dropLast_append_of_getLast? (l : List String) (x : String)
    (h : l.getLast? = some x) : l = l.dropLast ++ [x] := by
  have hne : l ≠ [] := by
    rintro rfl
    simp at h
  have := List.dropLast_append_getLast hne
  rw [List.getLast?_eq_getLast l hne] at h
  rw [← Option.some.inj h]
  exact this.symm

/-- C26. For every directory `D` and every non-empty relative path `rel` (first element
`r0`, which is not empty as in every path), `is_in_directory D (D / rel)` is true when
`r0` is not `..` and false when it is. -/
theorem is_in_directory_of_appended_path (D rel : Path) (hrel : rel.root = false)
    (r0 : String) (rs : List String) (helems : rel.elems = r0 :: rs) (hr0 : r0 ≠ "") :
    is_in_directory D (D.append rel) = decide (r0 ≠ "..") := by
  have happ : D.append rel =
      ⟨D.root, (if D.elems.getLast? = some "" then D.elems.dropLast else D.elems) ++
        r0 :: rs⟩ := by
    unfold Path.append
    simp [hrel, helems]
  have hmis : (mismatch (D.append rel).iter D.iter).1 = r0 :: rs ∧
      relativeDepth (mismatch (D.append rel).iter D.iter).2 = 0 := by
    rw [happ]
    by_cases hlast : D.elems.getLast? = some ""
    · have hD := dropLast_append_of_getLast? D.elems "" hlast
      simp only [hlast, if_true]
      have : mismatch (D.elems.dropLast ++ r0 :: rs) D.elems = (r0 :: rs, [""]) := by
        conv_lhs => rw [hD]
        rw [List.dropLast_append_of_ne_nil _ (by simp), List.dropLast_single,
          List.append_nil]
        rw [mismatch_append_left]
        simp [mismatch, hr0]
      cases hroot : D.root with
      | true =>
        simp only [Path.iter, hroot, if_true]
        rw [show ("/" :: (D.elems.dropLast ++ r0 :: rs)) = ["/"] ++ (D.elems.dropLast ++ r0 :: rs)
          from rfl, show ("/" :: D.elems) = ["/"] ++ D.elems from rfl, mismatch_append_left,
          this]
        simp [relativeDepth]
      | false =>
        simp only [Path.iter, hroot, Bool.false_eq_true, if_false]
        rw [this]
        simp [relativeDepth]
    · simp only [hlast, if_false]
      have : mismatch (D.elems ++ r0 :: rs) D.elems = (r0 :: rs, []) := by
        conv_lhs => rw [show D.elems = D.elems ++ [] from (List.append_nil _).symm]
        rw [List.append_nil, show mismatch (D.elems ++ r0 :: rs) D.elems =
          mismatch (D.elems ++ r0 :: rs) (D.elems ++ []) by rw [List.append_nil],
          mismatch_append_left, mismatch_nil_right]
      cases hroot : D.root with
      | true =>
        simp only [Path.iter, hroot, if_true]
        rw [show ("/" :: (D.elems ++ r0 :: rs)) = ["/"] ++ (D.elems ++ r0 :: rs)
          from rfl, show ("/" :: D.elems) = ["/"] ++ D.elems from rfl, mismatch_append_left,
          this]
        simp [relativeDepth]
      | false =>
        simp only [Path.iter, hroot, Bool.false_eq_true, if_false]
        rw [this]
        simp [relativeDepth]
  have hroot : (D.append rel).root = D.root := by rw [happ]
  obtain ⟨t', ht'⟩ := foldl_append_head r0 hr0 rs []
  have hrel' : (D.append rel).lexically_relative D = ⟨false, r0 :: t'⟩ := by
    unfold Path.lexically_relative
    simp only [hroot, ne_eq, not_true_eq_false, if_false, hmis.1, hmis.2, List.isEmpty_cons,
      Bool.false_eq_true, false_and, List.head?_cons, Option.some.injEq, hr0, or_self,
      and_false, le_refl, if_true, Int.toNat_zero, List.replicate_zero, List.nil_append,
      List.foldl_cons]
    have hfirst : (⟨false, []⟩ : Path).append (Path.ofElem r0) = ⟨false, [r0]⟩ := by
      simp [Path.append, Path.ofElem, hr0]
    rw [hfirst]
    exact ht'
  unfold is_in_directory
  simp only [hrel', Path.empty, Path.iter]
  by_cases hdd : r0 = ".."
  · simp [hdd]
  · simp [hdd]

/-- C26 (witness). The directory `/a/b/c` and the relative path `d/e/file.h`. -/
theorem is_in_directory_of_appended_path_witness :
    is_in_directory ⟨true, ["a", "b", "c"]⟩
      ((⟨true, ["a", "b", "c"]⟩ : Path).append ⟨false, ["d", "e", "file.h"]⟩) =
      decide ("d" ≠ "..") :=
  is_in_directory_of_appended_path _ _ rfl "d" ["e", "file.h"] rfl (by decide)

end util


namespace lwyi
open stdlib target_model scanner

/-- C28. `Dependency_visibility` with `|=` as join and `&` as meet is a distributive
lattice on its four values. For all `a`, `b`, `c` among the four values: `|` and `&`
are idempotent, commutative and associative and their results are again among the four
values; they absorb each other, `a | (a & b) = a` and `a & (a | b) = a`; `none` is the
identity of `|` and the zero of `&`, `public_scope` is the identity of `&` and the zero
of `|`; `private_scope | interface_scope = public_scope` and
`private_scope & interface_scope = none`; in the order `a | b = b` the value `a & b` is
the greatest lower bound of `a` and `b`; each of `&` and `|` distributes over the other;
and `!a` holds exactly when `a = none`. -/
theorem dependency_visibility_is_a_distributive_lattice :
    Dependency_visibility.values.Nodup ∧ Dependency_visibility.values.length = 4 ∧
    (∀ a ∈ Dependency_visibility.values,
      a.or a = a ∧ a.and a = a ∧
      Dependency_visibility.none.or a = a ∧ a.or Dependency_visibility.none = a ∧
      Dependency_visibility.none.and a = Dependency_visibility.none ∧
      Dependency_visibility.public_scope.and a = a ∧
      Dependency_visibility.public_scope.or a = Dependency_visibility.public_scope ∧
      (a.not = true ↔ a = Dependency_visibility.none)) ∧
    (∀ a ∈ Dependency_visibility.values, ∀ b ∈ Dependency_visibility.values,
      a.or b = b.or a ∧ a.and b = b.and a ∧
      a.or (a.and b) = a ∧ a.and (a.or b) = a ∧
      (a.and b = a ↔ a.or b = b) ∧
      a.or b ∈ Dependency_visibility.values ∧ a.and b ∈ Dependency_visibility.values) ∧
    Dependency_visibility.private_scope.or Dependency_visibility.interface_scope =
      Dependency_visibility.public_scope ∧
    Dependency_visibility.private_scope.and Dependency_visibility.interface_scope =
      Dependency_visibility.none ∧
    (∀ a ∈ Dependency_visibility.values, ∀ b ∈ Dependency_visibility.values,
      ∀ c ∈ Dependency_visibility.values,
      (a.or b).or c = a.or (b.or c) ∧ (a.and b).and c = a.and (b.and c) ∧
      a.and (b.or c) = (a.and b).or (a.and c) ∧
      a.or (b.and c) = (a.or b).and (a.or c) ∧
      (c.or a = a → c.or b = b → c.or (a.and b) = a.and b)) := by
  refine ⟨by decide, by decide, by decide, by decide, by decide, by decide, by decide⟩

end lwyi

namespace scanner
open stdlib util target_model

theorem merge_loop_error (e : String) (post : List (Except String Include_data)) :
    ∀ (pre : List Include_data) (ii inc : Include_set),
      merge_loop (pre.map Except.ok ++ Except.error e :: post) ii inc = .error e
  | [], _, _ => rfl
  | d :: pre, ii, inc => by
    simp only [List.map_cons, List.cons_append, merge_loop]
    exact merge_loop_error e post pre _ _

theorem all_ok_eq_map : ∀ (l : List (Except String Include_data)),
    (∀ x ∈ l, ∃ d, x = Except.ok d) → ∃ ds : List Include_data, l = ds.map Except.ok
  | [], _ => ⟨[], rfl⟩
  | x :: l, h => by
    obtain ⟨d, hd⟩ := h x (by simp)
    obtain ⟨ds, hds⟩ := all_ok_eq_map l fun y hy => h y (by simp [hy])
    exact ⟨d :: ds, by simp [hd, hds]⟩

/-- C25. `merge_includes` fails exactly when a translation unit failed: when the list
holds an error, the call returns the error of the first failing element, and when no
element is an error the call returns a value. -/
theorem merge_includes_fails_exactly_when_a_unit_failed
    (l : List (Except String Include_data)) :
    (∀ (pre : List Include_data) (e : String) (post : List (Except String Include_data)),
      l = pre.map Except.ok ++ Except.error e :: post → merge_includes l = .error e) ∧
    ((∀ x ∈ l, ∃ d, x = Except.ok d) → ∃ out, merge_includes l = .ok out) := by
  constructor
  · rintro pre e post rfl
    exact merge_loop_error e post pre [] []
  · intro h
    obtain ⟨ds, rfl⟩ := all_ok_eq_map l h
    obtain ⟨out, hout, -⟩ := merge_loop_ok ds [] []
    exact ⟨out, hout⟩

theorem map_set_insert_path (x : Include) : ∀ (s : Include_set),
    (set_insert Include_cmp x s).map (·.path) = set_insert Path.lt x.path (s.map (·.path))
  | [] => rfl
  | y :: ys => by
    simp only [set_insert, Include_cmp, List.map_cons]
    split
    · rfl
    · split
      · simp only [List.map_cons, map_set_insert_path x ys]
      · rfl

/-- An include set is sorted when its paths are strictly ascending. -/
theorem set_insert_include_sorted (x : Include) (s : Include_set)
    (hs : (s.map (·.path)).Pairwise (fun a b => Path.lt a b = true)) :
    ((set_insert Include_cmp x s).map (·.path)).Pairwise (fun a b => Path.lt a b = true) := by
  rw [map_set_insert_path]
  exact set_insert_sorted path_lt_strict x.path _ hs

theorem set_merge_include_sorted : ∀ (src t : Include_set),
    (t.map (·.path)).Pairwise (fun a b => Path.lt a b = true) →
    ((set_merge Include_cmp t src).map (·.path)).Pairwise (fun a b => Path.lt a b = true)
  | [], t, hs => hs
  | x :: src, t, hs => by
    have := set_merge_include_sorted src (set_insert Include_cmp x t)
      (set_insert_include_sorted x t hs)
    unfold set_merge at this ⊢
    simpa using this

theorem find_none_of_lt (p : Path) : ∀ (s : Include_set),
    (∀ q ∈ s.map (·.path), Path.lt p q = true) → s.find? (fun i => i.path = p) = none
  | [], _ => rfl
  | y :: ys, h => by
    have hy : Path.lt p y.path = true := h y.path (by simp)
    have hne : y.path ≠ p := by
      rintro rfl
      rw [path_lt_strict.irrefl] at hy
      exact Bool.false_ne_true hy
    rw [List.find?_cons]
    simp only [hne, decide_False]
    exact find_none_of_lt p ys fun q hq => h q (by simp at hq ⊢; exact Or.inr hq)

/-- Inserting into a sorted include set keeps the entry present for a path. -/
theorem set_insert_find (x : Include) (p : Path) : ∀ (s : Include_set),
    (s.map (·.path)).Pairwise (fun a b => Path.lt a b = true) →
    (set_insert Include_cmp x s).find? (fun i => i.path = p) =
      (s.find? (fun i => i.path = p)).or (if x.path = p then some x else none)
  | [], _ => by
    by_cases h : x.path = p <;> simp [set_insert, h]
  | y :: ys, hs => by
    have hs' := List.pairwise_cons.1 hs
    unfold set_insert
    cases h1 : Include_cmp x y with
    | true =>
      simp only [if_true]
      by_cases hx : x.path = p
      · subst hx
        have hnone : (y :: ys).find? (fun i => i.path = x.path) = none := by
          apply find_none_of_lt
          intro q hq
          simp only [List.map_cons, List.mem_cons] at hq
          rcases hq with rfl | hq
          · exact h1
          · exact path_lt_strict.trans _ _ _ h1 (hs'.1 q hq)
        rw [hnone]
        simp
      · rw [List.find?_cons]
        simp [hx]
    | false =>
      simp only [Bool.false_eq_true, if_false]
      cases h2 : Include_cmp y x with
      | true =>
        simp only [if_true]
        rw [List.find?_cons, List.find?_cons]
        by_cases hy : y.path = p
        · simp [hy]
        · simp only [hy, decide_False]
          exact set_insert_find x p ys hs'.2
      | false =>
        simp only [Bool.false_eq_true, if_false]
        have hxy : x.path = y.path := path_lt_strict.tri _ _ h1 h2
        by_cases hy : y.path = p
        · rw [List.find?_cons]
          simp [hy]
        · have hx : x.path ≠ p := hxy ▸ hy
          simp [hx]

theorem set_merge_find (p : Path) : ∀ (src t : Include_set),
    (t.map (·.path)).Pairwise (fun a b => Path.lt a b = true) →
    (set_merge Include_cmp t src).find? (fun i => i.path = p) =
      (t.find? (fun i => i.path = p)).or (src.find? (fun i => i.path = p))
  | [], t, _ => by simp [set_merge]
  | x :: src, t, hs => by
    have ih := set_merge_find p src (set_insert Include_cmp x t)
      (set_insert_include_sorted x t hs)
    unfold set_merge at ih ⊢
    rw [List.foldl_cons, ih, set_insert_find x p t hs, List.find?_cons]
    cases t.find? (fun i => i.path = p) with
    | some i => simp
    | none =>
      by_cases hx : x.path = p <;> simp [hx]

theorem bucket_merge_find (p : Path) : ∀ (buckets : List (Path × Include_set))
    (acc : Include_set),
    (acc.map (·.path)).Pairwise (fun a b => Path.lt a b = true) →
    ((buckets.foldl (fun acc bucket => set_merge Include_cmp acc bucket.2) acc).map
        (·.path)).Pairwise (fun a b => Path.lt a b = true) ∧
    (buckets.foldl (fun acc bucket => set_merge Include_cmp acc bucket.2) acc).find?
        (fun i => i.path = p) =
      (acc.find? (fun i => i.path = p)).or
        ((buckets.flatMap fun bucket => bucket.2).find? (fun i => i.path = p))
  | [], acc, hs => by simp [hs]
  | b :: buckets, acc, hs => by
    obtain ⟨ih1, ih2⟩ := bucket_merge_find p buckets (set_merge Include_cmp acc b.2)
      (set_merge_include_sorted b.2 acc hs)
    refine ⟨ih1, ?_⟩
    rw [List.foldl_cons, ih2, set_merge_find p b.2 acc hs, List.flatMap_cons,
      List.find?_append, Option.or_assoc]

theorem merge_loop_find (p : Path) : ∀ (ds : List Include_data) (ii inc : Include_set),
    (ii.map (·.path)).Pairwise (fun a b => Path.lt a b = true) →
    ∃ out, merge_loop (ds.map Except.ok) ii inc = .ok out ∧
      (out.interface_includes.map (·.path)).Pairwise (fun a b => Path.lt a b = true) ∧
      out.interface_includes.find? (fun i => i.path = p) =
        (ii.find? (fun i => i.path = p)).or
          ((all_bucket_includes ds).find? (fun i => i.path = p))
  | [], ii, inc, hs => ⟨_, rfl, hs, by simp [all_bucket_includes]⟩
  | d :: ds, ii, inc, hs => by
    obtain ⟨b1, b2⟩ := bucket_merge_find p d.interface_header_includes ii hs
    obtain ⟨out, h1, h2, h3⟩ := merge_loop_find p ds
      (d.interface_header_includes.foldl
        (fun acc bucket => set_merge Include_cmp acc bucket.2) ii)
      (set_merge Include_cmp inc d.includes) b1
    refine ⟨out, by simpa [merge_loop] using h1, h2, ?_⟩
    rw [h3, b2]
    simp only [all_bucket_includes, List.flatMap_cons, List.find?_append, Option.or_assoc]

theorem mem_sorted_iff_find (s : Include_set)
    (hs : (s.map (·.path)).Pairwise (fun a b => Path.lt a b = true)) (i : Include) :
    i ∈ s ↔ s.find? (fun j => j.path = i.path) = some i := by
  constructor
  · intro hi
    induction s with
    | nil => simp at hi
    | cons y ys ih =>
      have hs' := List.pairwise_cons.1 hs
      rw [List.find?_cons]
      rcases List.mem_cons.1 hi with rfl | hi'
      · simp
      · have hlt : Path.lt y.path i.path = true :=
          hs'.1 i.path (List.mem_map_of_mem _ hi')
        have hne : y.path ≠ i.path := by
          intro h
          rw [h, path_lt_strict.irrefl] at hlt
          exact Bool.false_ne_true hlt
        simp only [hne, decide_False]
        exact ih hs'.2 hi'
  · intro h
    exact List.mem_of_find?_eq_some h

/-- C24. `merge_includes` builds `interface_includes` as a union by path: the returned
list is strictly ascending by path, its paths are exactly those occurring in some bucket
of some translation unit, and the include kept for a path is the first one with that
path when the units are taken in list order, the buckets of a unit in map order (which
is ascending header path) and the entries of a bucket in set order. -/
theorem merge_includes_interface_includes_is_a_union_by_path (ds : List Include_data) :
    ∃ out, merge_includes (ds.map Except.ok) = .ok out ∧
      (out.interface_includes.map (·.path)).Pairwise (fun a b => Path.lt a b = true) ∧
      (∀ p, p ∈ out.interface_includes.map (·.path) ↔
        ∃ d ∈ ds, ∃ b ∈ d.interface_header_includes, p ∈ b.2.map (·.path)) ∧
      (∀ i, i ∈ out.interface_includes ↔
        (all_bucket_includes ds).find? (fun j => j.path = i.path) = some i) := by
  obtain ⟨out, hout, -, hpaths⟩ := merge_loop_ok ds [] []
  refine ⟨out, hout, ?_, ?_, ?_⟩
  · obtain ⟨out', hout', hs, -⟩ := merge_loop_find ⟨false, []⟩ ds [] [] List.Pairwise.nil
    rw [hout] at hout'
    cases hout'
    exact hs
  · intro p
    rw [hpaths p]
    simp
  · intro i
    obtain ⟨out', hout', hs, hf⟩ := merge_loop_find i.path ds [] [] List.Pairwise.nil
    rw [hout] at hout'
    cases hout'
    rw [mem_sorted_iff_find _ hs i, hf]
    simp

end scanner

namespace tidy
open stdlib util target_model

theorem intersection_loop_le_right : ∀ (fuel : Nat) (l r : List Target) (count : Nat),
    intersection_loop fuel l r count ≤ count + r.length
  | 0, _, _, count => by simp [intersection_loop]
  | fuel + 1, [], _, count => by simp [intersection_loop]
  | fuel + 1, _ :: _, [], count => by simp [intersection_loop]
  | fuel + 1, a :: l, b :: r, count => by
    unfold intersection_loop
    split
    · exact intersection_loop_le_right fuel l (b :: r) count
    · split
      · have := intersection_loop_le_right fuel l r (count + 1)
        simp only [List.length_cons]; omega
      · have := intersection_loop_le_right fuel (a :: l) r count
        simp only [List.length_cons]; omega

theorem intersection_loop_common : ∀ (fuel : Nat) (l r : List Target) (count : Nat),
    count < intersection_loop fuel l r count → ∃ t, t ∈ l ∧ t ∈ r
  | 0, _, _, count, h => by simp [intersection_loop] at h
  | fuel + 1, [], _, count, h => by simp [intersection_loop] at h
  | fuel + 1, _ :: _, [], count, h => by simp [intersection_loop] at h
  | fuel + 1, a :: l, b :: r, count, h => by
    unfold intersection_loop at h
    cases hab : Target.lt a b with
    | true =>
      simp only [hab, if_true] at h
      obtain ⟨t, h1, h2⟩ := intersection_loop_common fuel l (b :: r) count h
      exact ⟨t, List.mem_cons_of_mem _ h1, h2⟩
    | false =>
      cases hba : Target.lt b a with
      | false =>
        have : a = b := target_lt_strict.tri a b hab hba
        exact ⟨a, by simp, by simp [this]⟩
      | true =>
        simp only [hab, hba, Bool.false_eq_true, if_false, Bool.not_true] at h
        obtain ⟨t, h1, h2⟩ := intersection_loop_common fuel (a :: l) r count h
        exact ⟨t, h1, List.mem_cons_of_mem _ h2⟩

theorem pair_weight_le_rhs (a : Option Cluster) (c : Cluster) :
    pair_weight (a, some c) ≤ ((min c.length 32767 : Nat) : Int) := by
  unfold pair_weight
  cases a with
  | none => simp [intersection_size]
  | some l =>
    have := intersection_loop_le_right (l.length + c.length) l c 0
    simp only [intersection_size]
    omega

theorem pair_weight_common (l c : Cluster) (hc : c ≠ [])
    (h : pair_weight (some l, some c) = ((min c.length 32767 : Nat) : Int)) :
    ∃ t, t ∈ l ∧ t ∈ c := by
  unfold pair_weight at h
  simp only [intersection_size] at h
  have hpos : 0 < c.length := List.length_pos.2 hc
  apply intersection_loop_common (l.length + c.length) l c 0
  omega

theorem score_eq_index_sum (lhs rhs : List Cluster) (π : List Nat)
    (h : π.length = max lhs.length rhs.length) :
    score lhs rhs π = ((List.range (max lhs.length rhs.length)).map fun i =>
      pair_weight (lhs[i]?, rhs[π.getD i 0]?)).sum := by
  rw [score_eq_sum lhs rhs π h]
  simp only [slot_pairs, List.map_map]
  rfl

theorem eq_of_sum_le (f g : Nat → Int) : ∀ (l : List Nat), (∀ i ∈ l, f i ≤ g i) →
    (l.map g).sum ≤ (l.map f).sum → ∀ i ∈ l, f i = g i
  | [], _, _ => by simp
  | a :: l, hle, hsum => by
    have hle' : ∀ i ∈ l, f i ≤ g i := fun i hi => hle i (by simp [hi])
    have hmono : (l.map f).sum ≤ (l.map g).sum := by
      clear hsum
      induction l with
      | nil => simp
      | cons b l ih =>
        have := hle' b (by simp)
        have := ih (fun i hi => hle i (by
          rcases List.mem_cons.1 hi with h | h
          · simp [h]
          · simp [h])) (fun i hi => hle' i (by simp [hi]))
        simp only [List.map_cons, List.sum_cons]
        omega
    have ha := hle a (by simp)
    simp only [List.map_cons, List.sum_cons] at hsum
    intro i hi
    rcases List.mem_cons.1 hi with rfl | hi
    · omega
    · exact eq_of_sum_le f g l hle' (by omega) i hi

/-- The clusters on the right are pairwise disjoint: two slots with a common member are
the same slot. -/
theorem disjoint_index (rhs : List Cluster)
    (hdis : rhs.Pairwise fun c d => ∀ x ∈ c, x ∉ d) (i j : Nat) (ci cj : Cluster)
    (hi : rhs[i]? = some ci) (hj : rhs[j]? = some cj) (t : Target) (hti : t ∈ ci)
    (htj : t ∈ cj) : i = j := by
  have hil : i < rhs.length := by
    rcases Nat.lt_or_ge i rhs.length with h | h
    · exact h
    · rw [List.getElem?_eq_none h] at hi; exact Option.noConfusion hi
  have hjl : j < rhs.length := by
    rcases Nat.lt_or_ge j rhs.length with h | h
    · exact h
    · rw [List.getElem?_eq_none h] at hj; exact Option.noConfusion hj
  rw [List.getElem?_eq_getElem hil] at hi
  rw [List.getElem?_eq_getElem hjl] at hj
  have hi' := Option.some.inj hi
  have hj' := Option.some.inj hj
  rw [List.pairwise_iff_getElem] at hdis
  rcases Nat.lt_trichotomy i j with h | h | h
  · exact absurd (hj' ▸ htj) (hdis i j hil hjl h t (hi' ▸ hti))
  · exact h
  · exact absurd (hi' ▸ hti) (hdis j i hjl hil h t (hj' ▸ htj))

/-- When every cluster on the left has its equal among the pairwise disjoint, non-empty
clusters on the right, `cluster_diff` pairs every cluster on the left with its equal. -/
theorem max_permutation_pairs_equal_clusters (lhs rhs : List Cluster)
    (hlen : lhs.length ≤ rhs.length)
    (hdis : rhs.Pairwise fun c d => ∀ x ∈ c, x ∉ d) (hne : ∀ c ∈ rhs, c ≠ [])
    (σ : List Nat) (hσ : σ.Perm (List.range rhs.length))
    (htwin : ∀ i, i < lhs.length → rhs[σ.getD i 0]? = lhs[i]?) :
    ∀ i, i < lhs.length → rhs[(max_permutation lhs rhs).getD i 0]? = lhs[i]? := by
  have hn : max lhs.length rhs.length = rhs.length := max_eq_right hlen
  obtain ⟨hP, hPmax⟩ := max_permutation_spec lhs rhs
  rw [hn] at hP
  have hσ' : σ.Perm (List.range (max lhs.length rhs.length)) := by rw [hn]; exact hσ
  have hlenP : (max_permutation lhs rhs).length = rhs.length := by
    rw [hP.length_eq, List.length_range]
  have hlenσ : σ.length = rhs.length := by rw [hσ.length_eq, List.length_range]
  have hlt : ∀ (π : List Nat), π.Perm (List.range rhs.length) → ∀ i, i < rhs.length →
      π.getD i 0 < rhs.length := by
    intro π hπ i hi
    have hl : π.length = rhs.length := by rw [hπ.length_eq, List.length_range]
    rw [List.getD_eq_getElem _ _ (by omega)]
    exact List.mem_range.1 (hπ.mem_iff.1 (List.getElem_mem _))
  have hsome : ∀ (π : List Nat), π.Perm (List.range rhs.length) → ∀ i, i < rhs.length →
      rhs[π.getD i 0]? = some (rhs.getD (π.getD i 0) []) := by
    intro π hπ i hi
    have := hlt π hπ i hi
    rw [List.getElem?_eq_getElem this, List.getD_eq_getElem _ _ this]
  have hW : ∀ (π : List Nat), π.Perm (List.range rhs.length) →
      ((List.range rhs.length).map fun i =>
        (((min (rhs.getD (π.getD i 0) []).length 32767 : Nat) : Int))).sum =
      ((List.range rhs.length).map fun j =>
        (((min (rhs.getD j []).length 32767 : Nat) : Int))).sum := by
    intro π hπ
    have hl : π.length = rhs.length := by rw [hπ.length_eq, List.length_range]
    rw [map_getD_of_length π rhs.length hl
      (fun j => (((min (rhs.getD j []).length 32767 : Nat) : Int)))]
    exact (hπ.map _).sum_eq
  have hscoreσ : score lhs rhs σ = ((List.range rhs.length).map fun j =>
      (((min (rhs.getD j []).length 32767 : Nat) : Int))).sum := by
    rw [score_eq_index_sum lhs rhs σ (by rw [hn]; exact hlenσ), hn, ← hW σ hσ]
    congr 1
    apply List.map_congr_left
    intro i hi
    have hi' := List.mem_range.1 hi
    rw [hsome σ hσ i hi']
    rcases Nat.lt_or_ge i lhs.length with hil | hil
    · have ht := htwin i hil
      rw [hsome σ hσ i hi'] at ht
      rw [← ht]
      simp [pair_weight, intersection_size_self]
    · rw [List.getElem?_eq_none hil]
      simp [pair_weight, intersection_size]
  have hboundP : ∀ i ∈ List.range rhs.length,
      pair_weight (lhs[i]?, rhs[(max_permutation lhs rhs).getD i 0]?) ≤
      (((min (rhs.getD ((max_permutation lhs rhs).getD i 0) []).length 32767 : Nat) : Int)) := by
    intro i hi
    rw [hsome _ hP i (List.mem_range.1 hi)]
    exact pair_weight_le_rhs _ _
  have hsumP : ((List.range rhs.length).map fun i =>
      (((min (rhs.getD ((max_permutation lhs rhs).getD i 0) []).length 32767 : Nat) :
        Int))).sum ≤
      ((List.range rhs.length).map fun i =>
        pair_weight (lhs[i]?, rhs[(max_permutation lhs rhs).getD i 0]?)).sum := by
    rw [hW _ hP, ← hscoreσ]
    have := hPmax σ hσ'
    rw [score_eq_index_sum lhs rhs (max_permutation lhs rhs) (by rw [hn]; exact hlenP),
      hn] at this
    exact this
  have hterm := eq_of_sum_le _ _ (List.range rhs.length) hboundP hsumP
  intro i hi
  have hir : i < rhs.length := lt_of_lt_of_le hi hlen
  have hti := hterm i (List.mem_range.2 hir)
  rw [hsome _ hP i hir, List.getElem?_eq_getElem hi] at hti
  have hcne : rhs.getD ((max_permutation lhs rhs).getD i 0) [] ≠ [] := by
    apply hne
    have := hlt _ hP i hir
    rw [List.getD_eq_getElem _ _ this]
    exact List.getElem_mem _
  obtain ⟨t, ht1, ht2⟩ := pair_weight_common _ _ hcne hti
  have htw := htwin i hi
  rw [List.getElem?_eq_getElem hi] at htw
  have := disjoint_index rhs hdis _ _ _ _ htw (hsome _ hP i hir) t ht1 ht2
  rw [← this, htw, List.getElem?_eq_getElem hi]

theorem components_spec (m : Target_model) :
    ∃ components, lwyi.compute_strongly_connected_dependencies m = some components ∧
      (∀ c ∈ components, c.Pairwise fun a b => Target.lt a b = true) ∧
      (∀ c ∈ components, c ≠ []) ∧
      components.Pairwise fun c d => ∀ x ∈ c, x ∉ d := by
  obtain ⟨s, h1, hs, -, -⟩ := lwyi.compute_spec m
  refine ⟨s.strongly_connected, h1, hs.comp_sorted, ?_, hs.comp_disjoint⟩
  intro c hc hnil
  have := hs.comp_size c hc
  rw [hnil] at this
  simp at this

theorem cluster_diff_length (lhs rhs : List Cluster) :
    (cluster_diff lhs rhs).length = max lhs.length rhs.length := by
  simp [cluster_diff]

theorem cluster_diff_getD (lhs rhs : List Cluster) (i : Nat)
    (hi : i < max lhs.length rhs.length) :
    (cluster_diff lhs rhs).getD i {} =
      single_diff lhs[i]? rhs[(max_permutation lhs rhs).getD i 0]? := by
  unfold cluster_diff
  simp only
  rw [getD_map_of_lt _ 0 _ _ i (by simpa using hi), getD_range _ _ hi]

theorem single_diff_same (c : Cluster) : single_diff (some c) (some c) = {} := by
  simp [single_diff, set_difference_self]

/-- The first loop of `tidy` reports nothing when every declared slot is paired with an
equal cluster. -/
theorem declared_slots_silent (lhs rhs : List Cluster) (hlen : lhs.length ≤ rhs.length)
    (h : ∀ i, i < lhs.length → rhs[(max_permutation lhs rhs).getD i 0]? = lhs[i]?) :
    ((List.range lhs.length).flatMap fun i =>
      (if !((cluster_diff lhs rhs).getD i {}).left_only.isEmpty then
        [({ type := .removed_from_cluster,
            targets := ((cluster_diff lhs rhs).getD i {}).left_only } : Dag_diagnostic)]
        else []) ++
      (if !((cluster_diff lhs rhs).getD i {}).right_only.isEmpty then
        [{ type := .added_to_cluster,
           targets := ((cluster_diff lhs rhs).getD i {}).right_only }] else [])) = [] := by
  rw [List.flatMap_eq_nil_iff]
  intro i hi
  have hi' : i < lhs.length := List.mem_range.1 hi
  rw [cluster_diff_getD lhs rhs i (lt_of_lt_of_le hi' (le_trans hlen (le_max_right _ _))),
    h i hi', List.getElem?_eq_getElem hi', single_diff_same]
  rfl

theorem twin_of_perm (lhs rhs : List Cluster) (σ : List Nat)
    (hσ : σ.Perm (List.range rhs.length))
    (heq : lhs = σ.map fun i => rhs.getD i []) :
    ∀ i, i < lhs.length → rhs[σ.getD i 0]? = lhs[i]? := by
  intro i hi
  have hlen : σ.length = lhs.length := by rw [heq, List.length_map]
  have hiσ : i < σ.length := by omega
  have hlt : σ.getD i 0 < rhs.length := by
    rw [List.getD_eq_getElem _ _ hiσ]
    exact List.mem_range.1 (hσ.mem_iff.1 (List.getElem_mem _))
  have hσi : σ[i] = σ.getD i 0 := (List.getD_eq_getElem _ _ hiσ).symm
  subst heq
  rw [List.getElem?_map, List.getElem?_eq_getElem hiσ, Option.map_some', hσi,
    List.getD_eq_getElem rhs [] hlt, List.getElem?_eq_getElem hlt]

theorem forbidden_diagnostics_nil (config : Config) (m : Target_model)
    (hforb : ∀ entry ∈ config.forbidden_dependencies, ∀ td,
      m.get_target_data entry.1 = some td → ∀ f ∈ entry.2, f ∉ td.dependencies) :
    forbidden_diagnostics config m = [] := by
  unfold forbidden_diagnostics
  rw [List.flatMap_eq_nil_iff]
  intro entry hentry
  cases hd : m.get_target_data entry.1 with
  | none => rfl
  | some td =>
    simp only
    rw [List.map_eq_nil_iff, List.filter_eq_nil_iff]
    intro f hf
    have := hforb entry hentry td hd f hf
    simpa using this

/-- C21. `tidy` is silent when policy and graph agree: when the allowed clusters are, in
any order, the components that `compute_strongly_connected_dependencies` returns for the
model, and no forbidden dependency of a target with data is among its dependencies,
`tidy` returns the empty list. -/
theorem tidy_is_silent_when_policy_and_graph_agree (config : Config) (m : Target_model)
    (components : List Cluster)
    (hc : lwyi.compute_strongly_connected_dependencies m = some components)
    (hperm : config.allowed_clusters.Perm components)
    (hforb : ∀ entry ∈ config.forbidden_dependencies, ∀ td,
      m.get_target_data entry.1 = some td → ∀ f ∈ entry.2, f ∉ td.dependencies)
    (_hsize : components.length * 32767 < 2 ^ 31) :
    tidy config m = some [] := by
  obtain ⟨comps, hc', -, hne, hdis⟩ := components_spec m
  rw [hc] at hc'
  cases hc'
  obtain ⟨σ, hσ, heq⟩ := perm_index ([] : Cluster) hperm
  have hlen : config.allowed_clusters.length = components.length := hperm.length_eq
  have hP := max_permutation_pairs_equal_clusters config.allowed_clusters components
    (le_of_eq hlen) hdis hne σ hσ (twin_of_perm _ _ σ hσ heq)
  unfold tidy
  rw [hc]
  simp only [Option.map_some', Option.some.injEq]
  rw [forbidden_diagnostics_nil config m hforb, List.append_nil]
  unfold cluster_diagnostics
  simp only
  rw [declared_slots_silent _ _ (le_of_eq hlen) hP, cluster_diff_length, hlen, max_self,
    Nat.sub_self]
  rfl

/-- C21 (witness). The configuration and the targets of the test. -/
theorem tidy_is_silent_when_policy_and_graph_agree_witness :
    tidy test_config (Target_model.ctor (test_entries [⟨"libe"⟩] [])) = some [] :=
  tidy_is_silent_when_policy_and_graph_agree test_config
    (Target_model.ctor (test_entries [⟨"libe"⟩] []))
    [[⟨"liba"⟩, ⟨"libb"⟩], [⟨"libc"⟩, ⟨"libd"⟩, ⟨"libe"⟩]] (by decide) (by decide)
    (by decide) (by decide)

theorem slots_self (l : List Cluster) : slots l l.length = l.map some := by
  rw [slots_eq l l.length (le_refl _), Nat.sub_self]
  simp

/-- When the clusters on the right are those on the left and one more cluster `N`, the
slot that is left over is paired with `N`. -/
theorem extra_slot_is_new_cluster (lhs rhs : List Cluster) (N : Cluster)
    (hperm : (lhs ++ [N]).Perm rhs)
    (h : ∀ i, i < lhs.length → rhs[(max_permutation lhs rhs).getD i 0]? = lhs[i]?) :
    rhs[(max_permutation lhs rhs).getD lhs.length 0]? = some N := by
  have hlen : rhs.length = lhs.length + 1 := by
    rw [← hperm.length_eq, List.length_append]
    rfl
  have hn : max lhs.length rhs.length = lhs.length + 1 := by omega
  obtain ⟨hP, -⟩ := max_permutation_spec lhs rhs
  rw [hn] at hP
  have hlenP : (max_permutation lhs rhs).length = lhs.length + 1 := by
    rw [hP.length_eq, List.length_range]
  have h1 : ((List.range (lhs.length + 1)).map fun i =>
      rhs[(max_permutation lhs rhs).getD i 0]?).Perm (lhs.map some ++ [some N]) := by
    rw [map_getD_of_length _ _ hlenP (fun j => rhs[j]?)]
    refine (hP.map _).trans ?_
    have := slots_self rhs
    unfold slots at this
    rw [← hlen, this]
    have := hperm.symm.map some
    simpa using this
  have h2 : ((List.range (lhs.length + 1)).map fun i =>
      rhs[(max_permutation lhs rhs).getD i 0]?) =
      lhs.map some ++ [rhs[(max_permutation lhs rhs).getD lhs.length 0]?] := by
    rw [List.range_succ, List.map_append]
    congr 1
    have := slots_self lhs
    unfold slots at this
    rw [← this]
    apply List.map_congr_left
    intro i hi
    exact h i (List.mem_range.1 hi)
  rw [h2] at h1
  have h3 := (List.perm_append_left_iff _).1 h1
  have := List.perm_singleton.1 h3.symm
  simpa using this.symm

/-- C22. A new cycle is reported as a new cluster and nothing else: when the components
of the model are, in any order, the allowed clusters and one further component `N`, and
no forbidden dependency is violated, `tidy` returns exactly one diagnostic, of type
`new_cluster`, whose targets are the members of `N` in ascending order. -/
theorem new_cycle_is_reported_as_a_new_cluster (config : Config) (m : Target_model)
    (components : List Cluster) (N : Cluster)
    (hc : lwyi.compute_strongly_connected_dependencies m = some components)
    (hperm : (config.allowed_clusters ++ [N]).Perm components)
    (hforb : ∀ entry ∈ config.forbidden_dependencies, ∀ td,
      m.get_target_data entry.1 = some td → ∀ f ∈ entry.2, f ∉ td.dependencies)
    (_hsize : components.length * 32767 < 2 ^ 31) :
    tidy config m = some [{ type := .new_cluster, targets := N }] ∧
    N.Pairwise (fun a b => Target.lt a b = true) := by
  obtain ⟨comps, hc', hsorted, hne, hdis⟩ := components_spec m
  rw [hc] at hc'
  cases hc'
  have hN : N ∈ components := hperm.mem_iff.1 (by simp)
  refine ⟨?_, hsorted N hN⟩
  obtain ⟨σ, hσ, heq⟩ := perm_index ([] : Cluster) hperm
  have hlen : components.length = config.allowed_clusters.length + 1 := by
    rw [← hperm.length_eq, List.length_append]
    rfl
  have htwin : ∀ i, i < config.allowed_clusters.length →
      components[σ.getD i 0]? = config.allowed_clusters[i]? := by
    intro i hi
    have := twin_of_perm (config.allowed_clusters ++ [N]) components σ hσ heq i
      (by rw [List.length_append]; exact Nat.lt_succ_of_lt hi)
    rw [this, List.getElem?_append_left hi]
  have hP := max_permutation_pairs_equal_clusters config.allowed_clusters components
    (by omega) hdis hne σ hσ htwin
  have hextra := extra_slot_is_new_cluster config.allowed_clusters components N hperm hP
  unfold tidy
  rw [hc]
  simp only [Option.map_some', Option.some.injEq]
  rw [forbidden_diagnostics_nil config m hforb, List.append_nil]
  unfold cluster_diagnostics
  simp only
  rw [declared_slots_silent _ _ (by omega) hP, cluster_diff_length, hlen,
    max_eq_right (by omega), Nat.add_sub_cancel_left]
  rw [show List.range 1 = [0] from rfl]
  simp only [List.nil_append, List.map_cons, List.map_nil, Nat.add_zero]
  rw [cluster_diff_getD _ _ _ (by rw [hlen, max_eq_right (by omega)]; omega), hextra,
    List.getElem?_eq_none (le_refl _)]
  rfl

/-- C22 (witness). The test in which `libg` depends on `libf`. -/
theorem new_cycle_is_reported_as_a_new_cluster_witness :
    tidy test_config (Target_model.ctor (test_entries [⟨"libe"⟩] [⟨"libf"⟩])) =
      some [{ type := .new_cluster, targets := [⟨"libf"⟩, ⟨"libg"⟩] }] ∧
    ([⟨"libf"⟩, ⟨"libg"⟩] : Cluster).Pairwise (fun a b => Target.lt a b = true) :=
  new_cycle_is_reported_as_a_new_cluster test_config
    (Target_model.ctor (test_entries [⟨"libe"⟩] [⟨"libf"⟩]))
    [[⟨"libf"⟩, ⟨"libg"⟩], [⟨"liba"⟩, ⟨"libb"⟩], [⟨"libc"⟩, ⟨"libd"⟩, ⟨"libe"⟩]]
    [⟨"libf"⟩, ⟨"libg"⟩] (by decide) (by decide) (by decide) (by decide)

theorem cluster_diagnostics_types (allowed_size : Nat) (result : List Cluster_diff) :
    ∀ d ∈ cluster_diagnostics allowed_size result, d.type ≠ .forbidden_dependency := by
  intro d hd
  unfold cluster_diagnostics at hd
  simp only at hd
  rcases List.mem_append.1 hd with h | h
  · obtain ⟨i, -, hi⟩ := List.mem_flatMap.1 h
    rcases List.mem_append.1 hi with h1 | h1
    · split at h1
      · rw [List.mem_singleton.1 h1]; simp
      · simp at h1
    · split at h1
      · rw [List.mem_singleton.1 h1]; simp
      · simp at h1
  · obtain ⟨j, -, rfl⟩ := List.mem_map.1 h
    simp

/-- C23. `tidy` reports exactly the forbidden edges that exist: its output is the
cluster diagnostics followed by the `forbidden_dependency` diagnostics; these have
targets `t, f`, come in strictly ascending order of `(t, f)`, and there is one for
`(t, f)` exactly when `t` is a key of `config.forbidden_dependencies` with data in the
model, `f` is in its forbidden set and `f` is among the dependencies of `t`. -/
theorem tidy_reports_exactly_the_forbidden_edges (config : Config) (m : Target_model)
    (hkeys : KeysSorted Target.lt config.forbidden_dependencies)
    (hvals : ∀ entry ∈ config.forbidden_dependencies,
      entry.2.Pairwise fun a b => Target.lt a b = true) :
    ∃ cluster_part forbidden_part, tidy config m = some (cluster_part ++ forbidden_part) ∧
      (∀ d ∈ cluster_part, d.type ≠ .forbidden_dependency) ∧
      (∀ d ∈ forbidden_part, d.type = .forbidden_dependency ∧ ∃ t f, d.targets = [t, f]) ∧
      forbidden_part.Pairwise (fun d e => lex_lt Target.lt d.targets e.targets = true) ∧
      ∀ t f, ({ type := .forbidden_dependency, targets := [t, f] } : Dag_diagnostic) ∈
          forbidden_part ↔
        ∃ fs td, (t, fs) ∈ config.forbidden_dependencies ∧ f ∈ fs ∧
          m.get_target_data t = some td ∧ f ∈ td.dependencies := by
  obtain ⟨components, hc, -, -, -⟩ := components_spec m
  refine ⟨cluster_diagnostics config.allowed_clusters.length
    (cluster_diff config.allowed_clusters components), forbidden_diagnostics config m,
    by simp [tidy, hc], cluster_diagnostics_types _ _, ?_, ?_, ?_⟩
  · intro d hd
    unfold forbidden_diagnostics at hd
    obtain ⟨entry, -, he⟩ := List.mem_flatMap.1 hd
    cases hdata : m.get_target_data entry.1 with
    | none => rw [hdata] at he; simp at he
    | some td =>
      rw [hdata] at he
      obtain ⟨f, -, rfl⟩ := List.mem_map.1 he
      exact ⟨rfl, entry.1, f, rfl⟩
  · unfold forbidden_diagnostics
    rw [List.pairwise_flatMap]
    constructor
    · intro entry hentry
      cases hdata : m.get_target_data entry.1 with
      | none => exact List.Pairwise.nil
      | some td =>
        simp only
        rw [List.pairwise_map]
        refine ((hvals entry hentry).filter _).imp ?_
        intro a b hab
        simp [lex_lt, target_lt_strict.irrefl, hab]
    · unfold KeysSorted at hkeys
      rw [List.pairwise_map] at hkeys
      refine hkeys.imp ?_
      intro e1 e2 h12 d1 hd1 d2 hd2
      cases h1 : m.get_target_data e1.1 with
      | none => rw [h1] at hd1; simp at hd1
      | some td1 =>
        cases h2 : m.get_target_data e2.1 with
        | none => rw [h2] at hd2; simp at hd2
        | some td2 =>
          rw [h1] at hd1
          rw [h2] at hd2
          obtain ⟨f1, -, rfl⟩ := List.mem_map.1 hd1
          obtain ⟨f2, -, rfl⟩ := List.mem_map.1 hd2
          simp [lex_lt, h12]
  · intro t f
    unfold forbidden_diagnostics
    simp only [List.mem_flatMap]
    constructor
    · rintro ⟨entry, hentry, he⟩
      cases hdata : m.get_target_data entry.1 with
      | none => rw [hdata] at he; simp at he
      | some td =>
        rw [hdata] at he
        obtain ⟨f', hf', heq⟩ := List.mem_map.1 he
        simp only [Dag_diagnostic.mk.injEq, List.cons.injEq, and_true, true_and] at heq
        obtain ⟨rfl, rfl⟩ := heq
        rw [List.mem_filter] at hf'
        exact ⟨entry.2, td, hentry, hf'.1, hdata, by simpa using hf'.2⟩
    · rintro ⟨fs, td, hentry, hf, hdata, hdep⟩
      refine ⟨(t, fs), hentry, ?_⟩
      simp only [hdata]
      exact List.mem_map.2 ⟨f, List.mem_filter.2 ⟨hf, by simpa using hdep⟩, rfl⟩

/-- C23 (witness). The test in which `libd` depends on the forbidden `libc`. -/
theorem tidy_reports_exactly_the_forbidden_edges_witness :
    ∃ cluster_part forbidden_part,
      tidy test_config (Target_model.ctor (test_entries [⟨"libe"⟩, ⟨"libc"⟩] [])) =
        some (cluster_part ++ forbidden_part) ∧
      (∀ d ∈ cluster_part, d.type ≠ .forbidden_dependency) ∧
      (∀ d ∈ forbidden_part, d.type = .forbidden_dependency ∧ ∃ t f, d.targets = [t, f]) ∧
      forbidden_part.Pairwise (fun d e => lex_lt Target.lt d.targets e.targets = true) ∧
      ∀ t f, ({ type := .forbidden_dependency, targets := [t, f] } : Dag_diagnostic) ∈
          forbidden_part ↔
        ∃ fs td, (t, fs) ∈ test_config.forbidden_dependencies ∧ f ∈ fs ∧
          (Target_model.ctor (test_entries [⟨"libe"⟩, ⟨"libc"⟩] [])).get_target_data t =
            some td ∧ f ∈ td.dependencies :=
  tidy_reports_exactly_the_forbidden_edges test_config _ (by unfold KeysSorted; decide)
    (by decide)

end tidy

namespace util
open stdlib

theorem append_not_empty (a b : String) (h : a.toList.isEmpty = false) :
    (a ++ b).toList.isEmpty = false := by
  cases a with
  | mk da =>
    cases b with
    | mk db =>
      cases da with
      | nil => simp at h
      | cons c cs => rfl

theorem argument_not_empty (arg : String) : ("argument " ++ arg).toList.isEmpty = false :=
  append_not_empty _ _ rfl

theorem collect_values_extend (arg : String) (pmem : Nat) (tok : String) (more : List String)
    (hdash : starts_with_dash tok = true) :
    ∀ (s : List String) (o : Options) (err : String), (s ≠ [] ∨ o.lists pmem ≠ []) →
      collect_values arg pmem (s ++ tok :: more) o err =
        (collect_values arg pmem s o err).extend (tok :: more)
  | [], o, err, h => by
    have hne : o.lists pmem ≠ [] := by
      rcases h with h | h
      · exact absurd rfl h
      · exact h
    have : (o.lists pmem).isEmpty = false := by
      cases hl : o.lists pmem with
      | nil => exact absurd hl hne
      | cons _ _ => rfl
    simp [collect_values, hdash, this, Try_result.extend]
  | param :: s, o, err, _ => by
    by_cases hp : starts_with_dash param = true
    · simp [collect_values, hp, Try_result.extend]
    · simp only [List.cons_append, collect_values, hp, Bool.false_eq_true, if_false]
      apply collect_values_extend arg pmem tok more hdash s
      right
      simp [Options.push_back]

theorem collect_values_suffix (arg : String) (pmem : Nat) :
    ∀ (s : List String) (o : Options) (err : String),
      (collect_values arg pmem s o err).next <:+ s
  | [], o, err => by simp [collect_values]
  | param :: s, o, err => by
    by_cases hp : starts_with_dash param = true
    · simp [collect_values, hp]
    · simp only [collect_values, hp, Bool.false_eq_true, if_false]
      exact (collect_values_suffix arg pmem s _ err).trans (List.suffix_cons _ _)

/-- The iterator that `try_parse_` returns lies between `begin` and `end`. -/
theorem try_parse_suffix (o : Options) (p : Arg_pair) (b : List String) (err : String) :
    (try_parse_ o p b err).next <:+ b := by
  cases b with
  | nil => simp [try_parse_]
  | cons arg rest =>
    unfold try_parse_
    simp only
    split
    · exact List.suffix_refl _
    · split
      · cases p.kind <;> simp only [with_value]
        · split
          · exact List.suffix_refl _
          · exact List.suffix_cons _ _
        · split
          · exact List.nil_suffix
          · split
            · split
              · exact List.suffix_cons _ _
              · exact (List.tail_suffix _).trans (List.suffix_cons _ _)
            · split
              · exact List.suffix_refl _
              · exact List.suffix_cons _ _
        · split
          · exact List.nil_suffix
          · split
            · split
              · exact List.suffix_cons _ _
              · exact (collect_values_suffix _ _ _ _ _).trans (List.suffix_cons _ _)
            · split
              · exact List.suffix_refl _
              · exact collect_values_suffix _ _ _ _ _
        · split
          · exact List.nil_suffix
          · split
            · split
              · exact List.suffix_cons _ _
              · split
                · exact List.suffix_cons _ _
                · exact (List.tail_suffix _).trans (List.suffix_cons _ _)
            · split
              · exact List.suffix_refl _
              · split
                · exact List.suffix_refl _
                · exact List.suffix_cons _ _
        · split
          · exact List.nil_suffix
          · split
            · exact List.nil_suffix
            · exact List.nil_suffix
      · exact List.suffix_refl _

theorem try_pairs_suffix : ∀ (pairs : List Arg_pair) (o : Options) (b : List String)
    (err : String), (try_pairs pairs o b err).1.next <:+ b
  | [], o, b, err => List.suffix_refl _
  | p :: pairs, o, b, err => by
    unfold try_pairs
    simp only
    split
    · exact try_pairs_suffix pairs _ b _
    · exact try_parse_suffix o p b err

/-- When `try_pairs` reports progress the returned iterator is past `begin`. -/
theorem try_pairs_progress : ∀ (pairs : List Arg_pair) (o : Options) (b : List String)
    (err : String), (try_pairs pairs o b err).2 = false →
      (try_pairs pairs o b err).1.next.length < b.length
  | [], o, b, err, h => by simp [try_pairs] at h
  | p :: pairs, o, b, err, h => by
    unfold try_pairs at h ⊢
    simp only at h ⊢
    split
    · rename_i heq
      rw [if_pos heq] at h
      exact try_pairs_progress pairs _ b _ h
    · rename_i hne
      have := (try_parse_suffix o p b err).length_le
      show (try_parse_ o p b err).next.length < b.length
      omega

/-- A call of `try_parse_` does the same when the argument list goes on with a token
that begins with a dash, unless the call fails for want of a value at the end of the
list; a terminal flag is excepted. -/
theorem try_parse_extend (o : Options) (p : Arg_pair) (arg : String) (s : List String)
    (tok : String) (more : List String) (err : String)
    (hdash : starts_with_dash tok = true)
    (hterm : p.kind = .terminal → arg_head p.name arg ≠ p.name) :
    try_parse_ o p (arg :: (s ++ tok :: more)) err =
        (try_parse_ o p (arg :: s) err).extend (tok :: more) ∨
    ((try_parse_ o p (arg :: s) err).error_string.toList.isEmpty = false ∧
      (try_parse_ o p (arg :: s) err).next.length ≠ (arg :: s).length) := by
  unfold try_parse_
  simp only
  by_cases hempty : arg.toList.isEmpty = true
  · left
    simp only [hempty, if_true, Try_result.extend, List.cons_append]
  · simp only [hempty, Bool.false_eq_true, if_false]
    by_cases hmatch : arg_head p.name arg = p.name
    · simp only [hmatch, if_true]
      cases hk : p.kind with
      | flag =>
        left
        simp only
        split <;> simp [Try_result.extend]
      | terminal => exact absurd hmatch (hterm hk)
      | string =>
        simp only [with_value]
        by_cases htail : (arg_tail p.name arg).toList.isEmpty = true
        · cases s with
          | nil =>
            right
            simp only [htail, List.isEmpty_nil, Bool.and_self, if_true]
            exact ⟨append_not_empty _ _ (argument_not_empty arg), by simp⟩
          | cons x s' =>
            left
            simp only [htail, List.cons_append, List.isEmpty_cons, Bool.and_false,
              Bool.false_eq_true, if_false, if_true, List.headD_cons]
            split <;> simp [Try_result.extend]
        · left
          simp only [htail, Bool.false_and, Bool.false_eq_true, if_false]
          split <;> simp [Try_result.extend]
      | integer =>
        simp only [with_value]
        by_cases htail : (arg_tail p.name arg).toList.isEmpty = true
        · cases s with
          | nil =>
            right
            simp only [htail, List.isEmpty_nil, Bool.and_self, if_true]
            exact ⟨append_not_empty _ _ (argument_not_empty arg), by simp⟩
          | cons x s' =>
            left
            simp only [htail, List.cons_append, List.isEmpty_cons, Bool.and_false,
              Bool.false_eq_true, if_false, if_true, List.headD_cons, stream_bad]
            split <;> simp [Try_result.extend]
        · left
          simp only [htail, Bool.false_and, Bool.false_eq_true, if_false, stream_bad]
          split <;> simp [Try_result.extend]
      | list =>
        simp only [with_value]
        by_cases htail : (arg_tail p.name arg).toList.isEmpty = true
        · cases s with
          | nil =>
            right
            simp only [htail, List.isEmpty_nil, Bool.and_self, if_true]
            exact ⟨append_not_empty _ _ (argument_not_empty arg), by simp⟩
          | cons x s' =>
            left
            simp only [htail, List.cons_append, List.isEmpty_cons, Bool.and_false,
              Bool.false_eq_true, if_false, if_true, Bool.not_true]
            exact collect_values_extend arg p.pmem tok more hdash (x :: s') o err
              (Or.inl (by simp))
        · left
          have hd : ¬ (arg_tail p.name arg).data = [] := by simpa using htail
          simp [hd, Try_result.extend]
    · left
      simp [hmatch, Try_result.extend]

/-- The fold over the pairs does the same when the argument list goes on with a token
that begins with a dash, unless it fails with an error. -/
theorem try_pairs_extend (arg : String) (s : List String) (tok : String)
    (more : List String) (hdash : starts_with_dash tok = true) :
    ∀ (pairs : List Arg_pair) (o : Options) (err : String),
      (∀ p ∈ pairs, p.kind = .terminal → arg_head p.name arg ≠ p.name) →
      (try_pairs pairs o (arg :: (s ++ tok :: more)) err =
          ((try_pairs pairs o (arg :: s) err).1.extend (tok :: more),
            (try_pairs pairs o (arg :: s) err).2)) ∨
      ((try_pairs pairs o (arg :: s) err).2 = false ∧
        (try_pairs pairs o (arg :: s) err).1.error_string.toList.isEmpty = false)
  | [], o, err, _ => by
    left
    simp [try_pairs, Try_result.extend]
  | p :: pairs, o, err, hterm => by
    have hp := try_parse_extend o p arg s tok more err hdash (hterm p (by simp))
    have ih := fun o' err' => try_pairs_extend arg s tok more hdash pairs o' err'
      (fun q hq => hterm q (by simp [hq]))
    unfold try_pairs
    simp only
    rcases hp with hp | ⟨hp1, hp2⟩
    · rw [hp]
      by_cases hprog : (try_parse_ o p (arg :: s) err).next.length = (arg :: s).length
      · have : ((try_parse_ o p (arg :: s) err).extend (tok :: more)).next.length =
            (arg :: (s ++ tok :: more)).length := by
          simp only [Try_result.extend, List.length_append, List.length_cons] at hprog ⊢
          omega
        rw [if_pos this, if_pos hprog]
        exact ih _ _
      · have : ((try_parse_ o p (arg :: s) err).extend (tok :: more)).next.length ≠
            (arg :: (s ++ tok :: more)).length := by
          simp only [Try_result.extend, List.length_append, List.length_cons] at hprog ⊢
          omega
        rw [if_neg this, if_neg hprog]
        left
        rfl
    · right
      rw [if_neg hp2]
      exact ⟨rfl, hp1⟩

theorem parse_impl_nil (pairs : List Arg_pair) (fuel : Nat) (o : Options) :
    parse_impl_ pairs fuel o [] = some (o, "") := by
  cases fuel <;> rfl

/-- Fuel beyond the number of arguments does not change the result of `parse_impl_`. -/
theorem parse_impl_fuel (pairs : List Arg_pair) :
    ∀ (f1 f2 : Nat) (o : Options) (args : List String),
      args.length ≤ f1 → args.length ≤ f2 →
      parse_impl_ pairs f1 o args = parse_impl_ pairs f2 o args
  | f1, f2, o, [], _, _ => by rw [parse_impl_nil, parse_impl_nil]
  | 0, _, _, _ :: _, h, _ => by simp at h
  | _ + 1, 0, _, _ :: _, _, h => by simp at h
  | f1 + 1, f2 + 1, o, arg :: rest, h1, h2 => by
    simp only [parse_impl_]
    by_cases hprog : (try_pairs pairs o (arg :: rest) "").2 = true
    · rw [if_pos hprog, if_pos hprog]
    · rw [if_neg hprog, if_neg hprog]
      split
      · rfl
      · have hlt := try_pairs_progress pairs o (arg :: rest) "" (by simpa using hprog)
        simp only [List.length_cons] at h1 h2 hlt
        exact parse_impl_fuel pairs f1 f2 _ _ (by omega) (by omega)

/-- The loop of `parse_impl_` returns when it is given as many iterations as there are
arguments. -/
theorem parse_impl_returns (pairs : List Arg_pair) :
    ∀ (fuel : Nat) (o : Options) (args : List String), args.length ≤ fuel →
      ∃ r, parse_impl_ pairs fuel o args = some r
  | fuel, o, [], _ => ⟨_, parse_impl_nil pairs fuel o⟩
  | 0, _, _ :: _, h => by simp at h
  | fuel + 1, o, arg :: rest, h => by
    simp only [parse_impl_]
    by_cases hprog : (try_pairs pairs o (arg :: rest) "").2 = true
    · rw [if_pos hprog]
      exact ⟨_, rfl⟩
    · rw [if_neg hprog]
      split
      · exact ⟨_, rfl⟩
      · have hlt := try_pairs_progress pairs o (arg :: rest) "" (by simpa using hprog)
        simp only [List.length_cons] at h hlt
        exact parse_impl_returns pairs fuel _ _ (by omega)

/-- Arguments that parse without error are parsed in the same way when the argument list
goes on with a token that begins with a dash, as long as none of them is matched by a
terminal flag: the loop then continues at that token with the options reached. -/
theorem parse_impl_extend (pairs : List Arg_pair) (tok : String) (more : List String)
    (hdash : starts_with_dash tok = true) (o1 : Options) (e : String)
    (he : e.toList.isEmpty = true) :
    ∀ (n : Nat) (o : Options) (pre : List String), pre.length ≤ n →
      (∀ t ∈ pre, ∀ p ∈ pairs, p.kind = .terminal → arg_head p.name t ≠ p.name) →
      parse_impl_ pairs n o pre = some (o1, e) →
      ∀ m, (pre ++ tok :: more).length ≤ m →
        parse_impl_ pairs m o (pre ++ tok :: more) =
          parse_impl_ pairs (tok :: more).length o1 (tok :: more)
  | n, o, [], _, _, h, m, hm => by
    rw [parse_impl_nil] at h
    have : o = o1 := by
      have := Option.some.inj h
      exact congrArg Prod.fst this
    subst this
    exact parse_impl_fuel pairs _ _ _ _ hm (Nat.le_refl _)
  | 0, _, _ :: _, h, _, _, _, _ => by simp at h
  | _ + 1, _, _ :: _, _, _, _, 0, hm => by simp at hm
  | n + 1, o, arg :: s, hn, hterm, h, m + 1, hm => by
    simp only [parse_impl_] at h
    by_cases hprog : (try_pairs pairs o (arg :: s) "").2 = true
    · rw [if_pos hprog] at h
      have h2 := congrArg Prod.snd (Option.some.inj h)
      simp only at h2
      rw [← h2] at he
      rw [append_not_empty "unrecognized option: " arg rfl] at he
      exact absurd he (by decide)
    · rw [if_neg hprog] at h
      by_cases herr : (!(try_pairs pairs o (arg :: s) "").1.error_string.toList.isEmpty) = true
      · rw [if_pos herr] at h
        have h2 := congrArg Prod.snd (Option.some.inj h)
        simp only at h2
        rw [h2, he] at herr
        exact absurd herr (by decide)
      · rw [if_neg herr] at h
        have hp2 : (try_pairs pairs o (arg :: s) "").2 = false := by simpa using hprog
        have hlt := try_pairs_progress pairs o (arg :: s) "" hp2
        have hsuf := try_pairs_suffix pairs o (arg :: s) ""
        rcases try_pairs_extend arg s tok more hdash pairs o ""
            (fun p hp => hterm arg (by simp) p hp) with hx | ⟨_, hx⟩
        · have hstep : parse_impl_ pairs (m + 1) o (arg :: (s ++ tok :: more)) =
              parse_impl_ pairs m (try_pairs pairs o (arg :: s) "").1.options
                ((try_pairs pairs o (arg :: s) "").1.next ++ tok :: more) := by
            simp only [parse_impl_]
            rw [hx]
            simp only
            rw [if_neg hprog]
            have : (!((try_pairs pairs o (arg :: s) "").1.extend
                (tok :: more)).error_string.toList.isEmpty) =
                (!(try_pairs pairs o (arg :: s) "").1.error_string.toList.isEmpty) := rfl
            rw [this, if_neg herr]
            rfl
          show parse_impl_ pairs (m + 1) o (arg :: (s ++ tok :: more)) = _
          rw [hstep]
          simp only [List.length_cons, List.length_append] at hn hm hlt
          exact parse_impl_extend pairs tok more hdash o1 e he n _ _ (by omega)
            (fun t ht => hterm t (hsuf.subset ht)) h m
            (by simp only [List.length_append, List.length_cons]; omega)
        · rw [hx] at herr
          exact absurd rfl herr

theorem arg_head_self (name : String) : arg_head name name = name := by
  unfold arg_head
  split
  · rw [Nat.min_self, List.take_length]
    cases name
    rfl
  · rfl

theorem arg_tail_self (name : String) : (arg_tail name name).toList.isEmpty = true := by
  unfold arg_tail
  rw [arg_head_self]
  simp

theorem not_empty_of_dash (tok : String) (h : starts_with_dash tok = true) :
    tok.toList.isEmpty = false := by
  unfold starts_with_dash at h
  cases ht : tok.toList with
  | nil =>
    rw [ht] at h
    simp at h
  | cons c cs => rfl

/-- The pairs that do not match the argument leave everything as it is. -/
theorem try_pairs_skip (arg : String) (rest : List String)
    (harg : arg.toList.isEmpty = false) :
    ∀ (before tail : List Arg_pair) (o : Options) (err : String),
      (∀ q ∈ before, arg_head q.name arg ≠ q.name) →
      try_pairs (before ++ tail) o (arg :: rest) err = try_pairs tail o (arg :: rest) err
  | [], _, _, _, _ => rfl
  | q :: before, tail, o, err, h => by
    have hq := h q (by simp)
    have hstep : try_parse_ o q (arg :: rest) err = ⟨o, arg :: rest, err⟩ := by
      simp only [try_parse_, harg, Bool.false_eq_true, if_false, hq]
    show try_pairs (q :: (before ++ tail)) o (arg :: rest) err = _
    rw [try_pairs]
    simp only [hstep, if_true]
    exact try_pairs_skip arg rest harg before tail o err (fun q hq => h q (by simp [hq]))

/-- A successful `parse` is a run of `parse_impl_` that returns an empty error string. -/
theorem parse_impl_of_parse_ok (pairs : List Arg_pair) (dflt o : Options)
    (args : List String) (h : parse pairs dflt args = some (.ok o)) :
    ∃ e, parse_impl_ pairs args.length dflt args = some (o, e) ∧ e.toList.isEmpty = true := by
  unfold parse at h
  cases hr : parse_impl_ pairs args.length dflt args with
  | none => simp [hr] at h
  | some r =>
    rw [hr] at h
    simp only [Option.map_some'] at h
    have h := Option.some.inj h
    by_cases he : r.2.toList.isEmpty = true
    · simp only [he, Bool.not_true, Bool.false_eq_true, if_false] at h
      have h := Except.ok.inj h
      exact ⟨r.2, by rw [← h], he⟩
    · have he2 : r.2.toList.isEmpty = false := by simpa using he
      rw [he2] at h
      simp at h

/-- The result of `parse` on arguments that go on behind a part that parses without
error and is not matched by a terminal flag: the loop continues at the first further
token, which begins with a dash, with the options that the part gives. -/
theorem parse_extend (pairs : List Arg_pair) (dflt o_pre : Options) (pre : List String)
    (tok : String) (more : List String) (hdash : starts_with_dash tok = true)
    (hterm : ∀ t ∈ pre, ∀ q ∈ pairs, q.kind = .terminal → arg_head q.name t ≠ q.name)
    (hpre : parse pairs dflt pre = some (.ok o_pre)) :
    parse_impl_ pairs (pre ++ tok :: more).length dflt (pre ++ tok :: more) =
      parse_impl_ pairs (more.length + 1) o_pre (tok :: more) := by
  obtain ⟨e, h, he⟩ := parse_impl_of_parse_ok pairs dflt o_pre pre hpre
  exact parse_impl_extend pairs tok more hdash o_pre e he pre.length dflt pre
    (Nat.le_refl _) hterm h _ (Nat.le_refl _)

theorem missing_value_message_not_empty (p : Arg_pair) (next : String) :
    (missing_value_message p next).toList.isEmpty = false := by
  unfold missing_value_message
  split
  · exact append_not_empty _ _ (argument_not_empty _)
  · exact append_not_empty _ _ (append_not_empty _ _ (append_not_empty _ _
      (argument_not_empty _)))

/-- The call of `try_parse_` for a value-taking flag at its own token, when the next
token begins with a dash. -/
theorem try_parse_missing_value (o : Options) (p : Arg_pair) (next : String)
    (more : List String)
    (hkind : p.kind = .string ∨ p.kind = .integer ∨ (p.kind = .list ∧ o.lists p.pmem = []))
    (hname : starts_with_dash p.name = true) (hnext : starts_with_dash next = true) :
    try_parse_ o p (p.name :: next :: more) "" =
      ⟨o, next :: more, missing_value_message p next⟩ := by
  have h1 := not_empty_of_dash p.name hname
  have h2 := arg_tail_self p.name
  unfold try_parse_ missing_value_message
  simp only [h1, Bool.false_eq_true, if_false, arg_head_self, if_true]
  rcases hkind with hk | hk | ⟨hk, hl⟩
  · simp only [hk, with_value, h2, List.isEmpty_cons, Bool.and_false, Bool.false_eq_true,
      if_false, if_true, List.headD_cons, hnext]
    rw [if_neg (by decide)]
  · simp only [hk, with_value, h2, List.isEmpty_cons, Bool.and_false, Bool.false_eq_true,
      if_false, if_true, List.headD_cons, hnext]
    rw [if_neg (by decide)]
  · simp only [hk, with_value, h2, List.isEmpty_cons, Bool.and_false, Bool.false_eq_true,
      if_false, if_true, Bool.not_true, collect_values, hnext, hl, List.isEmpty_nil]

/-- The call of `try_parse_` for a terminal flag at its own token. -/
theorem try_parse_terminal (o : Options) (p : Arg_pair) (rest : List String) (err : String)
    (hkind : p.kind = .terminal) (hname : starts_with_dash p.name = true)
    (hrest : rest ≠ []) :
    try_parse_ o p (p.name :: rest) err = ⟨o.push_back p.pmem rest, [], err⟩ := by
  have h1 := not_empty_of_dash p.name hname
  have h2 := arg_tail_self p.name
  have h3 : rest.isEmpty = false := by
    cases rest with
    | nil => exact absurd rfl hrest
    | cons _ _ => rfl
  unfold try_parse_
  simp only [h1, Bool.false_eq_true, if_false, arg_head_self, if_true, hkind, with_value,
    h2, h3, Bool.and_false]

/-- One iteration of the loop of `parse_impl_` in which a pair makes progress. -/
theorem parse_impl_step (pairs : List Arg_pair) (fuel : Nat) (o : Options) (arg : String)
    (rest : List String) (r : Try_result)
    (h : try_pairs pairs o (arg :: rest) "" = (r, false)) :
    parse_impl_ pairs (fuel + 1) o (arg :: rest) =
      if !r.error_string.toList.isEmpty then some (r.options, r.error_string)
      else parse_impl_ pairs fuel r.options r.next := by
  rw [parse_impl_]
  simp only [h, Bool.false_eq_true, if_false]

/-- C29 (amended). A value-taking flag rejects a following token that begins with a dash
when the loop of `parse_impl_` reaches the flag with nothing to hinder it: take a parser
`pairs` in which `p` is a string-valued or an integer-valued flag, or a list-valued flag
whose list is still empty, `p.name` begins with a dash and no pair declared before `p`
matches the token `p.name`; take arguments `pre ++ p.name :: next :: more` where `pre`
parses successfully on its own to `o_pre`, no token of `pre` is matched by a terminal
flag, and `next` begins with a dash. Then `parse` returns the error "argument F expects
a value, got N." (for a list-valued flag "argument F expects one or more values."). -/
theorem value_flag_rejects_a_following_dash_token
    (pairs before after : List Arg_pair) (p : Arg_pair) (dflt o_pre : Options)
    (pre : List String) (next : String) (more : List String)
    (hpairs : pairs = before ++ p :: after)
    (hkind : p.kind = .string ∨ p.kind = .integer ∨
      (p.kind = .list ∧ o_pre.lists p.pmem = []))
    (hname : starts_with_dash p.name = true)
    (hnext : starts_with_dash next = true)
    (hbefore : ∀ q ∈ before, arg_head q.name p.name ≠ q.name)
    (hterm : ∀ t ∈ pre, ∀ q ∈ pairs, q.kind = .terminal → arg_head q.name t ≠ q.name)
    (hpre : parse pairs dflt pre = some (.ok o_pre)) :
    parse pairs dflt (pre ++ p.name :: next :: more) =
      some (.error (if p.kind = .list then
          "argument " ++ p.name ++ " expects one or more values."
        else "argument " ++ p.name ++ " expects a value, got " ++ next ++ ".")) := by
  have hmsg := missing_value_message_not_empty p next
  have hpairs_step : try_pairs pairs o_pre (p.name :: next :: more) "" =
      (⟨o_pre, next :: more, missing_value_message p next⟩, false) := by
    rw [hpairs, try_pairs_skip _ _ (not_empty_of_dash _ hname) before _ _ _ hbefore,
      try_pairs, try_parse_missing_value o_pre p next more hkind hname hnext]
    simp
  unfold parse
  rw [parse_extend pairs dflt o_pre pre p.name (next :: more) hname hterm hpre,
    parse_impl_step pairs _ o_pre p.name (next :: more) _ hpairs_step]
  simp only [hmsg, Bool.not_false, if_true, Option.map_some']
  rfl

/-- C30 (amended). A terminal flag captures the rest of the command line when the loop
of `parse_impl_` reaches the flag with nothing to hinder it: take a parser `pairs` with
a terminal flag `T` whose name begins with a dash and whose token no pair declared
before `T` matches; take arguments `pre ++ T.name :: rest` where `rest` is not empty,
`pre` parses successfully on its own to `o_pre` and no token of `pre` is matched by a
terminal flag (as a whole or as a short flag with a value attached). Then `parse`
succeeds, the list member of `T` is what `pre` left in it followed by `rest` token for
token, and every other member has the value that parsing `pre` alone gives it. -/
theorem terminal_flag_captures_the_rest
    (pairs before after : List Arg_pair) (T : Arg_pair) (dflt o_pre : Options)
    (pre rest : List String)
    (hpairs : pairs = before ++ T :: after)
    (hkind : T.kind = .terminal)
    (hname : starts_with_dash T.name = true)
    (hrest : rest ≠ [])
    (hbefore : ∀ q ∈ before, arg_head q.name T.name ≠ q.name)
    (hterm : ∀ t ∈ pre, ∀ q ∈ pairs, q.kind = .terminal → arg_head q.name t ≠ q.name)
    (hpre : parse pairs dflt pre = some (.ok o_pre)) :
    ∃ o, parse pairs dflt (pre ++ T.name :: rest) = some (.ok o) ∧
      o.lists T.pmem = o_pre.lists T.pmem ++ rest ∧
      (∀ k, k ≠ T.pmem → o.lists k = o_pre.lists k) ∧
      o.flags = o_pre.flags ∧ o.strings = o_pre.strings ∧ o.integers = o_pre.integers := by
  have hpairs_step : try_pairs pairs o_pre (T.name :: rest) "" =
      (⟨o_pre.push_back T.pmem rest, [], ""⟩, false) := by
    rw [hpairs, try_pairs_skip _ _ (not_empty_of_dash _ hname) before _ _ _ hbefore,
      try_pairs, try_parse_terminal o_pre T rest "" hkind hname hrest]
    simp
  refine ⟨o_pre.push_back T.pmem rest, ?_, ?_, ?_, rfl, rfl, rfl⟩
  · unfold parse
    rw [parse_extend pairs dflt o_pre pre T.name rest hname hterm hpre,
      parse_impl_step pairs _ o_pre T.name rest _ hpairs_step]
    simp only [parse_impl_nil]
    rfl
  · simp [Options.push_back]
  · intro k hk
    simp [Options.push_back, hk]

/-- C29 (witness). The test parser on `-a -c -a`: the string flag `-c` is followed by
`-a`. -/
theorem value_flag_rejects_a_following_dash_token_witness :
    parse terminal_test_pairs Options.initial ["-a", "-c", "-a"] =
      some (.error "argument -c expects a value, got -a.") :=
  value_flag_rejects_a_following_dash_token terminal_test_pairs
    [⟨"-a", .flag, 0⟩, ⟨"--aaa", .flag, 0⟩, ⟨"-b", .flag, 1⟩, ⟨"--bbb", .flag, 1⟩]
    [⟨"--ccc", .string, 0⟩, ⟨"-d", .terminal, 0⟩] ⟨"-c", .string, 0⟩
    Options.initial (Options.initial.set_flag 0 true) ["-a"] "-a" []
    rfl (Or.inl rfl) (by decide) (by decide) (by decide) (by decide) rfl

/-- C29 (counterexample). With the parser of `parse_arguments.cpp` the arguments
`-t a -t -h` parse successfully although the second `-t`, a list-valued flag, is
followed by `-h`: its list already holds `a`, so the loop over the values stops at `-h`
without an error. With the test parser `-d -c -a` parses successfully although the
string flag's token `-c` is followed by `-a`: both are captured by the terminal flag. -/
theorem value_flag_followed_by_dash_token_is_accepted :
    parsed_list (parse lwyi_pairs Options.initial ["-t", "a", "-t", "-h"]) 0 =
      some (.ok ["a"]) ∧
    parsed_list (parse terminal_test_pairs Options.initial ["-d", "-c", "-a"]) 0 =
      some (.ok ["-c", "-a"]) := by
  decide

/-- C30 (witness). The test "terminal arg after some args". -/
theorem terminal_flag_captures_the_rest_witness :
    ∃ o, parse terminal_test_pairs Options.initial
        ["-a", "-d", "one", "two", "-b", "three"] = some (.ok o) ∧
      o.lists 0 = (Options.initial.set_flag 0 true).lists 0 ++ ["one", "two", "-b", "three"] ∧
      (∀ k, k ≠ 0 → o.lists k = (Options.initial.set_flag 0 true).lists k) ∧
      o.flags = (Options.initial.set_flag 0 true).flags ∧
      o.strings = (Options.initial.set_flag 0 true).strings ∧
      o.integers = (Options.initial.set_flag 0 true).integers :=
  terminal_flag_captures_the_rest terminal_test_pairs
    [⟨"-a", .flag, 0⟩, ⟨"--aaa", .flag, 0⟩, ⟨"-b", .flag, 1⟩, ⟨"--bbb", .flag, 1⟩,
      ⟨"-c", .string, 0⟩, ⟨"--ccc", .string, 0⟩] [] ⟨"-d", .terminal, 0⟩
    Options.initial (Options.initial.set_flag 0 true) ["-a"] ["one", "two", "-b", "three"]
    rfl rfl (by decide) (by decide) (by decide) (by decide) rfl

/-- C30 (counterexample). With the test parser `-dx` parses successfully on its own
and is not the token `-d`, yet behind it `-d one` is not parsed as the terminal flag:
`-dx` matches the terminal flag as a short flag with an attached value and captures
everything from itself on. With the flags `-t` (a `bool`) and `-tool` (terminal) the
arguments `-tool x` give an error, although the empty list before `-tool` parses
successfully: the earlier pair `-t` matches the head of `-tool` and leaves its error. -/
theorem terminal_flag_does_not_always_capture_the_rest :
    parsed_list (parse terminal_test_pairs Options.initial ["-dx"]) 0 =
      some (.ok ["-dx"]) ∧
    parsed_list (parse terminal_test_pairs Options.initial ["-dx", "-d", "one"]) 0 =
      some (.ok ["-dx", "-d", "one"]) ∧
    parsed_list (parse [⟨"-t", .flag, 0⟩, ⟨"-tool", .terminal, 0⟩] Options.initial []) 0 =
      some (.ok []) ∧
    parsed_list (parse [⟨"-t", .flag, 0⟩, ⟨"-tool", .terminal, 0⟩] Options.initial
        ["-tool", "x"]) 0 = some (.error "argument -tool does not expect a value") := by
  decide

end util

namespace lwyi
open stdlib target_model scanner

theorem filterMap_targets_sublist (g : Target × Visibility → Option LWYI_error)
    (hg : ∀ e r, g e = some r → r.target = e.1) :
    ∀ (l : List (Target × Visibility)),
      ((l.filterMap g).map (·.target)).Sublist (l.map Prod.fst)
  | [] => by simp
  | e :: l => by
    have ih := filterMap_targets_sublist g hg l
    cases hge : g e with
    | none =>
      simp only [List.filterMap_cons, hge, List.map_cons]
      exact ih.cons _
    | some r =>
      simp only [List.filterMap_cons, hge, List.map_cons, hg e r hge]
      exact ih.cons₂ _

/-- The entry of `collect_include_deps` for a target lists the includes that resolve to
it, in input order. -/
theorem collect_include_deps_find (m : Target_model) (d : Target) (includes : List Include) :
    (map_find Target.lt d (collect_include_deps m includes)).getD [] =
      includes.filter (fun i => m.map_header_to_target i.path = some d) := by
  unfold collect_include_deps
  suffices hgen : ∀ (l : List Include) (deps : List (Target × List Include)),
      KeysSorted Target.lt deps →
      (map_find Target.lt d (l.foldl (fun deps inc =>
        match m.map_header_to_target inc.path with
        | some dep => map_update Target.lt [] (fun l => l ++ [inc]) dep deps
        | none => deps) deps)).getD [] =
      (map_find Target.lt d deps).getD [] ++
        l.filter (fun i => m.map_header_to_target i.path = some d) by
    have := hgen includes [] (by simp [KeysSorted])
    simpa [map_find] using this
  intro l
  induction l with
  | nil => intro deps _; simp
  | cons inc l ih =>
    intro deps hs
    simp only [List.foldl_cons]
    cases hm : m.map_header_to_target inc.path with
    | none =>
      rw [ih deps hs]
      simp [List.filter_cons, hm]
    | some dep =>
      rw [ih _ (map_update_sorted target_lt_strict [] (fun l => l ++ [inc]) dep deps hs),
        map_find_update target_lt_strict _ _ _ _ _ hs]
      by_cases hd : d = dep
      · subst hd
        simp [List.filter_cons, hm]
      · have hd' : dep ≠ d := fun h => hd h.symm
        simp [List.filter_cons, hm, hd, hd']

/-- C31. `check_target` returns its errors sorted by dependency: the targets of the
returned errors are in strictly ascending name order, so no two errors name the same
dependency. -/
theorem check_target_returns_errors_sorted_by_dependency (m : Target_model)
    (target : Target) (td : Target_data) (ti : Intransitive_includes) :
    ((check_target m target td ti).map (·.target)).Pairwise
        (fun a b => string_lt a.name b.name = true) ∧
    ((check_target m target td ti).map (·.target)).Nodup := by
  obtain ⟨hs, -⟩ := visibility_map_spec m td
    (collect_include_deps m ti.interface_includes) (collect_include_deps m ti.includes)
  have hsub : ((check_target m target td ti).map (·.target)).Sublist
      ((visibility_map m td (collect_include_deps m ti.interface_includes)
        (collect_include_deps m ti.includes)).map Prod.fst) := by
    unfold check_target
    apply filterMap_targets_sublist
    intro e r hr
    by_cases hv : e.2.linked_visibility = e.2.included_visibility
    · simp [hv] at hr
    · simp only [hv, if_false, Option.some.injEq] at hr
      rw [← hr]
  have hp : ((check_target m target td ti).map (·.target)).Pairwise
      (fun a b => Target.lt a b = true) := List.Pairwise.sublist hsub hs
  refine ⟨hp, hp.imp ?_⟩
  intro a b hab heq
  rw [heq, target_lt_strict.irrefl] at hab
  exact absurd hab (by decide)

/-- C32. The sample includes of an error come from the buckets named by its included
visibility: for every error `e` that `check_target` returns, `e.sample_includes` is the
list of interface includes that resolve to `e.target`, in input order and taken when
`e.included_visibility` contains interface, followed by the includes that resolve to
`e.target`, in input order and taken when it contains private. A part that is left out
is empty, so the samples are all the includes of both kinds that resolve to `e.target`;
they are empty when `e.included_visibility` is none, and every sample resolves to
`e.target`. -/
theorem sample_includes_come_from_the_included_buckets (m : Target_model)
    (target : Target) (td : Target_data) (ti : Intransitive_includes) (e : LWYI_error)
    (he : e ∈ check_target m target td ti) :
    e.sample_includes =
      (if (e.included_visibility.and Dependency_visibility.interface_scope).not = false then
        ti.interface_includes.filter fun i => m.map_header_to_target i.path = some e.target
      else []) ++
      (if (e.included_visibility.and Dependency_visibility.private_scope).not = false then
        ti.includes.filter fun i => m.map_header_to_target i.path = some e.target
      else []) ∧
    e.sample_includes =
      (ti.interface_includes.filter fun i => m.map_header_to_target i.path = some e.target) ++
      (ti.includes.filter fun i => m.map_header_to_target i.path = some e.target) ∧
    (e.included_visibility = Dependency_visibility.none → e.sample_includes = []) ∧
    ∀ s ∈ e.sample_includes, m.map_header_to_target s.path = some e.target := by
  obtain ⟨-, hik⟩ := collect_include_deps_spec m ti.interface_includes
  obtain ⟨-, hpk⟩ := collect_include_deps_spec m ti.includes
  obtain ⟨hs, hget⟩ := visibility_map_spec m td
    (collect_include_deps m ti.interface_includes) (collect_include_deps m ti.includes)
  unfold check_target at he
  simp only [List.mem_filterMap] at he
  obtain ⟨entry, hentry, hg⟩ := he
  have hfind := (map_find_eq_some_iff_mem target_lt_strict entry.1 entry.2 _ hs).2 hentry
  have hv := hget entry.1
  rw [hfind] at hv
  simp only [Option.getD_some] at hv
  by_cases hlv : entry.2.linked_visibility = entry.2.included_visibility
  · simp [hlv] at hg
  simp only [hlv, if_false, Option.some.injEq] at hg
  have hincl : entry.2.included_visibility =
      ((if entry.1 ∈ (collect_include_deps m ti.interface_includes).map Prod.fst
        then Dependency_visibility.none.or Dependency_visibility.interface_scope
        else Dependency_visibility.none).or
      (if entry.1 ∈ (collect_include_deps m ti.includes).map Prod.fst
        then Dependency_visibility.private_scope else Dependency_visibility.none)) := by
    rw [hv]
  have hifilter : entry.1 ∉ (collect_include_deps m ti.interface_includes).map Prod.fst →
      (ti.interface_includes.filter fun i => m.map_header_to_target i.path = some entry.1)
        = [] := by
    intro hn
    rw [hik] at hn
    rw [List.filter_eq_nil_iff]
    intro i hi hres
    exact hn ⟨i, hi, by simpa using hres⟩
  have hpfilter : entry.1 ∉ (collect_include_deps m ti.includes).map Prod.fst →
      (ti.includes.filter fun i => m.map_header_to_target i.path = some entry.1) = [] := by
    intro hn
    rw [hpk] at hn
    rw [List.filter_eq_nil_iff]
    intro i hi hres
    exact hn ⟨i, hi, by simpa using hres⟩
  have htarget : e.target = entry.1 := by rw [← hg]
  have hiv : e.included_visibility = entry.2.included_visibility := by rw [← hg]
  have hsample : e.sample_includes =
      (if (entry.2.included_visibility.and Dependency_visibility.interface_scope).not = false
        then ti.interface_includes.filter fun i =>
          m.map_header_to_target i.path = some entry.1
        else []) ++
      (if (entry.2.included_visibility.and Dependency_visibility.private_scope).not = false
        then ti.includes.filter fun i => m.map_header_to_target i.path = some entry.1
        else []) := by
    rw [← hg]
    simp only [collect_include_deps_find]
    cases h1 : (entry.2.included_visibility.and Dependency_visibility.interface_scope).not <;>
    cases h2 : (entry.2.included_visibility.and Dependency_visibility.private_scope).not <;>
    simp
  rw [htarget, hiv]
  have hall : e.sample_includes =
      (ti.interface_includes.filter fun i => m.map_header_to_target i.path = some entry.1) ++
      (ti.includes.filter fun i => m.map_header_to_target i.path = some entry.1) := by
    rw [hsample, hincl]
    by_cases c3 : entry.1 ∈ (collect_include_deps m ti.interface_includes).map Prod.fst <;>
    by_cases c4 : entry.1 ∈ (collect_include_deps m ti.includes).map Prod.fst
    · simp only [c3, c4, if_true]
      rw [if_pos (by decide), if_pos (by decide)]
    · simp only [c3, c4, if_true, if_false]
      rw [if_pos (by decide), if_neg (by decide), hpfilter c4]
    · simp only [c3, c4, if_true, if_false]
      rw [if_neg (by decide), if_pos (by decide), hifilter c3]
    · simp only [c3, c4, if_false]
      rw [if_neg (by decide), if_neg (by decide), hpfilter c4, hifilter c3]
  refine ⟨hsample, hall, ?_, ?_⟩
  · intro hnone
    rw [hsample, hnone]
    rw [if_neg (by decide), if_neg (by decide)]
    rfl
  · intro s hs
    rw [hall, List.mem_append, List.mem_filter, List.mem_filter] at hs
    rcases hs with ⟨-, h⟩ | ⟨-, h⟩ <;> simpa using h

/-- C32 (witness). A target that links `b` and includes the header `/a/include/x.h` of
`a`: the error for `a` carries that include as its sample. -/
theorem sample_includes_come_from_the_included_buckets_witness :
    (⟨⟨"a"⟩, Dependency_visibility.none, Dependency_visibility.private_scope,
        includes_a.includes⟩ : LWYI_error) ∈
      check_target (Target_model.ctor plain_directory_entries) ⟨"t"⟩ links_b includes_a ∧
    includes_a.includes =
      (includes_a.interface_includes.filter fun i =>
        (Target_model.ctor plain_directory_entries).map_header_to_target i.path =
          some ⟨"a"⟩) ++
      (includes_a.includes.filter fun i =>
        (Target_model.ctor plain_directory_entries).map_header_to_target i.path =
          some ⟨"a"⟩) :=
  ⟨by decide,
    (sample_includes_come_from_the_included_buckets
      (Target_model.ctor plain_directory_entries) ⟨"t"⟩ links_b includes_a
      ⟨⟨"a"⟩, Dependency_visibility.none, Dependency_visibility.private_scope,
        includes_a.includes⟩ (by decide)).2.1⟩

end lwyi

namespace tidy
open stdlib target_model

/-- An extra slot of `cluster_diff`, one behind the slots of `lhs`, holds a whole cluster
of `rhs` on the right and nothing on the left. -/
theorem cluster_diff_extra_slot (lhs rhs : List Cluster) (i : Nat) (hi : lhs.length ≤ i)
    (hlt : i < (cluster_diff lhs rhs).length) :
    ((cluster_diff lhs rhs).getD i {}).left_only = [] ∧
    (cluster_diff lhs rhs).getD i {} ∈ cluster_diff lhs rhs ∧
    ((cluster_diff lhs rhs).getD i {}).right_only ∈ rhs := by
  rw [cluster_diff_length] at hlt
  have hmax : max lhs.length rhs.length = rhs.length := by omega
  obtain ⟨hP, -⟩ := max_permutation_spec lhs rhs
  have hlenP : (max_permutation lhs rhs).length = rhs.length := by
    rw [hP.length_eq, List.length_range, hmax]
  have hiP : i < (max_permutation lhs rhs).length := by omega
  have hj : (max_permutation lhs rhs).getD i 0 < rhs.length := by
    rw [List.getD_eq_getElem _ _ hiP]
    have := hP.mem_iff.1 (List.getElem_mem hiP)
    rw [List.mem_range, hmax] at this
    exact this
  have hmem : (cluster_diff lhs rhs).getD i {} ∈ cluster_diff lhs rhs := by
    rw [List.getD_eq_getElem _ _ (by rw [cluster_diff_length]; exact hlt)]
    exact List.getElem_mem _
  rw [cluster_diff_getD lhs rhs i hlt] at hmem ⊢
  rw [List.getElem?_eq_none hi, List.getElem?_eq_getElem hj] at hmem ⊢
  exact ⟨rfl, hmem, List.getElem_mem hj⟩

/-- C36. The assertions in `tidy` always hold: `cluster_diff(allowed_clusters,
components)` has at least as many entries as there are allowed clusters, and every entry
at an index from that number on has an empty `left_only` and a non-empty `right_only`,
which is one of the components. -/
theorem tidy_assertions_hold (config : Config) (m : Target_model)
    (components : List Cluster)
    (hc : lwyi.compute_strongly_connected_dependencies m = some components)
    (_hsize : max config.allowed_clusters.length components.length * 32767 < 2 ^ 31) :
    config.allowed_clusters.length ≤
      (cluster_diff config.allowed_clusters components).length ∧
    ∀ i, config.allowed_clusters.length ≤ i →
      i < (cluster_diff config.allowed_clusters components).length →
      ((cluster_diff config.allowed_clusters components).getD i {}).left_only = [] ∧
      ((cluster_diff config.allowed_clusters components).getD i {}).right_only ≠ [] ∧
      ((cluster_diff config.allowed_clusters components).getD i {}).right_only ∈
        components := by
  obtain ⟨comps, hc', -, hne, -⟩ := components_spec m
  rw [hc] at hc'
  cases hc'
  refine ⟨by rw [cluster_diff_length]; exact Nat.le_max_left _ _, ?_⟩
  intro i hi hlt
  obtain ⟨h1, -, h3⟩ := cluster_diff_extra_slot config.allowed_clusters components i hi hlt
  exact ⟨h1, hne _ h3, h3⟩

/-- C36 (witness). The test in which `libg` depends on `libf`: the entry behind the two
allowed clusters holds the new component. -/
theorem tidy_assertions_hold_witness :
    test_config.allowed_clusters.length ≤
      (cluster_diff test_config.allowed_clusters
        [[⟨"libf"⟩, ⟨"libg"⟩], [⟨"liba"⟩, ⟨"libb"⟩], [⟨"libc"⟩, ⟨"libd"⟩, ⟨"libe"⟩]]).length ∧
    ∀ i, test_config.allowed_clusters.length ≤ i →
      i < (cluster_diff test_config.allowed_clusters
        [[⟨"libf"⟩, ⟨"libg"⟩], [⟨"liba"⟩, ⟨"libb"⟩], [⟨"libc"⟩, ⟨"libd"⟩, ⟨"libe"⟩]]).length →
      ((cluster_diff test_config.allowed_clusters
        [[⟨"libf"⟩, ⟨"libg"⟩], [⟨"liba"⟩, ⟨"libb"⟩],
          [⟨"libc"⟩, ⟨"libd"⟩, ⟨"libe"⟩]]).getD i {}).left_only = [] ∧
      ((cluster_diff test_config.allowed_clusters
        [[⟨"libf"⟩, ⟨"libg"⟩], [⟨"liba"⟩, ⟨"libb"⟩],
          [⟨"libc"⟩, ⟨"libd"⟩, ⟨"libe"⟩]]).getD i {}).right_only ≠ [] ∧
      ((cluster_diff test_config.allowed_clusters
        [[⟨"libf"⟩, ⟨"libg"⟩], [⟨"liba"⟩, ⟨"libb"⟩],
          [⟨"libc"⟩, ⟨"libd"⟩, ⟨"libe"⟩]]).getD i {}).right_only ∈
        [[⟨"libf"⟩, ⟨"libg"⟩], [⟨"liba"⟩, ⟨"libb"⟩], [⟨"libc"⟩, ⟨"libd"⟩, ⟨"libe"⟩]] :=
  tidy_assertions_hold test_config
    (Target_model.ctor (test_entries [⟨"libe"⟩] [⟨"libf"⟩]))
    [[⟨"libf"⟩, ⟨"libg"⟩], [⟨"liba"⟩, ⟨"libb"⟩], [⟨"libc"⟩, ⟨"libd"⟩, ⟨"libe"⟩]]
    (by decide) (by decide)

end tidy

namespace lwyi
open stdlib target_model scanner

theorem foldlM_option_mono {α β : Type} (f g : β → α → Option β)
    (h : ∀ b a b', f b a = some b' → g b a = some b') :
    ∀ (l : List α) (b b' : β), l.foldlM f b = some b' → l.foldlM g b = some b'
  | [], b, b', hf => by simpa using hf
  | a :: l, b, b', hf => by
    rw [List.foldlM_cons] at hf ⊢
    cases hfa : f b a with
    | none => rw [hfa] at hf; simp at hf
    | some b1 =>
      rw [hfa] at hf
      rw [h b a b1 hfa]
      exact foldlM_option_mono f g h l b1 b' hf

theorem visit_dependency_mono (call call' : Target → Scc_state → Option Scc_state)
    (h : ∀ w s s', call w s = some s' → call' w s = some s') (v : Target) (s : Scc_state)
    (w : Target) (s' : Scc_state) (hv : visit_dependency call v s w = some s') :
    visit_dependency call' v s w = some s' := by
  unfold visit_dependency at hv ⊢
  by_cases hw : (s.data w).index = -1
  · rw [if_pos hw] at hv ⊢
    cases hc : call w s with
    | none => rw [hc] at hv; simp at hv
    | some t =>
      rw [hc] at hv
      rw [h w s t hc]
      exact hv
  · rw [if_neg hw] at hv ⊢
    exact hv

/-- A deeper recursion bound does not change a result of `strong_connect`. -/
theorem strong_connect_mono (m : Target_model) : ∀ (fuel : Nat) (v : Target)
    (s s' : Scc_state), strong_connect m fuel v s = some s' →
      strong_connect m (fuel + 1) v s = some s'
  | 0, _, _, _, h => by simp [strong_connect] at h
  | fuel + 1, v, s, s', h => by
    rw [strong_connect] at h ⊢
    cases hf : (dependencies_of m v).foldlM
        (visit_dependency (fun w s => strong_connect m fuel w s) v) (s.enter v) with
    | none => rw [hf] at h; simp at h
    | some t =>
      rw [hf] at h
      have := foldlM_option_mono
        (visit_dependency (fun w s => strong_connect m fuel w s) v)
        (visit_dependency (fun w s => strong_connect m (fuel + 1) w s) v)
        (fun b a b' hb => visit_dependency_mono _ _
          (fun w s s' hw => strong_connect_mono m fuel w s s' hw) v b a b' hb)
        (dependencies_of m v) (s.enter v) t hf
      rw [this]
      exact h

theorem strong_connect_mono_le (m : Target_model) (fuel : Nat) (v : Target)
    (s s' : Scc_state) (h : strong_connect m fuel v s = some s') :
    ∀ k, strong_connect m (fuel + k) v s = some s'
  | 0 => h
  | k + 1 => strong_connect_mono m (fuel + k) v s s' (strong_connect_mono_le m fuel v s s' h k)

/-- A deeper recursion bound does not change a result of the computation. -/
theorem compute_with_fuel_mono (m : Target_model) (fuel k : Nat) (c : List Component)
    (h : compute_with_fuel m fuel = some c) : compute_with_fuel m (fuel + k) = some c := by
  unfold compute_with_fuel at h ⊢
  cases hf : m.target_to_target_data_.foldlM (visit_target m fuel) {} with
  | none => rw [hf] at h; simp at h
  | some t =>
    rw [hf] at h
    have := foldlM_option_mono (visit_target m fuel) (visit_target m (fuel + k))
      (fun b a b' hb => by
        unfold visit_target at hb ⊢
        by_cases hi : (b.data a.1).index = -1
        · rw [if_pos hi] at hb ⊢
          exact strong_connect_mono_le m fuel a.1 b b' hb k
        · rw [if_neg hi] at hb ⊢
          exact hb)
      m.target_to_target_data_ {} t hf
    rw [this]
    exact h

/-- C38. `compute_strongly_connected_dependencies` terminates on every model, cyclic or
not: the computation returns with the recursion of `strong_connect` bounded by the
number of vertices, and a larger bound gives the same result. The recursion is
well-founded: in a state of the algorithm a call of `strong_connect` for a vertex
without index returns as soon as the bound exceeds the number of vertices without
index, it gives the vertex an index, and it leaves fewer vertices without index; these
are at most the target names and dependency names of the model. -/
theorem compute_strongly_connected_dependencies_terminates (m : Target_model) :
    (∃ components, compute_strongly_connected_dependencies m = some components) ∧
    (∀ fuel, (vertices m).length < fuel →
      compute_with_fuel m fuel = compute_strongly_connected_dependencies m) ∧
    (∀ (fuel : Nat) (s : Scc_state) (g : List Target) (v : Target), Scc_inv m s g →
      (s.data v).index = -1 → v ∈ vertices m → (∀ x ∈ g, Reachable m x v) →
      unvisited m s < fuel →
      ∃ s', strong_connect m fuel v s = some s' ∧ (s'.data v).index ≠ -1 ∧
        unvisited m s' < unvisited m s ∧ unvisited m s ≤ (vertices m).length) := by
  obtain ⟨s, hs, -, -, -⟩ := compute_spec m
  refine ⟨⟨_, hs⟩, ?_, ?_⟩
  · intro fuel hfuel
    rw [hs]
    have hs' : compute_with_fuel m ((vertices m).length + 1) = some s.strongly_connected := hs
    have := compute_with_fuel_mono m _ (fuel - ((vertices m).length + 1)) _ hs'
    rw [show (vertices m).length + 1 + (fuel - ((vertices m).length + 1)) = fuel by omega]
      at this
    exact this
  · intro fuel s g v hinv hv hU hg hfuel
    obtain ⟨s', h1, hp, hlt⟩ := strong_connect_spec m fuel s g v hinv hv hU hg hfuel
    refine ⟨s', h1, ?_, hlt, unvisited_le_length m s⟩
    rw [hp.v_index]
    have := hinv.index_nonneg
    omega

/-- C38 (witness). The cyclic graph of the test: a → b, b → c, b → d, c → a. -/
theorem compute_strongly_connected_dependencies_terminates_witness :
    ∃ components,
      compute_strongly_connected_dependencies (Target_model.ctor cycle_entries) =
        some components :=
  (compute_strongly_connected_dependencies_terminates (Target_model.ctor cycle_entries)).1

end lwyi

namespace util
open stdlib

/-- C39. On normalized paths `is_in_directory` is the component-prefix test: for
absolute paths `dir` and `file` that are lexically normal and do not end with a
separator, `is_in_directory(dir, file)` is true exactly when the component sequence of
`dir` is a prefix of the component sequence of `file`; in particular
`is_in_directory(dir, dir)` is true. -/
theorem is_in_directory_is_the_component_prefix_test (dir file : Path)
    (hdir : dir.root = true) (hfile : file.root = true) (hd : dir.plain) (hf : file.plain) :
    is_in_directory dir file = component_prefix_test dir file ∧
    (is_in_directory dir file = true ↔ dir.iter <+: file.iter) ∧
    is_in_directory dir dir = true := by
  have hiff : is_in_directory dir file = true ↔ dir.iter <+: file.iter := by
    rw [is_in_directory_plain dir file hd]
    simp only [Path.iter, hdir, hfile, if_true, true_and, List.prefix_cons_inj]
    constructor
    · rintro ⟨rest, hrest, -⟩
      exact ⟨rest, hrest.symm⟩
    · rintro ⟨rest, hrest⟩
      refine ⟨rest, hrest.symm, ?_⟩
      intro hhead
      cases rest with
      | nil => simp at hhead
      | cons r rs =>
        simp only [List.head?_cons, Option.some.injEq] at hhead
        have := hf r (by rw [← hrest]; simp)
        exact this.2.2 hhead
  refine ⟨?_, hiff, ?_⟩
  · unfold component_prefix_test
    cases h : is_in_directory dir file with
    | true => exact (List.isPrefixOf_iff_prefix.2 (hiff.1 h)).symm
    | false =>
      cases h2 : dir.iter.isPrefixOf file.iter with
      | false => rfl
      | true =>
        rw [hiff.2 (List.isPrefixOf_iff_prefix.1 h2)] at h
        exact absurd h (by decide)
  · rw [is_in_directory_plain dir dir hd]
    exact ⟨rfl, [], by simp, by simp⟩

/-- C39 (witness). The directory `/a/include` and the file `/a/include/x.h`. -/
theorem is_in_directory_is_the_component_prefix_test_witness :
    is_in_directory ⟨true, ["a", "include"]⟩ ⟨true, ["a", "include", "x.h"]⟩ =
      component_prefix_test ⟨true, ["a", "include"]⟩ ⟨true, ["a", "include", "x.h"]⟩ ∧
    (is_in_directory ⟨true, ["a", "include"]⟩ ⟨true, ["a", "include", "x.h"]⟩ = true ↔
      (⟨true, ["a", "include"]⟩ : Path).iter <+:
        (⟨true, ["a", "include", "x.h"]⟩ : Path).iter) ∧
    is_in_directory ⟨true, ["a", "include"]⟩ ⟨true, ["a", "include"]⟩ = true :=
  is_in_directory_is_the_component_prefix_test ⟨true, ["a", "include"]⟩
    ⟨true, ["a", "include", "x.h"]⟩ rfl rfl (by decide) (by decide)

end util

namespace util
open stdlib

/-- A letter is not among the first 65 characters. -/
theorem alpha_toNat (c : Char) (h : c.isAlpha = true) : 65 ≤ c.toNat := by
  simp only [Char.isAlpha, Char.isUpper, Char.isLower, Bool.or_eq_true, Bool.and_eq_true,
    decide_eq_true_eq] at h
  have h1 : (65 : UInt32) ≤ c.val ∨ (97 : UInt32) ≤ c.val := by
    rcases h with h | h
    · exact Or.inl h.1
    · exact Or.inr h.1
  rcases h1 with h1 | h1
  · exact h1
  · have : (97 : Nat) ≤ c.toNat := h1
    omega

theorem letter_not_digit (c : Char) (h : c.isAlpha = true) : c.isDigit = false := by
  have h65 := alpha_toNat c h
  cases hd : c.isDigit with
  | false => rfl
  | true =>
    simp only [Char.isDigit, Bool.and_eq_true, decide_eq_true_eq] at hd
    have : c.toNat ≤ 57 := hd.2
    omega

theorem letter_not_space (c : Char) (h : c.isAlpha = true) : isspace c = false := by
  have h65 := alpha_toNat c h
  simp only [isspace, Bool.or_eq_false_iff, Bool.and_eq_false_iff, decide_eq_false_iff_not]
  omega

/-- For a non-empty value made of letters the extraction stores 0. -/
theorem extract_letters (value : String) (hne : value.toList.isEmpty = false)
    (h : ∀ c ∈ value.toList, c.isAlpha = true) : extract_uint32 value = some 0 := by
  unfold extract_uint32
  cases hv : value.toList with
  | nil => rw [hv] at hne; simp at hne
  | cons c cs =>
    have hc : c.isAlpha = true := h c (by rw [hv]; simp)
    have h65 := alpha_toNat c hc
    have hm : c ≠ '-' := by rintro rfl; revert h65; decide
    have hp : c ≠ '+' := by rintro rfl; revert h65; decide
    simp [List.dropWhile, letter_not_space c hc, hm, hp, read_digits, letter_not_digit c hc]

/-- What the extraction stores for some values: digits are read up to the first other
character, every white space character of the classic locale is skipped (the vertical
tab and the form feed among them), a value of white space only stores nothing, a number
out of range becomes the largest `uint32_t`, and a negated number wraps around. -/
theorem extract_uint32_examples :
    extract_uint32 "8" = some 8 ∧ extract_uint32 "007" = some 7 ∧
    extract_uint32 "abc" = some 0 ∧ extract_uint32 "12x" = some 12 ∧
    extract_uint32 "+7" = some 7 ∧ extract_uint32 "+" = some 0 ∧
    extract_uint32 " \t\n\r5" = some 5 ∧
    extract_uint32 (String.mk [Char.ofNat 11, '5']) = some 5 ∧
    extract_uint32 (String.mk [Char.ofNat 12, '5']) = some 5 ∧
    extract_uint32 " " = none ∧ extract_uint32 (String.mk [Char.ofNat 11]) = none ∧
    extract_uint32 "" = none ∧
    extract_uint32 "4294967295" = some 4294967295 ∧
    extract_uint32 "4294967296" = some 4294967295 ∧
    extract_uint32 " -5" = some 4294967291 ∧ extract_uint32 " -0" = some 0 := by
  decide

/-- The call of `try_parse_` for an integer flag at its own token, followed by a value
that does not begin with a dash: the value is extracted and accepted whatever it is. -/
theorem try_parse_integer_value (o : Options) (p : Arg_pair) (value : String)
    (rest : List String) (err : String) (hkind : p.kind = .integer)
    (hname : starts_with_dash p.name = true) (hvalue : starts_with_dash value = false) :
    try_parse_ o p (p.name :: value :: rest) err =
      ⟨o.extract_integer p.pmem value, rest, err⟩ := by
  have h1 := not_empty_of_dash p.name hname
  have h2 := arg_tail_self p.name
  unfold try_parse_
  simp only [h1, Bool.false_eq_true, if_false, arg_head_self, if_true, hkind, with_value,
    h2, List.isEmpty_cons, Bool.and_false, List.headD_cons, hvalue, stream_bad, List.tail_cons]

/-- C40 (divergence). An integer flag accepts a value that is not a number: take a
parser `pairs` with an integer-valued flag `p` whose name begins with a dash and whose
token no pair declared before `p` matches, and arguments `pre ++ p.name :: value :: rest`
where `value` is not empty and does not begin with a dash, `pre` parses successfully on
its own to `o_pre` and no token of `pre` is matched by a terminal flag. Then `parse`
executes `ss >> options.*value` for `value` (the member receives what the extraction
stores, 0 when `value` does not start with a number, and keeps its value when `value`
is white space only) and goes on with `rest`: the error "expects an integer value" is
not returned, and without further arguments the result is a success; for a `value` made
of letters it holds 0 in the member of the flag. -/
theorem integer_flag_accepts_a_value_that_is_not_a_number
    (pairs before after : List Arg_pair) (p : Arg_pair) (dflt o_pre : Options)
    (pre : List String) (value : String) (rest : List String)
    (hpairs : pairs = before ++ p :: after)
    (hkind : p.kind = .integer)
    (hname : starts_with_dash p.name = true)
    (hvalue : value.toList.isEmpty = false ∧ starts_with_dash value = false)
    (hbefore : ∀ q ∈ before, arg_head q.name p.name ≠ q.name)
    (hterm : ∀ t ∈ pre, ∀ q ∈ pairs, q.kind = .terminal → arg_head q.name t ≠ q.name)
    (hpre : parse pairs dflt pre = some (.ok o_pre)) :
    parse pairs dflt (pre ++ p.name :: value :: rest) =
      parse pairs (o_pre.extract_integer p.pmem value) rest ∧
    parse pairs dflt (pre ++ [p.name, value]) =
      some (.ok (o_pre.extract_integer p.pmem value)) ∧
    ((∀ c ∈ value.toList, c.isAlpha = true) →
      parsed_integer (parse pairs dflt (pre ++ [p.name, value])) p.pmem = some (.ok 0)) := by
  have hstep : ∀ rest, try_pairs pairs o_pre (p.name :: value :: rest) "" =
      (⟨o_pre.extract_integer p.pmem value, rest, ""⟩, false) := by
    intro rest
    rw [hpairs, try_pairs_skip _ _ (not_empty_of_dash _ hname) before _ _ _ hbefore,
      try_pairs, try_parse_integer_value o_pre p value rest "" hkind hname hvalue.2]
    simp only [List.length_cons]
    rw [if_neg (by omega)]
  have hgen : ∀ rest, parse pairs dflt (pre ++ p.name :: value :: rest) =
      parse pairs (o_pre.extract_integer p.pmem value) rest := by
    intro rest
    unfold parse
    rw [parse_extend pairs dflt o_pre pre p.name (value :: rest) hname hterm hpre,
      parse_impl_step pairs _ o_pre p.name (value :: rest) _ (hstep rest)]
    simp only [String.toList, List.isEmpty_nil, Bool.not_true, Bool.false_eq_true, if_false]
    rw [parse_impl_fuel pairs (value :: rest).length rest.length _ rest
      (by simp) (Nat.le_refl _)]
  have hlast : parse pairs dflt (pre ++ [p.name, value]) =
      some (.ok (o_pre.extract_integer p.pmem value)) := by
    rw [hgen []]
    rfl
  refine ⟨hgen rest, hlast, ?_⟩
  intro hletters
  rw [hlast]
  simp [parsed_integer, Options.extract_integer, extract_letters value hvalue.1 hletters,
    Options.set_integer, Except.map]

/-- C40 (witness). The parser of `parse_arguments.cpp` on `-j abc`: the call succeeds
and the number of threads is 0. -/
theorem integer_flag_accepts_a_value_that_is_not_a_number_witness :
    parse lwyi_pairs Options.initial ["-j", "abc"] =
      some (.ok (Options.initial.extract_integer 0 "abc")) ∧
    parsed_integer (parse lwyi_pairs Options.initial ["-j", "abc"]) 0 = some (.ok 0) :=
  ⟨(integer_flag_accepts_a_value_that_is_not_a_number lwyi_pairs
      [⟨"-h", .flag, 0⟩, ⟨"--help", .flag, 0⟩, ⟨"-d", .string, 0⟩,
        ⟨"--binary_dir", .string, 0⟩, ⟨"-t", .list, 0⟩, ⟨"--targets", .list, 0⟩]
      [⟨"--parallel", .integer, 0⟩, ⟨"--tool", .terminal, 1⟩] ⟨"-j", .integer, 0⟩
      Options.initial Options.initial [] "abc" []
      rfl rfl (by decide) (by decide) (by decide) (by decide) rfl).2.1,
    (integer_flag_accepts_a_value_that_is_not_a_number lwyi_pairs
      [⟨"-h", .flag, 0⟩, ⟨"--help", .flag, 0⟩, ⟨"-d", .string, 0⟩,
        ⟨"--binary_dir", .string, 0⟩, ⟨"-t", .list, 0⟩, ⟨"--targets", .list, 0⟩]
      [⟨"--parallel", .integer, 0⟩, ⟨"--tool", .terminal, 1⟩] ⟨"-j", .integer, 0⟩
      Options.initial Options.initial [] "abc" []
      rfl rfl (by decide) (by decide) (by decide) (by decide) rfl).2.2 (by decide)⟩

/-- C40 (counterexample). With the parser of `parse_arguments.cpp` the arguments
`-j abc` and `--parallel 12x` are accepted: the number of threads becomes 0 and 12. With
the parser of the test "given an int" (the flag `-d`), `-d seven` is accepted with the
value 0. -/
theorem integer_flag_does_not_reject_letters :
    parsed_integer (parse lwyi_pairs Options.initial ["-j", "abc"]) 0 = some (.ok 0) ∧
    parsed_integer (parse lwyi_pairs Options.initial ["--parallel", "12x"]) 0 =
      some (.ok 12) ∧
    parsed_integer (parse [⟨"-a", .flag, 0⟩, ⟨"--aaa", .flag, 0⟩, ⟨"-b", .flag, 1⟩,
      ⟨"--bbb", .flag, 1⟩, ⟨"-c", .string, 0⟩, ⟨"--ccc", .string, 0⟩, ⟨"-d", .integer, 0⟩]
      Options.initial ["-d", "seven"]) 0 = some (.ok 0) := by
  decide

end util

namespace scanner
open stdlib util target_model

theorem read_modify_other (d : Include_data) (g : Include_set → Include_set)
    (hs : KeysSorted Path.lt d.interface_header_includes) (cur ref : Include_set_ref)
    (hne : ref ≠ cur) : (d.modify g cur).read ref = d.read ref := by
  cases cur with
  | includes =>
    cases ref with
    | includes => exact absurd rfl hne
    | bucket h => rfl
  | bucket k =>
    cases ref with
    | includes => rfl
    | bucket h =>
      have hk : h ≠ k := fun e => hne (by rw [e])
      simp [Include_data.modify, Include_data.read,
        map_find_update path_lt_strict _ _ _ _ _ hs, hk]

/-- Inserting an include whose path is new adds it and nothing else. -/
theorem mem_set_insert_new (x i : Include) : ∀ (s : Include_set),
    (∀ j ∈ s, j.path ≠ x.path) → (i ∈ set_insert Include_cmp x s ↔ i = x ∨ i ∈ s)
  | [], _ => by simp [set_insert]
  | y :: ys, h => by
    cases h1 : Include_cmp x y with
    | true => simp [set_insert, h1]
    | false =>
      cases h2 : Include_cmp y x with
      | true =>
        simp only [set_insert, h1, h2, if_true, Bool.false_eq_true, if_false, List.mem_cons,
          mem_set_insert_new x i ys (fun j hj => h j (by simp [hj]))]
        tauto
      | false =>
        exact absurd (path_lt_strict.tri _ _ h1 h2).symm (h y (by simp))

/-- Inserting an include whose path is present leaves a sorted set as it is. -/
theorem set_insert_present (x : Include) : ∀ (s : Include_set),
    (s.map (·.path)).Pairwise (fun a b => Path.lt a b = true) →
    (∃ j ∈ s, j.path = x.path) → set_insert Include_cmp x s = s
  | [], _, h => by simp at h
  | y :: ys, hs, h => by
    have hs' := List.pairwise_cons.1 (by simpa using hs :
      ((y.path) :: ys.map (·.path)).Pairwise (fun a b => Path.lt a b = true))
    cases h1 : Include_cmp x y with
    | true =>
      exfalso
      obtain ⟨j, hj, hjx⟩ := h
      have hxy : Path.lt x.path y.path = true := h1
      rcases List.mem_cons.1 hj with rfl | hj
      · rw [hjx, path_lt_strict.irrefl] at hxy
        exact Bool.false_ne_true hxy
      · have hyj := hs'.1 j.path (List.mem_map_of_mem _ hj)
        rw [hjx] at hyj
        have := path_lt_strict.trans _ _ _ hxy hyj
        rw [path_lt_strict.irrefl] at this
        exact Bool.false_ne_true this
    | false =>
      cases h2 : Include_cmp y x with
      | true =>
        simp only [set_insert, h1, h2, if_true, Bool.false_eq_true, if_false]
        congr 1
        apply set_insert_present x ys hs'.2
        obtain ⟨j, hj, hjx⟩ := h
        rcases List.mem_cons.1 hj with rfl | hj
        · have hyx : Path.lt j.path x.path = true := h2
          rw [hjx, path_lt_strict.irrefl] at hyx
          exact absurd hyx Bool.false_ne_true
        · exact ⟨j, hj, hjx⟩
      | false => simp [set_insert, h1, h2]

/-- What `FileSkipped` does for a file that is not one of the target's own. -/
theorem file_skipped_foreign (td : Target_data) (r : PPRecorder) (f : Path)
    (cur : Include_set_ref)
    (hctx : r.context_ ≠ .arbitrary_file) (hset : r.current_include_set_ = some cur)
    (hf : is_interface_header td f = false) (hp : is_private_source td f = false) :
    (r.FileSkipped td f).include_data_ =
      r.include_data_.modify (set_insert Include_cmp
        ⟨f, if r.last_include_loc_.source.empty then r.include_chain_
          else r.include_chain_ ++ [r.last_include_loc_]⟩) cur := by
  unfold PPRecorder.FileSkipped
  rw [if_neg hctx, hset]
  simp only [hf, hp, Bool.false_eq_true, or_self, if_false]
  cases r.last_include_loc_.source.empty <;> rfl

end scanner

namespace scanner
open stdlib util target_model

theorem mem_set_insert_or (x i : Include) : ∀ (s : Include_set),
    i ∈ set_insert Include_cmp x s → i = x ∨ i ∈ s
  | [], h => by simpa [set_insert] using h
  | y :: ys, h => by
    unfold set_insert at h
    split at h
    · simpa using h
    · split at h
      · rcases List.mem_cons.1 h with h | h
        · exact Or.inr (by simp [h])
        · rcases mem_set_insert_or x i ys h with h | h
          · exact Or.inl h
          · exact Or.inr (by simp [h])
      · exact Or.inr h

theorem mem_set_merge_or (i : Include) : ∀ (src t : Include_set),
    i ∈ set_merge Include_cmp t src → i ∈ t ∨ i ∈ src
  | [], t, h => Or.inl (by simpa [set_merge] using h)
  | x :: src, t, h => by
    have h' : i ∈ set_merge Include_cmp (set_insert Include_cmp x t) src := by
      simpa [set_merge] using h
    rcases mem_set_merge_or i src _ h' with h1 | h1
    · rcases mem_set_insert_or x i t h1 with h2 | h2
      · exact Or.inr (by simp [h2])
      · exact Or.inl h2
    · exact Or.inr (by simp [h1])

theorem map_update_entries {K V : Type} (lt : K → K → Bool) (dflt : V) (g : V → V) (k : K)
    (e : K × V) : ∀ (l : List (K × V)), e ∈ map_update lt dflt g k l →
      e ∈ l ∨ e.2 = g dflt ∨ ∃ e0 ∈ l, e.2 = g e0.2
  | [], h => by
    simp only [map_update, List.mem_singleton] at h
    exact Or.inr (Or.inl (by rw [h]))
  | (k', v) :: rest, h => by
    unfold map_update at h
    split at h
    · rcases List.mem_cons.1 h with h | h
      · exact Or.inr (Or.inl (by rw [h]))
      · exact Or.inl h
    · split at h
      · rcases List.mem_cons.1 h with h | h
        · exact Or.inl (by simp [h])
        · rcases map_update_entries lt dflt g k e rest h with h | h | ⟨e0, h0, h1⟩
          · exact Or.inl (by simp [h])
          · exact Or.inr (Or.inl h)
          · exact Or.inr (Or.inr ⟨e0, by simp [h0], h1⟩)
      · rcases List.mem_cons.1 h with h | h
        · exact Or.inr (Or.inr ⟨(k', v), by simp, by rw [h]⟩)
        · exact Or.inl (by simp [h])

theorem map_find_mem {K V : Type} (lt : K → K → Bool) (k : K) (v : V) :
    ∀ (l : List (K × V)), map_find lt k l = some v → ∃ e ∈ l, e.2 = v
  | [], h => by simp [map_find] at h
  | (k', v') :: rest, h => by
    unfold map_find at h
    split at h
    · simp at h
    · split at h
      · obtain ⟨e, he, hv⟩ := map_find_mem lt k v rest h
        exact ⟨e, by simp [he], hv⟩
      · exact ⟨(k', v'), by simp, by simpa using h⟩

theorem foreign_read (td : Target_data) (d : Include_data) (h : d.foreign td)
    (ref : Include_set_ref) : Foreign td (d.read ref) := by
  cases ref with
  | includes => exact h.1
  | bucket k =>
    simp only [Include_data.read]
    cases hf : map_find Path.lt k d.interface_header_includes with
    | none => intro i hi; simp at hi
    | some v =>
      obtain ⟨e, he, hv⟩ := map_find_mem Path.lt k v _ hf
      simp only [Option.getD_some]
      rw [← hv]
      exact h.2 e he

theorem foreign_modify (td : Target_data) (d : Include_data) (h : d.foreign td)
    (g : Include_set → Include_set) (hg : ∀ s, Foreign td s → Foreign td (g s))
    (ref : Include_set_ref) : (d.modify g ref).foreign td := by
  cases ref with
  | includes => exact ⟨hg _ h.1, h.2⟩
  | bucket k =>
    refine ⟨h.1, ?_⟩
    intro b hb
    rcases map_update_entries Path.lt [] g k b _ hb with hb | hb | ⟨e0, h0, h1⟩
    · exact h.2 b hb
    · rw [hb]
      exact hg _ (fun i hi => by simp at hi)
    · rw [h1]
      exact hg _ (h.2 e0 h0)

theorem foreign_set_insert (td : Target_data) (x : Include)
    (hx : is_interface_header td x.path = false ∧ is_private_source td x.path = false)
    (s : Include_set) (hs : Foreign td s) : Foreign td (set_insert Include_cmp x s) := by
  intro i hi
  rcases mem_set_insert_or x i s hi with h | h
  · rw [h]; exact hx
  · exact hs i h

theorem foreign_set_merge (td : Target_data) (src : Include_set) (hsrc : Foreign td src)
    (s : Include_set) (hs : Foreign td s) : Foreign td (set_merge Include_cmp s src) := by
  intro i hi
  rcases mem_set_merge_or i src s hi with h | h
  · exact hs i h
  · exact hsrc i h

theorem modify_keys (d : Include_data) (g : Include_set → Include_set)
    (ref : Include_set_ref) (h : Path)
    (hh : h ∈ d.interface_header_includes.map Prod.fst) :
    h ∈ (d.modify g ref).interface_header_includes.map Prod.fst := by
  cases ref with
  | includes => exact hh
  | bucket k =>
    simp only [Include_data.modify]
    rw [map_update_keys path_lt_strict]
    exact Or.inr hh

theorem modify_key_self (d : Include_data) (g : Include_set → Include_set) (k : Path) :
    k ∈ (d.modify g (.bucket k)).interface_header_includes.map Prod.fst := by
  simp only [Include_data.modify]
  rw [map_update_keys path_lt_strict]
  exact Or.inl rfl

/-- The include data after `LexedFileChanged` for a file, when the event does not
return early. -/
theorem lexed_file_changed_data (td : Target_data) (r : PPRecorder) (fid : FileID)
    (name : Path) (reason : LexedFileChangeReason) (prev_fid : FileID)
    (hname : fid.name = some name)
    (hearly : ¬ ((reason = .EnterFile ∧ fid = .predefines) ∨
      (reason = .ExitFile ∧ prev_fid = .predefines))) :
    (r.LexedFileChanged td fid reason prev_fid).include_data_ =
      (match reason with
      | .EnterFile =>
        match r.current_include_set_ with
        | some previous =>
          if is_interface_header td name = false ∧ is_private_source td name = false then
            r.include_data_.modify (set_insert Include_cmp
              ⟨name, if r.last_include_loc_.source.empty then r.include_chain_
                else r.include_chain_ ++ [r.last_include_loc_]⟩) previous
          else if is_interface_header td name = true then
            r.include_data_.modify id (.bucket name)
          else r.include_data_
        | none =>
          if is_interface_header td name = true then
            r.include_data_.modify id (.bucket name)
          else r.include_data_
      | .ExitFile =>
        if is_interface_header td name = true then
          match r.context_, r.current_include_set_ with
          | .interface_header, some previous =>
            (r.include_data_.modify id (.bucket name)).modify
              (fun s => set_merge Include_cmp s
                ((r.include_data_.modify id (.bucket name)).read previous)) (.bucket name)
          | _, _ => r.include_data_.modify id (.bucket name)
        else if is_private_source td name = true then
          match r.context_, r.current_include_set_ with
          | .interface_header, some previous =>
            r.include_data_.modify
              (fun s => set_merge Include_cmp s (r.include_data_.read previous)) .includes
          | _, _ => r.include_data_
        else r.include_data_) := by
  unfold PPRecorder.LexedFileChanged
  rw [if_neg hearly, hname]
  cases reason <;>
  cases hi : is_interface_header td name <;>
  cases hp : is_private_source td name <;>
  cases hc : r.last_include_loc_.source.empty <;>
  cases he : r.include_chain_.isEmpty <;>
  cases hcur : r.current_include_set_ <;>
  cases hctx : r.context_ <;>
  simp [hi, hp, hc, he, hcur, hctx]

/-- The context, the pointer and the current file after `LexedFileChanged` for a file,
when the event does not return early. -/
theorem lexed_file_changed_binding (td : Target_data) (r : PPRecorder) (fid : FileID)
    (name : Path) (reason : LexedFileChangeReason) (prev_fid : FileID)
    (hname : fid.name = some name)
    (hearly : ¬ ((reason = .EnterFile ∧ fid = .predefines) ∨
      (reason = .ExitFile ∧ prev_fid = .predefines))) :
    (r.LexedFileChanged td fid reason prev_fid).context_ =
      (if is_interface_header td name = true then .interface_header
        else if is_private_source td name = true then .source_file else .arbitrary_file) ∧
    (r.LexedFileChanged td fid reason prev_fid).current_include_set_ =
      (if is_interface_header td name = true then some (.bucket name)
        else if is_private_source td name = true then some .includes else none) ∧
    (r.LexedFileChanged td fid reason prev_fid).current_source_file_ = name := by
  unfold PPRecorder.LexedFileChanged
  rw [if_neg hearly, hname]
  cases reason <;>
  cases hi : is_interface_header td name <;>
  cases hp : is_private_source td name <;>
  cases hc : r.last_include_loc_.source.empty <;>
  cases he : r.include_chain_.isEmpty <;>
  cases hcur : r.current_include_set_ <;>
  cases hctx : r.context_ <;>
  simp [hi, hp, hc, he, hcur, hctx]

/-- The events keep `includes` and the buckets free of the target's own files. -/
theorem step_foreign (td : Target_data) (r : PPRecorder) (e : Event)
    (h : r.include_data_.foreign td) : (r.step td e).include_data_.foreign td := by
  cases e with
  | InclusionDirective line => exact h
  | FileSkipped f =>
    simp only [PPRecorder.step]
    unfold PPRecorder.FileSkipped
    split
    · exact h
    · cases hcur : r.current_include_set_ with
      | none => exact h
      | some cur =>
        simp only
        split
        · cases hfind : map_find Path.lt f r.include_data_.interface_header_includes with
          | none => exact h
          | some bucket =>
            simp only
            apply foreign_modify td _ h
            intro s hs
            apply foreign_set_merge td bucket _ s hs
            obtain ⟨e, he, hv⟩ := map_find_mem Path.lt f bucket _ hfind
            rw [← hv]
            exact h.2 e he
        · rename_i hown
          simp only
          apply foreign_modify td _ h
          intro s hs
          apply foreign_set_insert td _ _ s hs
          simp only
          constructor
          · cases hi : is_interface_header td f with
            | false => rfl
            | true => exact absurd (Or.inl hi) hown
          · cases hp : is_private_source td f with
            | false => rfl
            | true => exact absurd (Or.inr hp) hown
  | LexedFileChanged fid reason prev_fid =>
    simp only [PPRecorder.step]
    by_cases hearly : (reason = .EnterFile ∧ fid = .predefines) ∨
        (reason = .ExitFile ∧ prev_fid = .predefines)
    · unfold PPRecorder.LexedFileChanged
      rw [if_pos hearly]
      exact h
    · cases hname : fid.name with
      | none =>
        unfold PPRecorder.LexedFileChanged
        rw [if_neg hearly, hname]
        exact h
      | some name =>
        rw [lexed_file_changed_data td r fid name reason prev_fid hname hearly]
        have htouch : (r.include_data_.modify id (.bucket name)).foreign td :=
          foreign_modify td _ h id (fun s hs => hs) _
        cases reason with
        | EnterFile =>
          simp only
          cases hcur : r.current_include_set_ with
          | none =>
            simp only
            split
            · exact htouch
            · exact h
          | some previous =>
            simp only
            split
            · rename_i hown
              apply foreign_modify td _ h
              intro s hs
              exact foreign_set_insert td _ hown s hs
            · split
              · exact htouch
              · exact h
        | ExitFile =>
          simp only
          split
          · split
            · apply foreign_modify td _ htouch
              intro s hs
              exact foreign_set_merge td _ (foreign_read td _ htouch _) s hs
            · exact htouch
          · split
            · split
              · apply foreign_modify td _ h
                intro s hs
                exact foreign_set_merge td _ (foreign_read td _ h _) s hs
              · exact h
            · exact h

/-- The events keep the pointer bound as the context requires. -/
theorem step_bound (td : Target_data) (r : PPRecorder) (e : Event) (h : Bound r) :
    Bound (r.step td e) := by
  cases e with
  | InclusionDirective line => exact ⟨h.source, h.header, h.valid⟩
  | FileSkipped f =>
    simp only [PPRecorder.step]
    have hfields : (r.FileSkipped td f).context_ = r.context_ ∧
        (r.FileSkipped td f).current_include_set_ = r.current_include_set_ ∧
        (r.FileSkipped td f).current_source_file_ = r.current_source_file_ := by
      unfold PPRecorder.FileSkipped
      cases hctx : r.context_ <;>
      cases hcur : r.current_include_set_ <;>
      cases hi : is_interface_header td f <;>
      cases hp : is_private_source td f <;>
      cases hfind : map_find Path.lt f r.include_data_.interface_header_includes <;>
      simp [hctx, hcur, hi, hp, hfind]
    have hkeys : ∀ k, k ∈ r.include_data_.interface_header_includes.map Prod.fst →
        k ∈ (r.FileSkipped td f).include_data_.interface_header_includes.map Prod.fst := by
      intro k hk
      unfold PPRecorder.FileSkipped
      split
      · exact hk
      · split
        · exact hk
        · split
          · split
            · exact modify_keys _ _ _ k hk
            · exact hk
          · exact modify_keys _ _ _ k hk
    obtain ⟨h1, h2, h3⟩ := hfields
    have h4 := hkeys
    refine ⟨?_, ?_, ?_⟩
    · rw [h1, h2]; exact h.source
    · rw [h1, h2, h3]; exact h.header
    · intro k hk
      rw [h2] at hk
      exact h4 k (h.valid k hk)
  | LexedFileChanged fid reason prev_fid =>
    simp only [PPRecorder.step]
    by_cases hearly : (reason = .EnterFile ∧ fid = .predefines) ∨
        (reason = .ExitFile ∧ prev_fid = .predefines)
    · unfold PPRecorder.LexedFileChanged
      rw [if_pos hearly]
      exact ⟨fun hc => by simp at hc, fun hc => by simp at hc, h.valid⟩
    · cases hname : fid.name with
      | none =>
        unfold PPRecorder.LexedFileChanged
        rw [if_neg hearly, hname]
        exact h
      | some name =>
        obtain ⟨h1, h2, h3⟩ :=
          lexed_file_changed_binding td r fid name reason prev_fid hname hearly
        refine ⟨?_, ?_, ?_⟩
        · rw [h1, h2]
          cases hi : is_interface_header td name <;>
          cases hp : is_private_source td name <;> simp
        · rw [h1, h2, h3]
          cases hi : is_interface_header td name <;>
          cases hp : is_private_source td name <;> simp
        · intro k hk
          rw [h2] at hk
          cases hi : is_interface_header td name with
          | false =>
            rw [hi] at hk
            cases hp : is_private_source td name <;> rw [hp] at hk <;> simp at hk
          | true =>
            rw [hi] at hk
            simp only [if_true, Option.some.injEq, Include_set_ref.bucket.injEq] at hk
            subst hk
            rw [lexed_file_changed_data td r fid name reason prev_fid hname hearly]
            have htouch := modify_key_self r.include_data_ id name
            cases reason with
            | EnterFile =>
              simp only [hi]
              cases hcur : r.current_include_set_ <;> simp [htouch]
            | ExitFile =>
              simp only [hi, if_true]
              split
              · exact modify_keys _ _ _ _ htouch
              · exact htouch

theorem run_foreign (td : Target_data) : ∀ (events : List Event) (r : PPRecorder),
    r.include_data_.foreign td →
      (events.foldl (PPRecorder.step td) r).include_data_.foreign td
  | [], _, h => h
  | e :: events, r, h => run_foreign td events (r.step td e) (step_foreign td r e h)

theorem run_bound (td : Target_data) : ∀ (events : List Event) (r : PPRecorder),
    Bound r → Bound (events.foldl (PPRecorder.step td) r)
  | [], _, h => h
  | e :: events, r, h => run_bound td events (r.step td e) (step_bound td r e h)

/-- C35. The recorder never dereferences an unbound include set: in every state reached
from the initial recorder by a sequence of events, a context other than `arbitrary_file`
implies that `current_include_set_` is bound, to `includes` in the context
`source_file` and to the bucket of the current file in the context `interface_header`;
a bound pointer to a bucket designates an element of `interface_header_includes`. So
the insertions of `FileSkipped` and both sets of the propagation loop on the exit from
an interface header (the set bound before the event and the set bound by it) are
bound. -/
theorem recorder_never_dereferences_an_unbound_include_set (td : Target_data)
    (events : List Event) :
    ((events.foldl (PPRecorder.step td) {}).context_ ≠ .arbitrary_file →
      ∃ cur, (events.foldl (PPRecorder.step td) {}).current_include_set_ = some cur) ∧
    ((events.foldl (PPRecorder.step td) {}).context_ = .source_file →
      (events.foldl (PPRecorder.step td) {}).current_include_set_ = some .includes) ∧
    ((events.foldl (PPRecorder.step td) {}).context_ = .interface_header →
      (events.foldl (PPRecorder.step td) {}).current_include_set_ =
        some (.bucket (events.foldl (PPRecorder.step td) {}).current_source_file_)) ∧
    (∀ h, (events.foldl (PPRecorder.step td) {}).current_include_set_ = some (.bucket h) →
      h ∈ (events.foldl (PPRecorder.step td)
        {}).include_data_.interface_header_includes.map Prod.fst) := by
  have h := run_bound td events {}
    ⟨fun hc => by simp at hc, fun hc => by simp at hc, fun k hk => by simp at hk⟩
  refine ⟨?_, h.source, h.header, h.valid⟩
  intro hctx
  cases hc : (events.foldl (PPRecorder.step td) {}).context_ with
  | arbitrary_file => exact absurd hc hctx
  | source_file => exact ⟨_, h.source hc⟩
  | interface_header => exact ⟨_, h.header hc⟩

/-- C35 (witness). After `/private.cpp` has been entered the context is `source_file`
and `includes` is bound. -/
theorem recorder_never_dereferences_an_unbound_include_set_witness :
    recorder_at_first_line.context_ = .source_file ∧
    recorder_at_first_line.current_include_set_ = some .includes :=
  ⟨by decide,
    (recorder_never_dereferences_an_unbound_include_set basic_target_data
      [.LexedFileChanged (.file ⟨true, ["private.cpp"]⟩) .EnterFile .invalid]).2.1
      (by decide)⟩

/-- C37. A target's own files are never recorded as its includes: in the `Include_data`
that any sequence of recorder events leaves, no include of `includes` and no include of
a bucket of `interface_header_includes` has a path that is an interface header or a
private source of the target. -/
theorem own_files_are_never_recorded (td : Target_data) (events : List Event) :
    (∀ i ∈ (record td events).includes,
      is_interface_header td i.path = false ∧ is_private_source td i.path = false) ∧
    (∀ b ∈ (record td events).interface_header_includes, ∀ i ∈ b.2,
      is_interface_header td i.path = false ∧ is_private_source td i.path = false) := by
  have h := run_foreign td events {}
    ⟨fun i hi => by simp at hi, fun b hb => by simp at hb⟩
  exact h

/-- C37 (witness). The chained trace leaves `/a.hpp`, `/b.hpp` and `/c.hpp` in
`includes`, none of them a file of the target. -/
theorem own_files_are_never_recorded_witness :
    (record chained_target_data chained_trace).includes.map (·.path) =
      [⟨true, ["a.hpp"]⟩, ⟨true, ["b.hpp"]⟩, ⟨true, ["c.hpp"]⟩] ∧
    ∀ i ∈ (record chained_target_data chained_trace).includes,
      is_interface_header chained_target_data i.path = false ∧
        is_private_source chained_target_data i.path = false :=
  ⟨by decide, (own_files_are_never_recorded chained_target_data chained_trace).1⟩

end scanner

namespace util
open stdlib

theorem mem_set_of_ne {A : Type} (x old y : A) : ∀ (l : List A) (w : Nat),
    l[w]? = some old → x ∈ l → x ≠ old → x ∈ l.set w y
  | [], _, h, _, _ => by simp at h
  | a :: l, 0, h, hx, hne => by
    simp only [List.getElem?_cons_zero, Option.some.injEq] at h
    subst h
    rcases List.mem_cons.1 hx with hx | hx
    · exact absurd hx hne
    · simp [hx]
  | a :: l, w + 1, h, hx, hne => by
    simp only [List.getElem?_cons_succ] at h
    rcases List.mem_cons.1 hx with hx | hx
    · simp [hx]
    · simp [mem_set_of_ne x old y l w h hx hne]

theorem mem_set_self {A : Type} (old y : A) : ∀ (l : List A) (w : Nat),
    l[w]? = some old → y ∈ l.set w y
  | [], _, h => by simp at h
  | a :: l, 0, _ => by simp
  | a :: l, w + 1, h => by
    simp only [List.getElem?_cons_succ] at h
    simp [mem_set_self old y l w h]

theorem sum_map_set {A : Type} (f : A → Nat) (old y : A) : ∀ (l : List A) (w : Nat),
    l[w]? = some old → ((l.set w y).map f).sum + f old = (l.map f).sum + f y
  | [], _, h => by simp at h
  | a :: l, 0, h => by
    simp only [List.getElem?_cons_zero, Option.some.injEq] at h
    subst h
    simp only [List.set_cons_zero, List.map_cons, List.sum_cons]
    omega
  | a :: l, w + 1, h => by
    simp only [List.getElem?_cons_succ] at h
    have := sum_map_set f old y l w h
    simp only [List.set_cons_succ, List.map_cons, List.sum_cons]
    omega

theorem busy_sum_le : ∀ (l : List Worker), (l.map Worker.busy).sum ≤ l.length
  | [] => by simp
  | a :: l => by
    have := busy_sum_le l
    have ha : a.busy ≤ 1 := by cases a <;> simp [Worker.busy]
    simp only [List.map_cons, List.sum_cons, List.length_cons]
    omega

theorem transform_inv_start {α β : Type} (thread_count count : Nat) (input : List α)
    (unary_op : α → β) (out : Nat → β) (hcount : count < 4294967296) :
    Transform_inv thread_count count input unary_op out
      (Transform_state.start thread_count count out) := by
  have hsum : ∀ n, ((List.replicate n Worker.waiting).map Worker.busy).sum = 0 := by
    intro n
    induction n with
    | zero => rfl
    | succ n ih => simp [List.replicate_succ, Worker.busy, ih]
  refine
    { threads := by simp [Transform_state.start, Parallel_transformer.idle]
      running := rfl
      no_exit := by
        simp only [Transform_state.start, Parallel_transformer.idle]
        intro h
        have := List.eq_of_mem_replicate h
        exact absurd this (by decide)
      pushed_le := Nat.zero_le _
      sync := rfl
      flushed := by
        intro k h
        rcases h with h | h <;> simp [Transform_state.start] at h
      idle := by
        intro k h
        simp [Transform_state.start] at h
      queued := ?_
      pending_le := ?_
      compleated := ?_
      queue_le := by simp [Transform_state.start, Parallel_transformer.idle]
      queue_range := by simp [Transform_state.start, Parallel_transformer.idle]
      popped_range := by
        simp only [Transform_state.start, Parallel_transformer.idle]
        intro i h
        have := List.eq_of_mem_replicate h
        exact absurd this (by simp)
      written := by
        intro i h
        simp [Transform_state.start, Caller.pushed] at h
      untouched := fun _ _ => rfl }
  · simp only [Transform_state.start, Parallel_transformer.idle, Caller.pushed]
    omega
  · simp only [Transform_state.start, Parallel_transformer.idle, Transform_state.pending,
      hsum, List.length_nil, Caller.pushed]
    omega
  · simp only [Transform_state.start, Parallel_transformer.idle, Caller.pushed,
      Transform_state.pending, hsum, List.length_nil]
    omega

/-- A step of the caller keeps the invariant. -/
theorem transform_inv_caller {α β : Type} (thread_count count : Nat) (input : List α)
    (unary_op : α → β) (out : Nat → β) (hthreads : 3 * thread_count < 4294967296)
    (s : Transform_state β) (h : Transform_inv thread_count count input unary_op out s) :
    Transform_inv thread_count count input unary_op out
      (s.step input unary_op .caller) := by
  have hbusy := busy_sum_le s.pool.threads_
  have hlen := h.threads
  have hq := h.queue_le
  have hpl := h.pending_le
  have hpd : s.pending = s.pool.queue_.length + (s.pool.threads_.map Worker.busy).sum := rfl
  cases hc : s.caller with
  | pushing k =>
    have hk : s.caller.pushed = k := by rw [hc]; rfl
    have hsync : s.pool.sync_ = 0 := by have := h.sync; rw [hc] at this; exact this
    simp only [Transform_state.step, hc]
    by_cases hlt : k < input.length
    · rw [if_pos hlt]
      by_cases hg : s.pool.sync_ = 0 ∧ s.pool.queue_.length < 2 * s.pool.threads_.length
      · rw [if_pos hg]
        have hqd := h.queued
        have hcp := h.compleated
        rw [hk] at hqd hcp hpl
        refine
          { threads := h.threads
            running := h.running
            no_exit := h.no_exit
            pushed_le := by simp only [Caller.pushed]; omega
            sync := hsync
            flushed := by
              intro k' h'
              rcases h' with h' | h' <;> simp at h'
            idle := by
              intro k' h'
              simp at h'
            queued := by simp only [Caller.pushed]; omega
            pending_le := by
              simp only [Transform_state.pending, List.length_append, List.length_singleton,
                Caller.pushed]
              omega
            compleated := by
              simp only [Transform_state.pending, List.length_append, List.length_singleton,
                Caller.pushed]
              rw [hcp, hpd]
              congr 1
              omega
            queue_le := by
              simp only [List.length_append, List.length_singleton]
              omega
            queue_range := by
              intro i hi
              simp only [Caller.pushed]
              rcases List.mem_append.1 hi with hi | hi
              · have := h.queue_range i hi
                omega
              · simp only [List.mem_singleton] at hi
                omega
            popped_range := by
              intro i hi
              have := h.popped_range i hi
              simp only [Caller.pushed]
              omega
            written := by
              intro i hi x hx
              simp only [Caller.pushed] at hi
              by_cases hik : i = k
              · exact Or.inl (by simp [hik])
              · rcases h.written i (by omega) x hx with h1 | h1 | h1
                · exact Or.inl (by simp [h1])
                · exact Or.inr (Or.inl h1)
                · exact Or.inr (Or.inr h1)
            untouched := by
              intro i hi
              simp only [Caller.pushed] at hi
              exact h.untouched i (by omega) }
      · rw [if_neg hg]
        exact h
    · rw [if_neg hlt]
      have hkn : k = input.length := by
        have := h.pushed_le
        omega
      refine
        { threads := h.threads
          running := h.running
          no_exit := h.no_exit
          pushed_le := by simp only [Caller.pushed]; omega
          sync := by
            show (s.pool.sync_ + 1) % 4294967296 = 1
            omega
          flushed := by
            intro k' h'
            rcases h' with h' | h'
            · simp only [Caller.flushing.injEq] at h'
              omega
            · simp at h'
          idle := by
            intro k' h'
            simp at h'
          queued := by
            have := h.queued
            rw [hk] at this
            exact this
          pending_le := by
            have := h.pending_le
            rw [hk] at this
            exact this
          compleated := by
            have := h.compleated
            rw [hk] at this
            exact this
          queue_le := h.queue_le
          queue_range := by
            intro i hi
            have := h.queue_range i hi
            rw [hk] at this
            exact this
          popped_range := by
            intro i hi
            have := h.popped_range i hi
            rw [hk] at this
            exact this
          written := by
            intro i hi x hx
            exact h.written i (by rw [hk]; exact hi) x hx
          untouched := by
            intro i hi
            exact h.untouched i (by rw [hk]; exact hi) }
  | flushing k =>
    have hk : s.caller.pushed = k := by rw [hc]; rfl
    have hsync : s.pool.sync_ = 1 := by have := h.sync; rw [hc] at this; exact this
    simp only [Transform_state.step, hc]
    by_cases hg : s.pool.compleated_count_ = s.pool.queued_count_
    · rw [if_pos hg]
      have hqd := h.queued
      have hcp := h.compleated
      rw [hk] at hqd hcp hpl
      have hzero : s.pending = 0 := by
        rw [hqd, hcp] at hg
        have hmod := Nat.sub_mod_eq_zero_of_mod_eq hg.symm
        rw [show count + k - (count + k - s.pending) = s.pending by omega,
          Nat.mod_eq_of_lt (by omega)] at hmod
        exact hmod
      refine
        { threads := h.threads
          running := h.running
          no_exit := h.no_exit
          pushed_le := by
            have := h.pushed_le
            rw [hk] at this
            exact this
          sync := by
            show (if s.pool.sync_ = 0 then 4294967295 else s.pool.sync_ - 1) = 0
            rw [hsync]
            rfl
          flushed := by
            intro k' h'
            have := h.flushed k (Or.inl hc)
            rcases h' with h' | h'
            · simp at h'
            · simp only [Caller.returned.injEq] at h'
              omega
          idle := by
            intro _ _
            show s.pool.queue_.length + (s.pool.threads_.map Worker.busy).sum = 0
            rw [← hpd]
            exact hzero
          queued := by
            simp only [Caller.pushed]
            exact hqd
          pending_le := by
            simp only [Caller.pushed, Transform_state.pending]
            rw [← hpd]
            exact hpl
          compleated := by
            simp only [Caller.pushed, Transform_state.pending]
            rw [← hpd]
            exact hcp
          queue_le := h.queue_le
          queue_range := by
            intro i hi
            have := h.queue_range i hi
            rw [hk] at this
            exact this
          popped_range := by
            intro i hi
            have := h.popped_range i hi
            rw [hk] at this
            exact this
          written := by
            intro i hi x hx
            exact h.written i (by rw [hk]; exact hi) x hx
          untouched := by
            intro i hi
            exact h.untouched i (by rw [hk]; exact hi) }
    · rw [if_neg hg]
      exact h
  | returned k =>
    simp only [Transform_state.step, hc]
    exact h

/-- A step of a worker keeps the invariant. -/
theorem transform_inv_worker {α β : Type} (thread_count count : Nat) (input : List α)
    (unary_op : α → β) (out : Nat → β) (s : Transform_state β) (w : Nat)
    (h : Transform_inv thread_count count input unary_op out s) :
    Transform_inv thread_count count input unary_op out
      (s.step input unary_op (.worker w)) := by
  have hpd : s.pending = s.pool.queue_.length + (s.pool.threads_.map Worker.busy).sum := rfl
  have hpl := h.pending_le
  have hcp := h.compleated
  simp only [Transform_state.step]
  cases hw : s.pool.threads_[w]? with
  | none => exact h
  | some worker =>
    cases worker with
    | exited => exact h
    | waiting =>
      simp only [h.running, Bool.false_eq_true, false_or, false_and, if_false]
      cases hqueue : s.pool.queue_ with
      | nil => simpa using h
      | cons i rest =>
        simp only [List.isEmpty_cons, Bool.not_false, if_true]
        have hsum := sum_map_set Worker.busy Worker.waiting (Worker.popped i)
          s.pool.threads_ w hw
        simp only [Worker.busy] at hsum
        have hql : s.pool.queue_.length = rest.length + 1 := by rw [hqueue]; rfl
        have hpend : rest.length + ((s.pool.threads_.set w (Worker.popped i)).map
            Worker.busy).sum = s.pending := by
          rw [hpd]
          omega
        refine
          { threads := by simp only [List.length_set]; exact h.threads
            running := rfl
            no_exit := by
              intro hmem
              rcases List.mem_or_eq_of_mem_set hmem with hmem | hmem
              · exact h.no_exit hmem
              · exact absurd hmem (by simp)
            pushed_le := h.pushed_le
            sync := h.sync
            flushed := h.flushed
            idle := by
              intro k hk
              show rest.length + _ = 0
              rw [hpend]
              exact h.idle k hk
            queued := h.queued
            pending_le := by
              show rest.length + _ ≤ _
              rw [hpend]
              exact hpl
            compleated := by
              show _ = (count + s.caller.pushed - (rest.length + _)) % 4294967296
              rw [hpend]
              exact hcp
            queue_le := by
              have := h.queue_le
              show rest.length ≤ _
              omega
            queue_range := by
              intro j hj
              exact h.queue_range j (by rw [hqueue]; simp [hj])
            popped_range := by
              intro j hj
              rcases List.mem_or_eq_of_mem_set hj with hj | hj
              · exact h.popped_range j hj
              · simp only [Worker.popped.injEq] at hj
                subst hj
                exact h.queue_range j (by rw [hqueue]; simp)
            written := by
              intro j hj x hx
              rcases h.written j hj x hx with h1 | h1 | h1
              · rw [hqueue] at h1
                rcases List.mem_cons.1 h1 with h1 | h1
                · subst h1
                  exact Or.inr (Or.inl (mem_set_self _ _ _ _ hw))
                · exact Or.inl h1
              · exact Or.inr (Or.inl (mem_set_of_ne _ _ _ _ _ hw h1 (by simp)))
              · exact Or.inr (Or.inr h1)
            untouched := h.untouched }
    | popped i =>
      simp only
      have hi := h.popped_range i (List.getElem?_mem hw)
      have hin : i < input.length := lt_of_lt_of_le hi h.pushed_le
      rw [List.getElem?_eq_getElem hin]
      simp only
      have hsum := sum_map_set Worker.busy (Worker.popped i) (Worker.ran i)
        s.pool.threads_ w hw
      simp only [Worker.busy] at hsum
      have hpend : s.pool.queue_.length + ((s.pool.threads_.set w (Worker.ran i)).map
          Worker.busy).sum = s.pending := by
        rw [hpd]
        omega
      refine
        { threads := by simp only [List.length_set]; exact h.threads
          running := h.running
          no_exit := by
            intro hmem
            rcases List.mem_or_eq_of_mem_set hmem with hmem | hmem
            · exact h.no_exit hmem
            · exact absurd hmem (by simp)
          pushed_le := h.pushed_le
          sync := h.sync
          flushed := h.flushed
          idle := by
            intro k hk
            show s.pool.queue_.length + _ = 0
            rw [hpend]
            exact h.idle k hk
          queued := h.queued
          pending_le := by
            show s.pool.queue_.length + _ ≤ _
            rw [hpend]
            exact hpl
          compleated := by
            show _ = (count + s.caller.pushed - (s.pool.queue_.length + _)) % 4294967296
            rw [hpend]
            exact hcp
          queue_le := h.queue_le
          queue_range := h.queue_range
          popped_range := by
            intro j hj
            rcases List.mem_or_eq_of_mem_set hj with hj | hj
            · exact h.popped_range j hj
            · exact absurd hj (by simp)
          written := by
            intro j hj x hx
            show j ∈ s.pool.queue_ ∨ Worker.popped j ∈ s.pool.threads_.set w (Worker.ran i) ∨
              Function.update s.out i (unary_op input[i]) j = unary_op x
            by_cases hji : j = i
            · subst hji
              rw [List.getElem?_eq_getElem hin] at hx
              have hx' := Option.some.inj hx
              rw [Function.update_same, hx']
              exact Or.inr (Or.inr rfl)
            · rw [Function.update_noteq hji]
              rcases h.written j hj x hx with h1 | h1 | h1
              · exact Or.inl h1
              · exact Or.inr (Or.inl (mem_set_of_ne _ _ _ _ _ hw h1
                  (by simp only [ne_eq, Worker.popped.injEq]; exact hji)))
              · exact Or.inr (Or.inr h1)
          untouched := by
            intro j hj
            have hj' : s.caller.pushed ≤ j := hj
            show Function.update s.out i (unary_op input[i]) j = out j
            rw [Function.update_noteq (by omega)]
            exact h.untouched j hj }
    | ran i =>
      simp only
      have hsum := sum_map_set Worker.busy (Worker.ran i) Worker.waiting
        s.pool.threads_ w hw
      simp only [Worker.busy] at hsum
      have hpend : s.pool.queue_.length + ((s.pool.threads_.set w Worker.waiting).map
          Worker.busy).sum + 1 = s.pending := by
        rw [hpd]
        omega
      refine
        { threads := by simp only [List.length_set]; exact h.threads
          running := h.running
          no_exit := by
            intro hmem
            rcases List.mem_or_eq_of_mem_set hmem with hmem | hmem
            · exact h.no_exit hmem
            · exact absurd hmem (by simp)
          pushed_le := h.pushed_le
          sync := h.sync
          flushed := h.flushed
          idle := by
            intro k hk
            have := h.idle k hk
            omega
          queued := h.queued
          pending_le := by
            show s.pool.queue_.length +
              ((s.pool.threads_.set w Worker.waiting).map Worker.busy).sum ≤ s.caller.pushed
            omega
          compleated := by
            show (s.pool.compleated_count_ + 1) % 4294967296 =
              (count + s.caller.pushed - (s.pool.queue_.length +
                ((s.pool.threads_.set w Worker.waiting).map Worker.busy).sum)) % 4294967296
            rw [hcp, Nat.add_mod, Nat.mod_mod, ← Nat.add_mod]
            congr 1
            omega
          queue_le := h.queue_le
          queue_range := h.queue_range
          popped_range := by
            intro j hj
            rcases List.mem_or_eq_of_mem_set hj with hj | hj
            · exact h.popped_range j hj
            · exact absurd hj (by simp)
          written := by
            intro j hj x hx
            rcases h.written j hj x hx with h1 | h1 | h1
            · exact Or.inl h1
            · exact Or.inr (Or.inl (mem_set_of_ne _ _ _ _ _ hw h1 (by simp)))
            · exact Or.inr (Or.inr h1)
          untouched := h.untouched }

theorem transform_inv_run {α β : Type} (thread_count count : Nat) (input : List α)
    (unary_op : α → β) (out : Nat → β) (hthreads : 3 * thread_count < 4294967296) :
    ∀ (schedule : List Thread) (s : Transform_state β),
      Transform_inv thread_count count input unary_op out s →
      Transform_inv thread_count count input unary_op out (s.run input unary_op schedule)
  | [], _, h => h
  | t :: schedule, s, h => by
    have hstep : Transform_inv thread_count count input unary_op out
        (s.step input unary_op t) := by
      cases t with
      | caller => exact transform_inv_caller thread_count count input unary_op out hthreads s h
      | worker w => exact transform_inv_worker thread_count count input unary_op out s w h
    exact transform_inv_run thread_count count input unary_op out hthreads schedule _ hstep

theorem busy_le_sum (x : Worker) : ∀ (l : List Worker), x ∈ l →
    x.busy ≤ (l.map Worker.busy).sum
  | [], h => by simp at h
  | a :: l, h => by
    simp only [List.map_cons, List.sum_cons]
    rcases List.mem_cons.1 h with h | h
    · rw [h]; omega
    · have := busy_le_sum x l h
      omega

/-- When nothing is pending the queue is empty and every thread waits. -/
theorem idle_of_pending_zero {α β : Type} (thread_count count : Nat) (input : List α)
    (unary_op : α → β) (out : Nat → β) (s : Transform_state β)
    (h : Transform_inv thread_count count input unary_op out s) (hp : s.pending = 0) :
    s.pool.queue_ = [] ∧ s.pool.threads_ = List.replicate thread_count Worker.waiting := by
  have hpd : s.pending = s.pool.queue_.length + (s.pool.threads_.map Worker.busy).sum := rfl
  refine ⟨List.length_eq_zero.1 (by omega), ?_⟩
  rw [List.eq_replicate_iff]
  refine ⟨h.threads, ?_⟩
  intro x hx
  have hb := busy_le_sum x _ hx
  cases x with
  | waiting => rfl
  | exited => exact absurd hx h.no_exit
  | popped i => simp only [Worker.busy] at hb; omega
  | ran i => simp only [Worker.busy] at hb; omega

/-- A step of a thread that can take one uses up one of the steps that are left. -/
theorem steps_left_step {α β : Type} (thread_count count : Nat) (input : List α)
    (unary_op : α → β) (out : Nat → β) (s : Transform_state β) (t : Thread)
    (h : Transform_inv thread_count count input unary_op out s)
    (he : s.enabled input t = true) :
    (s.step input unary_op t).steps_left input + 1 = s.steps_left input := by
  cases t with
  | caller =>
    simp only [Transform_state.enabled] at he
    simp only [Transform_state.step, Transform_state.steps_left]
    cases hc : s.caller with
    | pushing k =>
      rw [hc] at he
      simp only at he ⊢
      by_cases hlt : k < input.length
      · rw [if_pos hlt] at he ⊢
        have hg := of_decide_eq_true he
        rw [if_pos hg]
        simp only [List.length_append, List.length_singleton]
        omega
      · rw [if_neg hlt]
        simp only
        omega
    | flushing k =>
      rw [hc] at he
      simp only at he ⊢
      have hg := of_decide_eq_true he
      rw [if_pos hg]
      simp only
      omega
    | returned d =>
      rw [hc] at he
      simp at he
  | worker w =>
    simp only [Transform_state.enabled] at he
    simp only [Transform_state.step, Transform_state.steps_left]
    cases hw : s.pool.threads_[w]? with
    | none => rw [hw] at he; simp at he
    | some worker =>
      rw [hw] at he
      cases worker with
      | exited => simp at he
      | waiting =>
        simp only [h.running, Bool.false_or, Bool.not_eq_true'] at he
        simp only [h.running, Bool.false_eq_true, false_or, false_and, if_false]
        cases hqueue : s.pool.queue_ with
        | nil => rw [hqueue] at he; simp at he
        | cons i rest =>
          simp only [List.isEmpty_cons, Bool.not_false, if_true, List.length_cons]
          have hsum := sum_map_set Worker.steps_left Worker.waiting (Worker.popped i)
            s.pool.threads_ w hw
          simp only [Worker.steps_left] at hsum
          omega
      | popped i =>
        simp only at he ⊢
        cases hin : input[i]? with
        | none => rw [hin] at he; simp at he
        | some x =>
          simp only
          have hsum := sum_map_set Worker.steps_left (Worker.popped i) (Worker.ran i)
            s.pool.threads_ w hw
          simp only [Worker.steps_left] at hsum
          omega
      | ran i =>
        simp only
        have hsum := sum_map_set Worker.steps_left (Worker.ran i) Worker.waiting
          s.pool.threads_ w hw
        simp only [Worker.steps_left] at hsum
        omega

/-- A schedule of steps that can be taken is as long as the steps it uses up. -/
theorem steps_left_run {α β : Type} (thread_count count : Nat) (input : List α)
    (unary_op : α → β) (out : Nat → β) (hthreads : 3 * thread_count < 4294967296) :
    ∀ (schedule : List Thread) (s : Transform_state β),
      Transform_inv thread_count count input unary_op out s →
      Transform_state.all_enabled input unary_op s schedule = true →
      (s.run input unary_op schedule).steps_left input + schedule.length =
        s.steps_left input
  | [], _, _, _ => rfl
  | t :: schedule, s, h, he => by
    simp only [Transform_state.all_enabled, Bool.and_eq_true] at he
    have h1 := steps_left_step thread_count count input unary_op out s t h he.1
    have hstep : Transform_inv thread_count count input unary_op out
        (s.step input unary_op t) :=
      transform_inv_run thread_count count input unary_op out hthreads [t] s h
    have h2 := steps_left_run thread_count count input unary_op out hthreads schedule _
      hstep he.2
    simp only [List.length_cons]
    show ((s.step input unary_op t).run input unary_op schedule).steps_left input +
      (schedule.length + 1) = s.steps_left input
    omega

theorem exists_busy_worker : ∀ (l : List Worker), (l.map Worker.busy).sum ≠ 0 →
    ∃ (w : Nat) (x : Worker), l[w]? = some x ∧ x.busy = 1
  | [], h => by simp at h
  | a :: l, h => by
    by_cases ha : a.busy = 1
    · exact ⟨0, a, by simp, ha⟩
    · have ha0 : a.busy = 0 := by
        cases a <;> simp [Worker.busy] at ha ⊢
      simp only [List.map_cons, List.sum_cons, ha0, Nat.zero_add] at h
      obtain ⟨w, x, hw, hx⟩ := exists_busy_worker l h
      exact ⟨w + 1, x, by rw [List.getElem?_cons_succ]; exact hw, hx⟩

/-- A worker that holds work, or that waits while work is queued, can take a step. -/
theorem worker_enabled {α β : Type} (thread_count count : Nat) (input : List α)
    (unary_op : α → β) (out : Nat → β) (s : Transform_state β)
    (h : Transform_inv thread_count count input unary_op out s) (w : Nat) (x : Worker)
    (hw : s.pool.threads_[w]? = some x) (hx : x.busy = 1 ∨ s.pool.queue_ ≠ []) :
    s.enabled input (.worker w) = true := by
  have hmem : x ∈ s.pool.threads_ := List.getElem?_mem hw
  simp only [Transform_state.enabled, hw]
  cases x with
  | exited => exact absurd hmem h.no_exit
  | waiting =>
    rcases hx with hx | hx
    · simp [Worker.busy] at hx
    · cases hq : s.pool.queue_ with
      | nil => exact absurd hq hx
      | cons i rest => simp
  | popped i =>
    have hi := h.popped_range i hmem
    have hin : i < input.length := lt_of_lt_of_le hi h.pushed_le
    simp [List.getElem?_eq_getElem hin]
  | ran i => rfl

/-- While `transform` has not returned, some thread can take a step. -/
theorem some_thread_enabled {α β : Type} (thread_count count : Nat) (input : List α)
    (unary_op : α → β) (out : Nat → β) (hthread : 1 ≤ thread_count)
    (s : Transform_state β) (h : Transform_inv thread_count count input unary_op out s)
    (hnot : ∀ d, s.caller ≠ .returned d) : ∃ t, s.enabled input t = true := by
  have hlen := h.threads
  have hpd : s.pending = s.pool.queue_.length + (s.pool.threads_.map Worker.busy).sum := rfl
  have hfirst : ∃ x, s.pool.threads_[0]? = some x := by
    cases hl : s.pool.threads_ with
    | nil => rw [hl] at hlen; simp at hlen; omega
    | cons a l => exact ⟨a, by simp⟩
  obtain ⟨x0, hx0⟩ := hfirst
  have hqueue : s.pool.queue_ ≠ [] → ∃ t, s.enabled input t = true := fun hq =>
    ⟨.worker 0, worker_enabled thread_count count input unary_op out s h 0 x0 hx0 (Or.inr hq)⟩
  cases hc : s.caller with
  | returned d => exact absurd hc (hnot d)
  | pushing k =>
    by_cases hlt : k < input.length
    · by_cases hq : s.pool.queue_.length < 2 * s.pool.threads_.length
      · refine ⟨.caller, ?_⟩
        have hsync : s.pool.sync_ = 0 := by have := h.sync; rw [hc] at this; exact this
        simp only [Transform_state.enabled, hc, if_pos hlt]
        exact decide_eq_true ⟨hsync, hq⟩
      · apply hqueue
        intro hnil
        rw [hnil] at hq
        simp only [List.length_nil] at hq
        omega
    · exact ⟨.caller, by simp only [Transform_state.enabled, hc, if_neg hlt]⟩
  | flushing k =>
    by_cases hg : s.pool.compleated_count_ = s.pool.queued_count_
    · exact ⟨.caller, by simp only [Transform_state.enabled, hc]; exact decide_eq_true hg⟩
    · have hp : s.pending ≠ 0 := by
        intro hp
        apply hg
        rw [h.compleated, h.queued, hp, Nat.sub_zero]
      by_cases hb : (s.pool.threads_.map Worker.busy).sum = 0
      · apply hqueue
        intro hnil
        rw [hnil] at hpd
        simp only [List.length_nil] at hpd
        omega
      · obtain ⟨w, x, hw, hx⟩ := exists_busy_worker _ hb
        exact ⟨.worker w,
          worker_enabled thread_count count input unary_op out s h w x hw (Or.inl hx)⟩

/-- From every state of the call some schedule of steps that can be taken leads to the
return. -/
theorem exists_returning_schedule {α β : Type} (thread_count count : Nat) (input : List α)
    (unary_op : α → β) (out : Nat → β) (hthread : 1 ≤ thread_count)
    (hthreads : 3 * thread_count < 4294967296) :
    ∀ (m : Nat) (s : Transform_state β),
      Transform_inv thread_count count input unary_op out s → s.steps_left input ≤ m →
      ∃ schedule, Transform_state.all_enabled input unary_op s schedule = true ∧
        ∃ d, (s.run input unary_op schedule).caller = .returned d
  | m, s, h, hm => by
    by_cases hret : ∃ d, s.caller = .returned d
    · obtain ⟨d, hd⟩ := hret
      exact ⟨[], rfl, d, hd⟩
    · obtain ⟨t, ht⟩ := some_thread_enabled thread_count count input unary_op out hthread s h
        (fun d hd => hret ⟨d, hd⟩)
      have hstep := steps_left_step thread_count count input unary_op out s t h ht
      have hinv : Transform_inv thread_count count input unary_op out
          (s.step input unary_op t) :=
        transform_inv_run thread_count count input unary_op out hthreads [t] s h
      cases m with
      | zero => omega
      | succ m =>
        obtain ⟨schedule, h1, d, h2⟩ := exists_returning_schedule thread_count count input
          unary_op out hthread hthreads m _ hinv (by omega)
        exact ⟨t :: schedule, by simp [Transform_state.all_enabled, ht, h1], d, h2⟩

/-- C33. `Parallel_transformer::transform` behaves like a sequential map once it
returns. For a pool of `thread_count` threads (at least one, and few enough that the
`uint32_t` counters cannot wrap around: `3 * thread_count < 2 ^ 32`) that is idle when
`transform` is called with the range `input`, and for every interleaving `schedule` of
the atomic steps of the caller and the worker threads: when the caller has returned, the
returned iterator is `d_first + n` for `n = input.length`, every output slot `i < n`
holds `unary_op(input[i])`, the slots behind are as they were, and the pool is idle again
with both counters advanced by `n`, so all `n` tasks have completed. The call does
return: a schedule of steps that can be taken has at most `4 * n + 2` steps, as long as
the caller has not returned some thread can take a step, and some schedule leads to the
return. -/
theorem transform_behaves_like_a_sequential_map {α β : Type} (thread_count count : Nat)
    (input : List α) (unary_op : α → β) (out : Nat → β)
    (hthreads : 1 ≤ thread_count ∧ 3 * thread_count < 4294967296)
    (hcount : count < 4294967296) :
    (∀ (schedule : List Thread) (d : Nat),
      ((Transform_state.start thread_count count out).run input unary_op schedule).caller =
        .returned d →
      d = input.length ∧
      (∀ i (hi : i < input.length),
        ((Transform_state.start thread_count count out).run input unary_op schedule).out i =
          unary_op input[i]) ∧
      (∀ i, input.length ≤ i →
        ((Transform_state.start thread_count count out).run input unary_op schedule).out i =
          out i) ∧
      ((Transform_state.start thread_count count out).run input unary_op schedule).pool =
        Parallel_transformer.idle thread_count ((count + input.length) % 4294967296)) ∧
    (∀ (schedule : List Thread),
      Transform_state.all_enabled input unary_op (Transform_state.start thread_count count out)
        schedule = true →
      schedule.length ≤ 4 * input.length + 2 ∧
      ((∀ d, ((Transform_state.start thread_count count out).run input unary_op
          schedule).caller ≠ .returned d) →
        ∃ t, ((Transform_state.start thread_count count out).run input unary_op
          schedule).enabled input t = true)) ∧
    (∃ schedule,
      ((Transform_state.start thread_count count out).run input unary_op schedule).caller =
        .returned input.length) := by
  have hstart := transform_inv_start thread_count count input unary_op out hcount
  have hrun := fun schedule => transform_inv_run thread_count count input unary_op out
    hthreads.2 schedule _ hstart
  have hsafe : ∀ (schedule : List Thread) (d : Nat),
      ((Transform_state.start thread_count count out).run input unary_op schedule).caller =
        .returned d → d = input.length := by
    intro schedule d hd
    exact (hrun schedule).flushed d (Or.inr hd)
  refine ⟨?_, ?_, ?_⟩
  · intro schedule d hd
    have h := hrun schedule
    generalize (Transform_state.start thread_count count out).run input unary_op schedule = s
      at h hd
    have hdn := h.flushed d (Or.inr hd)
    have hk : s.caller.pushed = input.length := by rw [hd]; exact hdn
    have hp := h.idle d hd
    obtain ⟨hq, hw⟩ := idle_of_pending_zero thread_count count input unary_op out s h hp
    refine ⟨hdn, ?_, ?_, ?_⟩
    · intro i hi
      rcases h.written i (by rw [hk]; exact hi) input[i] (List.getElem?_eq_getElem hi) with
        h1 | h1 | h1
      · rw [hq] at h1
        simp at h1
      · rw [hw] at h1
        exact absurd (List.eq_of_mem_replicate h1) (by simp)
      · exact h1
    · intro i hi
      exact h.untouched i (by rw [hk]; exact hi)
    · have hsync : s.pool.sync_ = 0 := by have := h.sync; rw [hd] at this; exact this
      have hqd := h.queued
      have hcp := h.compleated
      rw [hk] at hqd hcp
      rw [hp, Nat.sub_zero] at hcp
      have hsd := h.running
      cases hpool : s.pool with
      | mk threads_ queue_ compleated_count_ queued_count_ sync_ shutdown_ =>
        rw [hpool] at hq hw hsync hqd hcp hsd
        simp only at hq hw hsync hqd hcp hsd
        simp only [Parallel_transformer.idle, hq, hw, hsync, hqd, hcp, hsd]
  · intro schedule he
    have hlen := steps_left_run thread_count count input unary_op out hthreads.2 schedule _
      hstart he
    have h0 : (Transform_state.start thread_count count out).steps_left input =
        4 * input.length + 2 := by
      have hsum : ∀ n, ((List.replicate n Worker.waiting).map Worker.steps_left).sum = 0 := by
        intro n
        induction n with
        | zero => rfl
        | succ n ih => simp [List.replicate_succ, Worker.steps_left, ih]
      simp only [Transform_state.steps_left, Transform_state.start, Parallel_transformer.idle,
        hsum, List.length_nil]
      omega
    refine ⟨by omega, ?_⟩
    intro hnot
    exact some_thread_enabled thread_count count input unary_op out hthreads.1 _
      (hrun schedule) hnot
  · obtain ⟨schedule, -, d, hd⟩ := exists_returning_schedule thread_count count input
      unary_op out hthreads.1 hthreads.2 _ _ hstart (Nat.le_refl _)
    exact ⟨schedule, by rw [hd, hsafe schedule d hd]⟩

/-- C33 (witness). Two threads halve the elements 4 and 7: after the sample schedule the
caller has returned `d_first + 2` and the output holds 2 and 3. -/
theorem transform_behaves_like_a_sequential_map_witness :
    ((Transform_state.start 2 0 (fun _ => 0)).run [4, 7] halve sample_schedule).caller =
      .returned 2 ∧
    ((Transform_state.start 2 0 (fun _ => 0)).run [4, 7] halve sample_schedule).out 0 =
      halve 4 ∧
    ((Transform_state.start 2 0 (fun _ => 0)).run [4, 7] halve sample_schedule).out 1 =
      halve 7 ∧
    halve 4 = 2 ∧ halve 7 = 3 :=
  ⟨by decide,
    ((transform_behaves_like_a_sequential_map 2 0 [4, 7] halve (fun _ => 0)
      (by decide) (by decide)).1 sample_schedule 2 (by decide)).2.1 0 (by decide),
    ((transform_behaves_like_a_sequential_map 2 0 [4, 7] halve (fun _ => 0)
      (by decide) (by decide)).1 sample_schedule 2 (by decide)).2.1 1 (by decide),
    by decide, by decide⟩

end util

namespace util
open stdlib

/-- A thread that cannot take a step leaves the state as it is. -/
theorem step_eq_of_not_enabled {α β : Type} (input : List α) (unary_op : α → β)
    (s : Transform_state β) (t : Thread) (he : s.enabled input t = false) :
    s.step input unary_op t = s := by
  cases t with
  | caller =>
    simp only [Transform_state.enabled] at he
    simp only [Transform_state.step]
    cases hc : s.caller with
    | pushing k =>
      rw [hc] at he
      simp only at he ⊢
      by_cases hlt : k < input.length
      · rw [if_pos hlt] at he ⊢
        rw [if_neg (of_decide_eq_false he)]
      · rw [if_neg hlt] at he
        exact absurd he (by decide)
    | flushing k =>
      rw [hc] at he
      simp only at he ⊢
      rw [if_neg (of_decide_eq_false he)]
    | returned d => rfl
  | worker w =>
    simp only [Transform_state.enabled] at he
    simp only [Transform_state.step]
    cases hw : s.pool.threads_[w]? with
    | none => rfl
    | some worker =>
      rw [hw] at he
      cases worker with
      | exited => rfl
      | waiting =>
        simp only at he ⊢
        rw [if_neg]
        intro hg
        rcases hg with hg | hg
        · rw [hg] at he
          simp at he
        · rw [hg] at he
          simp at he
      | popped i =>
        simp only at he ⊢
        cases hin : input[i]? with
        | none => rfl
        | some x => rw [hin] at he; simp at he
      | ran i => simp at he

end util

namespace scanner
open stdlib util target_model

/-- The set a pointer designates is one of the sets of the data, or empty. -/
theorem sorted_read (d : Include_data) (h : d.sorted) (ref : Include_set_ref) :
    ((d.read ref).map (·.path)).Pairwise (fun a b => Path.lt a b = true) := by
  cases ref with
  | includes => exact h.2.1
  | bucket k =>
    simp only [Include_data.read]
    cases hf : map_find Path.lt k d.interface_header_includes with
    | none => simp
    | some v =>
      obtain ⟨e, he, hv⟩ := map_find_mem Path.lt k v _ hf
      simp only [Option.getD_some]
      rw [← hv]
      exact h.2.2 e he

theorem sorted_modify (d : Include_data) (h : d.sorted) (g : Include_set → Include_set)
    (hg : ∀ s, (s.map (·.path)).Pairwise (fun a b => Path.lt a b = true) →
      ((g s).map (·.path)).Pairwise (fun a b => Path.lt a b = true))
    (ref : Include_set_ref) : (d.modify g ref).sorted := by
  cases ref with
  | includes => exact ⟨h.1, hg _ h.2.1, h.2.2⟩
  | bucket k =>
    refine ⟨map_update_sorted path_lt_strict _ _ _ _ h.1, h.2.1, ?_⟩
    intro b hb
    rcases map_update_entries Path.lt [] g k b _ hb with hb | hb | ⟨e0, h0, h1⟩
    · exact h.2.2 b hb
    · rw [hb]
      exact hg _ (by simp)
    · rw [h1]
      exact hg _ (h.2.2 e0 h0)

/-- The events keep the containers of the include data in ascending order. -/
theorem step_sorted (td : Target_data) (r : PPRecorder) (e : Event)
    (h : r.include_data_.sorted) : (r.step td e).include_data_.sorted := by
  have hins : ∀ (x : Include) (s : Include_set),
      (s.map (·.path)).Pairwise (fun a b => Path.lt a b = true) →
      ((set_insert Include_cmp x s).map (·.path)).Pairwise (fun a b => Path.lt a b = true) :=
    fun x s hs => set_insert_include_sorted x s hs
  have hmerge : ∀ (src s : Include_set),
      (s.map (·.path)).Pairwise (fun a b => Path.lt a b = true) →
      ((set_merge Include_cmp s src).map (·.path)).Pairwise
        (fun a b => Path.lt a b = true) :=
    fun src s hs => set_merge_include_sorted src s hs
  cases e with
  | InclusionDirective line => exact h
  | FileSkipped f =>
    simp only [PPRecorder.step]
    unfold PPRecorder.FileSkipped
    split
    · exact h
    · cases hcur : r.current_include_set_ with
      | none => exact h
      | some cur =>
        simp only
        split
        · cases hfind : map_find Path.lt f r.include_data_.interface_header_includes with
          | none => exact h
          | some bucket =>
            simp only
            exact sorted_modify _ h _ (hmerge bucket) _
        · simp only
          exact sorted_modify _ h _ (hins _) _
  | LexedFileChanged fid reason prev_fid =>
    simp only [PPRecorder.step]
    by_cases hearly : (reason = .EnterFile ∧ fid = .predefines) ∨
        (reason = .ExitFile ∧ prev_fid = .predefines)
    · unfold PPRecorder.LexedFileChanged
      rw [if_pos hearly]
      exact h
    · cases hname : fid.name with
      | none =>
        unfold PPRecorder.LexedFileChanged
        rw [if_neg hearly, hname]
        exact h
      | some name =>
        rw [lexed_file_changed_data td r fid name reason prev_fid hname hearly]
        have htouch : (r.include_data_.modify id (.bucket name)).sorted :=
          sorted_modify _ h id (fun s hs => hs) _
        cases reason with
        | EnterFile =>
          simp only
          cases hcur : r.current_include_set_ with
          | none =>
            simp only
            split
            · exact htouch
            · exact h
          | some previous =>
            simp only
            split
            · exact sorted_modify _ h _ (hins _) _
            · split
              · exact htouch
              · exact h
        | ExitFile =>
          simp only
          split
          · split
            · exact sorted_modify _ htouch _ (hmerge _) _
            · exact htouch
          · split
            · split
              · exact sorted_modify _ h _ (hmerge _) _
              · exact h
            · exact h

theorem run_sorted (td : Target_data) : ∀ (events : List Event) (r : PPRecorder),
    r.include_data_.sorted → (events.foldl (PPRecorder.step td) r).include_data_.sorted
  | [], _, h => h
  | e :: events, r, h => run_sorted td events (r.step td e) (step_sorted td r e h)

/-- The file being lexed has a name whenever the context is not `arbitrary_file`, when
the files of the events have names. -/
theorem step_named (td : Target_data) (r : PPRecorder) (e : Event) (he : e.named = true)
    (h : r.context_ ≠ .arbitrary_file → r.current_source_file_.empty = false) :
    (r.step td e).context_ ≠ .arbitrary_file →
      (r.step td e).current_source_file_.empty = false := by
  cases e with
  | InclusionDirective line => exact h
  | FileSkipped f =>
    simp only [PPRecorder.step]
    have hfields : (r.FileSkipped td f).context_ = r.context_ ∧
        (r.FileSkipped td f).current_source_file_ = r.current_source_file_ := by
      unfold PPRecorder.FileSkipped
      cases hctx : r.context_ <;>
      cases hcur : r.current_include_set_ <;>
      cases hi : is_interface_header td f <;>
      cases hp : is_private_source td f <;>
      cases hfind : map_find Path.lt f r.include_data_.interface_header_includes <;>
      simp [hctx, hcur, hi, hp, hfind]
    rw [hfields.1, hfields.2]
    exact h
  | LexedFileChanged fid reason prev_fid =>
    simp only [PPRecorder.step]
    by_cases hearly : (reason = .EnterFile ∧ fid = .predefines) ∨
        (reason = .ExitFile ∧ prev_fid = .predefines)
    · unfold PPRecorder.LexedFileChanged
      rw [if_pos hearly]
      intro hc
      exact absurd rfl hc
    · cases hname : fid.name with
      | none =>
        unfold PPRecorder.LexedFileChanged
        rw [if_neg hearly, hname]
        exact h
      | some name =>
        obtain ⟨-, -, h3⟩ :=
          lexed_file_changed_binding td r fid name reason prev_fid hname hearly
        intro _
        rw [h3]
        cases fid with
        | invalid => simp [FileID.name] at hname
        | predefines =>
          simp only [FileID.name, Option.some.injEq] at hname
          rw [← hname]
          rfl
        | file n =>
          simp only [FileID.name, Option.some.injEq] at hname
          rw [← hname]
          simpa [Event.named] using he

theorem run_named (td : Target_data) : ∀ (events : List Event) (r : PPRecorder),
    (∀ e ∈ events, e.named = true) →
    (r.context_ ≠ .arbitrary_file → r.current_source_file_.empty = false) →
    (events.foldl (PPRecorder.step td) r).context_ ≠ .arbitrary_file →
      (events.foldl (PPRecorder.step td) r).current_source_file_.empty = false
  | [], _, _, h => h
  | e :: events, r, he, h =>
    run_named td events (r.step td e) (fun e' h' => he e' (by simp [h']))
      (step_named td r e (he e (by simp)) h)

/-- What `FileSkipped` does to the bound set for a file that is not one of the target's
own, in any recorder state: the set holds an include with path `f` afterwards; a new
include carries the chain `include_chain_`, followed by `last_include_loc_` when its
source is not empty; a present one is left alone, and so is every other set. -/
theorem file_skipped_records (td : Target_data) (r : PPRecorder)
    (f : Path) (cur : Include_set_ref)
    (hctx : r.context_ = .source_file ∨ r.context_ = .interface_header)
    (hset : r.current_include_set_ = some cur)
    (hkeys : KeysSorted Path.lt r.include_data_.interface_header_includes)
    (hsorted : ((r.include_data_.read cur).map (·.path)).Pairwise
      (fun a b => Path.lt a b = true))
    (hf : is_interface_header td f = false ∧ is_private_source td f = false) :
    (∃ i ∈ (r.FileSkipped td f).include_data_.read cur, i.path = f) ∧
    ((∀ i ∈ r.include_data_.read cur, i.path ≠ f) →
      ∀ i, i ∈ (r.FileSkipped td f).include_data_.read cur ↔
        i = ⟨f, if r.last_include_loc_.source.empty then r.include_chain_
          else r.include_chain_ ++ [r.last_include_loc_]⟩ ∨
        i ∈ r.include_data_.read cur) ∧
    ((∃ i ∈ r.include_data_.read cur, i.path = f) →
      (r.FileSkipped td f).include_data_.read cur = r.include_data_.read cur) ∧
    (∀ ref, ref ≠ cur →
      (r.FileSkipped td f).include_data_.read ref = r.include_data_.read ref) := by
  have hne : r.context_ ≠ .arbitrary_file := by
    rcases hctx with h | h <;> rw [h] <;> decide
  rw [file_skipped_foreign td r f cur hne hset hf.1 hf.2]
  refine ⟨?_, ?_, ?_, ?_⟩
  · rw [read_modify_same _ _ hkeys]
    have := (set_insert_paths ⟨f, if r.last_include_loc_.source.empty then r.include_chain_
      else r.include_chain_ ++ [r.last_include_loc_]⟩ f (r.include_data_.read cur)).2
      (Or.inl rfl)
    obtain ⟨i, hi, hip⟩ := List.mem_map.1 this
    exact ⟨i, hi, hip⟩
  · intro hnew i
    rw [read_modify_same _ _ hkeys]
    exact mem_set_insert_new _ i _ hnew
  · intro hold
    rw [read_modify_same _ _ hkeys]
    exact set_insert_present _ _ hsorted hold
  · intro ref href
    exact read_modify_other _ _ hkeys cur ref href

/-- `FileSkipped` for a foreign file does not add a bucket when the pointer designates an
existing one. -/
theorem file_skipped_keys (td : Target_data) (r : PPRecorder) (f : Path)
    (cur : Include_set_ref) (hctx : r.context_ ≠ .arbitrary_file)
    (hset : r.current_include_set_ = some cur)
    (hvalid : ∀ h, cur = .bucket h → h ∈ r.include_data_.interface_header_includes.map Prod.fst)
    (hf : is_interface_header td f = false ∧ is_private_source td f = false) (k : Path) :
    k ∈ (r.FileSkipped td f).include_data_.interface_header_includes.map Prod.fst ↔
      k ∈ r.include_data_.interface_header_includes.map Prod.fst := by
  rw [file_skipped_foreign td r f cur hctx hset hf.1 hf.2]
  cases cur with
  | includes => exact Iff.rfl
  | bucket h =>
    simp only [Include_data.modify]
    rw [map_update_keys path_lt_strict]
    constructor
    · rintro (hk | hk)
      · rw [hk]; exact hvalid h rfl
      · exact hk
    · exact fun hk => Or.inr hk

/-- C34. A skipped foreign file is recorded at the point of the skip. Let `r` be the
recorder state in which a skip is delivered: the state after any sequence `events` of
events (in which the files have names) followed by the inclusion directive at line
`line` that the skip belongs to. When the context of `r` is `source_file` or
`interface_header` and the skipped file `f` is neither an interface header nor a private
source of the target, an include set `cur` is bound and after `FileSkipped` it holds an
include with path `f`. If none was there before, the set has gained exactly the include
with path `f` and the chain `include_chain_` followed by `last_include_loc_`, which is
the line of the directive in the file being lexed; if one was there the set is left as
it was (the first chain wins). No other include set changes and no bucket is added. -/
theorem skipped_foreign_file_is_recorded_at_the_skip (td : Target_data)
    (events : List Event) (line : Nat) (r : PPRecorder) (f : Path)
    (hr : r = (events ++ [Event.InclusionDirective line]).foldl (PPRecorder.step td) {})
    (hnames : ∀ e ∈ events, e.named = true)
    (hctx : r.context_ = .source_file ∨ r.context_ = .interface_header)
    (hf : is_interface_header td f = false ∧ is_private_source td f = false) :
    r.last_include_loc_ = ⟨r.current_source_file_, line⟩ ∧
    ∃ cur, r.current_include_set_ = some cur ∧
      (∃ i ∈ (r.FileSkipped td f).include_data_.read cur, i.path = f) ∧
      ((∀ i ∈ r.include_data_.read cur, i.path ≠ f) →
        ∀ i, i ∈ (r.FileSkipped td f).include_data_.read cur ↔
          i = ⟨f, r.include_chain_ ++ [r.last_include_loc_]⟩ ∨
          i ∈ r.include_data_.read cur) ∧
      ((∃ i ∈ r.include_data_.read cur, i.path = f) →
        (r.FileSkipped td f).include_data_.read cur = r.include_data_.read cur) ∧
      (∀ ref, ref ≠ cur →
        (r.FileSkipped td f).include_data_.read ref = r.include_data_.read ref) ∧
      (∀ k, k ∈ (r.FileSkipped td f).include_data_.interface_header_includes.map Prod.fst ↔
        k ∈ r.include_data_.interface_header_includes.map Prod.fst) := by
  have hbound : Bound r := by
    rw [hr]
    exact run_bound td _ {}
      ⟨fun hc => by simp at hc, fun hc => by simp at hc, fun k hk => by simp at hk⟩
  have hsorted : r.include_data_.sorted := by
    rw [hr]
    exact run_sorted td _ {} ⟨by simp [KeysSorted], by simp, by simp⟩
  have hstate : r = (events.foldl (PPRecorder.step td) {}).InclusionDirective line := by
    rw [hr, List.foldl_append]
    rfl
  have hne : r.context_ ≠ .arbitrary_file := by
    rcases hctx with h | h <;> rw [h] <;> decide
  have hloc : r.last_include_loc_ = ⟨r.current_source_file_, line⟩ := by
    rw [hstate]
    rfl
  have hfile : r.current_source_file_.empty = false := by
    have h0 := run_named td events {} hnames (fun hc => absurd rfl hc)
    rw [hstate]
    rw [hstate] at hne
    exact h0 hne
  have hsource : r.last_include_loc_.source.empty = false := by
    rw [hloc]
    exact hfile
  obtain ⟨cur, hcur⟩ : ∃ cur, r.current_include_set_ = some cur := by
    rcases hctx with h | h
    · exact ⟨_, hbound.source h⟩
    · exact ⟨_, hbound.header h⟩
  have hrec := file_skipped_records td r f cur hctx hcur hsorted.1
    (sorted_read _ hsorted cur) hf
  rw [hsource] at hrec
  refine ⟨hloc, cur, hcur, hrec.1, ?_, hrec.2.2.1, hrec.2.2.2, ?_⟩
  · simpa using hrec.2.1
  · intro k
    exact file_skipped_keys td r f cur hne hcur
      (fun h hh => hbound.valid h (by rw [hcur, hh])) hf k

/-- C34 (witness). The source `/private.cpp` includes the foreign `/a.hpp`, which
includes the foreign `/b.hpp`; back in `/private.cpp` the directive at line 3 names
`/b.hpp`, which is skipped: `includes` gains `/b.hpp` with the chain `/private.cpp:3`. -/
theorem skipped_foreign_file_is_recorded_at_the_skip_witness :
    (((nested_foreign_trace ++ [Event.InclusionDirective 3]).foldl
        (PPRecorder.step basic_target_data) {}).FileSkipped basic_target_data
        ⟨true, ["b.hpp"]⟩).include_data_.includes =
      [⟨⟨true, ["a.hpp"]⟩, [⟨⟨true, ["private.cpp"]⟩, 1⟩]⟩,
       ⟨⟨true, ["b.hpp"]⟩, [⟨⟨true, ["private.cpp"]⟩, 3⟩]⟩] ∧
    ((nested_foreign_trace ++ [Event.InclusionDirective 3]).foldl
        (PPRecorder.step basic_target_data) {}).last_include_loc_ =
      ⟨((nested_foreign_trace ++ [Event.InclusionDirective 3]).foldl
        (PPRecorder.step basic_target_data) {}).current_source_file_, 3⟩ :=
  ⟨by decide,
    (skipped_foreign_file_is_recorded_at_the_skip basic_target_data nested_foreign_trace 3
      _ ⟨true, ["b.hpp"]⟩ rfl (by decide) (by decide) (by decide)).1⟩

end scanner
